import Mathlib

/-!
# Blocked, wavefront-parallel edit distance

A shallow embedding of the four C implementations of the Levenshtein distance
(`naive_edit_distance.c`, `tiled_edit_distance.c`, `parallelized_edit_distance.c`,
`avx2_edit_distance.c`) and proofs about them.

Modelling conventions.

* A `const char *` is the function from index to byte that the pointer designates.
* An `int *` buffer is a `Buf`: `buf.get i` is the value of `buf[i]` and `store buf i v` the
  buffer after the assignment `buf[i] = v`.
* A C `int` is an `Int` and a `size_t` a `Nat`.  The arithmetic is the mathematical one: it
  coincides with the machine arithmetic as long as the values stay in the 32-bit range, which is
  the regime the code is written for (its loop counters are `int`).
* `malloc` is an input: the environment `Env` says which requests succeed and what the fresh
  memory contains.
* `pthread_create` and `pthread_join` succeed.  The workers of one wave are run one after the
  other, each to completion, in an order that is an input as well (`Env.order`).
* Every run returns its value together with the trace of allocation requests, worker
  activations and tile computations it performed.
-/

set_option autoImplicit false

namespace EditDistance

/-- One 8-bit symbol (a C `char`). -/
abbrev Byte := UInt8

/-- The `BLOCK_SIZE` constant of the tiled implementations. -/
def BLOCK_SIZE : Nat := 512

/-- The contents of an `int` buffer, by index. -/
structure Buf where
  get : Nat → Int

/-- The buffer after the assignment `buf[i] = v`. -/
def store (buf : Buf) (i : Nat) (v : Int) : Buf :=
  ⟨fun x => if x = i then v else buf.get x⟩

/-- Observable steps of a run. -/
inductive Event where
  /-- a `malloc` request and whether it succeeded -/
  | malloc (ok : Bool)
  /-- the activation of worker `thread` for wave `wave` -/
  | worker (wave thread : Nat)
  /-- a call of `process_tile` for the tile at block coordinates `(r, c)` -/
  | tile (r c : Nat)
  deriving DecidableEq

/-- What a run does not control: the outcome of allocation requests, the contents of fresh
memory, and the order in which the workers of a wave are run. -/
structure Env where
  /-- outcome of the `i`-th allocation request made by the entry point itself, in program order -/
  malloc_ok : Nat → Bool
  /-- initial contents of the block returned for that request -/
  malloc_fresh : Nat → Buf
  /-- outcome of the `site`-th allocation request made inside the activation `(a, b)`: for the
  threaded implementations the worker `b` of wave `a`, for `tiled_edit_distance` the call of
  `process_tile` for the tile at block row `a` and block column `b` -/
  scratch_ok : Nat → Nat → Nat → Bool
  /-- initial contents of the block returned for that request -/
  scratch_fresh : Nat → Nat → Nat → Buf
  /-- for each wave, the order in which its workers run -/
  order : Nat → List Nat

/-- The value an entry point returns together with the trace of the run. -/
structure Run where
  value : Int
  trace : List Event

/-- The loop `for (i = lo; i < hi; i++) s = body(i, s)`. -/
def forLt {σ : Type} (lo hi : Nat) (body : Nat → σ → σ) (s : σ) : σ :=
  (List.range' lo (hi - lo)).foldl (fun s i => body i s) s

/-- The loop `for (i = lo; i <= hi; i++) s = body(i, s)`. -/
def forLoop {σ : Type} (lo hi : Nat) (body : Nat → σ → σ) (s : σ) : σ :=
  forLt lo (hi + 1) body s

/-- The loop `for (i = lo; i < hi; i += step) s = body(i, s)` where the body may leave the
function (`Except.error`).  The first argument bounds the number of iterations. -/
def forStep {ε σ : Type} (step hi : Nat) (body : Nat → σ → Except ε σ) :
    Nat → Nat → σ → Except ε σ
  | 0, _, s => .ok s
  | fuel + 1, i, s =>
    if i < hi then
      match body i s with
      | .ok s1 => forStep step hi body fuel (i + step) s1
      | .error v => .error v
    else .ok s

/-! ## `naive_edit_distance.c` -/

namespace Naive

/-- The helper `min`. -/
def min (a b c : Int) : Int :=
  let temp := if a < b then a else b
  if temp < c then temp else c

/-- The body of the loop over `j` in `naive_edit_distance`. -/
def cell (str1 str2 : Nat → Byte) (i : Nat) (prev_row : Buf) (j : Nat)
    (cur_row : Buf) : Buf :=
  let cost :=
    if str1 (i - 1) = str2 (j - 1) then prev_row.get (j - 1)
    else
      let deletion := prev_row.get j + 1
      let insertion := cur_row.get (j - 1) + 1
      let substitution := prev_row.get (j - 1) + 1
      min deletion insertion substitution
  store cur_row j cost

/-- The body of the loop over `i` in `naive_edit_distance`; the state is the pair
`(prev_row, cur_row)` of pointers, swapped at the end of each iteration. -/
def row (str1 str2 : Nat → Byte) (len : Nat) (i : Nat)
    (rows : Buf × Buf) : Buf × Buf :=
  let prev_row := rows.1
  let cur_row := store rows.2 0 (i : Int)
  let cur_row := forLoop 1 len (cell str1 str2 i prev_row) cur_row
  (cur_row, prev_row)

end Naive

/-- The function `naive_edit_distance`. -/
def naive_edit_distance (env : Env) (str1 str2 : Nat → Byte) (len : Nat) : Run :=
  if len < 1 then ⟨0, []⟩
  else
    let trace := [Event.malloc (env.malloc_ok 0), Event.malloc (env.malloc_ok 1)]
    if !env.malloc_ok 0 || !env.malloc_ok 1 then ⟨-1, trace⟩
    else
      let prev_row := forLoop 0 len (fun i p => store p i (i : Int)) (env.malloc_fresh 0)
      let cur_row := env.malloc_fresh 1
      let rows := forLoop 1 len (Naive.row str1 str2 len) (prev_row, cur_row)
      ⟨rows.1.get len, trace⟩

/-! ## The scalar tile kernel (`tiled_edit_distance.c`, `parallelized_edit_distance.c`) -/

/-- What a call of `process_tile` leaves behind: the row boundary it wrote, the column
boundary, and the value it returned. -/
structure TileOut where
  global_rows_write : Buf
  global_cols : Buf
  result : Int

namespace Parallelized

/-- The helper `min`. -/
def min (a b c : Int) : Int :=
  let temp := if a < b then a else b
  if temp < c then temp else c

/-- The body of the loop over `j` in `process_tile`. -/
def cell (row_offset col_offset : Nat) (str1 str2 : Nat → Byte) (i : Nat)
    (prev_row : Buf) (j : Nat) (cur_row : Buf) : Buf :=
  let global_row_index := row_offset + i
  let global_col_index := col_offset + j
  let cost :=
    if str1 (global_row_index - 1) = str2 (global_col_index - 1) then prev_row.get (j - 1)
    else
      let deletion := prev_row.get j + 1
      let insertion := cur_row.get (j - 1) + 1
      let substitution := prev_row.get (j - 1) + 1
      min deletion insertion substitution
  store cur_row j cost

/-- The state of the loop over `i` in `process_tile`: the two row pointers and the column
boundary. -/
structure Rows where
  prev_row : Buf
  cur_row : Buf
  global_cols : Buf

/-- The body of the loop over `i` in `process_tile`. -/
def row (row_offset col_offset width : Nat) (str1 str2 : Nat → Byte) (i : Nat) (s : Rows) :
    Rows :=
  let global_row_index := row_offset + i
  let cur_row := store s.cur_row 0 (s.global_cols.get global_row_index)
  let cur_row := forLoop 1 width (cell row_offset col_offset str1 str2 i s.prev_row) cur_row
  let global_cols := store s.global_cols global_row_index (cur_row.get width)
  ⟨cur_row, s.prev_row, global_cols⟩

/-- The function `process_tile` of `parallelized_edit_distance.c`.  Besides the boundaries it
returns the contents of the two scratch rows the caller passed, `prev_row` first. -/
def process_tile (row_offset col_offset : Nat)
    (global_rows_read global_rows_write global_cols : Buf) (height width : Nat)
    (str1 str2 : Nat → Byte) (prev_row cur_row : Buf) :
    TileOut × Buf × Buf :=
  let prev_row := forLoop 1 width
    (fun j p => store p j (global_rows_read.get (col_offset + j))) prev_row
  let prev_row := store prev_row 0
    (if col_offset = 0 then (row_offset : Int)
     else if row_offset = 0 then (col_offset : Int)
     else global_rows_read.get col_offset)
  let s := forLoop 1 height (row row_offset col_offset width str1 str2)
    ⟨prev_row, cur_row, global_cols⟩
  let global_rows_write := forLoop 1 width
    (fun j g => store g (col_offset + j) (s.prev_row.get j)) global_rows_write
  (⟨global_rows_write, s.global_cols, s.prev_row.get width⟩,
    if height % 2 = 0 then (s.prev_row, s.cur_row) else (s.cur_row, s.prev_row))

end Parallelized

namespace Tiled

/-- The helper `min`. -/
def min (a b c : Int) : Int :=
  let temp := if a < b then a else b
  if temp < c then temp else c

/-- The body of the loop over `j` in `process_tile`. -/
def cell (row_offset col_offset : Nat) (str1 str2 : Nat → Byte) (i : Nat)
    (prev_row : Buf) (j : Nat) (cur_row : Buf) : Buf :=
  let global_row_index := row_offset + i
  let global_col_index := col_offset + j
  let cost :=
    if str1 (global_row_index - 1) = str2 (global_col_index - 1) then prev_row.get (j - 1)
    else
      let deletion := prev_row.get j + 1
      let insertion := cur_row.get (j - 1) + 1
      let substitution := prev_row.get (j - 1) + 1
      min deletion insertion substitution
  store cur_row j cost

/-- The state of the loop over `i` in `process_tile`. -/
structure Rows where
  prev_row : Buf
  cur_row : Buf
  global_cols : Buf

/-- The body of the loop over `i` in `process_tile`. -/
def row (row_offset col_offset width : Nat) (str1 str2 : Nat → Byte) (i : Nat) (s : Rows) :
    Rows :=
  let global_row_index := row_offset + i
  let cur_row := store s.cur_row 0 (s.global_cols.get global_row_index)
  let cur_row := forLoop 1 width (cell row_offset col_offset str1 str2 i s.prev_row) cur_row
  let global_cols := store s.global_cols global_row_index (cur_row.get width)
  ⟨cur_row, s.prev_row, global_cols⟩

/-- The function `process_tile` of `tiled_edit_distance.c`.  `ok_prev` and `ok_cur` are the
outcomes of its two allocation requests, `prev_row` and `cur_row` the fresh blocks. -/
def process_tile (ok_prev ok_cur : Bool) (prev_row cur_row : Buf)
    (row_offset col_offset : Nat)
    (global_rows_read global_rows_write global_cols : Buf) (height width : Nat)
    (str1 str2 : Nat → Byte) : TileOut :=
  if !ok_prev || !ok_cur then ⟨global_rows_write, global_cols, -1⟩
  else
    let prev_row := forLoop 1 width
      (fun j p => store p j (global_rows_read.get (col_offset + j))) prev_row
    let prev_row := store prev_row 0
      (if col_offset = 0 then (row_offset : Int)
       else if row_offset = 0 then (col_offset : Int)
       else global_rows_read.get col_offset)
    let s := forLoop 1 height (row row_offset col_offset width str1 str2)
      ⟨prev_row, cur_row, global_cols⟩
    let global_rows_write := forLoop 1 width
      (fun j g => store g (col_offset + j) (s.prev_row.get j)) global_rows_write
    ⟨global_rows_write, s.global_cols, s.prev_row.get width⟩

/-- The variables of `tiled_edit_distance` that the tile loops change. -/
structure State where
  row_bounds1 : Buf
  row_bounds2 : Buf
  col_bounds : Buf
  trace : List Event

/-- The body of the loop over `j` in `tiled_edit_distance`, for block row offset `i`. -/
def tile_step (env : Env) (str1 str2 : Nat → Byte) (len i j : Nat) (s : State) :
    Except Run State :=
  let block_row_index := i / BLOCK_SIZE
  let height := if i + BLOCK_SIZE > len then len - i else BLOCK_SIZE
  let width := if j + BLOCK_SIZE > len then len - j else BLOCK_SIZE
  let r := i / BLOCK_SIZE
  let c := j / BLOCK_SIZE
  let trace := s.trace ++
    [Event.tile r c, Event.malloc (env.scratch_ok 0 r c), Event.malloc (env.scratch_ok 1 r c)]
  if block_row_index % 2 = 0 then
    let out := process_tile (env.scratch_ok 0 r c) (env.scratch_ok 1 r c)
      (env.scratch_fresh 0 r c) (env.scratch_fresh 1 r c)
      i j s.row_bounds1 s.row_bounds2 s.col_bounds height width str1 str2
    if out.result = -1 then .error ⟨out.result, trace⟩
    else .ok ⟨s.row_bounds1, out.global_rows_write, out.global_cols, trace⟩
  else
    let out := process_tile (env.scratch_ok 0 r c) (env.scratch_ok 1 r c)
      (env.scratch_fresh 0 r c) (env.scratch_fresh 1 r c)
      i j s.row_bounds2 s.row_bounds1 s.col_bounds height width str1 str2
    if out.result = -1 then .error ⟨out.result, trace⟩
    else .ok ⟨out.global_rows_write, s.row_bounds2, out.global_cols, trace⟩

end Tiled

/-- The function `tiled_edit_distance`. -/
def tiled_edit_distance (env : Env) (str1 str2 : Nat → Byte) (len : Nat) : Run :=
  if len < 1 then ⟨0, []⟩
  else
    let trace := [Event.malloc (env.malloc_ok 0), Event.malloc (env.malloc_ok 1),
      Event.malloc (env.malloc_ok 2)]
    if !env.malloc_ok 0 || !env.malloc_ok 1 || !env.malloc_ok 2 then ⟨-1, trace⟩
    else
      let init : Tiled.State := forLoop 0 len
        (fun i s => ⟨store s.row_bounds1 i (i : Int),
          store s.row_bounds2 i (i : Int),
          store s.col_bounds i (i : Int), s.trace⟩)
        ⟨env.malloc_fresh 0, env.malloc_fresh 1, env.malloc_fresh 2, trace⟩
      match forStep BLOCK_SIZE len
          (fun i s => forStep BLOCK_SIZE len (Tiled.tile_step env str1 str2 len i) len 0 s)
          len 0 init with
      | .error run => run
      | .ok s =>
        let num_block_rows := (len + BLOCK_SIZE - 1) / BLOCK_SIZE
        if (num_block_rows - 1) % 2 = 0 then ⟨s.row_bounds2.get len, s.trace⟩
        else ⟨s.row_bounds1.get len, s.trace⟩

/-! ## `threadarguments.h` and the state the workers share -/

/-- The boundary buffers all workers point to (`global_rows[3]`, `global_cols`), and the trace
of the run so far. -/
structure Shared where
  global_rows : Nat → Buf
  global_cols : Buf
  trace : List Event

/-- The value fields of `ThreadArguments`; the buffers its pointers designate are in `Shared`. -/
structure ThreadArguments where
  thread_id : Nat
  num_threads : Nat
  current_wave : Nat
  num_blocks : Nat
  len : Nat
  str1 : Nat → Byte
  str2 : Nat → Byte

/-! ## `parallelized_edit_distance.c` -/

namespace Parallelized

/-- The variables the tile loop of `thread_worker` changes. -/
structure WorkerState where
  tile_number : Nat
  thread_prev_row : Buf
  thread_cur_row : Buf
  shared : Shared

/-- The body of the loop over `r` in `thread_worker`. -/
def tile_step (data : ThreadArguments) (r : Nat) (s : WorkerState) : WorkerState :=
  let c := data.current_wave - r
  if s.tile_number % data.num_threads = data.thread_id then
    let row_offset := r * BLOCK_SIZE
    let col_offset := c * BLOCK_SIZE
    let read_idx := (((r : Int) - 1 + 3) % 3).toNat
    let write_idx := r % 3
    let height := if row_offset + BLOCK_SIZE > data.len then data.len - row_offset
      else BLOCK_SIZE
    let width := if col_offset + BLOCK_SIZE > data.len then data.len - col_offset
      else BLOCK_SIZE
    let out := process_tile row_offset col_offset
      (s.shared.global_rows read_idx) (s.shared.global_rows write_idx) s.shared.global_cols
      height width data.str1 data.str2 s.thread_prev_row s.thread_cur_row
    ⟨s.tile_number + 1, out.2.1, out.2.2,
      ⟨Function.update s.shared.global_rows write_idx out.1.global_rows_write,
        out.1.global_cols, s.shared.trace ++ [Event.tile r c]⟩⟩
  else
    { s with tile_number := s.tile_number + 1 }

/-- The function `thread_worker` of `parallelized_edit_distance.c`.  It does not test the
outcome of its two allocation requests; they are taken to succeed. -/
def thread_worker (env : Env) (data : ThreadArguments) (sh : Shared) : Shared :=
  let trace := sh.trace ++ [Event.worker data.current_wave data.thread_id,
    Event.malloc true, Event.malloc true]
  let thread_prev_row := env.scratch_fresh 0 data.current_wave data.thread_id
  let thread_cur_row := env.scratch_fresh 1 data.current_wave data.thread_id
  let n := data.num_blocks
  let wave := data.current_wave
  let row_min := if wave < n then 0 else wave - n + 1
  let row_max := if wave < n then wave else n - 1
  let s := forLoop row_min row_max (tile_step data)
    ⟨0, thread_prev_row, thread_cur_row, { sh with trace := trace }⟩
  s.shared

end Parallelized

/-- The function `parallelized_edit_distance`.  The workers of a wave are run one after the
other, in the order `env.order wave`; the next wave starts when all of them have returned. -/
def parallelized_edit_distance (env : Env) (str1 str2 : Nat → Byte) (len num_threads : Nat) :
    Run :=
  if len < 1 then ⟨0, []⟩
  else
    let trace := [Event.malloc (env.malloc_ok 0), Event.malloc (env.malloc_ok 1),
      Event.malloc (env.malloc_ok 2), Event.malloc (env.malloc_ok 3)]
    if !env.malloc_ok 3 || !env.malloc_ok 0 || !env.malloc_ok 1 || !env.malloc_ok 2 then
      ⟨-1, trace⟩
    else
      let init : Shared := forLoop 0 len
        (fun i s => ⟨Function.update (Function.update (Function.update s.global_rows
            0 (store (s.global_rows 0) i (i : Int)))
            1 (store (s.global_rows 1) i (i : Int)))
            2 (store (s.global_rows 2) i (i : Int)),
          store s.global_cols i (i : Int), s.trace⟩)
        ⟨env.malloc_fresh, env.malloc_fresh 3, trace⟩
      let num_blocks := (len + BLOCK_SIZE - 1) / BLOCK_SIZE
      let num_waves := 2 * num_blocks - 1
      let final := forLt 0 num_waves
        (fun wave sh => (env.order wave).foldl
          (fun sh t => Parallelized.thread_worker env
            ⟨t, num_threads, wave, num_blocks, len, str1, str2⟩ sh) sh) init
      ⟨(final.global_rows ((num_blocks - 1) % 3)).get len, final.trace⟩

/-! ## `avx2_edit_distance.c` -/

namespace Avx2

/-- The macro `idx(k, i)`; `height` is the variable of that name where the macro is used. -/
def idx (height k i : Nat) : Nat := k * (height + 1) + i

/-- A `__m256i` seen as eight signed 32-bit lanes: `v l` is lane `l`, for `l < 8`.  The
operations below act lanewise and a store writes the lanes `0 .. 7` only. -/
abbrev Vec := Nat → Int

/-- Sign extension of a byte to 32 bits. -/
def sext8 (b : Byte) : Int :=
  if b.toNat < 128 then (b.toNat : Int) else (b.toNat : Int) - 256

/-- The 8 bytes that `memcpy(&x, &str[p], 8)` followed by `_mm_cvtsi64_si128(x)` puts into the
low half of a `__m128i`: byte `l` is `str[p + l]`. -/
def memcpy8 (str : Nat → Byte) (p : Nat) : Nat → Byte := fun l => str (p + l)

/-- Each of the eight bytes is sign-extended into its lane. -/
def _mm256_cvtepi8_epi32 (v : Nat → Byte) : Vec := fun l => sext8 (v l)

/-- The same value in every lane. -/
def _mm256_set1_epi32 (a : Int) : Vec := fun _ => a

/-- The first argument is the highest lane. -/
def _mm256_set_epi32 (e7 e6 e5 e4 e3 e2 e1 e0 : Int) : Vec := fun l =>
  match l with
  | 0 => e0 | 1 => e1 | 2 => e2 | 3 => e3 | 4 => e4 | 5 => e5 | 6 => e6 | _ => e7

/-- Lane `l` of the result is the lane of `a` selected by the low three bits of lane `l` of
`index`. -/
def _mm256_permutevar8x32_epi32 (a index : Vec) : Vec := fun l => a (index l % 8).toNat

/-- All ones (`-1`) where the lanes are equal, `0` elsewhere. -/
def _mm256_cmpeq_epi32 (a b : Vec) : Vec := fun l => if a l = b l then -1 else 0

/-- Lanewise sum. -/
def _mm256_add_epi32 (a b : Vec) : Vec := fun l => a l + b l

/-- Lanewise signed minimum. -/
def _mm256_min_epi32 (a b : Vec) : Vec := fun l => if a l < b l then a l else b l

/-- Lane `l` is `mem[p + l]`. -/
def _mm256_loadu_si256 (mem : Buf) (p : Nat) : Vec := fun l => mem.get (p + l)

/-- The eight lanes go to `mem[p] .. mem[p + 7]`. -/
def _mm256_storeu_si256 (mem : Buf) (p : Nat) (v : Vec) : Buf :=
  store (store (store (store (store (store (store (store mem
    p (v 0)) (p + 1) (v 1)) (p + 2) (v 2)) (p + 3) (v 3)) (p + 4) (v 4)) (p + 5) (v 5))
    (p + 6) (v 6)) (p + 7) (v 7)

/-- The helper `min_vector`. -/
def min_vector (a b c : Vec) : Vec :=
  let temp := _mm256_min_epi32 a b
  _mm256_min_epi32 temp c

/-- The helper `min_scalar`. -/
def min_scalar (a b c : Int) : Int :=
  let temp := if a < b then a else b
  if temp < c then temp else c

/-- The body of the unrolled vector loop of `process_tile`, after its safety check: the
sixteen cells of diagonal `k` in rows `i .. i + 15`. -/
def vector_body (row_offset col_offset height : Nat) (str1 str2 : Nat → Byte) (k i : Nat)
    (buffer : Buf) : Buf :=
  let v_one := _mm256_set1_epi32 1
  let v_reverse_idx := _mm256_set_epi32 0 1 2 3 4 5 6 7
  let j := k - i
  let prev_wave := idx height (k - 1) 0
  let prev_wave2 := idx height (k - 2) 0
  let v_left1 := _mm256_loadu_si256 buffer (prev_wave + i)
  let v_top1 := _mm256_loadu_si256 buffer (prev_wave + (i - 1))
  let v_diag1 := _mm256_loadu_si256 buffer (prev_wave2 + (i - 1))
  let v_left2 := _mm256_loadu_si256 buffer (prev_wave + (i + 8))
  let v_top2 := _mm256_loadu_si256 buffer (prev_wave + (i - 1 + 8))
  let v_diag2 := _mm256_loadu_si256 buffer (prev_wave2 + (i - 1 + 8))
  let v_s1_32_1 := _mm256_cvtepi8_epi32 (memcpy8 str1 (row_offset + i - 1))
  let v_s2_32_1_fwd := _mm256_cvtepi8_epi32 (memcpy8 str2 (col_offset + j - 8))
  let v_s2_32_1 := _mm256_permutevar8x32_epi32 v_s2_32_1_fwd v_reverse_idx
  let v_s1_32_2 := _mm256_cvtepi8_epi32 (memcpy8 str1 (row_offset + i - 1 + 8))
  let v_s2_32_2_fwd := _mm256_cvtepi8_epi32 (memcpy8 str2 (col_offset + j - 8 - 8))
  let v_s2_32_2 := _mm256_permutevar8x32_epi32 v_s2_32_2_fwd v_reverse_idx
  let v_mask1 := _mm256_cmpeq_epi32 v_s1_32_1 v_s2_32_1
  let v_cost1 := _mm256_add_epi32 v_mask1 v_one
  let v_ins1 := _mm256_add_epi32 v_left1 v_one
  let v_del1 := _mm256_add_epi32 v_top1 v_one
  let v_sub1 := _mm256_add_epi32 v_diag1 v_cost1
  let v_res1 := min_vector v_ins1 v_del1 v_sub1
  let v_mask2 := _mm256_cmpeq_epi32 v_s1_32_2 v_s2_32_2
  let v_cost2 := _mm256_add_epi32 v_mask2 v_one
  let v_ins2 := _mm256_add_epi32 v_left2 v_one
  let v_del2 := _mm256_add_epi32 v_top2 v_one
  let v_sub2 := _mm256_add_epi32 v_diag2 v_cost2
  let v_res2 := min_vector v_ins2 v_del2 v_sub2
  let buffer := _mm256_storeu_si256 buffer (idx height k i) v_res1
  _mm256_storeu_si256 buffer (idx height k (i + 8)) v_res2

/-- The unrolled vector loop `for (i = min_i; i <= max_i - 15; i += 16)` of `process_tile`,
with its `break`.  It returns the value of `i` on exit and the buffer; the first argument
bounds the number of iterations. -/
def vector_loop (row_offset col_offset height : Nat) (str1 str2 : Nat → Byte)
    (k max_i : Nat) : Nat → Nat → Buf → Nat × Buf
  | 0, i, buffer => (i, buffer)
  | fuel + 1, i, buffer =>
    if (i : Int) ≤ (max_i : Int) - 15 then
      let j := k - i
      if (col_offset : Int) + (j : Int) - 16 < 0 then (i, buffer)
      else
        vector_loop row_offset col_offset height str1 str2 k max_i fuel (i + 16)
          (vector_body row_offset col_offset height str1 str2 k i buffer)
    else (i, buffer)

/-- The body of the scalar cleanup loop of `process_tile`. -/
def scalar_cell (row_offset col_offset height : Nat) (str1 str2 : Nat → Byte) (k i : Nat)
    (buffer : Buf) : Buf :=
  let j := k - i
  let global_row_idx := row_offset + i
  let global_col_idx := col_offset + j
  let ins := buffer.get (idx height (k - 1) i) + 1
  let del := buffer.get (idx height (k - 1) (i - 1)) + 1
  let cost : Int := if str1 (global_row_idx - 1) = str2 (global_col_idx - 1) then 0 else 1
  let sub := buffer.get (idx height (k - 1 - 1) (i - 1)) + cost
  store buffer (idx height k i) (min_scalar ins del sub)

/-- The body of the loop over the diagonals `k` of `process_tile`. -/
def diagonal (row_offset col_offset height width : Nat) (str1 str2 : Nat → Byte) (k : Nat)
    (buffer : Buf) : Buf :=
  let min_i := if (k : Int) - (width : Int) > 1 then k - width else 1
  let max_i := if (k : Int) - 1 < (height : Int) then k - 1 else height
  let vi := vector_loop row_offset col_offset height str1 str2 k max_i max_i min_i buffer
  forLoop vi.1 max_i (scalar_cell row_offset col_offset height str1 str2 k) vi.2

/-- The function `process_tile` of `avx2_edit_distance.c`.  Besides the boundaries it returns
the contents of the scratch buffer. -/
def process_tile (row_offset col_offset : Nat)
    (global_rows_read global_rows_write global_cols : Buf) (height width : Nat)
    (str1 str2 : Nat → Byte) (buffer : Buf) (total_len : Nat) :
    TileOut × Buf :=
  let buffer := forLoop 1 height (fun i buffer =>
    if row_offset + i ≤ total_len then
      store buffer (idx height i i) (global_cols.get (row_offset + i))
    else store buffer (idx height i i) (total_len : Int)) buffer
  let buffer := forLoop 1 width (fun j buffer =>
    if col_offset + j ≤ total_len then
      store buffer (idx height j 0) (global_rows_read.get (col_offset + j))
    else store buffer (idx height j 0) (total_len : Int)) buffer
  let buffer := store buffer (idx height 0 0)
    (if col_offset = 0 then (row_offset : Int)
     else if row_offset = 0 then (col_offset : Int)
     else global_rows_read.get col_offset)
  let max_wave := height + width
  let buffer := forLoop 2 max_wave
    (diagonal row_offset col_offset height width str1 str2) buffer
  let global_rows_write := forLoop 1 width (fun j g =>
    store g (col_offset + j) (buffer.get (idx height (height + j) height)))
    global_rows_write
  let global_cols := forLoop 1 height (fun i g =>
    store g (row_offset + i) (buffer.get (idx height (i + width) i))) global_cols
  (⟨global_rows_write, global_cols, buffer.get (idx height (height + width) height)⟩, buffer)

/-- The variables the tile loop of `thread_worker` changes. -/
structure WorkerState where
  tile_number : Nat
  thread_buffer : Buf
  shared : Shared

/-- The body of the loop over `r` in `thread_worker`. -/
def tile_step (data : ThreadArguments) (r : Nat) (s : WorkerState) : WorkerState :=
  let c := data.current_wave - r
  if s.tile_number % data.num_threads = data.thread_id then
    let row_offset := r * BLOCK_SIZE
    let col_offset := c * BLOCK_SIZE
    let read_idx := (((r : Int) - 1 + 3) % 3).toNat
    let write_idx := r % 3
    let height := if row_offset + BLOCK_SIZE > data.len then data.len - row_offset
      else BLOCK_SIZE
    let width := if col_offset + BLOCK_SIZE > data.len then data.len - col_offset
      else BLOCK_SIZE
    let out := process_tile row_offset col_offset
      (s.shared.global_rows read_idx) (s.shared.global_rows write_idx) s.shared.global_cols
      height width data.str1 data.str2 s.thread_buffer data.len
    ⟨s.tile_number + 1, out.2,
      ⟨Function.update s.shared.global_rows write_idx out.1.global_rows_write,
        out.1.global_cols, s.shared.trace ++ [Event.tile r c]⟩⟩
  else
    { s with tile_number := s.tile_number + 1 }

/-- The function `thread_worker` of `avx2_edit_distance.c`. -/
def thread_worker (env : Env) (data : ThreadArguments) (sh : Shared) : Shared :=
  let ok := env.scratch_ok 0 data.current_wave data.thread_id
  let trace := sh.trace ++ [Event.worker data.current_wave data.thread_id, Event.malloc ok]
  if !ok then { sh with trace := trace }
  else
    let thread_buffer := env.scratch_fresh 0 data.current_wave data.thread_id
    let n := data.num_blocks
    let wave := data.current_wave
    let row_min := if wave < n then 0 else wave - n + 1
    let row_max := if wave < n then wave else n - 1
    let s := forLoop row_min row_max (tile_step data)
      ⟨0, thread_buffer, { sh with trace := trace }⟩
    s.shared

end Avx2

/-- The function `avx2_edit_distance`.  The workers of a wave are run one after the other, in
the order `env.order wave`; the next wave starts when all of them have returned. -/
def avx2_edit_distance (env : Env) (str1 str2 : Nat → Byte) (len num_threads : Nat) : Run :=
  if len < 1 then ⟨0, []⟩
  else
    let trace := [Event.malloc (env.malloc_ok 0), Event.malloc (env.malloc_ok 1),
      Event.malloc (env.malloc_ok 2), Event.malloc (env.malloc_ok 3)]
    if !env.malloc_ok 3 || !env.malloc_ok 0 || !env.malloc_ok 1 || !env.malloc_ok 2 then
      ⟨-1, trace⟩
    else
      let init : Shared := forLoop 0 len
        (fun i s => ⟨Function.update (Function.update (Function.update s.global_rows
            0 (store (s.global_rows 0) i (i : Int)))
            1 (store (s.global_rows 1) i (i : Int)))
            2 (store (s.global_rows 2) i (i : Int)),
          store s.global_cols i (i : Int), s.trace⟩)
        ⟨env.malloc_fresh, env.malloc_fresh 3, trace⟩
      let num_blocks := (len + BLOCK_SIZE - 1) / BLOCK_SIZE
      let num_waves := 2 * num_blocks - 1
      let final := forLt 0 num_waves
        (fun wave sh => (env.order wave).foldl
          (fun sh t => Avx2.thread_worker env
            ⟨t, num_threads, wave, num_blocks, len, str1, str2⟩ sh) sh) init
      ⟨(final.global_rows ((num_blocks - 1) % 3)).get len, final.trace⟩

/-! ## Specification -/

/-- The byte sequence of length `n` that the pointer `str` designates. -/
def symbols (str : Nat → Byte) (n : Nat) : List Byte := (List.range n).map str

/-- One single-character edit: an insertion, a deletion or a substitution. -/
inductive EditStep {α : Type} : List α → List α → Prop
  | insertion (l r : List α) (c : α) : EditStep (l ++ r) (l ++ c :: r)
  | deletion (l r : List α) (c : α) : EditStep (l ++ c :: r) (l ++ r)
  | substitution (l r : List α) (c d : α) : EditStep (l ++ c :: r) (l ++ d :: r)

/-- `Transforms a b k`: a sequence of `k` single-character edits transforms `a` into `b`. -/
inductive Transforms {α : Type} : List α → List α → Nat → Prop
  | done (a : List α) : Transforms a a 0
  | step {a b c : List α} {k : Nat} : EditStep a b → Transforms b c k → Transforms a c (k + 1)

/-- `d` is the Levenshtein distance between `a` and `b`: the minimum number of
single-character insertions, deletions and substitutions that transform `a` into `b`. -/
def IsLevenshtein {α : Type} (a b : List α) (d : Nat) : Prop :=
  Transforms a b d ∧ ∀ k, Transforms a b k → d ≤ k

/-- The row `i + 1` of the Levenshtein table, from the row `i` (`prev`). -/
def nextRow (str1 str2 : Nat → Byte) (i : Nat) (prev : Nat → Nat) : Nat → Nat
  | 0 => i + 1
  | j + 1 =>
    min (min (prev (j + 1) + 1) (nextRow str1 str2 i prev j + 1))
      (prev j + if str1 i = str2 j then 0 else 1)

/-- The Levenshtein table of the two sequences: `D str1 str2 i j` is the entry for the first
`i` symbols of `str1` and the first `j` symbols of `str2`, with `D 0 j = j`, `D i 0 = i`. -/
def D (str1 str2 : Nat → Byte) : Nat → Nat → Nat
  | 0 => fun j => j
  | i + 1 => nextRow str1 str2 i (D str1 str2 i)

/-- The recursive definition of the edit distance of two lists, by their first symbols. -/
def lev {α : Type} [DecidableEq α] : List α → List α → Nat
  | [], ys => ys.length
  | x :: xs, ys => levCons x xs.length (fun zs => lev xs zs) ys
where
  /-- The distance from `x :: xs` to `ys`, given the distances `rec` from `xs`. -/
  levCons (x : α) (n : Nat) (rec : List α → Nat) : List α → Nat
    | [] => n + 1
    | y :: ys =>
      min (min (rec (y :: ys) + 1) (levCons x n rec ys + 1))
        (rec ys + if x = y then 0 else 1)

/-- Every allocation request succeeds. -/
def Env.AllocOk (env : Env) : Prop :=
  (∀ i, env.malloc_ok i = true) ∧ ∀ site a b, env.scratch_ok site a b = true

/-- In every wave each of the `t` workers runs, once. -/
def Env.Fair (env : Env) (t : Nat) : Prop :=
  ∀ wave, (env.order wave).Perm (List.range t)

/-- The environment in which every request succeeds, fresh memory is zeroed and the `t`
workers of a wave run in the order of their identifiers. -/
def Env.ideal (t : Nat) : Env :=
  ⟨fun _ => true, fun _ => ⟨fun _ => 0⟩, fun _ _ _ => true, fun _ _ _ => ⟨fun _ => 0⟩,
    fun _ => List.range t⟩

/-- What a tile needs to find in the boundary buffers: the entries of the Levenshtein table
along its upper and left edges, and at its corner unless the tile is in the first block row
or column. -/
structure TilePre (str1 str2 : Nat → Byte) (row_offset col_offset height width : Nat)
    (global_rows_read global_cols : Buf) : Prop where
  top : ∀ j, 1 ≤ j → j ≤ width →
    global_rows_read.get (col_offset + j) = (D str1 str2 row_offset (col_offset + j) : Int)
  left : ∀ i, 1 ≤ i → i ≤ height →
    global_cols.get (row_offset + i) = (D str1 str2 (row_offset + i) col_offset : Int)
  corner : col_offset ≠ 0 → row_offset ≠ 0 →
    global_rows_read.get col_offset = (D str1 str2 row_offset col_offset : Int)

/-- What a tile leaves behind: its bottom edge in the row boundary it writes, its right edge
in the column boundary, everything else as it was, and its bottom-right entry as the result. -/
structure TilePost (str1 str2 : Nat → Byte) (row_offset col_offset height width : Nat)
    (global_rows_write global_cols : Buf) (out : TileOut) : Prop where
  rows : ∀ x, out.global_rows_write.get x =
    if col_offset < x ∧ x ≤ col_offset + width then
      (D str1 str2 (row_offset + height) x : Int)
    else global_rows_write.get x
  cols : ∀ x, out.global_cols.get x =
    if row_offset < x ∧ x ≤ row_offset + height then
      (D str1 str2 x (col_offset + width) : Int)
    else global_cols.get x
  result : out.result = (D str1 str2 (row_offset + height) (col_offset + width) : Int)

/-- The value the scalar cleanup loop of the SIMD `process_tile` stores for row `i` of
diagonal `k`. -/
def Avx2.cell_value (row_offset col_offset height : Nat) (str1 str2 : Nat → Byte) (k i : Nat)
    (buffer : Buf) : Int :=
  Avx2.min_scalar (buffer.get (Avx2.idx height (k - 1) i) + 1)
    (buffer.get (Avx2.idx height (k - 1) (i - 1)) + 1)
    (buffer.get (Avx2.idx height (k - 1 - 1) (i - 1)) +
      if str1 (row_offset + i - 1) = str2 (col_offset + (k - i) - 1) then 0 else 1)

/-- The scratch buffer of the SIMD `process_tile` holds the Levenshtein table at the tile's
boundary cells, on the diagonals before `k`, and on diagonal `k` in the rows before `i0`:
the cell `(i, j)` of the tile is at `idx(i + j, i)`. -/
def Avx2.Known (str1 str2 : Nat → Byte) (row_offset col_offset height width k i0 : Nat)
    (buffer : Buf) : Prop :=
  ∀ i j, i ≤ height → j ≤ width → (i = 0 ∨ j = 0 ∨ i + j < k ∨ (i + j = k ∧ i < i0)) →
    buffer.get (Avx2.idx height (i + j) i) =
      (D str1 str2 (row_offset + i) (col_offset + j) : Int)

/-- The last row (or column) of block `c` of a grid of side `n`. -/
def blockEnd (n c : Nat) : Nat := min (c * BLOCK_SIZE + BLOCK_SIZE) n

/-- The state of the boundary buffers when the tiles `dn` have been processed, for sequences
of length `n`; `wr r` is the index of the row buffer that block row `r` writes.  Over the
columns of block `c`, a row buffer holds the bottom row of the last processed tile of that
block column that wrote it, or its initial values; over the rows of block `r`, the column
buffer holds the right column of the last processed tile of that block row, or its initial
values. -/
structure BoundsInv (str1 str2 : Nat → Byte) (n : Nat) (wr : Nat → Nat)
    (dn : Nat → Nat → Prop) (rows : Nat → Buf) (cols : Buf) : Prop where
  rows_done : ∀ r c y, r * BLOCK_SIZE < n → c * BLOCK_SIZE < n → dn r c →
    (∀ r', r' * BLOCK_SIZE < n → wr r' = wr r → dn r' c → r' ≤ r) →
    c * BLOCK_SIZE < y → y ≤ blockEnd n c →
    (rows (wr r)).get y = (D str1 str2 (blockEnd n r) y : Int)
  rows_seed : ∀ r0 c y, c * BLOCK_SIZE < n →
    (∀ r, r * BLOCK_SIZE < n → wr r = wr r0 → ¬ dn r c) →
    c * BLOCK_SIZE < y → y ≤ blockEnd n c → (rows (wr r0)).get y = (y : Int)
  cols_done : ∀ r c x, r * BLOCK_SIZE < n → c * BLOCK_SIZE < n → dn r c →
    (∀ c', c' * BLOCK_SIZE < n → dn r c' → c' ≤ c) →
    r * BLOCK_SIZE < x → x ≤ blockEnd n r →
    cols.get x = (D str1 str2 x (blockEnd n c) : Int)
  cols_seed : ∀ r x, r * BLOCK_SIZE < n → (∀ c, c * BLOCK_SIZE < n → ¬ dn r c) →
    r * BLOCK_SIZE < x → x ≤ blockEnd n r → cols.get x = (x : Int)

/-- The first block row of wave `w` in a grid of `nb` by `nb` blocks. -/
def rowMin (nb w : Nat) : Nat := if w < nb then 0 else w - nb + 1

/-- The last block row of wave `w` in a grid of `nb` by `nb` blocks. -/
def rowMax (nb w : Nat) : Nat := if w < nb then w else nb - 1

/-- The tiles processed at a moment of wave `w` of a threaded run with `T` workers: those of
the earlier waves, those of the workers `ran` that have returned, and those of the running
worker `t` in the block rows before `rc`. -/
def waveDone (nb T w : Nat) (ran : List Nat) (t rc : Nat) (r c : Nat) : Prop :=
  r + c < w ∨
    (r + c = w ∧ ((r - rowMin nb w) % T ∈ ran ∨ ((r - rowMin nb w) % T = t ∧ r < rc)))

/-- The tiles processed by `tiled_edit_distance` when it is about to process the tile
`(ri, cj)`: the block rows before `ri`, and of block row `ri` the block columns before `cj`. -/
def tiledDone (ri cj : Nat) (r c : Nat) : Prop := r < ri ∨ (r = ri ∧ c < cj)

/-- The two row boundaries of `tiled_edit_distance` by index: `row_bounds1` is `0` and
`row_bounds2` is `1`. -/
def Tiled.State.rows (s : Tiled.State) (k : Nat) : Buf :=
  if k = 0 then s.row_bounds1 else if k = 1 then s.row_bounds2 else ⟨fun _ => 0⟩

/-- The ideal environment, except that the `k`-th allocation request of the entry point
fails. -/
def Env.denying (k t : Nat) : Env :=
  ⟨fun i => decide (i ≠ k), fun _ => ⟨fun _ => 0⟩, fun _ _ _ => true, fun _ _ _ => ⟨fun _ => 0⟩,
    fun _ => List.range t⟩

/-- The ideal environment, except that every scratch allocation request of a worker fails. -/
def Env.scratchDenying (t : Nat) : Env :=
  ⟨fun _ => true, fun _ => ⟨fun _ => 0⟩, fun _ _ _ => false, fun _ _ _ => ⟨fun _ => 0⟩,
    fun _ => List.range t⟩

/-- The tiles a run processed, in the order of their processing. -/
def tilesOf (trace : List Event) : List (Nat × Nat) :=
  trace.filterMap (fun e => match e with
    | Event.tile r c => some (r, c)
    | _ => none)

/-- The block rows of the tiles of wave `w`, in increasing order: the `r` with
`max(0, w - nb + 1) ≤ r ≤ min(w, nb - 1)`. -/
def waveRows (nb w : Nat) : List Nat :=
  List.range' (rowMin nb w) (rowMax nb w + 1 - rowMin nb w)

/-- Round-robin assignment: of the tiles `(r, w - r)` of wave `w`, enumerated in increasing
`r`, worker `t` of `T` gets those whose enumeration index is `t` modulo `T`. -/
def assignedTiles (nb T w t : Nat) : List (Nat × Nat) :=
  ((waveRows nb w).filter (fun r => (r - rowMin nb w) % T = t)).map (fun r => (r, w - r))

/-- The tiles of the waves `0 .. 2 nb - 2` in the order a threaded run visits them when the
workers of wave `w` run in the order `order w`. -/
def schedule (order : Nat → List Nat) (nb T : Nat) : List (Nat × Nat) :=
  (List.range (2 * nb - 1)).flatMap
    (fun w => (order w).flatMap (fun t => assignedTiles nb T w t))

/-- The value `process_tile` puts at the corner of a tile: the table's initial value in the
first block row or column, the entry of the row boundary it reads elsewhere. -/
def tileCorner (row_offset col_offset : Nat) (global_rows_read : Buf) : Int :=
  if col_offset = 0 then (row_offset : Int)
  else if row_offset = 0 then (col_offset : Int)
  else global_rows_read.get col_offset

/-- One row of the cells of a tile, from the row `above` it and its `left` boundary value; the
rule `f j up lf dg` gives the cell in column `j + 1` from the cells above it, to its left and
diagonally above. -/
def tileRow (f : Nat → Int → Int → Int → Int) (above : Nat → Int) (left : Int) : Nat → Int
  | 0 => left
  | j + 1 => f j (above (j + 1)) (tileRow f above left j) (above j)

/-- The cells of a tile for a rule `f` and boundary values `top` and `left`: row `0` is the
upper boundary, column `0` the left boundary. -/
def tileCells (f : Nat → Nat → Int → Int → Int → Int) (top left : Nat → Int) :
    Nat → Nat → Int
  | 0 => top
  | i + 1 => tileRow (f i) (tileCells f top left i) (left (i + 1))

/-- The cells of a tile by the rule of the scalar kernels, whatever the boundary buffers hold:
cell `(i, j)` is the cell diagonally above when the symbols of its row and column are equal,
and one more than the least of its three neighbours otherwise. -/
def scalarTile (str1 str2 : Nat → Byte) (row_offset col_offset : Nat)
    (global_rows_read global_cols : Buf) : Nat → Nat → Int :=
  tileCells
    (fun i j up lf dg =>
      if str1 (row_offset + i) = str2 (col_offset + j) then dg
      else min (min (up + 1) (lf + 1)) (dg + 1))
    (fun j => if j = 0 then tileCorner row_offset col_offset global_rows_read
      else global_rows_read.get (col_offset + j))
    (fun i => global_cols.get (row_offset + i))

/-- The cells of a tile by the rule of the SIMD kernel, whatever the boundary buffers hold:
cell `(i, j)` is the least of the cell to its left plus one, the cell above plus one, and the
cell diagonally above plus the cost of its symbols.  Boundary positions beyond `total_len`
take the value `total_len`. -/
def simdTile (str1 str2 : Nat → Byte) (row_offset col_offset : Nat)
    (global_rows_read global_cols : Buf) (total_len : Nat) : Nat → Nat → Int :=
  tileCells
    (fun i j up lf dg =>
      min (min (lf + 1) (up + 1))
        (dg + if str1 (row_offset + i) = str2 (col_offset + j) then 0 else 1))
    (fun j => if j = 0 then tileCorner row_offset col_offset global_rows_read
      else if col_offset + j ≤ total_len then global_rows_read.get (col_offset + j)
      else (total_len : Int))
    (fun i => if row_offset + i ≤ total_len then global_cols.get (row_offset + i)
      else (total_len : Int))

/-- What a tile leaves behind when its cells are `cells`: its bottom row in the row boundary
it writes, its right column in the column boundary, every other entry of the two buffers as
it was, and its bottom-right cell as the result. -/
structure TileCellsPost (cells : Nat → Nat → Int) (row_offset col_offset height width : Nat)
    (global_rows_write global_cols : Buf) (out : TileOut) : Prop where
  rows : ∀ x, out.global_rows_write.get x =
    if col_offset < x ∧ x ≤ col_offset + width then cells height (x - col_offset)
    else global_rows_write.get x
  cols : ∀ x, out.global_cols.get x =
    if row_offset < x ∧ x ≤ row_offset + height then cells (x - row_offset) width
    else global_cols.get x
  result : out.result = cells height width

/-- The scratch buffer of the SIMD `process_tile` holds the cells `cells` of the tile at its
boundary, on the diagonals before `k`, and on diagonal `k` in the rows before `i0`: the cell
`(i, j)` is at `idx(i + j, i)`. -/
def Avx2.Holds (cells : Nat → Nat → Int) (height width k i0 : Nat) (buffer : Buf) : Prop :=
  ∀ i j, i ≤ height → j ≤ width → (i = 0 ∨ j = 0 ∨ i + j < k ∨ (i + j = k ∧ i < i0)) →
    buffer.get (Avx2.idx height (i + j) i) = cells i j

/-- The rule of the SIMD kernel for the cells `cells` of a tile: each inner cell is the least
of the cell to its left plus one, the cell above plus one, and the cell diagonally above plus
the cost of the two symbols. -/
def Avx2.SimdRule (str1 str2 : Nat → Byte) (row_offset col_offset : Nat)
    (cells : Nat → Nat → Int) : Prop :=
  ∀ i j, 1 ≤ i → 1 ≤ j →
    cells i j = min (min (cells i (j - 1) + 1) (cells (i - 1) j + 1))
      (cells (i - 1) (j - 1) +
        if str1 (row_offset + i - 1) = str2 (col_offset + j - 1) then 0 else 1)

/-- The state of the loop over `i` in `process_tile` of `parallelized_edit_distance.c` after the rows
`1 .. i` of a tile: `prev_row` then holds row `i` of the tile, the row `current` of
iteration `i`. -/
def Parallelized.tile_rows (row_offset col_offset : Nat) (global_rows_read global_cols : Buf)
    (width : Nat) (str1 str2 : Nat → Byte) (prev_row cur_row : Buf) (i : Nat) : Parallelized.Rows :=
  forLoop 1 i (Parallelized.row row_offset col_offset width str1 str2)
    ⟨store (forLoop 1 width
        (fun j p => store p j (global_rows_read.get (col_offset + j))) prev_row) 0
      (if col_offset = 0 then (row_offset : Int)
       else if row_offset = 0 then (col_offset : Int)
       else global_rows_read.get col_offset), cur_row, global_cols⟩


/-- The state of the loop over `i` in `process_tile` of `tiled_edit_distance.c` after the rows
`1 .. i` of a tile: `prev_row` then holds row `i` of the tile, the row `current` of
iteration `i`. -/
def Tiled.tile_rows (row_offset col_offset : Nat) (global_rows_read global_cols : Buf)
    (width : Nat) (str1 str2 : Nat → Byte) (prev_row cur_row : Buf) (i : Nat) : Tiled.Rows :=
  forLoop 1 i (Tiled.row row_offset col_offset width str1 str2)
    ⟨store (forLoop 1 width
        (fun j p => store p j (global_rows_read.get (col_offset + j))) prev_row) 0
      (if col_offset = 0 then (row_offset : Int)
       else if row_offset = 0 then (col_offset : Int)
       else global_rows_read.get col_offset), cur_row, global_cols⟩

/-- The height (or width) the implementations give a tile whose first row (or column) is
`offset + 1`, for sequences of length `len`: the expression
`(offset + BLOCK_SIZE > len) ? len - offset : BLOCK_SIZE` of the tile loops. -/
def tileExtent (len offset : Nat) : Nat :=
  if offset + BLOCK_SIZE > len then len - offset else BLOCK_SIZE

/-- A location of the boundary state the workers share: the entry `idx` of the row buffer
`k`, or the entry `idx` of the column buffer. -/
inductive Loc where
  | row (k idx : Nat)
  | col (idx : Nat)

/-- The content of a location of the shared boundary state. -/
def Shared.read (sh : Shared) : Loc → Int
  | .row k idx => (sh.global_rows k).get idx
  | .col idx => sh.global_cols.get idx

/-- The locations the tile `(r, c)` writes, for sequences of length `len`: the row buffer
`r % 3` at `col_offset + 1 .. col_offset + width` and the column buffer at
`row_offset + 1 .. row_offset + height`. -/
def tileWrites (len r c : Nat) : Loc → Prop
  | .row k idx => k = r % 3 ∧ c * BLOCK_SIZE < idx ∧
      idx ≤ c * BLOCK_SIZE + tileExtent len (c * BLOCK_SIZE)
  | .col idx => r * BLOCK_SIZE < idx ∧ idx ≤ r * BLOCK_SIZE + tileExtent len (r * BLOCK_SIZE)

/-- The locations the tile `(r, c)` reads, for sequences of length `len`: the row buffer
`(r - 1 + 3) % 3` at `col_offset .. col_offset + width`, the corner at `col_offset`
included, and the column buffer at `row_offset + 1 .. row_offset + height`. -/
def tileReads (len r c : Nat) : Loc → Prop
  | .row k idx => k = (((r : Int) - 1 + 3) % 3).toNat ∧ c * BLOCK_SIZE ≤ idx ∧
      idx ≤ c * BLOCK_SIZE + tileExtent len (c * BLOCK_SIZE)
  | .col idx => r * BLOCK_SIZE < idx ∧ idx ≤ r * BLOCK_SIZE + tileExtent len (r * BLOCK_SIZE)

/-- The boundary state of the threaded entry points after the allocation and the
initialisation of the four buffers, before the first wave. -/
def sharedInit (env : Env) (len : Nat) : Shared :=
  forLoop 0 len
    (fun i s => ⟨Function.update (Function.update (Function.update s.global_rows
        0 (store (s.global_rows 0) i (i : Int)))
        1 (store (s.global_rows 1) i (i : Int)))
        2 (store (s.global_rows 2) i (i : Int)),
      store s.global_cols i (i : Int), s.trace⟩)
    ⟨env.malloc_fresh, env.malloc_fresh 3,
      [Event.malloc (env.malloc_ok 0), Event.malloc (env.malloc_ok 1),
        Event.malloc (env.malloc_ok 2), Event.malloc (env.malloc_ok 3)]⟩


/-- The boundary state of a run of `parallelized_edit_distance` when wave `w` starts: the waves before
it have run. -/
def Parallelized.wave_entry (env : Env) (str1 str2 : Nat → Byte) (len num_threads w : Nat) : Shared :=
  forLt 0 w
    (fun wave sh => (env.order wave).foldl
      (fun sh t => Parallelized.thread_worker env
        ⟨t, num_threads, wave, (len + BLOCK_SIZE - 1) / BLOCK_SIZE, len, str1, str2⟩ sh) sh)
    (sharedInit env len)

/-- The state of worker `t` of wave `w` of a run of `parallelized_edit_distance` at the moment its tile
loop reaches the block row `r`: the waves before `w` have run, then the workers `ran` of wave
`w`, then the steps of worker `t` for the block rows before `r`. -/
def Parallelized.tile_entry (env : Env) (str1 str2 : Nat → Byte) (len num_threads w : Nat)
    (ran : List Nat) (t r : Nat) : Parallelized.WorkerState :=
  let num_blocks := (len + BLOCK_SIZE - 1) / BLOCK_SIZE
  let sh := ran.foldl
    (fun sh t => Parallelized.thread_worker env ⟨t, num_threads, w, num_blocks, len, str1, str2⟩ sh)
    (Parallelized.wave_entry env str1 str2 len num_threads w)
  forLt (if w < num_blocks then 0 else w - num_blocks + 1) r
    (Parallelized.tile_step ⟨t, num_threads, w, num_blocks, len, str1, str2⟩)
    ⟨0, env.scratch_fresh 0 w t, env.scratch_fresh 1 w t,
      { sh with trace := sh.trace ++
        [Event.worker w t, Event.malloc true, Event.malloc true] }⟩

/-- The rest of a run of `parallelized_edit_distance` from the state `s` of worker `t` of wave `w` at
block row `r`: the steps of the worker from `r` on, then the workers `rest` of the wave, then
the later waves and the read of the result. -/
def Parallelized.resume (env : Env) (str1 str2 : Nat → Byte) (len num_threads w : Nat)
    (rest : List Nat) (t r : Nat) (s : Parallelized.WorkerState) : Run :=
  let num_blocks := (len + BLOCK_SIZE - 1) / BLOCK_SIZE
  let num_waves := 2 * num_blocks - 1
  let sh := (forLt r ((if w < num_blocks then w else num_blocks - 1) + 1)
    (Parallelized.tile_step ⟨t, num_threads, w, num_blocks, len, str1, str2⟩) s).shared
  let sh := rest.foldl
    (fun sh t => Parallelized.thread_worker env ⟨t, num_threads, w, num_blocks, len, str1, str2⟩ sh) sh
  let final := forLt (w + 1) num_waves
    (fun wave sh => (env.order wave).foldl
      (fun sh t => Parallelized.thread_worker env
        ⟨t, num_threads, wave, num_blocks, len, str1, str2⟩ sh) sh) sh
  ⟨(final.global_rows ((num_blocks - 1) % 3)).get len, final.trace⟩


/-- The boundary state of a run of `avx2_edit_distance` when wave `w` starts: the waves before
it have run. -/
def Avx2.wave_entry (env : Env) (str1 str2 : Nat → Byte) (len num_threads w : Nat) : Shared :=
  forLt 0 w
    (fun wave sh => (env.order wave).foldl
      (fun sh t => Avx2.thread_worker env
        ⟨t, num_threads, wave, (len + BLOCK_SIZE - 1) / BLOCK_SIZE, len, str1, str2⟩ sh) sh)
    (sharedInit env len)

/-- The state of worker `t` of wave `w` of a run of `avx2_edit_distance` at the moment its tile
loop reaches the block row `r`: the waves before `w` have run, then the workers `ran` of wave
`w`, then the steps of worker `t` for the block rows before `r`. -/
def Avx2.tile_entry (env : Env) (str1 str2 : Nat → Byte) (len num_threads w : Nat)
    (ran : List Nat) (t r : Nat) : Avx2.WorkerState :=
  let num_blocks := (len + BLOCK_SIZE - 1) / BLOCK_SIZE
  let sh := ran.foldl
    (fun sh t => Avx2.thread_worker env ⟨t, num_threads, w, num_blocks, len, str1, str2⟩ sh)
    (Avx2.wave_entry env str1 str2 len num_threads w)
  forLt (if w < num_blocks then 0 else w - num_blocks + 1) r
    (Avx2.tile_step ⟨t, num_threads, w, num_blocks, len, str1, str2⟩)
    ⟨0, env.scratch_fresh 0 w t,
      { sh with trace := sh.trace ++
        [Event.worker w t, Event.malloc (env.scratch_ok 0 w t)] }⟩

/-- The rest of a run of `avx2_edit_distance` from the state `s` of worker `t` of wave `w` at
block row `r`: the steps of the worker from `r` on, then the workers `rest` of the wave, then
the later waves and the read of the result. -/
def Avx2.resume (env : Env) (str1 str2 : Nat → Byte) (len num_threads w : Nat)
    (rest : List Nat) (t r : Nat) (s : Avx2.WorkerState) : Run :=
  let num_blocks := (len + BLOCK_SIZE - 1) / BLOCK_SIZE
  let num_waves := 2 * num_blocks - 1
  let sh := (forLt r ((if w < num_blocks then w else num_blocks - 1) + 1)
    (Avx2.tile_step ⟨t, num_threads, w, num_blocks, len, str1, str2⟩) s).shared
  let sh := rest.foldl
    (fun sh t => Avx2.thread_worker env ⟨t, num_threads, w, num_blocks, len, str1, str2⟩ sh) sh
  let final := forLt (w + 1) num_waves
    (fun wave sh => (env.order wave).foldl
      (fun sh t => Avx2.thread_worker env
        ⟨t, num_threads, wave, num_blocks, len, str1, str2⟩ sh) sh) sh
  ⟨(final.global_rows ((num_blocks - 1) % 3)).get len, final.trace⟩

/-- The workers started in a run, in the order of their start: the pairs `(wave, thread)` of
the worker events of its trace. -/
def workersOf (trace : List Event) : List (Nat × Nat) :=
  trace.filterMap (fun e => match e with
    | Event.worker w t => some (w, t)
    | _ => none)

/-- The boundary state of `tiled_edit_distance` after the allocation and the initialisation
of its three buffers, before the first tile. -/
def Tiled.init (env : Env) (len : Nat) : Tiled.State :=
  forLoop 0 len
    (fun i s => ⟨store s.row_bounds1 i (i : Int),
      store s.row_bounds2 i (i : Int),
      store s.col_bounds i (i : Int), s.trace⟩)
    ⟨env.malloc_fresh 0, env.malloc_fresh 1, env.malloc_fresh 2,
      [Event.malloc (env.malloc_ok 0), Event.malloc (env.malloc_ok 1),
        Event.malloc (env.malloc_ok 2)]⟩

/-- The state of a run of `tiled_edit_distance` at the moment its loops reach the tile
`(ri, cj)`: the block rows before `ri` are done, and of block row `ri` the block columns
before `cj`. -/
def Tiled.tile_entry (env : Env) (str1 str2 : Nat → Byte) (len ri cj : Nat) :
    Except Run Tiled.State :=
  match forStep BLOCK_SIZE (ri * BLOCK_SIZE)
      (fun i s => forStep BLOCK_SIZE len (Tiled.tile_step env str1 str2 len i) len 0 s)
      len 0 (Tiled.init env len) with
  | .error run => .error run
  | .ok s =>
    forStep BLOCK_SIZE (cj * BLOCK_SIZE)
      (Tiled.tile_step env str1 str2 len (ri * BLOCK_SIZE)) len 0 s

/-- The rest of a run of `tiled_edit_distance` from the state `s` in which its loops reach
the tile `(ri, cj)`: the rest of block row `ri`, the later block rows, and the read of the
result. -/
def Tiled.resume (env : Env) (str1 str2 : Nat → Byte) (len ri cj : Nat) (s : Tiled.State) :
    Run :=
  match forStep BLOCK_SIZE len (Tiled.tile_step env str1 str2 len (ri * BLOCK_SIZE))
      (len - cj) (cj * BLOCK_SIZE) s with
  | .error run => run
  | .ok s1 =>
    match forStep BLOCK_SIZE len
        (fun i s => forStep BLOCK_SIZE len (Tiled.tile_step env str1 str2 len i) len 0 s)
        (len - (ri + 1)) ((ri + 1) * BLOCK_SIZE) s1 with
    | .error run => run
    | .ok s2 =>
      let num_block_rows := (len + BLOCK_SIZE - 1) / BLOCK_SIZE
      if (num_block_rows - 1) % 2 = 0 then ⟨s2.row_bounds2.get len, s2.trace⟩
      else ⟨s2.row_bounds1.get len, s2.trace⟩

/-- The rows of `naive_edit_distance` after the iterations `1 .. i` of its outer loop: the
first component is then row `i` of its table. -/
def Naive.rows_after (env : Env) (str1 str2 : Nat → Byte) (len i : Nat) : Buf × Buf :=
  forLoop 1 i (Naive.row str1 str2 len)
    (forLoop 0 len (fun i p => store p i (i : Int)) (env.malloc_fresh 0), env.malloc_fresh 1)

/-- The rule of the scalar kernels for a cell, from its neighbours above, to the left and
diagonally above: the diagonal neighbour when the two symbols are equal (`eq`), and one more
than the least of the three neighbours otherwise. -/
def shortcutRule (eq : Prop) [Decidable eq] (top left diag : Int) : Int :=
  if eq then diag else min (min (top + 1) (left + 1)) (diag + 1)

/-- The rule of the SIMD kernel for a cell: the three-way minimum
`min(top + 1, left + 1, diag + cost)` with `cost = 0` when the two symbols are equal (`eq`)
and `1` otherwise. -/
def minRule (eq : Prop) [Decidable eq] (top left diag : Int) : Int :=
  min (min (top + 1) (left + 1)) (diag + if eq then 0 else 1)

/-- The body of the loop over the diagonals of the SIMD `process_tile` with the vector loop
left out: every cell of the diagonal goes through the scalar cleanup loop. -/
def Avx2.diagonal_scalar (row_offset col_offset height width : Nat) (str1 str2 : Nat → Byte)
    (k : Nat) (buffer : Buf) : Buf :=
  let min_i := if (k : Int) - (width : Int) > 1 then k - width else 1
  let max_i := if (k : Int) - 1 < (height : Int) then k - 1 else height
  forLoop min_i max_i (Avx2.scalar_cell row_offset col_offset height str1 str2 k) buffer

/-- The SIMD `process_tile` with the vector loop left out. -/
def Avx2.process_tile_scalar (row_offset col_offset : Nat)
    (global_rows_read global_rows_write global_cols : Buf) (height width : Nat)
    (str1 str2 : Nat → Byte) (buffer : Buf) (total_len : Nat) :
    TileOut × Buf :=
  let buffer := forLoop 1 height (fun i buffer =>
    if row_offset + i ≤ total_len then
      store buffer (Avx2.idx height i i) (global_cols.get (row_offset + i))
    else store buffer (Avx2.idx height i i) (total_len : Int)) buffer
  let buffer := forLoop 1 width (fun j buffer =>
    if col_offset + j ≤ total_len then
      store buffer (Avx2.idx height j 0) (global_rows_read.get (col_offset + j))
    else store buffer (Avx2.idx height j 0) (total_len : Int)) buffer
  let buffer := store buffer (Avx2.idx height 0 0)
    (if col_offset = 0 then (row_offset : Int)
     else if row_offset = 0 then (col_offset : Int)
     else global_rows_read.get col_offset)
  let max_wave := height + width
  let buffer := forLoop 2 max_wave
    (Avx2.diagonal_scalar row_offset col_offset height width str1 str2) buffer
  let global_rows_write := forLoop 1 width (fun j g =>
    store g (col_offset + j) (buffer.get (Avx2.idx height (height + j) height)))
    global_rows_write
  let global_cols := forLoop 1 height (fun i g =>
    store g (row_offset + i) (buffer.get (Avx2.idx height (i + width) i))) global_cols
  (⟨global_rows_write, global_cols, buffer.get (Avx2.idx height (height + width) height)⟩,
    buffer)

/-- A memory access of the SIMD `process_tile`: a read or a write of the scratch buffer at an
element index, or the read of a byte of `str1` or of `str2` at an index.  The indices are
integers, computed as the C code computes them. -/
inductive Access where
  | read (index : Int)
  | write (index : Int)
  | str1 (index : Int)
  | str2 (index : Int)

/-- The macro `idx(k, i)` on the integers. -/
def Avx2.idxZ (height : Nat) (k i : Int) : Int := k * ((height : Int) + 1) + i

/-- The eight elements read by `_mm256_loadu_si256` at element `p` of the scratch buffer. -/
def Avx2.load_log (p : Int) : List Access :=
  (List.range 8).map (fun (l : Nat) => Access.read (p + (l : Int)))

/-- The eight elements written by `_mm256_storeu_si256` at element `p` of the scratch
buffer. -/
def Avx2.store_log (p : Int) : List Access :=
  (List.range 8).map (fun (l : Nat) => Access.write (p + (l : Int)))

/-- The eight bytes read by `memcpy(.., &str1[p], 8)`. -/
def Avx2.memcpy_str1_log (p : Int) : List Access :=
  (List.range 8).map (fun (l : Nat) => Access.str1 (p + (l : Int)))

/-- The eight bytes read by `memcpy(.., &str2[p], 8)`. -/
def Avx2.memcpy_str2_log (p : Int) : List Access :=
  (List.range 8).map (fun (l : Nat) => Access.str2 (p + (l : Int)))

/-- The accesses of one iteration of the unrolled vector loop, in the order of the code. -/
def Avx2.vector_body_log (row_offset col_offset height : Nat) (k i : Int) : List Access :=
  let j := k - i
  let prev_wave := Avx2.idxZ height (k - 1) 0
  let prev_wave2 := Avx2.idxZ height (k - 2) 0
  Avx2.load_log (prev_wave + i) ++ Avx2.load_log (prev_wave + (i - 1)) ++
  Avx2.load_log (prev_wave2 + (i - 1)) ++ Avx2.load_log (prev_wave + (i + 8)) ++
  Avx2.load_log (prev_wave + (i - 1 + 8)) ++ Avx2.load_log (prev_wave2 + (i - 1 + 8)) ++
  Avx2.memcpy_str1_log ((row_offset : Int) + i - 1) ++
  Avx2.memcpy_str2_log ((col_offset : Int) + j - 8) ++
  Avx2.memcpy_str1_log ((row_offset : Int) + i - 1 + 8) ++
  Avx2.memcpy_str2_log ((col_offset : Int) + j - 8 - 8) ++
  Avx2.store_log (Avx2.idxZ height k i) ++ Avx2.store_log (Avx2.idxZ height k (i + 8))

/-- The accesses of one iteration of the scalar cleanup loop, in the order of the code. -/
def Avx2.scalar_cell_log (row_offset col_offset height : Nat) (k i : Int) : List Access :=
  let j := k - i
  let global_row_idx := (row_offset : Int) + i
  let global_col_idx := (col_offset : Int) + j
  [Access.read (Avx2.idxZ height (k - 1) i), Access.read (Avx2.idxZ height (k - 1) (i - 1)),
    Access.str1 (global_row_idx - 1), Access.str2 (global_col_idx - 1),
    Access.read (Avx2.idxZ height (k - 1 - 1) (i - 1)), Access.write (Avx2.idxZ height k i)]

/-- The unrolled vector loop, followed for its accesses: the same tests as `vector_loop`, the
value of `i` on exit and the accesses of the iterations done. -/
def Avx2.vector_loop_log (row_offset col_offset height k max_i : Nat) :
    Nat → Nat → Nat × List Access
  | 0, i => (i, [])
  | fuel + 1, i =>
    if (i : Int) ≤ (max_i : Int) - 15 then
      let j := k - i
      if (col_offset : Int) + (j : Int) - 16 < 0 then (i, [])
      else
        let rest := Avx2.vector_loop_log row_offset col_offset height k max_i fuel (i + 16)
        (rest.1, Avx2.vector_body_log row_offset col_offset height k i ++ rest.2)
    else (i, [])

/-- The accesses of one iteration of the loop over the diagonals. -/
def Avx2.diagonal_log (row_offset col_offset height width k : Nat) : List Access :=
  let min_i := if (k : Int) - (width : Int) > 1 then k - width else 1
  let max_i := if (k : Int) - 1 < (height : Int) then k - 1 else height
  let vi := Avx2.vector_loop_log row_offset col_offset height k max_i max_i min_i
  vi.2 ++ (List.range' vi.1 (max_i + 1 - vi.1)).flatMap
    (fun (i : Nat) => Avx2.scalar_cell_log row_offset col_offset height k i)

/-- The scratch accesses of the prefill: the left boundary, the upper boundary, the
corner. -/
def Avx2.prefill_log (height width : Nat) : List Access :=
  (List.range' 1 height).map (fun (i : Nat) => Access.write (Avx2.idxZ height i i)) ++
  (List.range' 1 width).map (fun (j : Nat) => Access.write (Avx2.idxZ height j 0)) ++
  [Access.write (Avx2.idxZ height 0 0)]

/-- The scratch accesses of `process_tile` before the diagonal `k`: the prefill and the
diagonals `2 .. k - 1`. -/
def Avx2.log_before (row_offset col_offset height width k : Nat) : List Access :=
  Avx2.prefill_log height width ++
  (List.range' 2 (k - 2)).flatMap
    (fun (k : Nat) => Avx2.diagonal_log row_offset col_offset height width k)

/-- The scratch accesses of the two write-back loops and of the return statement. -/
def Avx2.writeback_log (height width : Nat) : List Access :=
  (List.range' 1 width).map
    (fun (j : Nat) => Access.read (Avx2.idxZ height ((height : Int) + j) height)) ++
  (List.range' 1 height).map
    (fun (i : Nat) => Access.read (Avx2.idxZ height ((i : Int) + width) i)) ++
  [Access.read (Avx2.idxZ height ((height : Int) + width) height)]

/-- The accesses of the scratch buffer and of the two sequences in a call of the SIMD
`process_tile`, in the order of the code. -/
def Avx2.process_tile_log (row_offset col_offset height width : Nat) : List Access :=
  Avx2.log_before row_offset col_offset height width (height + width + 1) ++
  Avx2.writeback_log height width

/-- An access within bounds: the scratch buffer has `2 * (512 + 1) * (512 + 1)` elements, the
sequences have `n` bytes. -/
def Access.Safe (n : Nat) : Access → Prop
  | .read x => 0 ≤ x ∧ x < 2 * (512 + 1) * (512 + 1)
  | .write x => 0 ≤ x ∧ x < 2 * (512 + 1) * (512 + 1)
  | .str1 p => 0 ≤ p ∧ p < (n : Int)
  | .str2 p => 0 ≤ p ∧ p < (n : Int)

/-- The scratch indices written in a list of accesses, in order. -/
def writesOf (log : List Access) : List Int :=
  log.filterMap (fun a => match a with
    | Access.write x => some x
    | _ => none)

/-- The scratch buffer of a worker together with the accesses made so far to it and to the
two sequences.  Each operation below makes its access and records it: the index is the `int`
the C expression gives, the element accessed is the one at that index. -/
structure Traced where
  buffer : Buf
  log : List Access

/-- The read `buffer[x]`. -/
def Traced.get (m : Traced) (x : Int) : Int × Traced :=
  (m.buffer.get x.toNat, ⟨m.buffer, m.log ++ [Access.read x]⟩)

/-- The assignment `buffer[x] = v`. -/
def Traced.set (m : Traced) (x : Int) (v : Int) : Traced :=
  ⟨store m.buffer x.toNat v, m.log ++ [Access.write x]⟩

/-- The read `str1[p]`. -/
def Traced.str1 (m : Traced) (str1 : Nat → Byte) (p : Int) : Byte × Traced :=
  (str1 p.toNat, ⟨m.buffer, m.log ++ [Access.str1 p]⟩)

/-- The read `str2[p]`. -/
def Traced.str2 (m : Traced) (str2 : Nat → Byte) (p : Int) : Byte × Traced :=
  (str2 p.toNat, ⟨m.buffer, m.log ++ [Access.str2 p]⟩)

/-- The load `_mm256_loadu_si256((__m256i*)&buffer[p])`: the elements `p .. p + 7`. -/
def Traced.loadu (m : Traced) (p : Int) : Avx2.Vec × Traced :=
  (Avx2._mm256_loadu_si256 m.buffer p.toNat, ⟨m.buffer, m.log ++ Avx2.load_log p⟩)

/-- The store `_mm256_storeu_si256((__m256i*)&buffer[p], v)`: the elements `p .. p + 7`. -/
def Traced.storeu (m : Traced) (p : Int) (v : Avx2.Vec) : Traced :=
  ⟨Avx2._mm256_storeu_si256 m.buffer p.toNat v, m.log ++ Avx2.store_log p⟩

/-- The copy `memcpy(&x, &str1[p], 8)`: the bytes `p .. p + 7` of `str1`. -/
def Traced.memcpy_str1 (m : Traced) (str1 : Nat → Byte) (p : Int) : (Nat → Byte) × Traced :=
  (Avx2.memcpy8 str1 p.toNat, ⟨m.buffer, m.log ++ Avx2.memcpy_str1_log p⟩)

/-- The copy `memcpy(&x, &str2[p], 8)`: the bytes `p .. p + 7` of `str2`. -/
def Traced.memcpy_str2 (m : Traced) (str2 : Nat → Byte) (p : Int) : (Nat → Byte) × Traced :=
  (Avx2.memcpy8 str2 p.toNat, ⟨m.buffer, m.log ++ Avx2.memcpy_str2_log p⟩)

/-- The body of the unrolled vector loop of the SIMD `process_tile`, statement by statement,
on the recorded memory: every load, `memcpy` and store of the C code is one operation of
`Traced`, at the index the C expression gives. -/
def Avx2.vector_body_traced (row_offset col_offset height : Nat) (str1 str2 : Nat → Byte)
    (k i : Nat) (m : Traced) : Traced :=
  let v_one := Avx2._mm256_set1_epi32 1
  let v_reverse_idx := Avx2._mm256_set_epi32 0 1 2 3 4 5 6 7
  let j : Int := (k : Int) - (i : Int)
  let prev_wave := Avx2.idxZ height ((k : Int) - 1) 0
  let prev_wave2 := Avx2.idxZ height ((k : Int) - 2) 0
  let v_left1 := m.loadu (prev_wave + (i : Int))
  let v_top1 := v_left1.2.loadu (prev_wave + ((i : Int) - 1))
  let v_diag1 := v_top1.2.loadu (prev_wave2 + ((i : Int) - 1))
  let v_left2 := v_diag1.2.loadu (prev_wave + ((i : Int) + 8))
  let v_top2 := v_left2.2.loadu (prev_wave + ((i : Int) - 1 + 8))
  let v_diag2 := v_top2.2.loadu (prev_wave2 + ((i : Int) - 1 + 8))
  let s1c1 := v_diag2.2.memcpy_str1 str1 ((row_offset : Int) + (i : Int) - 1)
  let v_s1_32_1 := Avx2._mm256_cvtepi8_epi32 s1c1.1
  let s2c1 := s1c1.2.memcpy_str2 str2 ((col_offset : Int) + j - 8)
  let v_s2_32_1_fwd := Avx2._mm256_cvtepi8_epi32 s2c1.1
  let v_s2_32_1 := Avx2._mm256_permutevar8x32_epi32 v_s2_32_1_fwd v_reverse_idx
  let s1c2 := s2c1.2.memcpy_str1 str1 ((row_offset : Int) + (i : Int) - 1 + 8)
  let v_s1_32_2 := Avx2._mm256_cvtepi8_epi32 s1c2.1
  let s2c2 := s1c2.2.memcpy_str2 str2 ((col_offset : Int) + j - 8 - 8)
  let v_s2_32_2_fwd := Avx2._mm256_cvtepi8_epi32 s2c2.1
  let v_s2_32_2 := Avx2._mm256_permutevar8x32_epi32 v_s2_32_2_fwd v_reverse_idx
  let v_mask1 := Avx2._mm256_cmpeq_epi32 v_s1_32_1 v_s2_32_1
  let v_cost1 := Avx2._mm256_add_epi32 v_mask1 v_one
  let v_ins1 := Avx2._mm256_add_epi32 v_left1.1 v_one
  let v_del1 := Avx2._mm256_add_epi32 v_top1.1 v_one
  let v_sub1 := Avx2._mm256_add_epi32 v_diag1.1 v_cost1
  let v_res1 := Avx2.min_vector v_ins1 v_del1 v_sub1
  let v_mask2 := Avx2._mm256_cmpeq_epi32 v_s1_32_2 v_s2_32_2
  let v_cost2 := Avx2._mm256_add_epi32 v_mask2 v_one
  let v_ins2 := Avx2._mm256_add_epi32 v_left2.1 v_one
  let v_del2 := Avx2._mm256_add_epi32 v_top2.1 v_one
  let v_sub2 := Avx2._mm256_add_epi32 v_diag2.1 v_cost2
  let v_res2 := Avx2.min_vector v_ins2 v_del2 v_sub2
  let m := s2c2.2.storeu (Avx2.idxZ height k i) v_res1
  m.storeu (Avx2.idxZ height k ((i : Int) + 8)) v_res2

/-- The unrolled vector loop of the SIMD `process_tile` on the recorded memory, with its
`break`; the first argument bounds the number of iterations. -/
def Avx2.vector_loop_traced (row_offset col_offset height : Nat) (str1 str2 : Nat → Byte)
    (k max_i : Nat) : Nat → Nat → Traced → Nat × Traced
  | 0, i, m => (i, m)
  | fuel + 1, i, m =>
    if (i : Int) ≤ (max_i : Int) - 15 then
      let j := k - i
      if (col_offset : Int) + (j : Int) - 16 < 0 then (i, m)
      else
        Avx2.vector_loop_traced row_offset col_offset height str1 str2 k max_i fuel (i + 16)
          (Avx2.vector_body_traced row_offset col_offset height str1 str2 k i m)
    else (i, m)

/-- The body of the scalar cleanup loop of the SIMD `process_tile` on the recorded memory. -/
def Avx2.scalar_cell_traced (row_offset col_offset height : Nat) (str1 str2 : Nat → Byte)
    (k i : Nat) (m : Traced) : Traced :=
  let j : Int := (k : Int) - (i : Int)
  let global_row_idx : Int := (row_offset : Int) + (i : Int)
  let global_col_idx : Int := (col_offset : Int) + j
  let left := m.get (Avx2.idxZ height ((k : Int) - 1) i)
  let ins := left.1 + 1
  let top := left.2.get (Avx2.idxZ height ((k : Int) - 1) ((i : Int) - 1))
  let del := top.1 + 1
  let c1 := top.2.str1 str1 (global_row_idx - 1)
  let c2 := c1.2.str2 str2 (global_col_idx - 1)
  let cost : Int := if c1.1 = c2.1 then 0 else 1
  let diag := c2.2.get (Avx2.idxZ height ((k : Int) - 1 - 1) ((i : Int) - 1))
  let sub := diag.1 + cost
  diag.2.set (Avx2.idxZ height k i) (Avx2.min_scalar ins del sub)

/-- The body of the loop over the diagonals `k` of the SIMD `process_tile` on the recorded
memory. -/
def Avx2.diagonal_traced (row_offset col_offset height width : Nat) (str1 str2 : Nat → Byte)
    (k : Nat) (m : Traced) : Traced :=
  let min_i := if (k : Int) - (width : Int) > 1 then k - width else 1
  let max_i := if (k : Int) - 1 < (height : Int) then k - 1 else height
  let vi := Avx2.vector_loop_traced row_offset col_offset height str1 str2 k max_i max_i min_i m
  forLoop vi.1 max_i (Avx2.scalar_cell_traced row_offset col_offset height str1 str2 k) vi.2

/-- The function `process_tile` of `avx2_edit_distance.c` on the recorded memory: the scratch
buffer and the two sequences are accessed through the operations of `Traced`. -/
def Avx2.process_tile_traced (row_offset col_offset : Nat)
    (global_rows_read global_rows_write global_cols : Buf) (height width : Nat)
    (str1 str2 : Nat → Byte) (m : Traced) (total_len : Nat) : TileOut × Traced :=
  let m := forLoop 1 height (fun i (m : Traced) =>
    if row_offset + i ≤ total_len then
      m.set (Avx2.idxZ height i i) (global_cols.get (row_offset + i))
    else m.set (Avx2.idxZ height i i) (total_len : Int)) m
  let m := forLoop 1 width (fun j (m : Traced) =>
    if col_offset + j ≤ total_len then
      m.set (Avx2.idxZ height j 0) (global_rows_read.get (col_offset + j))
    else m.set (Avx2.idxZ height j 0) (total_len : Int)) m
  let m := m.set (Avx2.idxZ height 0 0)
    (if col_offset = 0 then (row_offset : Int)
     else if row_offset = 0 then (col_offset : Int)
     else global_rows_read.get col_offset)
  let max_wave := height + width
  let m := forLoop 2 max_wave
    (Avx2.diagonal_traced row_offset col_offset height width str1 str2) m
  let rows := forLoop 1 width (fun j (g : Buf × Traced) =>
    let cell := g.2.get (Avx2.idxZ height ((height : Int) + (j : Int)) height)
    (store g.1 (col_offset + j) cell.1, cell.2)) (global_rows_write, m)
  let cols := forLoop 1 height (fun i (g : Buf × Traced) =>
    let cell := g.2.get (Avx2.idxZ height ((i : Int) + (width : Int)) i)
    (store g.1 (row_offset + i) cell.1, cell.2)) (global_cols, rows.2)
  let result := cols.2.get (Avx2.idxZ height ((height : Int) + (width : Int)) height)
  (⟨rows.1, cols.1, result.1⟩, result.2)

/-- The log accounts for a step of the kernel on the scratch buffer: the step changes the
buffer only at the elements the log has as written, and what it stores there is determined
by the scratch elements and the bytes of the two sequences the log has as read. -/
def Accounts (log : List Access)
    (step : (Nat → Byte) → (Nat → Byte) → Buf → Buf) : Prop :=
  (∀ (str1 str2 : Nat → Byte) (b : Buf) (x : Nat),
    Access.write (x : Int) ∉ log → (step str1 str2 b).get x = b.get x) ∧
  (∀ (str1 str2 str1' str2' : Nat → Byte) (b b' : Buf),
    (∀ p : Nat, Access.str1 (p : Int) ∈ log → str1 p = str1' p) →
    (∀ p : Nat, Access.str2 (p : Int) ∈ log → str2 p = str2' p) →
    (∀ x : Nat, Access.read (x : Int) ∈ log → b.get x = b'.get x) →
    ∀ x : Nat, Access.write (x : Int) ∈ log →
      (step str1 str2 b).get x = (step str1' str2' b').get x)

/-! ## Loops -/

theorem forLt_ge {σ : Type} (lo hi : Nat) (body : Nat → σ → σ) (s : σ) (h : hi ≤ lo) :
    forLt lo hi body s = s := by
  unfold forLt
  have : hi - lo = 0 := by omega
  simp [this]

theorem forLt_succ {σ : Type} (lo hi : Nat) (body : Nat → σ → σ) (s : σ) (h : lo ≤ hi) :
    forLt lo (hi + 1) body s = body hi (forLt lo hi body s) := by
  unfold forLt
  have e : hi + 1 - lo = (hi - lo) + 1 := by omega
  rw [e, List.range'_concat, List.foldl_append]
  simp only [List.foldl_cons, List.foldl_nil, Nat.one_mul]
  congr 1
  omega

/-- Invariant rule for `forLt`. -/
theorem forLt_inv {σ : Type} (P : Nat → σ → Prop) (lo hi : Nat) (body : Nat → σ → σ) (s : σ)
    (hle : lo ≤ hi) (h0 : P lo s)
    (hstep : ∀ i s, lo ≤ i → i < hi → P i s → P (i + 1) (body i s)) :
    P hi (forLt lo hi body s) := by
  induction hi with
  | zero =>
    have : lo = 0 := by omega
    subst this
    rw [forLt_ge _ _ _ _ (le_refl _)]
    exact h0
  | succ hi ih =>
    by_cases hlo : lo = hi + 1
    · subst hlo
      rw [forLt_ge _ _ _ _ (le_refl _)]
      exact h0
    · have hle2 : lo ≤ hi := by omega
      rw [forLt_succ _ _ _ _ hle2]
      apply hstep hi _ hle2 (by omega)
      exact ih hle2 (fun i s h1 h2 h3 => hstep i s h1 (by omega) h3)

/-- Invariant rule for `forLoop`. -/
theorem forLoop_inv {σ : Type} (P : Nat → σ → Prop) (lo hi : Nat) (body : Nat → σ → σ)
    (s : σ) (hle : lo ≤ hi + 1) (h0 : P lo s)
    (hstep : ∀ i s, lo ≤ i → i ≤ hi → P i s → P (i + 1) (body i s)) :
    P (hi + 1) (forLoop lo hi body s) :=
  forLt_inv P lo (hi + 1) body s hle h0 (fun i s h1 h2 h3 => hstep i s h1 (by omega) h3)

@[simp] theorem store_get (buf : Buf) (i : Nat) (v : Int) (x : Nat) :
    (store buf i v).get x = if x = i then v else buf.get x := rfl

/-! ## The edit distance of two lists -/

theorem min3_cases (P : Nat → Prop) (a b c : Nat) (ha : P a) (hb : P b) (hc : P c) :
    P (min (min a b) c) := by
  rcases Nat.le_total a b with h1 | h1
  · rcases Nat.le_total a c with h2 | h2
    · rwa [min_eq_left h1, min_eq_left h2]
    · rwa [min_eq_left h1, min_eq_right h2]
  · rcases Nat.le_total b c with h2 | h2
    · rwa [min_eq_right h1, min_eq_left h2]
    · rwa [min_eq_right h1, min_eq_right h2]

theorem EditStep.step_cons {α : Type} {a b : List α} (c : α) (h : EditStep a b) :
    EditStep (c :: a) (c :: b) := by
  cases h with
  | insertion l r d => exact EditStep.insertion (c :: l) r d
  | deletion l r d => exact EditStep.deletion (c :: l) r d
  | substitution l r d e => exact EditStep.substitution (c :: l) r d e

theorem Transforms.trans_cons {α : Type} {a b : List α} {k : Nat} (c : α) (h : Transforms a b k) :
    Transforms (c :: a) (c :: b) k := by
  induction h with
  | done a => exact Transforms.done _
  | step hs _ ih => exact Transforms.step (hs.step_cons c) ih

theorem Transforms.snoc {α : Type} {a b c : List α} {k : Nat} (h : Transforms a b k)
    (hs : EditStep b c) : Transforms a c (k + 1) := by
  induction h with
  | done a => exact Transforms.step hs (Transforms.done _)
  | step hs1 _ ih => exact Transforms.step hs1 (ih hs)

theorem EditStep.step_reverse {α : Type} {a b : List α} (h : EditStep a b) :
    EditStep a.reverse b.reverse := by
  cases h with
  | insertion l r d =>
    have := EditStep.insertion r.reverse l.reverse d
    simpa using this
  | deletion l r d =>
    have := EditStep.deletion r.reverse l.reverse d
    simpa using this
  | substitution l r d e =>
    have := EditStep.substitution r.reverse l.reverse d e
    simpa using this

theorem Transforms.trans_reverse {α : Type} {a b : List α} {k : Nat} (h : Transforms a b k) :
    Transforms a.reverse b.reverse k := by
  induction h with
  | done a => exact Transforms.done _
  | step hs _ ih => exact Transforms.step hs.step_reverse ih

section Lists

variable {α : Type} [DecidableEq α]

theorem lev_nil_left (ys : List α) : lev [] ys = ys.length := rfl

theorem lev_nil_right (xs : List α) : lev xs [] = xs.length := by
  cases xs with
  | nil => rfl
  | cons x xs => simp [lev, lev.levCons]

theorem lev_cons_cons (x y : α) (xs ys : List α) :
    lev (x :: xs) (y :: ys) =
      min (min (lev xs (y :: ys) + 1) (lev (x :: xs) ys + 1))
        (lev xs ys + if x = y then 0 else 1) := rfl

theorem lev_self (xs : List α) : lev xs xs = 0 := by
  induction xs with
  | nil => rfl
  | cons x xs ih =>
    rw [lev_cons_cons, ih]
    simp

/-- The recursive distance is reached by a sequence of edits. -/
theorem transforms_lev (xs ys : List α) : Transforms xs ys (lev xs ys) := by
  induction xs generalizing ys with
  | nil =>
    induction ys with
    | nil => exact Transforms.done _
    | cons y ys ih =>
      exact Transforms.snoc ih (EditStep.insertion [] ys y)
  | cons x xs ihx =>
    induction ys with
    | nil =>
      rw [lev_nil_right]
      have h := ihx []
      rw [lev_nil_right] at h
      exact Transforms.step (EditStep.deletion [] xs x) h
    | cons y ys ihy =>
      rw [lev_cons_cons]
      have hdel : Transforms (x :: xs) (y :: ys) (lev xs (y :: ys) + 1) :=
        Transforms.step (EditStep.deletion [] xs x) (ihx (y :: ys))
      have hins : Transforms (x :: xs) (y :: ys) (lev (x :: xs) ys + 1) :=
        Transforms.snoc ihy (EditStep.insertion [] ys y)
      have hsub : Transforms (x :: xs) (y :: ys) (lev xs ys + if x = y then 0 else 1) := by
        by_cases hxy : x = y
        · subst hxy
          simpa using (ihx ys).trans_cons x
        · simp only [hxy, if_false]
          exact Transforms.step (EditStep.substitution [] xs x y) ((ihx ys).trans_cons y)
      exact min3_cases _ _ _ _ hdel hins hsub

theorem lev_cons_right_le (xs : List α) (y : α) (ys : List α) :
    lev xs (y :: ys) ≤ lev xs ys + 1 := by
  cases xs with
  | nil => simp [lev_nil_left]
  | cons x xs =>
    rw [lev_cons_cons]
    omega

theorem lev_cons_left_le (x : α) (xs ys : List α) :
    lev (x :: xs) ys ≤ lev xs ys + 1 := by
  cases ys with
  | nil => simp [lev_nil_right]
  | cons y ys =>
    rw [lev_cons_cons]
    omega

theorem lev_le_cons_left (x : α) (xs ys : List α) :
    lev xs ys ≤ lev (x :: xs) ys + 1 := by
  induction ys with
  | nil =>
    simp only [lev_nil_right, List.length_cons]
    omega
  | cons y ys ih =>
    have h2 := lev_cons_right_le xs y ys
    rw [lev_cons_cons]
    split_ifs <;> omega

theorem lev_subst_le (c d : α) (xs ys : List α) :
    lev (c :: xs) ys ≤ lev (d :: xs) ys + 1 := by
  induction ys with
  | nil => simp [lev_nil_right]
  | cons y ys ih =>
    have h2 := lev_cons_right_le (c :: xs) y ys
    have h3 := lev_cons_left_le c xs (y :: ys)
    have h4 : lev (c :: xs) (y :: ys) ≤ lev xs ys + 1 := by
      rw [lev_cons_cons]
      split_ifs <;> omega
    rw [lev_cons_cons d]
    split_ifs <;> omega

theorem lev_cons_congr (e : α) (a b : List α) (h : ∀ ys, lev a ys ≤ lev b ys + 1)
    (ys : List α) : lev (e :: a) ys ≤ lev (e :: b) ys + 1 := by
  induction ys with
  | nil =>
    have := h []
    simp only [lev_nil_right] at this
    simp only [lev_nil_right, List.length_cons]
    omega
  | cons y ys ih =>
    have h1 := h (y :: ys)
    have h2 := h ys
    rw [lev_cons_cons e y a, lev_cons_cons e y b]
    split_ifs <;> omega

/-- A single edit of the first list changes the recursive distance by at most one. -/
theorem EditStep.step_lev_le {a b : List α} (h : EditStep a b) (ys : List α) :
    lev a ys ≤ lev b ys + 1 := by
  cases h with
  | insertion l r c =>
    induction l generalizing ys with
    | nil => exact lev_le_cons_left c r ys
    | cons e l ih => exact lev_cons_congr e _ _ ih ys
  | deletion l r c =>
    induction l generalizing ys with
    | nil => exact lev_cons_left_le c r ys
    | cons e l ih => exact lev_cons_congr e _ _ ih ys
  | substitution l r c d =>
    induction l generalizing ys with
    | nil => exact lev_subst_le c d r ys
    | cons e l ih => exact lev_cons_congr e _ _ ih ys

/-- No sequence of edits is shorter than the recursive distance. -/
theorem Transforms.trans_lev_le {a b : List α} {k : Nat} (h : Transforms a b k) : lev a b ≤ k := by
  induction h with
  | done a => simp [lev_self]
  | @step a b c k hs _ ih =>
    have := hs.step_lev_le c
    omega

theorem isLevenshtein_lev (a b : List α) : IsLevenshtein a b (lev a b) :=
  ⟨transforms_lev a b, fun _ h => h.trans_lev_le⟩

theorem IsLevenshtein.unique {β : Type} {a b : List β} {d e : Nat} (h1 : IsLevenshtein a b d)
    (h2 : IsLevenshtein a b e) : d = e :=
  Nat.le_antisymm (h1.2 _ h2.1) (h2.2 _ h1.1)

theorem lev_reverse (a b : List α) : lev a.reverse b.reverse = lev a b := by
  apply IsLevenshtein.unique (a := a) (b := b) _ (isLevenshtein_lev a b)
  constructor
  · simpa using (transforms_lev a.reverse b.reverse).trans_reverse
  · intro k hk
    exact hk.trans_reverse.trans_lev_le

/-- The recursive distance is the one Mathlib defines, with unit costs. -/
theorem lev_eq_levenshtein (a b : List α) :
    lev a b = levenshtein Levenshtein.defaultCost a b := by
  induction a generalizing b with
  | nil =>
    induction b with
    | nil => simp [lev_nil_left]
    | cons y ys ih =>
      rw [levenshtein_nil_cons, ← ih]
      simp [lev_nil_left]
      omega
  | cons x xs ihx =>
    induction b with
    | nil =>
      rw [levenshtein_cons_nil, ← ihx]
      simp [lev_nil_right]
      omega
    | cons y ys ihy =>
      rw [levenshtein_cons_cons, ← ihx, ← ihy, ← ihx, lev_cons_cons]
      simp only [Levenshtein.defaultCost_delete, Levenshtein.defaultCost_insert,
        Levenshtein.defaultCost_substitute]
      split_ifs <;> omega

end Lists

/-! ## The Levenshtein table -/

theorem EditStep.step_symm {α : Type} {a b : List α} (h : EditStep a b) : EditStep b a := by
  cases h with
  | insertion l r c => exact EditStep.deletion l r c
  | deletion l r c => exact EditStep.insertion l r c
  | substitution l r c d => exact EditStep.substitution l r d c

theorem Transforms.trans_symm {α : Type} {a b : List α} {k : Nat} (h : Transforms a b k) :
    Transforms b a k := by
  induction h with
  | done a => exact Transforms.done _
  | step hs _ ih => exact ih.snoc hs.step_symm

theorem Transforms.eq_of_zero {α : Type} {a b : List α} {k : Nat} (h : Transforms a b k)
    (hk : k = 0) : a = b := by
  cases h with
  | done a => rfl
  | step _ _ => omega

theorem lev_comm {α : Type} [DecidableEq α] (a b : List α) : lev a b = lev b a := by
  apply IsLevenshtein.unique (isLevenshtein_lev a b)
  exact ⟨(transforms_lev b a).trans_symm, fun k hk => hk.trans_symm.trans_lev_le⟩

theorem lev_le_cons_right {α : Type} [DecidableEq α] (xs : List α) (y : α) (ys : List α) :
    lev xs ys ≤ lev xs (y :: ys) + 1 := by
  rw [lev_comm xs ys, lev_comm xs (y :: ys)]
  exact lev_le_cons_left y ys xs

theorem symbols_succ (str : Nat → Byte) (n : Nat) :
    symbols str (n + 1) = symbols str n ++ [str n] := by
  simp [symbols, List.range_succ]

theorem symbols_length (str : Nat → Byte) (n : Nat) : (symbols str n).length = n := by
  simp [symbols]

theorem symbols_reverse_succ (str : Nat → Byte) (n : Nat) :
    (symbols str (n + 1)).reverse = str n :: (symbols str n).reverse := by
  simp [symbols_succ]

theorem D_zero_left (str1 str2 : Nat → Byte) (j : Nat) : D str1 str2 0 j = j := rfl

theorem D_zero_right (str1 str2 : Nat → Byte) (i : Nat) : D str1 str2 i 0 = i := by
  cases i <;> rfl

theorem D_succ_succ (str1 str2 : Nat → Byte) (i j : Nat) :
    D str1 str2 (i + 1) (j + 1) =
      min (min (D str1 str2 i (j + 1) + 1) (D str1 str2 (i + 1) j + 1))
        (D str1 str2 i j + if str1 i = str2 j then 0 else 1) := rfl

/-- The table entry `(i, j)` is the recursive distance of the two prefixes, read backwards. -/
theorem D_eq_lev_reverse (str1 str2 : Nat → Byte) (i j : Nat) :
    D str1 str2 i j = lev (symbols str1 i).reverse (symbols str2 j).reverse := by
  induction i generalizing j with
  | zero => simp [D_zero_left, symbols, lev_nil_left]
  | succ i ihi =>
    induction j with
    | zero => simp [D_zero_right, symbols, lev_nil_right]
    | succ j ihj =>
      rw [D_succ_succ, ihi, ihi, ihj, symbols_reverse_succ, symbols_reverse_succ,
        lev_cons_cons]

theorem D_eq_lev (str1 str2 : Nat → Byte) (i j : Nat) :
    D str1 str2 i j = lev (symbols str1 i) (symbols str2 j) := by
  rw [D_eq_lev_reverse, lev_reverse]

/-- The table entry `(i, j)` is the Levenshtein distance between the first `i` symbols of
`str1` and the first `j` symbols of `str2`. -/
theorem D_isLevenshtein (str1 str2 : Nat → Byte) (i j : Nat) :
    IsLevenshtein (symbols str1 i) (symbols str2 j) (D str1 str2 i j) := by
  rw [D_eq_lev]
  exact isLevenshtein_lev _ _

theorem D_symm (str1 str2 : Nat → Byte) (i j : Nat) : D str1 str2 i j = D str2 str1 j i := by
  rw [D_eq_lev, D_eq_lev, lev_comm]

theorem D_succ_right_le (str1 str2 : Nat → Byte) (i j : Nat) :
    D str1 str2 i (j + 1) ≤ D str1 str2 i j + 1 := by
  rw [D_eq_lev_reverse, D_eq_lev_reverse, symbols_reverse_succ]
  exact lev_cons_right_le _ _ _

theorem D_le_succ_right (str1 str2 : Nat → Byte) (i j : Nat) :
    D str1 str2 i j ≤ D str1 str2 i (j + 1) + 1 := by
  rw [D_eq_lev_reverse, D_eq_lev_reverse str1 str2 i (j + 1), symbols_reverse_succ]
  exact lev_le_cons_right _ _ _

theorem D_succ_left_le (str1 str2 : Nat → Byte) (i j : Nat) :
    D str1 str2 (i + 1) j ≤ D str1 str2 i j + 1 := by
  rw [D_symm str1 str2 (i + 1) j, D_symm str1 str2 i j]
  exact D_succ_right_le _ _ _ _

theorem D_le_succ_left (str1 str2 : Nat → Byte) (i j : Nat) :
    D str1 str2 i j ≤ D str1 str2 (i + 1) j + 1 := by
  rw [D_symm str1 str2 (i + 1) j, D_symm str1 str2 i j]
  exact D_le_succ_right _ _ _ _

/-- On equal symbols the entry is the diagonal neighbour: the shortcut of the scalar
kernels agrees with the three-way minimum. -/
theorem D_succ_succ_of_eq (str1 str2 : Nat → Byte) (i j : Nat) (h : str1 i = str2 j) :
    D str1 str2 (i + 1) (j + 1) = D str1 str2 i j := by
  have h1 := D_le_succ_right str1 str2 i j
  have h2 := D_le_succ_left str1 str2 i j
  rw [D_succ_succ, if_pos h]
  omega

theorem D_succ_succ_of_ne (str1 str2 : Nat → Byte) (i j : Nat) (h : str1 i ≠ str2 j) :
    D str1 str2 (i + 1) (j + 1) =
      min (min (D str1 str2 i (j + 1) + 1) (D str1 str2 (i + 1) j + 1))
        (D str1 str2 i j + 1) := by
  rw [D_succ_succ, if_neg h]

theorem D_diag_le (str1 str2 : Nat → Byte) (n : Nat) : D str1 str2 n n ≤ n := by
  induction n with
  | zero => simp [D_zero_left]
  | succ n ih =>
    rw [D_succ_succ]
    split_ifs <;> omega

theorem D_diag_of_eq (str1 str2 : Nat → Byte) (n : Nat) (h : ∀ i, i < n → str1 i = str2 i) :
    D str1 str2 n n = 0 := by
  induction n with
  | zero => rfl
  | succ n ih =>
    rw [D_succ_succ_of_eq _ _ _ _ (h n (by omega))]
    exact ih (fun i hi => h i (by omega))

theorem D_of_disjoint (str1 str2 : Nat → Byte) (n : Nat)
    (h : ∀ i j, i < n → j < n → str1 i ≠ str2 j) (i j : Nat) (hi : i ≤ n) (hj : j ≤ n) :
    D str1 str2 i j = max i j := by
  induction i generalizing j with
  | zero => simp [D_zero_left]
  | succ i ihi =>
    induction j with
    | zero => simp [D_zero_right]
    | succ j ihj =>
      rw [D_succ_succ_of_ne _ _ _ _ (h i j (by omega) (by omega)), ihi (j + 1) (by omega) hj,
        ihi j (by omega) (by omega), ihj (by omega)]
      omega

theorem symbols_eq_iff (str1 str2 : Nat → Byte) (n : Nat) :
    symbols str1 n = symbols str2 n ↔ ∀ i, i < n → str1 i = str2 i := by
  induction n with
  | zero => simp [symbols]
  | succ n ih =>
    rw [symbols_succ, symbols_succ]
    constructor
    · intro h i hi
      have h' := List.append_inj h (by simp [symbols_length])
      rcases Nat.lt_succ_iff_lt_or_eq.mp hi with h1 | h1
      · exact ih.mp h'.1 i h1
      · subst h1
        simpa using h'.2
    · intro h
      rw [ih.mpr (fun i hi => h i (by omega)), h n (by omega)]

theorem D_diag_pos (str1 str2 : Nat → Byte) (n p : Nat) (hp : p < n) (h : str1 p ≠ str2 p) :
    1 ≤ D str1 str2 n n := by
  by_contra hc
  have h0 : D str1 str2 n n = 0 := by omega
  have := (D_isLevenshtein str1 str2 n n).1.eq_of_zero h0
  exact h ((symbols_eq_iff _ _ _).mp this p hp)

theorem D_diag_le_of_eq_above (str1 str2 : Nat → Byte) (n m : Nat)
    (h : ∀ i, m ≤ i → i < n → str1 i = str2 i) (hmn : m ≤ n) :
    D str1 str2 n n = D str1 str2 m m := by
  induction n with
  | zero =>
    have : m = 0 := by omega
    subst this; rfl
  | succ n ih =>
    by_cases hm : m = n + 1
    · subst hm; rfl
    · rw [D_succ_succ_of_eq _ _ _ _ (h n (by omega) (by omega))]
      exact ih (fun i h1 h2 => h i h1 (by omega)) (by omega)

/-- Sequences that differ in exactly one position are at distance one. -/
theorem D_diag_of_single (str1 str2 : Nat → Byte) (n p : Nat) (hp : p < n)
    (hne : str1 p ≠ str2 p) (heq : ∀ i, i < n → i ≠ p → str1 i = str2 i) :
    D str1 str2 n n = 1 := by
  have h1 := D_diag_pos str1 str2 n p hp hne
  have h2 : D str1 str2 n n = D str1 str2 (p + 1) (p + 1) :=
    D_diag_le_of_eq_above _ _ _ _ (fun i hi1 hi2 => heq i hi2 (by omega)) (by omega)
  have h3 : D str1 str2 p p = 0 :=
    D_diag_of_eq _ _ _ (fun i hi => heq i (by omega) (by omega))
  have h4 : D str1 str2 (p + 1) (p + 1) ≤ D str1 str2 p p + 1 := by
    rw [D_succ_succ]
    split_ifs <;> omega
  omega

/-- A loop of stores to distinct places: afterwards each place holds its value and every
other entry is unchanged. -/
theorem forLoop_store (lo hi : Nat) (body : Nat → Buf → Buf) (f : Nat → Nat) (v : Nat → Int)
    (p : Buf) (hle : lo ≤ hi + 1) (hf : ∀ j j', f j = f j' → j = j')
    (hbody : ∀ j s, lo ≤ j → j ≤ hi → body j s = store s (f j) (v j)) :
    (∀ j, lo ≤ j → j ≤ hi → (forLoop lo hi body p).get (f j) = v j) ∧
    (∀ x, (∀ j, lo ≤ j → j ≤ hi → f j ≠ x) → (forLoop lo hi body p).get x = p.get x) := by
  have key := forLoop_inv
    (fun i s => (∀ j, lo ≤ j → j < i → s.get (f j) = v j) ∧
      (∀ x, (∀ j, lo ≤ j → j < i → f j ≠ x) → s.get x = p.get x))
    lo hi body p hle ⟨fun j h1 h2 => by omega, fun x _ => rfl⟩
    (by
      intro i s h1 h2 ⟨ha, hb⟩
      rw [hbody i s h1 h2]
      constructor
      · intro j hj1 hj2
        rw [store_get]
        by_cases hji : j = i
        · subst hji; simp
        · rw [if_neg (fun h => hji (hf _ _ h))]
          exact ha j hj1 (by omega)
      · intro x hx
        rw [store_get, if_neg (fun h => hx i h1 (by omega) h.symm)]
        exact hb x (fun j hj1 hj2 => hx j hj1 (by omega)))
  exact ⟨fun j h1 h2 => key.1 j h1 (by omega),
    fun x hx => key.2 x (fun j h1 h2 => hx j h1 (by omega))⟩

/-- The table recurrence in the form of the scalar kernels. -/
theorem D_rec_shortcut (str1 str2 : Nat → Byte) (i j : Nat) (hi : 1 ≤ i) (hj : 1 ≤ j) :
    (D str1 str2 i j : Int) =
      if str1 (i - 1) = str2 (j - 1) then (D str1 str2 (i - 1) (j - 1) : Int)
      else min (min ((D str1 str2 (i - 1) j : Int) + 1) ((D str1 str2 i (j - 1) : Int) + 1))
        ((D str1 str2 (i - 1) (j - 1) : Int) + 1) := by
  obtain ⟨i, rfl⟩ : ∃ i', i = i' + 1 := ⟨i - 1, by omega⟩
  obtain ⟨j, rfl⟩ : ∃ j', j = j' + 1 := ⟨j - 1, by omega⟩
  simp only [Nat.add_sub_cancel]
  split_ifs with h
  · rw [D_succ_succ_of_eq _ _ _ _ h]
  · rw [D_succ_succ_of_ne _ _ _ _ h]
    push_cast
    rfl

/-- The table recurrence in the form of the SIMD kernel. -/
theorem D_rec_min (str1 str2 : Nat → Byte) (i j : Nat) (hi : 1 ≤ i) (hj : 1 ≤ j) :
    (D str1 str2 i j : Int) =
      min (min ((D str1 str2 i (j - 1) : Int) + 1) ((D str1 str2 (i - 1) j : Int) + 1))
        ((D str1 str2 (i - 1) (j - 1) : Int) + if str1 (i - 1) = str2 (j - 1) then 0 else 1) := by
  obtain ⟨i, rfl⟩ : ∃ i', i = i' + 1 := ⟨i - 1, by omega⟩
  obtain ⟨j, rfl⟩ : ∃ j', j = j' + 1 := ⟨j - 1, by omega⟩
  simp only [Nat.add_sub_cancel]
  rw [D_succ_succ]
  push_cast
  split_ifs <;> omega

theorem Naive.naive_min_eq (a b c : Int) : Naive.min a b c = Min.min (Min.min a b) c := by
  unfold Naive.min
  simp only
  split_ifs <;> omega

theorem Tiled.tiled_min_eq (a b c : Int) : Tiled.min a b c = Min.min (Min.min a b) c := by
  unfold Tiled.min
  simp only
  split_ifs <;> omega

theorem Parallelized.par_min_eq (a b c : Int) :
    Parallelized.min a b c = Min.min (Min.min a b) c := by
  unfold Parallelized.min
  simp only
  split_ifs <;> omega

theorem Avx2.min_scalar_eq (a b c : Int) :
    Avx2.min_scalar a b c = Min.min (Min.min a b) c := by
  unfold Avx2.min_scalar
  simp only
  split_ifs <;> omega

/-- The loop over `j` of the scalar kernel fills the row `row_offset + i` of the table. -/
theorem Parallelized.par_cell_loop (str1 str2 : Nat → Byte) (ro co w i : Nat) (hi : 1 ≤ i)
    (prev cur : Buf)
    (hprev : ∀ j, j ≤ w → prev.get j = (D str1 str2 (ro + i - 1) (co + j) : Int))
    (hcur : cur.get 0 = (D str1 str2 (ro + i) co : Int)) :
    ∀ j, j ≤ w →
      (forLoop 1 w (Parallelized.cell ro co str1 str2 i prev) cur).get j =
        (D str1 str2 (ro + i) (co + j) : Int) := by
  have key := forLoop_inv
    (fun j s => ∀ j', j' < j → s.get j' = (D str1 str2 (ro + i) (co + j') : Int))
    1 w (Parallelized.cell ro co str1 str2 i prev) cur (by omega)
    (by
      intro j' hj'
      have : j' = 0 := by omega
      subst this
      simpa using hcur)
    (by
      intro j s h1 h2 hs j' hj'
      unfold Parallelized.cell
      simp only [store_get]
      by_cases hjj : j' = j
      · subst hjj
        rw [if_pos rfl, D_rec_shortcut str1 str2 (ro + i) (co + j') (by omega) (by omega)]
        have e1 : co + j' - 1 = co + (j' - 1) := by omega
        rw [e1, Parallelized.par_min_eq, hprev (j' - 1) (by omega), hprev j' h2, hs (j' - 1) (by omega)]
      · rw [if_neg hjj]
        exact hs j' (by omega))
  intro j hj
  exact key j (by omega)

/-- The loop over `i` of the scalar kernel: after the rows `1 .. i - 1`, `prev_row` is the
row `row_offset + i - 1` of the table and the column boundary holds the right edge of the
rows done. -/
theorem Parallelized.par_row_loop (str1 str2 : Nat → Byte) (ro co h w : Nat) (prev cur cols : Buf)
    (hprev : ∀ j, j ≤ w → prev.get j = (D str1 str2 ro (co + j) : Int))
    (hleft : ∀ i, 1 ≤ i → i ≤ h → cols.get (ro + i) = (D str1 str2 (ro + i) co : Int)) :
    (∀ j, j ≤ w →
      (forLoop 1 h (Parallelized.row ro co w str1 str2) ⟨prev, cur, cols⟩).prev_row.get j =
        (D str1 str2 (ro + h) (co + j) : Int)) ∧
    (∀ x, (forLoop 1 h (Parallelized.row ro co w str1 str2) ⟨prev, cur, cols⟩).global_cols.get x =
      if ro < x ∧ x ≤ ro + h then (D str1 str2 x (co + w) : Int) else cols.get x) := by
  have key := forLoop_inv
    (fun i (s : Parallelized.Rows) =>
      (∀ j, j ≤ w → s.prev_row.get j = (D str1 str2 (ro + i - 1) (co + j) : Int)) ∧
      (∀ x, s.global_cols.get x =
        if ro < x ∧ x < ro + i then (D str1 str2 x (co + w) : Int) else cols.get x))
    1 h (Parallelized.row ro co w str1 str2) ⟨prev, cur, cols⟩ (by omega)
    ⟨by simpa using hprev, by
      intro x
      rw [if_neg (by omega)]⟩
    (by
      intro i s h1 h2 ⟨hp, hc⟩
      have hcells := Parallelized.par_cell_loop str1 str2 ro co w i h1 s.prev_row
        (store s.cur_row 0 (s.global_cols.get (ro + i))) hp
        (by
          rw [store_get, if_pos rfl, hc, if_neg (by omega)]
          exact hleft i h1 h2)
      unfold Parallelized.row
      refine ⟨?_, ?_⟩
      · intro j hj
        simpa using hcells j hj
      · intro x
        simp only [store_get]
        by_cases hx : x = ro + i
        · subst hx
          rw [if_pos rfl, if_pos (by omega)]
          exact hcells w (le_refl _)
        · rw [if_neg hx, hc]
          by_cases hx2 : ro < x ∧ x < ro + i
          · rw [if_pos hx2, if_pos (by omega)]
          · rw [if_neg hx2, if_neg (by omega)])
  refine ⟨?_, ?_⟩
  · intro j hj
    simpa using key.1 j hj
  · intro x
    rw [key.2 x]
    by_cases hx : ro < x ∧ x ≤ ro + h
    · rw [if_pos hx, if_pos (by omega)]
    · rw [if_neg hx, if_neg (by omega)]

/-- The write-back loop of a tile kernel. -/
theorem writeback_get (off n : Nat) (v : Nat → Int) (g : Buf) (x : Nat) :
    (forLoop 1 n (fun j g => store g (off + j) (v j)) g).get x =
      if off < x ∧ x ≤ off + n then v (x - off) else g.get x := by
  have hst := forLoop_store 1 n (fun j g => store g (off + j) (v j)) (fun j => off + j) v g
    (by omega) (fun _ _ h => by dsimp only at h; omega) (fun _ _ _ _ => rfl)
  dsimp only at hst
  by_cases hx : off < x ∧ x ≤ off + n
  · rw [if_pos hx]
    have := hst.1 (x - off) (by omega) (by omega)
    have e : off + (x - off) = x := by omega
    rwa [e] at this
  · rw [if_neg hx]
    exact hst.2 x (fun j h1 h2 => by omega)

theorem Parallelized.par_init_prev (str1 str2 : Nat → Byte) (ro co h w : Nat) (rr cols prev : Buf)
    (hpre : TilePre str1 str2 ro co h w rr cols) :
    ∀ j, j ≤ w →
      (store (forLoop 1 w (fun j p => store p j (rr.get (co + j))) prev) 0
        (if co = 0 then (ro : Int) else if ro = 0 then (co : Int) else rr.get co)).get j =
      (D str1 str2 ro (co + j) : Int) := by
  intro j hj
  have hst := forLoop_store 1 w (fun j p => store p j (rr.get (co + j))) (fun j => j)
    (fun j => rr.get (co + j)) prev (by omega) (fun _ _ h => h) (fun _ _ _ _ => rfl)
  dsimp only at hst
  rw [store_get]
  by_cases hj0 : j = 0
  · subst hj0
    rw [if_pos rfl]
    by_cases hco : co = 0
    · subst hco
      simp [D_zero_right]
    · rw [if_neg hco]
      by_cases hro : ro = 0
      · subst hro
        simp [D_zero_left]
      · rw [if_neg hro]
        simpa using hpre.corner hco hro
  · rw [if_neg hj0, hst.1 j (by omega) hj]
    exact hpre.top j (by omega) hj

/-- The scalar kernel of ``parallelized_edit_distance.c``: on the table's boundary values it leaves
the table's values. -/
theorem Parallelized.par_process_tile_post (str1 str2 : Nat → Byte) (ro co h w : Nat)
    (rr rw cols prev cur : Buf) (hpre : TilePre str1 str2 ro co h w rr cols) :
    TilePost str1 str2 ro co h w rw cols
      (Parallelized.process_tile ro co rr rw cols h w str1 str2 prev cur).1 := by
  have hrow := Parallelized.par_row_loop str1 str2 ro co h w _ cur cols
    (Parallelized.par_init_prev str1 str2 ro co h w rr cols prev hpre) hpre.left
  unfold Parallelized.process_tile
  refine ⟨?_, ?_, ?_⟩
  · intro x
    simp only
    rw [writeback_get]
    by_cases hx : co < x ∧ x ≤ co + w
    · rw [if_pos hx, if_pos hx, hrow.1 (x - co) (by omega)]
      have e : co + (x - co) = x := by omega
      rw [e]
    · rw [if_neg hx, if_neg hx]
  · intro x
    exact hrow.2 x
  · exact hrow.1 w (le_refl _)

/-- The loop over `j` of the scalar kernel fills the row `row_offset + i` of the table. -/
theorem Tiled.tiled_cell_loop (str1 str2 : Nat → Byte) (ro co w i : Nat) (hi : 1 ≤ i)
    (prev cur : Buf)
    (hprev : ∀ j, j ≤ w → prev.get j = (D str1 str2 (ro + i - 1) (co + j) : Int))
    (hcur : cur.get 0 = (D str1 str2 (ro + i) co : Int)) :
    ∀ j, j ≤ w →
      (forLoop 1 w (Tiled.cell ro co str1 str2 i prev) cur).get j =
        (D str1 str2 (ro + i) (co + j) : Int) := by
  have key := forLoop_inv
    (fun j s => ∀ j', j' < j → s.get j' = (D str1 str2 (ro + i) (co + j') : Int))
    1 w (Tiled.cell ro co str1 str2 i prev) cur (by omega)
    (by
      intro j' hj'
      have : j' = 0 := by omega
      subst this
      simpa using hcur)
    (by
      intro j s h1 h2 hs j' hj'
      unfold Tiled.cell
      simp only [store_get]
      by_cases hjj : j' = j
      · subst hjj
        rw [if_pos rfl, D_rec_shortcut str1 str2 (ro + i) (co + j') (by omega) (by omega)]
        have e1 : co + j' - 1 = co + (j' - 1) := by omega
        rw [e1, Tiled.tiled_min_eq, hprev (j' - 1) (by omega), hprev j' h2, hs (j' - 1) (by omega)]
      · rw [if_neg hjj]
        exact hs j' (by omega))
  intro j hj
  exact key j (by omega)

/-- The loop over `i` of the scalar kernel: after the rows `1 .. i - 1`, `prev_row` is the
row `row_offset + i - 1` of the table and the column boundary holds the right edge of the
rows done. -/
theorem Tiled.tiled_row_loop (str1 str2 : Nat → Byte) (ro co h w : Nat) (prev cur cols : Buf)
    (hprev : ∀ j, j ≤ w → prev.get j = (D str1 str2 ro (co + j) : Int))
    (hleft : ∀ i, 1 ≤ i → i ≤ h → cols.get (ro + i) = (D str1 str2 (ro + i) co : Int)) :
    (∀ j, j ≤ w →
      (forLoop 1 h (Tiled.row ro co w str1 str2) ⟨prev, cur, cols⟩).prev_row.get j =
        (D str1 str2 (ro + h) (co + j) : Int)) ∧
    (∀ x, (forLoop 1 h (Tiled.row ro co w str1 str2) ⟨prev, cur, cols⟩).global_cols.get x =
      if ro < x ∧ x ≤ ro + h then (D str1 str2 x (co + w) : Int) else cols.get x) := by
  have key := forLoop_inv
    (fun i (s : Tiled.Rows) =>
      (∀ j, j ≤ w → s.prev_row.get j = (D str1 str2 (ro + i - 1) (co + j) : Int)) ∧
      (∀ x, s.global_cols.get x =
        if ro < x ∧ x < ro + i then (D str1 str2 x (co + w) : Int) else cols.get x))
    1 h (Tiled.row ro co w str1 str2) ⟨prev, cur, cols⟩ (by omega)
    ⟨by simpa using hprev, by
      intro x
      rw [if_neg (by omega)]⟩
    (by
      intro i s h1 h2 ⟨hp, hc⟩
      have hcells := Tiled.tiled_cell_loop str1 str2 ro co w i h1 s.prev_row
        (store s.cur_row 0 (s.global_cols.get (ro + i))) hp
        (by
          rw [store_get, if_pos rfl, hc, if_neg (by omega)]
          exact hleft i h1 h2)
      unfold Tiled.row
      refine ⟨?_, ?_⟩
      · intro j hj
        simpa using hcells j hj
      · intro x
        simp only [store_get]
        by_cases hx : x = ro + i
        · subst hx
          rw [if_pos rfl, if_pos (by omega)]
          exact hcells w (le_refl _)
        · rw [if_neg hx, hc]
          by_cases hx2 : ro < x ∧ x < ro + i
          · rw [if_pos hx2, if_pos (by omega)]
          · rw [if_neg hx2, if_neg (by omega)])
  refine ⟨?_, ?_⟩
  · intro j hj
    simpa using key.1 j hj
  · intro x
    rw [key.2 x]
    by_cases hx : ro < x ∧ x ≤ ro + h
    · rw [if_pos hx, if_pos (by omega)]
    · rw [if_neg hx, if_neg (by omega)]

theorem Tiled.tiled_init_prev (str1 str2 : Nat → Byte) (ro co h w : Nat) (rr cols prev : Buf)
    (hpre : TilePre str1 str2 ro co h w rr cols) :
    ∀ j, j ≤ w →
      (store (forLoop 1 w (fun j p => store p j (rr.get (co + j))) prev) 0
        (if co = 0 then (ro : Int) else if ro = 0 then (co : Int) else rr.get co)).get j =
      (D str1 str2 ro (co + j) : Int) := by
  intro j hj
  have hst := forLoop_store 1 w (fun j p => store p j (rr.get (co + j))) (fun j => j)
    (fun j => rr.get (co + j)) prev (by omega) (fun _ _ h => h) (fun _ _ _ _ => rfl)
  dsimp only at hst
  rw [store_get]
  by_cases hj0 : j = 0
  · subst hj0
    rw [if_pos rfl]
    by_cases hco : co = 0
    · subst hco
      simp [D_zero_right]
    · rw [if_neg hco]
      by_cases hro : ro = 0
      · subst hro
        simp [D_zero_left]
      · rw [if_neg hro]
        simpa using hpre.corner hco hro
  · rw [if_neg hj0, hst.1 j (by omega) hj]
    exact hpre.top j (by omega) hj

/-- The scalar kernel of ``tiled_edit_distance.c``: on the table's boundary values it leaves
the table's values. -/
theorem Tiled.tiled_process_tile_post (str1 str2 : Nat → Byte) (ro co h w : Nat)
    (rr rw cols prev cur : Buf) (hpre : TilePre str1 str2 ro co h w rr cols) :
    TilePost str1 str2 ro co h w rw cols
      (Tiled.process_tile true true prev cur ro co rr rw cols h w str1 str2) := by
  have hrow := Tiled.tiled_row_loop str1 str2 ro co h w _ cur cols
    (Tiled.tiled_init_prev str1 str2 ro co h w rr cols prev hpre) hpre.left
  unfold Tiled.process_tile
  simp only [Bool.not_true, Bool.or_self, Bool.false_eq_true, if_false]
  refine ⟨?_, ?_, ?_⟩
  · intro x
    simp only
    rw [writeback_get]
    by_cases hx : co < x ∧ x ≤ co + w
    · rw [if_pos hx, if_pos hx, hrow.1 (x - co) (by omega)]
      have e : co + (x - co) = x := by omega
      rw [e]
    · rw [if_neg hx, if_neg hx]
  · intro x
    exact hrow.2 x
  · exact hrow.1 w (le_refl _)

/-! ## `naive_edit_distance` -/

theorem Naive.naive_cell_loop (str1 str2 : Nat → Byte) (n i : Nat) (hi : 1 ≤ i) (prev cur : Buf)
    (hprev : ∀ j, j ≤ n → prev.get j = (D str1 str2 (i - 1) j : Int))
    (hcur : cur.get 0 = (D str1 str2 i 0 : Int)) :
    ∀ j, j ≤ n →
      (forLoop 1 n (Naive.cell str1 str2 i prev) cur).get j = (D str1 str2 i j : Int) := by
  have key := forLoop_inv
    (fun j s => ∀ j', j' < j → s.get j' = (D str1 str2 i j' : Int))
    1 n (Naive.cell str1 str2 i prev) cur (by omega)
    (by
      intro j' hj'
      have : j' = 0 := by omega
      subst this
      exact hcur)
    (by
      intro j s h1 h2 hs j' hj'
      unfold Naive.cell
      simp only [store_get]
      by_cases hjj : j' = j
      · subst hjj
        rw [if_pos rfl, D_rec_shortcut str1 str2 i j' hi h1, Naive.naive_min_eq,
          hprev (j' - 1) (by omega), hprev j' h2, hs (j' - 1) (by omega)]
      · rw [if_neg hjj]
        exact hs j' (by omega))
  intro j hj
  exact key j (by omega)

theorem Naive.naive_row_loop (str1 str2 : Nat → Byte) (n : Nat) (prev cur : Buf)
    (hprev : ∀ j, j ≤ n → prev.get j = (j : Int)) :
    ∀ j, j ≤ n →
      (forLoop 1 n (Naive.row str1 str2 n) (prev, cur)).1.get j = (D str1 str2 n j : Int) := by
  have key := forLoop_inv
    (fun i (s : Buf × Buf) => ∀ j, j ≤ n → s.1.get j = (D str1 str2 (i - 1) j : Int))
    1 n (Naive.row str1 str2 n) (prev, cur) (by omega)
    (by
      intro j hj
      simpa [D_zero_left] using hprev j hj)
    (by
      intro i s h1 h2 hs j hj
      unfold Naive.row
      simp only [Nat.add_sub_cancel]
      exact Naive.naive_cell_loop str1 str2 n i h1 s.1 _ hs (by simp [D_zero_right]) j hj)
  intro j hj
  simpa using key j hj

/-- With both rows allocated, `naive_edit_distance` returns the table's corner entry. -/
theorem naive_value (env : Env) (str1 str2 : Nat → Byte) (n : Nat) (hn : 1 ≤ n)
    (h0 : env.malloc_ok 0 = true) (h1 : env.malloc_ok 1 = true) :
    (naive_edit_distance env str1 str2 n).value = (D str1 str2 n n : Int) := by
  unfold naive_edit_distance
  rw [if_neg (by omega)]
  simp only [h0, h1, Bool.not_true, Bool.or_self, Bool.false_eq_true, if_false]
  apply Naive.naive_row_loop
  · intro j hj
    have hst := forLoop_store 0 n (fun i p => store p i (i : Int)) (fun j => j)
      (fun j => (j : Int)) (env.malloc_fresh 0) (by omega) (fun _ _ h => h)
      (fun _ _ _ _ => rfl)
    exact hst.1 j (by omega) hj
  · exact le_refl _

/-! ## The SIMD tile kernel -/

namespace Avx2

theorem storeu_get (mem : Buf) (p : Nat) (v : Vec) (x : Nat) :
    (_mm256_storeu_si256 mem p v).get x =
      if p ≤ x ∧ x < p + 8 then v (x - p) else mem.get x := by
  unfold _mm256_storeu_si256
  simp only [store_get]
  by_cases h : p ≤ x ∧ x < p + 8
  · rw [if_pos h]
    obtain ⟨l, rfl⟩ : ∃ l, x = p + l := ⟨x - p, by omega⟩
    have hl : l < 8 := by omega
    simp only [Nat.add_sub_cancel_left]
    interval_cases l <;> simp
  · rw [if_neg h]
    have h0 : x ≠ p := by omega
    have h1 : x ≠ p + 1 := by omega
    have h2 : x ≠ p + 2 := by omega
    have h3 : x ≠ p + 3 := by omega
    have h4 : x ≠ p + 4 := by omega
    have h5 : x ≠ p + 5 := by omega
    have h6 : x ≠ p + 6 := by omega
    have h7 : x ≠ p + 7 := by omega
    simp [h0, h1, h2, h3, h4, h5, h6, h7]

theorem sext8_inj (a b : Byte) : sext8 a = sext8 b ↔ a = b := by
  constructor
  · intro h
    apply UInt8.ext
    have ha : a.toNat < 256 := a.toNat_lt
    have hb : b.toNat < 256 := b.toNat_lt
    unfold sext8 at h
    split_ifs at h <;> omega
  · intro h
    rw [h]

theorem reverse_lane (l : Nat) (hl : l < 8) :
    ((_mm256_set_epi32 0 1 2 3 4 5 6 7 l) % 8).toNat = 7 - l := by
  interval_cases l <;> rfl

/-- One lane of the character comparison of the vector path: the cost of the cell in row
`i + l`, for the bytes at `p` of `str1` and the reversed window at `q` of `str2`. -/
theorem cost_lane (str1 str2 : Nat → Byte) (p q l : Nat) (hl : l < 8) :
    _mm256_add_epi32
      (_mm256_cmpeq_epi32 (_mm256_cvtepi8_epi32 (memcpy8 str1 p))
        (_mm256_permutevar8x32_epi32 (_mm256_cvtepi8_epi32 (memcpy8 str2 q))
          (_mm256_set_epi32 0 1 2 3 4 5 6 7)))
      (_mm256_set1_epi32 1) l =
    if str1 (p + l) = str2 (q + (7 - l)) then 0 else 1 := by
  simp only [_mm256_add_epi32, _mm256_cmpeq_epi32, _mm256_cvtepi8_epi32, memcpy8,
    _mm256_permutevar8x32_epi32, _mm256_set1_epi32, reverse_lane l hl, sext8_inj]
  split_ifs <;> rfl

theorem min_vector_lane (a b c : Vec) (l : Nat) :
    min_vector a b c l = min_scalar (a l) (b l) (c l) := by
  simp only [min_vector, _mm256_min_epi32, min_scalar]

theorem scalar_cell_eq (ro co h : Nat) (str1 str2 : Nat → Byte) (k i : Nat) (buffer : Buf) :
    scalar_cell ro co h str1 str2 k i buffer =
      store buffer (idx h k i) (cell_value ro co h str1 str2 k i buffer) := rfl

end Avx2

namespace Avx2

/-- One lane of the vector path is the value the scalar cleanup loop computes for that
cell. -/
theorem lane_value (ro co h : Nat) (str1 str2 : Nat → Byte) (k i' l q r : Nat) (buf : Buf)
    (hl : l < 8) (hi : 1 ≤ i') (hq : q + (7 - l) = co + (k - (i' + l)) - 1)
    (hr : r = ro + i' - 1) :
    min_vector
      (_mm256_add_epi32 (_mm256_loadu_si256 buf (idx h (k - 1) 0 + i')) (_mm256_set1_epi32 1))
      (_mm256_add_epi32 (_mm256_loadu_si256 buf (idx h (k - 1) 0 + (i' - 1)))
        (_mm256_set1_epi32 1))
      (_mm256_add_epi32 (_mm256_loadu_si256 buf (idx h (k - 2) 0 + (i' - 1)))
        (_mm256_add_epi32
          (_mm256_cmpeq_epi32 (_mm256_cvtepi8_epi32 (memcpy8 str1 r))
            (_mm256_permutevar8x32_epi32 (_mm256_cvtepi8_epi32 (memcpy8 str2 q))
              (_mm256_set_epi32 0 1 2 3 4 5 6 7)))
          (_mm256_set1_epi32 1))) l =
    cell_value ro co h str1 str2 k (i' + l) buf := by
  rw [min_vector_lane]
  unfold cell_value
  have hc := cost_lane str1 str2 r q l hl
  simp only [_mm256_add_epi32, _mm256_loadu_si256, _mm256_set1_epi32] at hc ⊢
  rw [hc, hq, hr]
  have e1 : idx h (k - 1) 0 + i' + l = idx h (k - 1) (i' + l) := by unfold idx; omega
  have e2 : idx h (k - 1) 0 + (i' - 1) + l = idx h (k - 1) (i' + l - 1) := by
    unfold idx; omega
  have e3 : idx h (k - 2) 0 + (i' - 1) + l = idx h (k - 1 - 1) (i' + l - 1) := by
    unfold idx
    have : k - 1 - 1 = k - 2 := by omega
    rw [this]; omega
  have e4 : ro + i' - 1 + l = ro + (i' + l) - 1 := by omega
  rw [e1, e2, e3, e4]

theorem vector_body_get (ro co h : Nat) (str1 str2 : Nat → Byte) (k i : Nat) (buf : Buf)
    (hi : 1 ≤ i) (hk : i + 16 ≤ k) (x : Nat) :
    (vector_body ro co h str1 str2 k i buf).get x =
      if idx h k i ≤ x ∧ x < idx h k i + 16 then
        cell_value ro co h str1 str2 k (i + (x - idx h k i)) buf
      else buf.get x := by
  have e8 : idx h k (i + 8) = idx h k i + 8 := by unfold idx; omega
  simp only [vector_body, storeu_get, e8]
  by_cases h2 : idx h k i + 8 ≤ x ∧ x < idx h k i + 8 + 8
  · rw [if_pos h2, if_pos (by omega)]
    obtain ⟨l, rfl⟩ : ∃ l, x = idx h k i + 8 + l := ⟨x - (idx h k i + 8), by omega⟩
    have hl : l < 8 := by omega
    have e : idx h k i + 8 + l - idx h k i = 8 + l := by omega
    rw [Nat.add_sub_cancel_left, e, ← Nat.add_assoc i 8 l]
    have e5 : i - 1 + 8 = i + 8 - 1 := by omega
    rw [e5]
    exact lane_value ro co h str1 str2 k (i + 8) l _ _ buf hl (by omega) (by omega) (by omega)
  · rw [if_neg h2]
    by_cases h1 : idx h k i ≤ x ∧ x < idx h k i + 8
    · rw [if_pos h1, if_pos (by omega)]
      obtain ⟨l, rfl⟩ : ∃ l, x = idx h k i + l := ⟨x - idx h k i, by omega⟩
      have hl : l < 8 := by omega
      rw [Nat.add_sub_cancel_left]
      exact lane_value ro co h str1 str2 k i l _ _ buf hl hi (by omega) (by omega)
    · rw [if_neg h1, if_neg (by omega)]

end Avx2

namespace Avx2

theorem idx_inj (h k i k' i' : Nat) (hi : i ≤ h) (hi' : i' ≤ h)
    (he : idx h k i = idx h k' i') : k = k' ∧ i = i' := by
  unfold idx at he
  rcases Nat.lt_trichotomy k k' with hlt | heq | hgt
  · have := Nat.mul_le_mul_right (h + 1) (Nat.succ_le_of_lt hlt)
    rw [Nat.succ_mul] at this
    omega
  · subst heq
    omega
  · have := Nat.mul_le_mul_right (h + 1) (Nat.succ_le_of_lt hgt)
    rw [Nat.succ_mul] at this
    omega

theorem idx_succ (h k i m : Nat) : idx h k i + m = idx h k (i + m) := by
  unfold idx; omega

/-- From the cells of the two previous diagonals the cleanup recurrence yields the table
entry. -/
theorem cell_value_eq (str1 str2 : Nat → Byte) (ro co h w k i0 i : Nat) (buf : Buf)
    (hK : Known str1 str2 ro co h w k i0 buf) (h1 : 1 ≤ i) (h2 : i ≤ h) (h3 : i < k)
    (h4 : k ≤ i + w) :
    cell_value ro co h str1 str2 k i buf =
      (D str1 str2 (ro + i) (co + (k - i)) : Int) := by
  unfold cell_value
  have a1 := hK i (k - i - 1) h2 (by omega) (Or.inr (Or.inr (Or.inl (by omega))))
  have a2 := hK (i - 1) (k - i) (by omega) (by omega) (Or.inr (Or.inr (Or.inl (by omega))))
  have a3 := hK (i - 1) (k - i - 1) (by omega) (by omega)
    (Or.inr (Or.inr (Or.inl (by omega))))
  have e1 : i + (k - i - 1) = k - 1 := by omega
  have e2 : i - 1 + (k - i) = k - 1 := by omega
  have e3 : i - 1 + (k - i - 1) = k - 1 - 1 := by omega
  rw [e1] at a1
  rw [e2] at a2
  rw [e3] at a3
  rw [a1, a2, a3, min_scalar_eq, D_rec_min str1 str2 (ro + i) (co + (k - i)) (by omega)
    (by omega)]
  have e4 : ro + i - 1 = ro + (i - 1) := by omega
  have e5 : co + (k - i) - 1 = co + (k - i - 1) := by omega
  rw [e4, e5]

/-- Writing the recurrence values into the rows `i0 .. i1 - 1` of diagonal `k` extends what
the buffer holds of the table. -/
theorem known_step (str1 str2 : Nat → Byte) (ro co h w k i0 i1 : Nat) (buf buf' : Buf)
    (hK : Known str1 str2 ro co h w k i0 buf) (h1 : 1 ≤ i0) (hle : i0 ≤ i1)
    (hi1 : i1 ≤ h + 1) (hk : i1 ≤ k)
    (hbuf : ∀ x, buf'.get x =
      if idx h k i0 ≤ x ∧ x < idx h k i0 + (i1 - i0) then
        cell_value ro co h str1 str2 k (i0 + (x - idx h k i0)) buf
      else buf.get x) :
    Known str1 str2 ro co h w k i1 buf' := by
  intro i j hi hj hc
  rw [hbuf]
  by_cases hin : i + j = k ∧ i0 ≤ i ∧ i < i1
  · obtain ⟨hs, ha, hb⟩ := hin
    have e : idx h (i + j) i = idx h k i0 + (i - i0) := by
      rw [idx_succ, hs]
      congr 1
      omega
    rw [if_pos (by omega), e, Nat.add_sub_cancel_left]
    have e2 : i0 + (i - i0) = i := by omega
    rw [e2, cell_value_eq str1 str2 ro co h w k i0 i buf hK (by omega) hi (by omega)
      (by omega)]
    have e3 : k - i = j := by omega
    rw [e3]
  · rw [if_neg]
    · apply hK i j hi hj
      rcases hc with hc | hc | hc | hc
      · exact Or.inl hc
      · exact Or.inr (Or.inl hc)
      · exact Or.inr (Or.inr (Or.inl hc))
      · exact Or.inr (Or.inr (Or.inr ⟨hc.1, by omega⟩))
    · intro hx
      apply hin
      have e : idx h (i + j) i = idx h k (i0 + (idx h (i + j) i - idx h k i0)) := by
        rw [← idx_succ]
        omega
      have := idx_inj h _ _ _ _ hi (by omega) e
      omega

end Avx2

namespace Avx2

theorem known_scalar_cell (str1 str2 : Nat → Byte) (ro co h w k i : Nat) (buf : Buf)
    (hK : Known str1 str2 ro co h w k i buf) (h1 : 1 ≤ i) (h2 : i ≤ h) (h3 : i < k) :
    Known str1 str2 ro co h w k (i + 1) (scalar_cell ro co h str1 str2 k i buf) := by
  apply known_step str1 str2 ro co h w k i (i + 1) buf _ hK h1 (by omega) (by omega)
    (by omega)
  intro x
  rw [scalar_cell_eq, store_get]
  by_cases hx : x = idx h k i
  · subst hx
    rw [if_pos rfl, if_pos (by omega), Nat.sub_self, Nat.add_zero]
  · rw [if_neg hx, if_neg (by omega)]

theorem known_vector_body (str1 str2 : Nat → Byte) (ro co h w k i : Nat) (buf : Buf)
    (hK : Known str1 str2 ro co h w k i buf) (h1 : 1 ≤ i) (h2 : i + 15 ≤ h)
    (h3 : i + 15 < k) :
    Known str1 str2 ro co h w k (i + 16) (vector_body ro co h str1 str2 k i buf) := by
  apply known_step str1 str2 ro co h w k i (i + 16) buf _ hK h1 (by omega) (by omega)
    (by omega)
  intro x
  rw [vector_body_get ro co h str1 str2 k i buf h1 (by omega)]
  have e : i + 16 - i = 16 := by omega
  rw [e]

/-- The vector loop extends what the buffer holds of the table up to the row it stops at. -/
theorem known_vector_loop (str1 str2 : Nat → Byte) (ro co h w k max_i : Nat)
    (hmax : max_i ≤ h) (hmaxk : max_i < k) (fuel : Nat) :
    ∀ (i : Nat) (buf : Buf), Known str1 str2 ro co h w k i buf → 1 ≤ i → i ≤ max_i + 1 →
      Known str1 str2 ro co h w k
        (vector_loop ro co h str1 str2 k max_i fuel i buf).1
        (vector_loop ro co h str1 str2 k max_i fuel i buf).2 ∧
      1 ≤ (vector_loop ro co h str1 str2 k max_i fuel i buf).1 ∧
      (vector_loop ro co h str1 str2 k max_i fuel i buf).1 ≤ max_i + 1 := by
  induction fuel with
  | zero =>
    intro i buf hK h1 h2
    exact ⟨hK, h1, h2⟩
  | succ fuel ih =>
    intro i buf hK h1 h2
    unfold vector_loop
    by_cases hc : (i : Int) ≤ (max_i : Int) - 15
    · rw [if_pos hc]
      simp only
      by_cases hg : (co : Int) + ((k - i : Nat) : Int) - 16 < 0
      · rw [if_pos hg]
        exact ⟨hK, h1, h2⟩
      · rw [if_neg hg]
        exact ih (i + 16) _
          (known_vector_body str1 str2 ro co h w k i buf hK h1 (by omega) (by omega))
          (by omega) (by omega)
    · rw [if_neg hc]
      exact ⟨hK, h1, h2⟩

/-- The iteration bound of the vector loop is never what stops it: with any two bounds that
allow `i` to pass `max_i - 15` the loop does the same. -/
theorem vector_loop_bound (ro co h : Nat) (str1 str2 : Nat → Byte) (k max_i : Nat)
    (fuel1 : Nat) :
    ∀ (fuel2 i : Nat) (buf : Buf), max_i < i + 15 + 16 * fuel1 → max_i < i + 15 + 16 * fuel2 →
      vector_loop ro co h str1 str2 k max_i fuel1 i buf =
        vector_loop ro co h str1 str2 k max_i fuel2 i buf := by
  induction fuel1 with
  | zero =>
    intro fuel2 i buf h1 _
    cases fuel2 with
    | zero => rfl
    | succ fuel2 =>
      unfold vector_loop
      rw [if_neg (by omega)]
  | succ fuel1 ih =>
    intro fuel2 i buf h1 h2
    cases fuel2 with
    | zero =>
      unfold vector_loop
      rw [if_neg (by omega)]
    | succ fuel2 =>
      rw [vector_loop, vector_loop]
      by_cases hc : (i : Int) ≤ (max_i : Int) - 15
      · rw [if_pos hc, if_pos hc]
        simp only
        by_cases hg : (co : Int) + ((k - i : Nat) : Int) - 16 < 0
        · rw [if_pos hg, if_pos hg]
        · rw [if_neg hg, if_neg hg]
          exact ih fuel2 (i + 16) _ (by omega) (by omega)
      · rw [if_neg hc, if_neg hc]

/-- The scalar cleanup loop completes the diagonal. -/
theorem known_cleanup (str1 str2 : Nat → Byte) (ro co h w k max_i : Nat)
    (hmax : max_i ≤ h) (hmaxk : max_i < k) (i : Nat) (buf : Buf)
    (hK : Known str1 str2 ro co h w k i buf) (h1 : 1 ≤ i) (h2 : i ≤ max_i + 1) :
    Known str1 str2 ro co h w k (max_i + 1)
      (forLoop i max_i (scalar_cell ro co h str1 str2 k) buf) :=
  forLoop_inv (fun i' s => Known str1 str2 ro co h w k i' s ∧ i ≤ i') i max_i
    (scalar_cell ro co h str1 str2 k) buf h2 ⟨hK, le_refl _⟩
    (fun i' s ha hb hs =>
      ⟨known_scalar_cell str1 str2 ro co h w k i' s hs.1 (by omega) (by omega) (by omega),
        by omega⟩) |>.1

/-- One iteration of the loop over the diagonals. -/
theorem known_diagonal (str1 str2 : Nat → Byte) (ro co h w k : Nat) (buf : Buf)
    (hk : 2 ≤ k) (hkle : k ≤ h + w) (hK : Known str1 str2 ro co h w k 0 buf) :
    Known str1 str2 ro co h w (k + 1) 0 (diagonal ro co h w str1 str2 k buf) := by
  unfold diagonal
  simp only
  have hem : (if (k : Int) - (w : Int) > 1 then k - w else 1) ≤
      (if (k : Int) - 1 < (h : Int) then k - 1 else h) + 1 := by
    split_ifs <;> omega
  generalize hmin : (if (k : Int) - (w : Int) > 1 then k - w else 1) = min_i at hem ⊢
  generalize hmax : (if (k : Int) - 1 < (h : Int) then k - 1 else h) = max_i at hem ⊢
  have hmin1 : 1 ≤ min_i := by
    rw [← hmin]; split_ifs <;> omega
  have hmin2 : k ≤ min_i + w := by
    rw [← hmin]; split_ifs <;> omega
  have hmax1 : max_i ≤ h := by
    rw [← hmax]; split_ifs <;> omega
  have hmax2 : max_i < k := by
    rw [← hmax]; split_ifs <;> omega
  have hmax3 : k ≤ max_i + 1 ∨ max_i = h := by
    rw [← hmax]; split_ifs <;> omega
  have hK0 : Known str1 str2 ro co h w k min_i buf := by
    intro i j hi hj hc
    apply hK i j hi hj
    rcases hc with hc | hc | hc | hc
    · exact Or.inl hc
    · exact Or.inr (Or.inl hc)
    · exact Or.inr (Or.inr (Or.inl hc))
    · by_cases hi0 : i = 0
      · exact Or.inl hi0
      · exfalso
        rw [← hmin] at hc
        split_ifs at hc <;> omega
  · have hv := known_vector_loop str1 str2 ro co h w k max_i hmax1 hmax2 max_i min_i buf hK0
      hmin1 hem
    have hc := known_cleanup str1 str2 ro co h w k max_i hmax1 hmax2 _ _ hv.1 hv.2.1 hv.2.2
    intro i j hi hj hcond
    apply hc i j hi hj
    rcases hcond with hcond | hcond | hcond | hcond
    · exact Or.inl hcond
    · exact Or.inr (Or.inl hcond)
    · by_cases hj0 : j = 0
      · exact Or.inr (Or.inl hj0)
      · by_cases hlt : i + j < k
        · exact Or.inr (Or.inr (Or.inl hlt))
        · exact Or.inr (Or.inr (Or.inr ⟨by omega, by omega⟩))
    · omega

end Avx2

namespace Avx2

theorem idx_diag_inj (h j j' : Nat) (he : idx h j j = idx h j' j') : j = j' := by
  unfold idx at he
  rcases Nat.lt_trichotomy j j' with hlt | heq | hgt
  · have := Nat.mul_le_mul_right (h + 1) (Nat.le_of_lt hlt)
    omega
  · exact heq
  · have := Nat.mul_le_mul_right (h + 1) (Nat.le_of_lt hgt)
    omega

/-- The prefill of the scratch buffer puts the boundary values of the tile in place. -/
theorem known_prefill (str1 str2 : Nat → Byte) (ro co h w total_len : Nat)
    (rr cols buffer : Buf) (hpre : TilePre str1 str2 ro co h w rr cols)
    (hh : ro + h ≤ total_len) (hw : co + w ≤ total_len) :
    Known str1 str2 ro co h w 2 0
      (store
        (forLoop 1 w (fun j buffer =>
          if co + j ≤ total_len then store buffer (idx h j 0) (rr.get (co + j))
          else store buffer (idx h j 0) (total_len : Int))
          (forLoop 1 h (fun i buffer =>
            if ro + i ≤ total_len then store buffer (idx h i i) (cols.get (ro + i))
            else store buffer (idx h i i) (total_len : Int)) buffer))
        (idx h 0 0)
        (if co = 0 then (ro : Int) else if ro = 0 then (co : Int) else rr.get co)) := by
  have h1 := forLoop_store 1 h (fun i buffer =>
      if ro + i ≤ total_len then store buffer (idx h i i) (cols.get (ro + i))
      else store buffer (idx h i i) (total_len : Int))
    (fun i => idx h i i) (fun i => cols.get (ro + i)) buffer (by omega)
    (fun j j' he => idx_diag_inj h j j' he)
    (fun j s ha hb => by
      dsimp only
      rw [if_pos (by omega)])
  generalize (forLoop 1 h (fun i buffer =>
      if ro + i ≤ total_len then store buffer (idx h i i) (cols.get (ro + i))
      else store buffer (idx h i i) (total_len : Int)) buffer) = b1 at h1 ⊢
  have h2 := forLoop_store 1 w (fun j buffer =>
      if co + j ≤ total_len then store buffer (idx h j 0) (rr.get (co + j))
      else store buffer (idx h j 0) (total_len : Int))
    (fun j => idx h j 0) (fun j => rr.get (co + j)) b1 (by omega)
    (fun j j' he => (idx_inj h j 0 j' 0 (by omega) (by omega) he).1)
    (fun j s ha hb => by
      dsimp only
      rw [if_pos (by omega)])
  generalize (forLoop 1 w (fun j buffer =>
      if co + j ≤ total_len then store buffer (idx h j 0) (rr.get (co + j))
      else store buffer (idx h j 0) (total_len : Int)) b1) = b2 at h2 ⊢
  dsimp only at h1 h2
  intro i j hi hj hc
  rw [store_get]
  by_cases hi0 : i = 0
  · subst hi0
    by_cases hj0 : j = 0
    · subst hj0
      rw [if_pos rfl]
      by_cases hco : co = 0
      · subst hco
        simp [D_zero_right]
      · rw [if_neg hco]
        by_cases hro : ro = 0
        · subst hro
          simp [D_zero_left]
        · rw [if_neg hro]
          simpa using hpre.corner hco hro
    · rw [if_neg (fun he => hj0 (by
        have := idx_inj h _ _ _ _ (Nat.zero_le h) (Nat.zero_le h) he
        omega))]
      rw [Nat.zero_add, h2.1 j (by omega) hj, Nat.add_zero]
      exact hpre.top j (by omega) hj
  · have hj0 : j = 0 := by omega
    subst hj0
    rw [if_neg (fun he => hi0 (by
      have := idx_inj h _ _ _ _ hi (Nat.zero_le h) he
      omega))]
    rw [Nat.add_zero, h2.2 _ (fun j' _ _ he => hi0 (by
      have := idx_inj h _ _ _ _ (Nat.zero_le h) hi he
      omega)), h1.1 i (by omega) hi]
    exact hpre.left i (by omega) hi

/-- The loop over the diagonals fills the whole tile. -/
theorem known_diagonals (str1 str2 : Nat → Byte) (ro co h w : Nat) (buf : Buf)
    (hh : 1 ≤ h) (hK : Known str1 str2 ro co h w 2 0 buf) :
    Known str1 str2 ro co h w (h + w + 1) 0
      (forLoop 2 (h + w) (diagonal ro co h w str1 str2) buf) := by
  by_cases hw : 1 ≤ w
  · exact forLoop_inv (fun k s => Known str1 str2 ro co h w k 0 s) 2 (h + w)
      (diagonal ro co h w str1 str2) buf (by omega) hK
      (fun k s ha hb hs => known_diagonal str1 str2 ro co h w k s ha hb hs)
  · have hw0 : w = 0 := by omega
    subst hw0
    intro i j hi hj hc
    have hj0 : j = 0 := by omega
    subst hj0
    by_cases h1 : h = 1
    · subst h1
      unfold forLoop
      rw [forLt_ge _ _ _ _ (by omega)]
      exact hK i 0 hi hj (Or.inr (Or.inl rfl))
    · exact forLoop_inv (fun k s => Known str1 str2 ro co h 0 k 0 s) 2 (h + 0)
        (diagonal ro co h 0 str1 str2) buf (by omega) hK
        (fun k s ha hb hs => known_diagonal str1 str2 ro co h 0 k s ha hb hs) i 0 hi hj hc

/-- The SIMD kernel: on the table's boundary values it leaves the table's values. -/
theorem avx2_process_tile_post (str1 str2 : Nat → Byte) (ro co h w total_len : Nat)
    (rr rw cols buffer : Buf) (hpre : TilePre str1 str2 ro co h w rr cols)
    (hh1 : 1 ≤ h) (hh : ro + h ≤ total_len) (hw : co + w ≤ total_len) :
    TilePost str1 str2 ro co h w rw cols
      (process_tile ro co rr rw cols h w str1 str2 buffer total_len).1 := by
  have hK := known_diagonals str1 str2 ro co h w _ hh1
    (known_prefill str1 str2 ro co h w total_len rr cols buffer hpre hh hw)
  unfold process_tile
  refine ⟨?_, ?_, ?_⟩
  · intro x
    simp only
    rw [writeback_get]
    by_cases hx : co < x ∧ x ≤ co + w
    · rw [if_pos hx, if_pos hx, hK h (x - co) (le_refl _) (by omega)
        (Or.inr (Or.inr (Or.inl (by omega))))]
      have e : co + (x - co) = x := by omega
      rw [e]
    · rw [if_neg hx, if_neg hx]
  · intro x
    simp only
    rw [writeback_get]
    by_cases hx : ro < x ∧ x ≤ ro + h
    · rw [if_pos hx, if_pos hx, hK (x - ro) w (by omega) (le_refl _)
        (Or.inr (Or.inr (Or.inl (by omega))))]
      have e : ro + (x - ro) = x := by omega
      rw [e]
    · rw [if_neg hx, if_neg hx]
  · exact hK h w (le_refl _) (le_refl _) (Or.inr (Or.inr (Or.inl (by omega))))

end Avx2

/-! ## The boundary buffers -/

/-- A tile whose upper, left and upper-left neighbours are the last processed tiles of its
block column and block row finds the table's values on its edges. -/
theorem BoundsInv.pre {str1 str2 : Nat → Byte} {n : Nat} {wr : Nat → Nat}
    {dn : Nat → Nat → Prop} {rows : Nat → Buf} {cols : Buf}
    (hinv : BoundsInv str1 str2 n wr dn rows cols) (r c h w rd r0 : Nat)
    (hr : r * BLOCK_SIZE < n) (hc : c * BLOCK_SIZE < n)
    (hh : r * BLOCK_SIZE + h = blockEnd n r) (hw : c * BLOCK_SIZE + w = blockEnd n c)
    (hrd0 : rd = wr r0) (hrd1 : 1 ≤ r → rd = wr (r - 1))
    (E2 : ∀ r', r' * BLOCK_SIZE < n → dn r' c → r' < r) (E3 : 1 ≤ r → dn (r - 1) c)
    (E4 : ∀ c', c' * BLOCK_SIZE < n → dn r c' → c' < c) (E5 : 1 ≤ c → dn r (c - 1))
    (E6 : 1 ≤ r → 1 ≤ c → dn (r - 1) (c - 1) ∧
      ∀ r', r' * BLOCK_SIZE < n → wr r' = rd → dn r' (c - 1) → r' ≤ r - 1) :
    TilePre str1 str2 (r * BLOCK_SIZE) (c * BLOCK_SIZE) h w (rows rd) cols := by
  obtain ⟨hRD, hRS, hCD, hCS⟩ := hinv
  simp only [BLOCK_SIZE, blockEnd] at *
  refine ⟨?_, ?_, ?_⟩
  · intro j hj1 hj2
    by_cases hr0 : r = 0
    · subst hr0
      rw [hrd0, hRS r0 c (c * 512 + j) hc
        (fun r' hr' _ hd => by have := E2 r' hr' hd; omega) (by omega) (by omega)]
      simp [D_zero_left]
    · have e := hrd1 (by omega)
      rw [e, hRD (r - 1) c (c * 512 + j) (by omega) hc (E3 (by omega))
        (fun r' hr' _ hd => by have := E2 r' hr' hd; omega) (by omega) (by omega)]
      have e2 : min ((r - 1) * 512 + 512) n = r * 512 := by omega
      rw [e2]
  · intro i hi1 hi2
    by_cases hc0 : c = 0
    · subst hc0
      rw [hCS r (r * 512 + i) hr (fun c' hc' hd => by have := E4 c' hc' hd; omega)
        (by omega) (by omega)]
      simp [D_zero_right]
    · rw [hCD r (c - 1) (r * 512 + i) hr (by omega) (E5 (by omega))
        (fun c' hc' hd => by have := E4 c' hc' hd; omega) (by omega) (by omega)]
      have e2 : min ((c - 1) * 512 + 512) n = c * 512 := by omega
      rw [e2]
  · intro hco hro
    have hr1 : 1 ≤ r := by omega
    have hc1 : 1 ≤ c := by omega
    have e := hrd1 hr1
    obtain ⟨ha, hb⟩ := E6 hr1 hc1
    rw [e, hRD (r - 1) (c - 1) (c * 512) (by omega) (by omega) ha
      (fun r' hr' hw' hd => hb r' hr' (by rw [hw', e]) hd) (by omega) (by omega)]
    have e2 : min ((r - 1) * 512 + 512) n = r * 512 := by omega
    rw [e2]

/-- Processing a tile that is the next one of its block row and of its block column keeps
the boundary buffers in step with the set of processed tiles. -/
theorem BoundsInv.post {str1 str2 : Nat → Byte} {n : Nat} {wr : Nat → Nat}
    {dn : Nat → Nat → Prop} {rows : Nat → Buf} {cols : Buf}
    (hinv : BoundsInv str1 str2 n wr dn rows cols) (r c h w : Nat)
    (hr : r * BLOCK_SIZE < n) (hc : c * BLOCK_SIZE < n)
    (hh : r * BLOCK_SIZE + h = blockEnd n r) (hw : c * BLOCK_SIZE + w = blockEnd n c)
    (E2 : ∀ r', r' * BLOCK_SIZE < n → dn r' c → r' < r)
    (E4 : ∀ c', c' * BLOCK_SIZE < n → dn r c' → c' < c)
    (out : TileOut)
    (hpost : TilePost str1 str2 (r * BLOCK_SIZE) (c * BLOCK_SIZE) h w (rows (wr r)) cols out) :
    BoundsInv str1 str2 n wr (fun r' c' => dn r' c' ∨ (r' = r ∧ c' = c))
      (Function.update rows (wr r) out.global_rows_write) out.global_cols := by
  obtain ⟨hRD, hRS, hCD, hCS⟩ := hinv
  obtain ⟨hR, hC, _⟩ := hpost
  simp only [BLOCK_SIZE, blockEnd] at *
  refine ⟨?_, ?_, ?_, ?_⟩
  · simp only [BLOCK_SIZE, blockEnd]
    intro r0 c0 y hr0 hc0 hd hmax hy1 hy2
    by_cases hwr : wr r0 = wr r
    · rw [hwr, Function.update_same, hR]
      by_cases hcc : c0 = c
      · subst hcc
        rw [if_pos (by omega)]
        have h1 : r ≤ r0 := hmax r hr hwr.symm (Or.inr ⟨rfl, rfl⟩)
        have h2 : r0 = r := by
          rcases hd with hd | hd
          · have := E2 r0 hr0 hd
            omega
          · exact hd.1
        rw [h2, hh]
      · rw [if_neg (by omega), ← hwr]
        have hd' : dn r0 c0 := by
          rcases hd with hd | hd
          · exact hd
          · exact absurd hd.2 hcc
        exact hRD r0 c0 y hr0 hc0 hd' (fun r' hr' hw' hd'' => hmax r' hr' hw' (Or.inl hd''))
          hy1 hy2
    · rw [Function.update_noteq hwr]
      have hd' : dn r0 c0 := by
        rcases hd with hd | hd
        · exact hd
        · exfalso; apply hwr; rw [hd.1]
      exact hRD r0 c0 y hr0 hc0 hd' (fun r' hr' hw' hd'' => hmax r' hr' hw' (Or.inl hd''))
        hy1 hy2
  · simp only [BLOCK_SIZE, blockEnd]
    intro r0 c0 y hc0 hnone hy1 hy2
    by_cases hk : wr r0 = wr r
    · rw [hk, Function.update_same, hR]
      by_cases hcc : c0 = c
      · subst hcc
        exact absurd (Or.inr ⟨rfl, rfl⟩) (hnone r hr hk.symm)
      · rw [if_neg (by omega), ← hk]
        exact hRS r0 c0 y hc0 (fun r' hr' hw' hd => hnone r' hr' hw' (Or.inl hd)) hy1 hy2
    · rw [Function.update_noteq hk]
      exact hRS r0 c0 y hc0 (fun r' hr' hw' hd => hnone r' hr' hw' (Or.inl hd)) hy1 hy2
  · simp only [BLOCK_SIZE, blockEnd]
    intro r0 c0 x hr0 hc0 hd hmax hx1 hx2
    rw [hC]
    by_cases hrr : r0 = r
    · subst hrr
      rw [if_pos (by omega)]
      have h1 : c ≤ c0 := hmax c hc (Or.inr ⟨rfl, rfl⟩)
      have h2 : c0 = c := by
        rcases hd with hd | hd
        · have := E4 c0 hc0 hd
          omega
        · exact hd.2
      rw [h2, hw]
    · rw [if_neg (by omega)]
      have hd' : dn r0 c0 := by
        rcases hd with hd | hd
        · exact hd
        · exact absurd hd.1 hrr
      exact hCD r0 c0 x hr0 hc0 hd' (fun c' hc' hd'' => hmax c' hc' (Or.inl hd'')) hx1 hx2
  · simp only [BLOCK_SIZE, blockEnd]
    intro r0 x hr0 hnone hx1 hx2
    rw [hC]
    by_cases hrr : r0 = r
    · subst hrr
      exact absurd (Or.inr ⟨rfl, rfl⟩) (hnone c hc)
    · rw [if_neg (by omega)]
      exact hCS r0 x hr0 (fun c' hc' hd => hnone c' hc' (Or.inl hd)) hx1 hx2

/-- The invariant only depends on which tiles of the grid are processed. -/
theorem BoundsInv.congr {str1 str2 : Nat → Byte} {n : Nat} {wr : Nat → Nat}
    {dn dn' : Nat → Nat → Prop} {rows : Nat → Buf} {cols : Buf}
    (hinv : BoundsInv str1 str2 n wr dn rows cols)
    (hiff : ∀ r c, r * BLOCK_SIZE < n → c * BLOCK_SIZE < n → (dn r c ↔ dn' r c)) :
    BoundsInv str1 str2 n wr dn' rows cols := by
  obtain ⟨hRD, hRS, hCD, hCS⟩ := hinv
  refine ⟨?_, ?_, ?_, ?_⟩
  · intro r c y hr hc hd hmax hy1 hy2
    exact hRD r c y hr hc ((hiff r c hr hc).mpr hd)
      (fun r' hr' hw' hd' => hmax r' hr' hw' ((hiff r' c hr' hc).mp hd')) hy1 hy2
  · intro r0 c y hc hnone hy1 hy2
    exact hRS r0 c y hc (fun r hr hw hd => hnone r hr hw ((hiff r c hr hc).mp hd)) hy1 hy2
  · intro r c x hr hc hd hmax hx1 hx2
    exact hCD r c x hr hc ((hiff r c hr hc).mpr hd)
      (fun c' hc' hd' => hmax c' hc' ((hiff r c' hr hc').mp hd')) hx1 hx2
  · intro r x hr hnone hx1 hx2
    exact hCS r x hr (fun c hc hd => hnone c hc ((hiff r c hr hc).mp hd)) hx1 hx2

/-- The freshly initialised buffers, before any tile. -/
theorem BoundsInv.init (str1 str2 : Nat → Byte) (n : Nat) (wr : Nat → Nat)
    (rows : Nat → Buf) (cols : Buf)
    (hrows : ∀ r0 y, y ≤ n → (rows (wr r0)).get y = (y : Int))
    (hcols : ∀ x, x ≤ n → cols.get x = (x : Int)) :
    BoundsInv str1 str2 n wr (fun _ _ => False) rows cols := by
  refine ⟨?_, ?_, ?_, ?_⟩
  · intro r c y _ _ hd
    exact absurd hd id
  · intro r0 c y _ _ _ hy
    exact hrows r0 y (by unfold blockEnd at hy; omega)
  · intro r c x _ _ hd
    exact absurd hd id
  · intro r x _ _ _ hx
    exact hcols x (by unfold blockEnd at hx; omega)

/-! ## The workers -/

/-- The row buffer a tile reads is never the one it writes. -/
theorem read_idx_ne_write_idx (r : Nat) : (((r : Int) - 1 + 3) % 3).toNat ≠ r % 3 := by
  omega

/-- One iteration of the tile loop of a worker of ``parallelized_edit_distance.c``: if the tile of
block row `r` is this worker's it is processed, on the boundary values of the table. -/
theorem Parallelized.par_tile_step_inv (str1 str2 : Nat → Byte) (n T w t : Nat) (ran : List Nat)
    (ht : t ∉ ran) (r : Nat) (s : Parallelized.WorkerState)
    (hr1 : rowMin ((n + BLOCK_SIZE - 1) / BLOCK_SIZE) w ≤ r)
    (hr2 : r ≤ rowMax ((n + BLOCK_SIZE - 1) / BLOCK_SIZE) w)
    (hw : w < 2 * ((n + BLOCK_SIZE - 1) / BLOCK_SIZE) - 1)
    (htn : s.tile_number = r - rowMin ((n + BLOCK_SIZE - 1) / BLOCK_SIZE) w)
    (hinv : BoundsInv str1 str2 n (fun r => r % 3)
      (waveDone ((n + BLOCK_SIZE - 1) / BLOCK_SIZE) T w ran t r)
      s.shared.global_rows s.shared.global_cols) :
    (Parallelized.tile_step ⟨t, T, w, (n + BLOCK_SIZE - 1) / BLOCK_SIZE, n, str1, str2⟩ r s).tile_number
        = r + 1 - rowMin ((n + BLOCK_SIZE - 1) / BLOCK_SIZE) w ∧
      BoundsInv str1 str2 n (fun r => r % 3)
        (waveDone ((n + BLOCK_SIZE - 1) / BLOCK_SIZE) T w ran t (r + 1))
        (Parallelized.tile_step ⟨t, T, w, (n + BLOCK_SIZE - 1) / BLOCK_SIZE, n, str1, str2⟩ r
          s).shared.global_rows
        (Parallelized.tile_step ⟨t, T, w, (n + BLOCK_SIZE - 1) / BLOCK_SIZE, n, str1, str2⟩ r
          s).shared.global_cols := by
  have hrm : rowMin ((n + BLOCK_SIZE - 1) / BLOCK_SIZE) w ≤ r := hr1
  have hrw : r ≤ w := by
    unfold rowMax at hr2; split_ifs at hr2 <;> omega
  have hrn : r * BLOCK_SIZE < n := by
    unfold rowMax at hr2; simp only [BLOCK_SIZE] at *; split_ifs at hr2 <;> omega
  have hcn : (w - r) * BLOCK_SIZE < n := by
    unfold rowMin at hr1; simp only [BLOCK_SIZE] at *; split_ifs at hr1 <;> omega
  unfold Parallelized.tile_step
  simp only
  by_cases hass : s.tile_number % T = t
  · rw [if_pos hass]
    simp only
    refine ⟨by omega, ?_⟩
    rw [htn] at hass
    have hh : r * BLOCK_SIZE + (if r * BLOCK_SIZE + BLOCK_SIZE > n then n - r * BLOCK_SIZE
        else BLOCK_SIZE) = blockEnd n r := by
      unfold blockEnd; simp only [BLOCK_SIZE] at *; split_ifs <;> omega
    have hww : (w - r) * BLOCK_SIZE + (if (w - r) * BLOCK_SIZE + BLOCK_SIZE > n then
        n - (w - r) * BLOCK_SIZE else BLOCK_SIZE) = blockEnd n (w - r) := by
      unfold blockEnd; simp only [BLOCK_SIZE] at *; split_ifs <;> omega
    have E2 : ∀ r', r' * BLOCK_SIZE < n →
        waveDone ((n + BLOCK_SIZE - 1) / BLOCK_SIZE) T w ran t r r' (w - r) → r' < r := by
      intro r' _ hd
      rcases hd with hd | ⟨hd1, hd2⟩
      · omega
      · have e : r' = r := by omega
        subst e
        rcases hd2 with hd2 | hd2
        · rw [hass] at hd2; exact absurd hd2 ht
        · omega
    have E4 : ∀ c', c' * BLOCK_SIZE < n →
        waveDone ((n + BLOCK_SIZE - 1) / BLOCK_SIZE) T w ran t r r c' → c' < w - r := by
      intro c' _ hd
      rcases hd with hd | ⟨hd1, hd2⟩
      · omega
      · rcases hd2 with hd2 | hd2
        · rw [hass] at hd2; exact absurd hd2 ht
        · omega
    have hpre := hinv.pre r (w - r) _ _ (((r : Int) - 1 + 3) % 3).toNat (r + 2) hrn hcn hh
      hww (by omega) (fun h1 => by omega) E2 (fun h1 => Or.inl (by omega)) E4
      (fun h1 => Or.inl (by omega))
      (fun h1 h2 => ⟨Or.inl (by omega), fun r' _ hwr hd => by
        rcases hd with hd | ⟨hd1, _⟩ <;> omega⟩)
    have hpost := Parallelized.par_process_tile_post str1 str2 _ _ _ _ _
      (s.shared.global_rows (r % 3)) _ s.thread_prev_row s.thread_cur_row hpre
    have hinv' := hinv.post r (w - r) _ _ hrn hcn hh hww E2 E4 _ hpost
    refine hinv'.congr ?_
    intro r' c' _ _
    unfold waveDone
    constructor
    · rintro (hd | ⟨rfl, rfl⟩)
      · rcases hd with hd | ⟨hd1, hd2⟩
        · exact Or.inl hd
        · refine Or.inr ⟨hd1, ?_⟩
          rcases hd2 with hd2 | hd2
          · exact Or.inl hd2
          · exact Or.inr ⟨hd2.1, by omega⟩
      · exact Or.inr ⟨by omega, Or.inr ⟨hass, by omega⟩⟩
    · rintro (hd | ⟨hd1, hd2⟩)
      · exact Or.inl (Or.inl hd)
      · rcases hd2 with hd2 | hd2
        · exact Or.inl (Or.inr ⟨hd1, Or.inl hd2⟩)
        · by_cases hrr : r' = r
          · exact Or.inr ⟨hrr, by omega⟩
          · exact Or.inl (Or.inr ⟨hd1, Or.inr ⟨hd2.1, by omega⟩⟩)
  · rw [if_neg hass]
    simp only
    refine ⟨by omega, ?_⟩
    rw [htn] at hass
    refine hinv.congr ?_
    intro r' c' _ _
    unfold waveDone
    constructor
    · rintro (hd | ⟨hd1, hd2⟩)
      · exact Or.inl hd
      · refine Or.inr ⟨hd1, ?_⟩
        rcases hd2 with hd2 | hd2
        · exact Or.inl hd2
        · exact Or.inr ⟨hd2.1, by omega⟩
    · rintro (hd | ⟨hd1, hd2⟩)
      · exact Or.inl hd
      · refine Or.inr ⟨hd1, ?_⟩
        rcases hd2 with hd2 | hd2
        · exact Or.inl hd2
        · refine Or.inr ⟨hd2.1, ?_⟩
          by_cases hrr : r' = r
          · subst hrr; exact absurd hd2.1 hass
          · omega


/-- One iteration of the tile loop of a worker of ``avx2_edit_distance.c``: if the tile of
block row `r` is this worker's it is processed, on the boundary values of the table. -/
theorem Avx2.avx2_tile_step_inv (str1 str2 : Nat → Byte) (n T w t : Nat) (ran : List Nat)
    (ht : t ∉ ran) (r : Nat) (s : Avx2.WorkerState)
    (hr1 : rowMin ((n + BLOCK_SIZE - 1) / BLOCK_SIZE) w ≤ r)
    (hr2 : r ≤ rowMax ((n + BLOCK_SIZE - 1) / BLOCK_SIZE) w)
    (hw : w < 2 * ((n + BLOCK_SIZE - 1) / BLOCK_SIZE) - 1)
    (htn : s.tile_number = r - rowMin ((n + BLOCK_SIZE - 1) / BLOCK_SIZE) w)
    (hinv : BoundsInv str1 str2 n (fun r => r % 3)
      (waveDone ((n + BLOCK_SIZE - 1) / BLOCK_SIZE) T w ran t r)
      s.shared.global_rows s.shared.global_cols) :
    (Avx2.tile_step ⟨t, T, w, (n + BLOCK_SIZE - 1) / BLOCK_SIZE, n, str1, str2⟩ r s).tile_number
        = r + 1 - rowMin ((n + BLOCK_SIZE - 1) / BLOCK_SIZE) w ∧
      BoundsInv str1 str2 n (fun r => r % 3)
        (waveDone ((n + BLOCK_SIZE - 1) / BLOCK_SIZE) T w ran t (r + 1))
        (Avx2.tile_step ⟨t, T, w, (n + BLOCK_SIZE - 1) / BLOCK_SIZE, n, str1, str2⟩ r
          s).shared.global_rows
        (Avx2.tile_step ⟨t, T, w, (n + BLOCK_SIZE - 1) / BLOCK_SIZE, n, str1, str2⟩ r
          s).shared.global_cols := by
  have hrm : rowMin ((n + BLOCK_SIZE - 1) / BLOCK_SIZE) w ≤ r := hr1
  have hrw : r ≤ w := by
    unfold rowMax at hr2; split_ifs at hr2 <;> omega
  have hrn : r * BLOCK_SIZE < n := by
    unfold rowMax at hr2; simp only [BLOCK_SIZE] at *; split_ifs at hr2 <;> omega
  have hcn : (w - r) * BLOCK_SIZE < n := by
    unfold rowMin at hr1; simp only [BLOCK_SIZE] at *; split_ifs at hr1 <;> omega
  unfold Avx2.tile_step
  simp only
  by_cases hass : s.tile_number % T = t
  · rw [if_pos hass]
    simp only
    refine ⟨by omega, ?_⟩
    rw [htn] at hass
    have hh : r * BLOCK_SIZE + (if r * BLOCK_SIZE + BLOCK_SIZE > n then n - r * BLOCK_SIZE
        else BLOCK_SIZE) = blockEnd n r := by
      unfold blockEnd; simp only [BLOCK_SIZE] at *; split_ifs <;> omega
    have hww : (w - r) * BLOCK_SIZE + (if (w - r) * BLOCK_SIZE + BLOCK_SIZE > n then
        n - (w - r) * BLOCK_SIZE else BLOCK_SIZE) = blockEnd n (w - r) := by
      unfold blockEnd; simp only [BLOCK_SIZE] at *; split_ifs <;> omega
    have E2 : ∀ r', r' * BLOCK_SIZE < n →
        waveDone ((n + BLOCK_SIZE - 1) / BLOCK_SIZE) T w ran t r r' (w - r) → r' < r := by
      intro r' _ hd
      rcases hd with hd | ⟨hd1, hd2⟩
      · omega
      · have e : r' = r := by omega
        subst e
        rcases hd2 with hd2 | hd2
        · rw [hass] at hd2; exact absurd hd2 ht
        · omega
    have E4 : ∀ c', c' * BLOCK_SIZE < n →
        waveDone ((n + BLOCK_SIZE - 1) / BLOCK_SIZE) T w ran t r r c' → c' < w - r := by
      intro c' _ hd
      rcases hd with hd | ⟨hd1, hd2⟩
      · omega
      · rcases hd2 with hd2 | hd2
        · rw [hass] at hd2; exact absurd hd2 ht
        · omega
    have hpre := hinv.pre r (w - r) _ _ (((r : Int) - 1 + 3) % 3).toNat (r + 2) hrn hcn hh
      hww (by omega) (fun h1 => by omega) E2 (fun h1 => Or.inl (by omega)) E4
      (fun h1 => Or.inl (by omega))
      (fun h1 h2 => ⟨Or.inl (by omega), fun r' _ hwr hd => by
        rcases hd with hd | ⟨hd1, _⟩ <;> omega⟩)
    have hpost := Avx2.avx2_process_tile_post str1 str2 _ _ _ _ n _
      (s.shared.global_rows (r % 3)) _ s.thread_buffer hpre
      (by simp only [BLOCK_SIZE] at *; split_ifs <;> omega)
      (by rw [hh]; unfold blockEnd; omega) (by rw [hww]; unfold blockEnd; omega)
    have hinv' := hinv.post r (w - r) _ _ hrn hcn hh hww E2 E4 _ hpost
    refine hinv'.congr ?_
    intro r' c' _ _
    unfold waveDone
    constructor
    · rintro (hd | ⟨rfl, rfl⟩)
      · rcases hd with hd | ⟨hd1, hd2⟩
        · exact Or.inl hd
        · refine Or.inr ⟨hd1, ?_⟩
          rcases hd2 with hd2 | hd2
          · exact Or.inl hd2
          · exact Or.inr ⟨hd2.1, by omega⟩
      · exact Or.inr ⟨by omega, Or.inr ⟨hass, by omega⟩⟩
    · rintro (hd | ⟨hd1, hd2⟩)
      · exact Or.inl (Or.inl hd)
      · rcases hd2 with hd2 | hd2
        · exact Or.inl (Or.inr ⟨hd1, Or.inl hd2⟩)
        · by_cases hrr : r' = r
          · exact Or.inr ⟨hrr, by omega⟩
          · exact Or.inl (Or.inr ⟨hd1, Or.inr ⟨hd2.1, by omega⟩⟩)
  · rw [if_neg hass]
    simp only
    refine ⟨by omega, ?_⟩
    rw [htn] at hass
    refine hinv.congr ?_
    intro r' c' _ _
    unfold waveDone
    constructor
    · rintro (hd | ⟨hd1, hd2⟩)
      · exact Or.inl hd
      · refine Or.inr ⟨hd1, ?_⟩
        rcases hd2 with hd2 | hd2
        · exact Or.inl hd2
        · exact Or.inr ⟨hd2.1, by omega⟩
    · rintro (hd | ⟨hd1, hd2⟩)
      · exact Or.inl hd
      · refine Or.inr ⟨hd1, ?_⟩
        rcases hd2 with hd2 | hd2
        · exact Or.inl hd2
        · refine Or.inr ⟨hd2.1, ?_⟩
          by_cases hrr : r' = r
          · subst hrr; exact absurd hd2.1 hass
          · omega

/-- A worker of ``parallelized_edit_distance.c`` processes its tiles of the wave. -/
theorem Parallelized.par_thread_worker_inv (env : Env) (str1 str2 : Nat → Byte) (n T w t : Nat)
    (ran : List Nat) (ht : t ∉ ran) (sh : Shared)
    (hw : w < 2 * ((n + BLOCK_SIZE - 1) / BLOCK_SIZE) - 1)
    (hinv : BoundsInv str1 str2 n (fun r => r % 3)
      (waveDone ((n + BLOCK_SIZE - 1) / BLOCK_SIZE) T w ran 0 0)
      sh.global_rows sh.global_cols) :
    BoundsInv str1 str2 n (fun r => r % 3)
      (waveDone ((n + BLOCK_SIZE - 1) / BLOCK_SIZE) T w (t :: ran) 0 0)
      (Parallelized.thread_worker env ⟨t, T, w, (n + BLOCK_SIZE - 1) / BLOCK_SIZE, n, str1, str2⟩
        sh).global_rows
      (Parallelized.thread_worker env ⟨t, T, w, (n + BLOCK_SIZE - 1) / BLOCK_SIZE, n, str1, str2⟩
        sh).global_cols := by
  unfold Parallelized.thread_worker
  simp only 
  have key := forLoop_inv
    (fun r (s : Parallelized.WorkerState) =>
      s.tile_number = r - rowMin ((n + BLOCK_SIZE - 1) / BLOCK_SIZE) w ∧
      BoundsInv str1 str2 n (fun r => r % 3)
        (waveDone ((n + BLOCK_SIZE - 1) / BLOCK_SIZE) T w ran t r)
        s.shared.global_rows s.shared.global_cols)
    (rowMin ((n + BLOCK_SIZE - 1) / BLOCK_SIZE) w)
    (rowMax ((n + BLOCK_SIZE - 1) / BLOCK_SIZE) w)
    (Parallelized.tile_step ⟨t, T, w, (n + BLOCK_SIZE - 1) / BLOCK_SIZE, n, str1, str2⟩)
    ⟨0, env.scratch_fresh 0 w t, env.scratch_fresh 1 w t,
      { sh with trace := sh.trace ++ [Event.worker w t, Event.malloc true, Event.malloc true] }⟩
    (by unfold rowMin rowMax; split_ifs <;> omega)
    ⟨by simp, by
      refine hinv.congr ?_
      intro r c hr hc
      unfold waveDone
      constructor
      · rintro (hd | ⟨hd1, hd2⟩)
        · exact Or.inl hd
        · rcases hd2 with hd2 | hd2
          · exact Or.inr ⟨hd1, Or.inl hd2⟩
          · omega
      · rintro (hd | ⟨hd1, hd2⟩)
        · exact Or.inl hd
        · rcases hd2 with hd2 | hd2
          · exact Or.inr ⟨hd1, Or.inl hd2⟩
          · exfalso
            have := hd2.2
            unfold rowMin at this
            simp only [BLOCK_SIZE] at *
            split_ifs at this <;> omega⟩
    (fun r s h1 h2 hs =>
      Parallelized.par_tile_step_inv str1 str2 n T w t ran ht r s h1 h2 hw hs.1 hs.2)
  unfold rowMin rowMax at key
  refine key.2.congr ?_
  intro r c hr hc
  unfold waveDone
  constructor
  · rintro (hd | ⟨hd1, hd2⟩)
    · exact Or.inl hd
    · refine Or.inr ⟨hd1, Or.inl ?_⟩
      rcases hd2 with hd2 | hd2
      · exact List.mem_cons_of_mem _ hd2
      · rw [hd2.1]
        exact List.mem_cons_self _ _
  · rintro (hd | ⟨hd1, hd2⟩)
    · exact Or.inl hd
    · rcases hd2 with hd2 | hd2
      · refine Or.inr ⟨hd1, ?_⟩
        rcases List.mem_cons.mp hd2 with hd3 | hd3
        · refine Or.inr ⟨hd3, ?_⟩
          simp only [BLOCK_SIZE] at *
          split_ifs <;> omega
        · exact Or.inl hd3
      · omega


/-- A worker of ``avx2_edit_distance.c`` processes its tiles of the wave. -/
theorem Avx2.avx2_thread_worker_inv (env : Env) (str1 str2 : Nat → Byte) (n T w t : Nat)
    (ran : List Nat) (ht : t ∉ ran) (sh : Shared)
    (hok : env.scratch_ok 0 w t = true)
    (hw : w < 2 * ((n + BLOCK_SIZE - 1) / BLOCK_SIZE) - 1)
    (hinv : BoundsInv str1 str2 n (fun r => r % 3)
      (waveDone ((n + BLOCK_SIZE - 1) / BLOCK_SIZE) T w ran 0 0)
      sh.global_rows sh.global_cols) :
    BoundsInv str1 str2 n (fun r => r % 3)
      (waveDone ((n + BLOCK_SIZE - 1) / BLOCK_SIZE) T w (t :: ran) 0 0)
      (Avx2.thread_worker env ⟨t, T, w, (n + BLOCK_SIZE - 1) / BLOCK_SIZE, n, str1, str2⟩
        sh).global_rows
      (Avx2.thread_worker env ⟨t, T, w, (n + BLOCK_SIZE - 1) / BLOCK_SIZE, n, str1, str2⟩
        sh).global_cols := by
  unfold Avx2.thread_worker
  simp only [hok, Bool.not_true, Bool.false_eq_true, if_false]
  have key := forLoop_inv
    (fun r (s : Avx2.WorkerState) =>
      s.tile_number = r - rowMin ((n + BLOCK_SIZE - 1) / BLOCK_SIZE) w ∧
      BoundsInv str1 str2 n (fun r => r % 3)
        (waveDone ((n + BLOCK_SIZE - 1) / BLOCK_SIZE) T w ran t r)
        s.shared.global_rows s.shared.global_cols)
    (rowMin ((n + BLOCK_SIZE - 1) / BLOCK_SIZE) w)
    (rowMax ((n + BLOCK_SIZE - 1) / BLOCK_SIZE) w)
    (Avx2.tile_step ⟨t, T, w, (n + BLOCK_SIZE - 1) / BLOCK_SIZE, n, str1, str2⟩)
    ⟨0, env.scratch_fresh 0 w t,
      { sh with trace := sh.trace ++ [Event.worker w t, Event.malloc true] }⟩
    (by unfold rowMin rowMax; split_ifs <;> omega)
    ⟨by simp, by
      refine hinv.congr ?_
      intro r c hr hc
      unfold waveDone
      constructor
      · rintro (hd | ⟨hd1, hd2⟩)
        · exact Or.inl hd
        · rcases hd2 with hd2 | hd2
          · exact Or.inr ⟨hd1, Or.inl hd2⟩
          · omega
      · rintro (hd | ⟨hd1, hd2⟩)
        · exact Or.inl hd
        · rcases hd2 with hd2 | hd2
          · exact Or.inr ⟨hd1, Or.inl hd2⟩
          · exfalso
            have := hd2.2
            unfold rowMin at this
            simp only [BLOCK_SIZE] at *
            split_ifs at this <;> omega⟩
    (fun r s h1 h2 hs =>
      Avx2.avx2_tile_step_inv str1 str2 n T w t ran ht r s h1 h2 hw hs.1 hs.2)
  unfold rowMin rowMax at key
  refine key.2.congr ?_
  intro r c hr hc
  unfold waveDone
  constructor
  · rintro (hd | ⟨hd1, hd2⟩)
    · exact Or.inl hd
    · refine Or.inr ⟨hd1, Or.inl ?_⟩
      rcases hd2 with hd2 | hd2
      · exact List.mem_cons_of_mem _ hd2
      · rw [hd2.1]
        exact List.mem_cons_self _ _
  · rintro (hd | ⟨hd1, hd2⟩)
    · exact Or.inl hd
    · rcases hd2 with hd2 | hd2
      · refine Or.inr ⟨hd1, ?_⟩
        rcases List.mem_cons.mp hd2 with hd3 | hd3
        · refine Or.inr ⟨hd3, ?_⟩
          simp only [BLOCK_SIZE] at *
          split_ifs <;> omega
        · exact Or.inl hd3
      · omega

/-! ## The wave loop -/

/-- The workers of a wave of ``parallelized_edit_distance.c``, run one after the other. -/
theorem Parallelized.par_wave_inv (env : Env) (str1 str2 : Nat → Byte) (n T w : Nat)
    (hw : w < 2 * ((n + BLOCK_SIZE - 1) / BLOCK_SIZE) - 1) (l : List Nat) (hnd : l.Nodup) :
    ∀ (ran : List Nat) (sh : Shared), (∀ t, t ∈ l → t ∉ ran) →
      BoundsInv str1 str2 n (fun r => r % 3)
        (waveDone ((n + BLOCK_SIZE - 1) / BLOCK_SIZE) T w ran 0 0)
        sh.global_rows sh.global_cols →
      BoundsInv str1 str2 n (fun r => r % 3)
        (waveDone ((n + BLOCK_SIZE - 1) / BLOCK_SIZE) T w (l ++ ran) 0 0)
        (l.foldl (fun sh t => Parallelized.thread_worker env
          ⟨t, T, w, (n + BLOCK_SIZE - 1) / BLOCK_SIZE, n, str1, str2⟩ sh) sh).global_rows
        (l.foldl (fun sh t => Parallelized.thread_worker env
          ⟨t, T, w, (n + BLOCK_SIZE - 1) / BLOCK_SIZE, n, str1, str2⟩ sh) sh).global_cols := by
  induction l with
  | nil =>
    intro ran sh _ hinv
    simpa using hinv
  | cons t l ih =>
    intro ran sh hran hinv
    rw [List.foldl_cons]
    have hnd' := List.nodup_cons.mp hnd
    have h1 := Parallelized.par_thread_worker_inv env str1 str2 n T w t ran
      (hran t (List.mem_cons_self _ _)) sh hw hinv
    have h2 := ih hnd'.2 (t :: ran) _ (fun t' ht' hmem => by
      rcases List.mem_cons.mp hmem with h | h
      · subst h; exact hnd'.1 ht'
      · exact hran t' (List.mem_cons_of_mem _ ht') h) h1
    refine h2.congr ?_
    intro r c _ _
    unfold waveDone
    simp only [List.mem_append, List.mem_cons]
    tauto

/-- The loop over the waves of ``parallelized_edit_distance.c``: after the waves before `w` the
tiles `(r, c)` with `r + c < w` are processed. -/
theorem Parallelized.par_waves_inv (env : Env) (str1 str2 : Nat → Byte) (n T : Nat) (hT : 1 ≤ T)
    (hfair : env.Fair T) (sh : Shared)
    (hinv : BoundsInv str1 str2 n (fun r => r % 3) (fun _ _ => False)
      sh.global_rows sh.global_cols) (W : Nat)
    (hW : W ≤ 2 * ((n + BLOCK_SIZE - 1) / BLOCK_SIZE) - 1) :
    BoundsInv str1 str2 n (fun r => r % 3) (fun r c => r + c < W)
      (forLt 0 W (fun wave sh => (env.order wave).foldl
        (fun sh t => Parallelized.thread_worker env
          ⟨t, T, wave, (n + BLOCK_SIZE - 1) / BLOCK_SIZE, n, str1, str2⟩ sh) sh)
        sh).global_rows
      (forLt 0 W (fun wave sh => (env.order wave).foldl
        (fun sh t => Parallelized.thread_worker env
          ⟨t, T, wave, (n + BLOCK_SIZE - 1) / BLOCK_SIZE, n, str1, str2⟩ sh) sh)
        sh).global_cols := by
  refine forLt_inv
    (fun w (s : Shared) => BoundsInv str1 str2 n (fun r => r % 3) (fun r c => r + c < w)
      s.global_rows s.global_cols) 0 W _ sh (Nat.zero_le _)
    (hinv.congr (fun r c _ _ => by simp)) ?_
  intro w s _ hw hs
  have hperm := hfair w
  have h0 : BoundsInv str1 str2 n (fun r => r % 3)
      (waveDone ((n + BLOCK_SIZE - 1) / BLOCK_SIZE) T w [] 0 0)
      s.global_rows s.global_cols := by
    refine hs.congr ?_
    intro r c _ _
    unfold waveDone
    simp
  have h1 := Parallelized.par_wave_inv env str1 str2 n T w (by omega) (env.order w)
    (hperm.nodup_iff.mpr (List.nodup_range T)) [] s (fun _ _ h => by simp at h) h0
  refine h1.congr ?_
  intro r c _ _
  unfold waveDone
  have hmem : (r - rowMin ((n + BLOCK_SIZE - 1) / BLOCK_SIZE) w) % T ∈ env.order w ++ [] := by
    rw [List.append_nil, hperm.mem_iff, List.mem_range]
    exact Nat.mod_lt _ (by omega)
  constructor
  · rintro (hd | ⟨hd1, _⟩) <;> omega
  · intro hd
    by_cases hlt : r + c < w
    · exact Or.inl hlt
    · exact Or.inr ⟨by omega, Or.inl hmem⟩


/-- The workers of a wave of ``avx2_edit_distance.c``, run one after the other. -/
theorem Avx2.avx2_wave_inv (env : Env) (str1 str2 : Nat → Byte) (n T w : Nat)
    (hok : ∀ t, env.scratch_ok 0 w t = true)
    (hw : w < 2 * ((n + BLOCK_SIZE - 1) / BLOCK_SIZE) - 1) (l : List Nat) (hnd : l.Nodup) :
    ∀ (ran : List Nat) (sh : Shared), (∀ t, t ∈ l → t ∉ ran) →
      BoundsInv str1 str2 n (fun r => r % 3)
        (waveDone ((n + BLOCK_SIZE - 1) / BLOCK_SIZE) T w ran 0 0)
        sh.global_rows sh.global_cols →
      BoundsInv str1 str2 n (fun r => r % 3)
        (waveDone ((n + BLOCK_SIZE - 1) / BLOCK_SIZE) T w (l ++ ran) 0 0)
        (l.foldl (fun sh t => Avx2.thread_worker env
          ⟨t, T, w, (n + BLOCK_SIZE - 1) / BLOCK_SIZE, n, str1, str2⟩ sh) sh).global_rows
        (l.foldl (fun sh t => Avx2.thread_worker env
          ⟨t, T, w, (n + BLOCK_SIZE - 1) / BLOCK_SIZE, n, str1, str2⟩ sh) sh).global_cols := by
  induction l with
  | nil =>
    intro ran sh _ hinv
    simpa using hinv
  | cons t l ih =>
    intro ran sh hran hinv
    rw [List.foldl_cons]
    have hnd' := List.nodup_cons.mp hnd
    have h1 := Avx2.avx2_thread_worker_inv env str1 str2 n T w t ran
      (hran t (List.mem_cons_self _ _)) sh (hok t) hw hinv
    have h2 := ih hnd'.2 (t :: ran) _ (fun t' ht' hmem => by
      rcases List.mem_cons.mp hmem with h | h
      · subst h; exact hnd'.1 ht'
      · exact hran t' (List.mem_cons_of_mem _ ht') h) h1
    refine h2.congr ?_
    intro r c _ _
    unfold waveDone
    simp only [List.mem_append, List.mem_cons]
    tauto

/-- The loop over the waves of ``avx2_edit_distance.c``: after the waves before `w` the
tiles `(r, c)` with `r + c < w` are processed. -/
theorem Avx2.avx2_waves_inv (env : Env) (str1 str2 : Nat → Byte) (n T : Nat) (hT : 1 ≤ T)
    (hok : ∀ w t, env.scratch_ok 0 w t = true)
    (hfair : env.Fair T) (sh : Shared)
    (hinv : BoundsInv str1 str2 n (fun r => r % 3) (fun _ _ => False)
      sh.global_rows sh.global_cols) (W : Nat)
    (hW : W ≤ 2 * ((n + BLOCK_SIZE - 1) / BLOCK_SIZE) - 1) :
    BoundsInv str1 str2 n (fun r => r % 3) (fun r c => r + c < W)
      (forLt 0 W (fun wave sh => (env.order wave).foldl
        (fun sh t => Avx2.thread_worker env
          ⟨t, T, wave, (n + BLOCK_SIZE - 1) / BLOCK_SIZE, n, str1, str2⟩ sh) sh)
        sh).global_rows
      (forLt 0 W (fun wave sh => (env.order wave).foldl
        (fun sh t => Avx2.thread_worker env
          ⟨t, T, wave, (n + BLOCK_SIZE - 1) / BLOCK_SIZE, n, str1, str2⟩ sh) sh)
        sh).global_cols := by
  refine forLt_inv
    (fun w (s : Shared) => BoundsInv str1 str2 n (fun r => r % 3) (fun r c => r + c < w)
      s.global_rows s.global_cols) 0 W _ sh (Nat.zero_le _)
    (hinv.congr (fun r c _ _ => by simp)) ?_
  intro w s _ hw hs
  have hperm := hfair w
  have h0 : BoundsInv str1 str2 n (fun r => r % 3)
      (waveDone ((n + BLOCK_SIZE - 1) / BLOCK_SIZE) T w [] 0 0)
      s.global_rows s.global_cols := by
    refine hs.congr ?_
    intro r c _ _
    unfold waveDone
    simp
  have h1 := Avx2.avx2_wave_inv env str1 str2 n T w (hok w) (by omega) (env.order w)
    (hperm.nodup_iff.mpr (List.nodup_range T)) [] s (fun _ _ h => by simp at h) h0
  refine h1.congr ?_
  intro r c _ _
  unfold waveDone
  have hmem : (r - rowMin ((n + BLOCK_SIZE - 1) / BLOCK_SIZE) w) % T ∈ env.order w ++ [] := by
    rw [List.append_nil, hperm.mem_iff, List.mem_range]
    exact Nat.mod_lt _ (by omega)
  constructor
  · rintro (hd | ⟨hd1, _⟩) <;> omega
  · intro hd
    by_cases hlt : r + c < w
    · exact Or.inl hlt
    · exact Or.inr ⟨by omega, Or.inl hmem⟩

/-! ## The entry points -/

/-- The initialisation loop of the threaded entry points writes `0 .. len` into the three row
buffers and the column buffer. -/
theorem shared_init (str1 str2 : Nat → Byte) (n : Nat) (rows : Nat → Buf) (cols : Buf)
    (trace : List Event) :
    BoundsInv str1 str2 n (fun r => r % 3) (fun _ _ => False)
      (forLoop 0 n
        (fun i (s : Shared) => ⟨Function.update (Function.update (Function.update s.global_rows
            0 (store (s.global_rows 0) i (i : Int)))
            1 (store (s.global_rows 1) i (i : Int)))
            2 (store (s.global_rows 2) i (i : Int)),
          store s.global_cols i (i : Int), s.trace⟩)
        ⟨rows, cols, trace⟩).global_rows
      (forLoop 0 n
        (fun i (s : Shared) => ⟨Function.update (Function.update (Function.update s.global_rows
            0 (store (s.global_rows 0) i (i : Int)))
            1 (store (s.global_rows 1) i (i : Int)))
            2 (store (s.global_rows 2) i (i : Int)),
          store s.global_cols i (i : Int), s.trace⟩)
        ⟨rows, cols, trace⟩).global_cols := by
  have key := forLoop_inv
    (fun i (s : Shared) =>
      (∀ k y, k < 3 → y < i → (s.global_rows k).get y = (y : Int)) ∧
      (∀ y, y < i → s.global_cols.get y = (y : Int)))
    0 n
    (fun i (s : Shared) => ⟨Function.update (Function.update (Function.update s.global_rows
        0 (store (s.global_rows 0) i (i : Int)))
        1 (store (s.global_rows 1) i (i : Int)))
        2 (store (s.global_rows 2) i (i : Int)),
      store s.global_cols i (i : Int), s.trace⟩)
    ⟨rows, cols, trace⟩ (Nat.zero_le _)
    ⟨fun _ _ _ h => by omega, fun _ h => by omega⟩
    (by
      intro i s _ _ ⟨hr, hc⟩
      refine ⟨?_, ?_⟩
      · intro k y hk hy
        have hk' : k = 0 ∨ k = 1 ∨ k = 2 := by omega
        rcases hk' with rfl | rfl | rfl
        · simp only [Function.update_noteq (show (0 : Nat) ≠ 2 by decide),
            Function.update_noteq (show (0 : Nat) ≠ 1 by decide), Function.update_same,
            store_get]
          split_ifs with h
          · rw [h]
          · exact hr 0 y (by omega) (by omega)
        · simp only [Function.update_noteq (show (1 : Nat) ≠ 2 by decide),
            Function.update_same, store_get]
          split_ifs with h
          · rw [h]
          · exact hr 1 y (by omega) (by omega)
        · simp only [Function.update_same, store_get]
          split_ifs with h
          · rw [h]
          · exact hr 2 y (by omega) (by omega)
      · intro y hy
        simp only [store_get]
        split_ifs with h
        · rw [h]
        · exact hc y (by omega))
  exact BoundsInv.init str1 str2 n _ _ _
    (fun r0 y hy => key.1 (r0 % 3) y (Nat.mod_lt _ (by decide)) (by omega))
    (fun x hx => key.2 x (by omega))


/-- With every request granted and fair scheduling, `parallelized_edit_distance` returns the
table's corner entry. -/
theorem parallelized_edit_distance_value (env : Env) (str1 str2 : Nat → Byte) (n T : Nat) (hn : 1 ≤ n)
    (hT : 1 ≤ T) (hok : env.AllocOk) (hfair : env.Fair T) :
    (parallelized_edit_distance env str1 str2 n T).value = (D str1 str2 n n : Int) := by
  unfold parallelized_edit_distance
  rw [if_neg (by omega)]
  simp only [hok.1, Bool.not_true, Bool.or_self, Bool.false_eq_true, if_false]
  have hinit := shared_init str1 str2 n env.malloc_fresh (env.malloc_fresh 3)
    [Event.malloc true, Event.malloc true, Event.malloc true, Event.malloc true]
  have hall := Parallelized.par_waves_inv env str1 str2 n T hT hfair _ hinit
    (2 * ((n + BLOCK_SIZE - 1) / BLOCK_SIZE) - 1) (le_refl _)
  have := hall.rows_done ((n + BLOCK_SIZE - 1) / BLOCK_SIZE - 1)
    ((n + BLOCK_SIZE - 1) / BLOCK_SIZE - 1) n
    (by simp only [BLOCK_SIZE]; omega) (by simp only [BLOCK_SIZE]; omega)
    (by simp only [BLOCK_SIZE]; omega)
    (fun r' hr' _ _ => by simp only [BLOCK_SIZE] at *; omega)
    (by simp only [BLOCK_SIZE]; omega) (by unfold blockEnd; simp only [BLOCK_SIZE]; omega)
  rw [this]
  congr 2
  unfold blockEnd
  simp only [BLOCK_SIZE]
  omega


/-- With every request granted and fair scheduling, `avx2_edit_distance` returns the
table's corner entry. -/
theorem avx2_edit_distance_value (env : Env) (str1 str2 : Nat → Byte) (n T : Nat) (hn : 1 ≤ n)
    (hT : 1 ≤ T) (hok : env.AllocOk) (hfair : env.Fair T) :
    (avx2_edit_distance env str1 str2 n T).value = (D str1 str2 n n : Int) := by
  unfold avx2_edit_distance
  rw [if_neg (by omega)]
  simp only [hok.1, Bool.not_true, Bool.or_self, Bool.false_eq_true, if_false]
  have hinit := shared_init str1 str2 n env.malloc_fresh (env.malloc_fresh 3)
    [Event.malloc true, Event.malloc true, Event.malloc true, Event.malloc true]
  have hall := Avx2.avx2_waves_inv env str1 str2 n T hT (fun w t => hok.2 0 w t) hfair _ hinit
    (2 * ((n + BLOCK_SIZE - 1) / BLOCK_SIZE) - 1) (le_refl _)
  have := hall.rows_done ((n + BLOCK_SIZE - 1) / BLOCK_SIZE - 1)
    ((n + BLOCK_SIZE - 1) / BLOCK_SIZE - 1) n
    (by simp only [BLOCK_SIZE]; omega) (by simp only [BLOCK_SIZE]; omega)
    (by simp only [BLOCK_SIZE]; omega)
    (fun r' hr' _ _ => by simp only [BLOCK_SIZE] at *; omega)
    (by simp only [BLOCK_SIZE]; omega) (by unfold blockEnd; simp only [BLOCK_SIZE]; omega)
  rw [this]
  congr 2
  unfold blockEnd
  simp only [BLOCK_SIZE]
  omega

/-! ## `tiled_edit_distance` -/

/-- Invariant rule for a loop over the block offsets `0, BLOCK_SIZE, 2 * BLOCK_SIZE, ...`
below `n`: with enough iterations allowed and a body that does not leave the function, the
loop ends normally after the last block. -/
theorem forStep_blocks {ε σ : Type} (P : Nat → σ → Prop) (n : Nat)
    (body : Nat → σ → Except ε σ)
    (hbody : ∀ r s, r * BLOCK_SIZE < n → P r s →
      ∃ s', body (r * BLOCK_SIZE) s = .ok s' ∧ P (r + 1) s') :
    ∀ (fuel r : Nat) (s : σ), (n + BLOCK_SIZE - 1) / BLOCK_SIZE ≤ r + fuel →
      r ≤ (n + BLOCK_SIZE - 1) / BLOCK_SIZE → P r s →
      ∃ s', forStep BLOCK_SIZE n body fuel (r * BLOCK_SIZE) s = .ok s' ∧
        P ((n + BLOCK_SIZE - 1) / BLOCK_SIZE) s' := by
  intro fuel
  induction fuel with
  | zero =>
    intro r s h1 h2 hP
    have : r = (n + BLOCK_SIZE - 1) / BLOCK_SIZE := by omega
    subst this
    exact ⟨s, rfl, hP⟩
  | succ fuel ih =>
    intro r s h1 h2 hP
    unfold forStep
    by_cases hlt : r * BLOCK_SIZE < n
    · rw [if_pos hlt]
      obtain ⟨s', hs', hP'⟩ := hbody r s hlt hP
      rw [hs']
      simp only
      have e : r * BLOCK_SIZE + BLOCK_SIZE = (r + 1) * BLOCK_SIZE := by
        simp only [BLOCK_SIZE]; omega
      rw [e]
      exact ih (r + 1) s' (by omega) (by simp only [BLOCK_SIZE] at *; omega) hP'
    · rw [if_neg hlt]
      have : r = (n + BLOCK_SIZE - 1) / BLOCK_SIZE := by
        simp only [BLOCK_SIZE] at *; omega
      subst this
      exact ⟨s, rfl, hP⟩

/-- The body of the loop over the block columns of `tiled_edit_distance` processes the tile
`(ri, cj)` on the boundary values of the table and does not leave the function. -/
theorem Tiled.tiled_tile_step_inv (env : Env) (hok : env.AllocOk) (str1 str2 : Nat → Byte)
    (n ri cj : Nat) (hri : ri * BLOCK_SIZE < n) (hcj : cj * BLOCK_SIZE < n) (s : Tiled.State)
    (hinv : BoundsInv str1 str2 n (fun r => (r + 1) % 2) (tiledDone ri cj) s.rows
      s.col_bounds) :
    ∃ s', Tiled.tile_step env str1 str2 n (ri * BLOCK_SIZE) (cj * BLOCK_SIZE) s = .ok s' ∧
      BoundsInv str1 str2 n (fun r => (r + 1) % 2) (tiledDone ri (cj + 1)) s'.rows
        s'.col_bounds := by
  have hh : ri * BLOCK_SIZE + (if ri * BLOCK_SIZE + BLOCK_SIZE > n then n - ri * BLOCK_SIZE
      else BLOCK_SIZE) = blockEnd n ri := by
    unfold blockEnd; simp only [BLOCK_SIZE] at *; split_ifs <;> omega
  have hww : cj * BLOCK_SIZE + (if cj * BLOCK_SIZE + BLOCK_SIZE > n then n - cj * BLOCK_SIZE
      else BLOCK_SIZE) = blockEnd n cj := by
    unfold blockEnd; simp only [BLOCK_SIZE] at *; split_ifs <;> omega
  have E2 : ∀ r', r' * BLOCK_SIZE < n → tiledDone ri cj r' cj → r' < ri := by
    intro r' _ hd
    unfold tiledDone at hd
    omega
  have E4 : ∀ c', c' * BLOCK_SIZE < n → tiledDone ri cj ri c' → c' < cj := by
    intro c' _ hd
    unfold tiledDone at hd
    omega
  have hpre := hinv.pre ri cj _ _ (ri % 2) (ri + 1) hri hcj hh hww (by omega)
    (fun h1 => by omega) E2 (fun h1 => by unfold tiledDone; omega) E4
    (fun h1 => by unfold tiledDone; omega)
    (fun h1 h2 => ⟨by unfold tiledDone; omega, fun r' _ hwr hd => by
      unfold tiledDone at hd; omega⟩)
  have hdiv : ri * BLOCK_SIZE / BLOCK_SIZE = ri := by simp only [BLOCK_SIZE]; omega
  have hcongr : ∀ {rows : Nat → Buf} {cols : Buf},
      BoundsInv str1 str2 n (fun r => (r + 1) % 2)
        (fun r' c' => tiledDone ri cj r' c' ∨ (r' = ri ∧ c' = cj)) rows cols →
      BoundsInv str1 str2 n (fun r => (r + 1) % 2) (tiledDone ri (cj + 1)) rows cols := by
    intro rows cols hb
    refine hb.congr ?_
    intro r c _ _
    unfold tiledDone
    omega
  unfold Tiled.tile_step
  simp only [hdiv, hok.2]
  by_cases hpar : ri % 2 = 0
  · have hrd : s.rows (ri % 2) = s.row_bounds1 := by
      rw [hpar]; simp [Tiled.State.rows]
    have hwr : s.rows ((ri + 1) % 2) = s.row_bounds2 := by
      have : (ri + 1) % 2 = 1 := by omega
      rw [this]; simp [Tiled.State.rows]
    rw [hrd] at hpre
    have hpost := Tiled.tiled_process_tile_post str1 str2 _ _ _ _ _ s.row_bounds2 _
      (env.scratch_fresh 0 ri (cj * BLOCK_SIZE / BLOCK_SIZE))
      (env.scratch_fresh 1 ri (cj * BLOCK_SIZE / BLOCK_SIZE)) hpre
    rw [if_pos hpar]
    generalize Tiled.process_tile true true _ _ _ _ s.row_bounds1 s.row_bounds2 s.col_bounds
      _ _ str1 str2 = out at hpost ⊢
    have hres : out.result ≠ -1 := by
      rw [hpost.result]; omega
    rw [if_neg hres]
    refine ⟨_, rfl, ?_⟩
    rw [← hwr] at hpost
    have hinv' := hcongr (hinv.post ri cj _ _ hri hcj hh hww E2 E4 out hpost)
    have e : Function.update s.rows ((ri + 1) % 2) out.global_rows_write =
        Tiled.State.rows ⟨s.row_bounds1, out.global_rows_write, out.global_cols,
          s.trace ++ [Event.tile ri (cj * BLOCK_SIZE / BLOCK_SIZE), Event.malloc true,
            Event.malloc true]⟩ := by
      have : (ri + 1) % 2 = 1 := by omega
      rw [this]
      funext k
      by_cases hk : k = 1
      · subst hk; simp [Tiled.State.rows]
      · rw [Function.update_noteq hk]
        simp [Tiled.State.rows, hk]
    rw [e] at hinv'
    exact hinv'
  · have hrd : s.rows (ri % 2) = s.row_bounds2 := by
      have : ri % 2 = 1 := by omega
      rw [this]; simp [Tiled.State.rows]
    have hwr : s.rows ((ri + 1) % 2) = s.row_bounds1 := by
      have : (ri + 1) % 2 = 0 := by omega
      rw [this]; simp [Tiled.State.rows]
    rw [hrd] at hpre
    have hpost := Tiled.tiled_process_tile_post str1 str2 _ _ _ _ _ s.row_bounds1 _
      (env.scratch_fresh 0 ri (cj * BLOCK_SIZE / BLOCK_SIZE))
      (env.scratch_fresh 1 ri (cj * BLOCK_SIZE / BLOCK_SIZE)) hpre
    rw [if_neg hpar]
    generalize Tiled.process_tile true true _ _ _ _ s.row_bounds2 s.row_bounds1 s.col_bounds
      _ _ str1 str2 = out at hpost ⊢
    have hres : out.result ≠ -1 := by
      rw [hpost.result]; omega
    rw [if_neg hres]
    refine ⟨_, rfl, ?_⟩
    rw [← hwr] at hpost
    have hinv' := hcongr (hinv.post ri cj _ _ hri hcj hh hww E2 E4 out hpost)
    have e : Function.update s.rows ((ri + 1) % 2) out.global_rows_write =
        Tiled.State.rows ⟨out.global_rows_write, s.row_bounds2, out.global_cols,
          s.trace ++ [Event.tile ri (cj * BLOCK_SIZE / BLOCK_SIZE), Event.malloc true,
            Event.malloc true]⟩ := by
      have : (ri + 1) % 2 = 0 := by omega
      rw [this]
      funext k
      by_cases hk : k = 0
      · subst hk; simp [Tiled.State.rows]
      · rw [Function.update_noteq hk]
        simp [Tiled.State.rows, hk]
    rw [e] at hinv'
    exact hinv'

/-- The initialisation loop of `tiled_edit_distance` writes `0 .. len` into the two row
buffers and the column buffer. -/
theorem Tiled.init_inv (str1 str2 : Nat → Byte) (n : Nat) (b1 b2 b3 : Buf)
    (trace : List Event) :
    BoundsInv str1 str2 n (fun r => (r + 1) % 2) (tiledDone 0 0)
      (forLoop 0 n
        (fun i (s : Tiled.State) => ⟨store s.row_bounds1 i (i : Int),
          store s.row_bounds2 i (i : Int), store s.col_bounds i (i : Int), s.trace⟩)
        ⟨b1, b2, b3, trace⟩).rows
      (forLoop 0 n
        (fun i (s : Tiled.State) => ⟨store s.row_bounds1 i (i : Int),
          store s.row_bounds2 i (i : Int), store s.col_bounds i (i : Int), s.trace⟩)
        ⟨b1, b2, b3, trace⟩).col_bounds := by
  have key := forLoop_inv
    (fun i (s : Tiled.State) =>
      (∀ y, y < i → s.row_bounds1.get y = (y : Int)) ∧
      (∀ y, y < i → s.row_bounds2.get y = (y : Int)) ∧
      (∀ y, y < i → s.col_bounds.get y = (y : Int)))
    0 n
    (fun i (s : Tiled.State) => ⟨store s.row_bounds1 i (i : Int),
      store s.row_bounds2 i (i : Int), store s.col_bounds i (i : Int), s.trace⟩)
    ⟨b1, b2, b3, trace⟩ (Nat.zero_le _)
    ⟨fun _ h => by omega, fun _ h => by omega, fun _ h => by omega⟩
    (by
      intro i s _ _ ⟨h1, h2, h3⟩
      refine ⟨?_, ?_, ?_⟩
      · intro y hy
        simp only [store_get]
        split_ifs with h
        · rw [h]
        · exact h1 y (by omega)
      · intro y hy
        simp only [store_get]
        split_ifs with h
        · rw [h]
        · exact h2 y (by omega)
      · intro y hy
        simp only [store_get]
        split_ifs with h
        · rw [h]
        · exact h3 y (by omega))
  refine (BoundsInv.init str1 str2 n _ _ _ ?_ (fun x hx => key.2.2 x (by omega))).congr ?_
  · intro r0 y hy
    dsimp only
    rcases Nat.mod_two_eq_zero_or_one (r0 + 1) with h | h
    · rw [h]
      simpa [Tiled.State.rows] using key.1 y (by omega)
    · rw [h]
      simpa [Tiled.State.rows] using key.2.1 y (by omega)
  · intro r c _ _
    simp [tiledDone]

/-- The two tile loops of `tiled_edit_distance` end normally, with every tile processed. -/
theorem Tiled.loops_inv (env : Env) (hok : env.AllocOk) (str1 str2 : Nat → Byte)
    (n : Nat) (hn : 1 ≤ n) (s : Tiled.State)
    (hinv : BoundsInv str1 str2 n (fun r => (r + 1) % 2) (tiledDone 0 0) s.rows
      s.col_bounds) :
    ∃ s', forStep BLOCK_SIZE n
        (fun i s => forStep BLOCK_SIZE n (Tiled.tile_step env str1 str2 n i) n 0 s)
        n 0 s = .ok s' ∧
      BoundsInv str1 str2 n (fun r => (r + 1) % 2)
        (tiledDone ((n + BLOCK_SIZE - 1) / BLOCK_SIZE) 0) s'.rows s'.col_bounds := by
  have hfuel : (n + BLOCK_SIZE - 1) / BLOCK_SIZE ≤ 0 + n := by
    simp only [BLOCK_SIZE]; omega
  have h0 : (0 : Nat) = 0 * BLOCK_SIZE := by simp
  have houter := forStep_blocks
    (fun r (s : Tiled.State) =>
      BoundsInv str1 str2 n (fun r => (r + 1) % 2) (tiledDone r 0) s.rows s.col_bounds) n
    (fun i s => forStep BLOCK_SIZE n (Tiled.tile_step env str1 str2 n i) n 0 s)
    (by
      intro r s hr hs
      have hinner := forStep_blocks
        (fun c (s : Tiled.State) =>
          BoundsInv str1 str2 n (fun r => (r + 1) % 2) (tiledDone r c) s.rows s.col_bounds) n
        (Tiled.tile_step env str1 str2 n (r * BLOCK_SIZE))
        (fun c s hc hs => Tiled.tiled_tile_step_inv env hok str1 str2 n r c hr hc s hs)
        n 0 s hfuel (Nat.zero_le _) hs
      obtain ⟨s', hs', hP⟩ := hinner
      rw [← h0] at hs'
      refine ⟨s', hs', hP.congr ?_⟩
      intro r' c' _ hc'
      unfold tiledDone
      simp only [BLOCK_SIZE] at *
      omega)
    n 0 s hfuel (Nat.zero_le _) hinv
  rw [← h0] at houter
  exact houter

/-- With every request granted, `tiled_edit_distance` returns the table's corner entry. -/
theorem tiled_edit_distance_value (env : Env) (str1 str2 : Nat → Byte) (n : Nat)
    (hn : 1 ≤ n) (hok : env.AllocOk) :
    (tiled_edit_distance env str1 str2 n).value = (D str1 str2 n n : Int) := by
  unfold tiled_edit_distance
  rw [if_neg (by omega)]
  simp only [hok.1, Bool.not_true, Bool.or_self, Bool.false_eq_true, if_false]
  obtain ⟨s', hs', hinv⟩ := Tiled.loops_inv env hok str1 str2 n hn _
    (Tiled.init_inv str1 str2 n (env.malloc_fresh 0) (env.malloc_fresh 1)
      (env.malloc_fresh 2) [Event.malloc true, Event.malloc true, Event.malloc true])
  rw [hs']
  simp only
  have hlast := hinv.rows_done ((n + BLOCK_SIZE - 1) / BLOCK_SIZE - 1)
    ((n + BLOCK_SIZE - 1) / BLOCK_SIZE - 1) n
    (by simp only [BLOCK_SIZE]; omega) (by simp only [BLOCK_SIZE]; omega)
    (by unfold tiledDone; simp only [BLOCK_SIZE]; omega)
    (fun r' hr' _ _ => by simp only [BLOCK_SIZE] at *; omega)
    (by simp only [BLOCK_SIZE]; omega) (by unfold blockEnd; simp only [BLOCK_SIZE]; omega)
  have hend : blockEnd n ((n + BLOCK_SIZE - 1) / BLOCK_SIZE - 1) = n := by
    unfold blockEnd; simp only [BLOCK_SIZE]; omega
  rw [hend] at hlast
  by_cases hpar : ((n + BLOCK_SIZE - 1) / BLOCK_SIZE - 1) % 2 = 0
  · rw [if_pos hpar]
    have e : ((n + BLOCK_SIZE - 1) / BLOCK_SIZE - 1 + 1) % 2 = 1 := by omega
    rw [e] at hlast
    simpa [Tiled.State.rows] using hlast
  · rw [if_neg hpar]
    have e : ((n + BLOCK_SIZE - 1) / BLOCK_SIZE - 1 + 1) % 2 = 0 := by omega
    rw [e] at hlast
    simpa [Tiled.State.rows] using hlast

/-! ## Idle workers -/

/-- A worker of ``parallelized_edit_distance.c`` whose identifier is at least the number of tiles of
its wave processes no tile: it leaves the boundary buffers as they are and adds no tile to the
trace. -/
theorem Parallelized.par_idle_worker (env : Env) (data : ThreadArguments) (sh : Shared)
    (hidle : rowMax data.num_blocks data.current_wave + 1 -
      rowMin data.num_blocks data.current_wave ≤ data.thread_id) :
    (Parallelized.thread_worker env data sh).global_rows = sh.global_rows ∧
    (Parallelized.thread_worker env data sh).global_cols = sh.global_cols ∧
    ∀ r c, Event.tile r c ∈ (Parallelized.thread_worker env data sh).trace →
      Event.tile r c ∈ sh.trace := by
  unfold Parallelized.thread_worker
  simp only
  have hle : rowMin data.num_blocks data.current_wave ≤
      rowMax data.num_blocks data.current_wave + 1 ∨
      rowMax data.num_blocks data.current_wave + 1 <
        rowMin data.num_blocks data.current_wave := by omega
  rcases hle with hle | hle
  swap
  · unfold rowMin rowMax at hle
    unfold forLoop
    rw [forLt_ge _ _ _ _ (by omega)]
    simp
  have key := forLoop_inv
    (fun r (s : Parallelized.WorkerState) =>
      s.tile_number = r - rowMin data.num_blocks data.current_wave ∧
      s.shared.global_rows = sh.global_rows ∧ s.shared.global_cols = sh.global_cols ∧
      s.shared.trace = sh.trace ++ [Event.worker data.current_wave data.thread_id, Event.malloc true,
        Event.malloc true])
    (rowMin data.num_blocks data.current_wave)
    (rowMax data.num_blocks data.current_wave)
    (Parallelized.tile_step data)
    ⟨0, env.scratch_fresh 0 data.current_wave data.thread_id,
      env.scratch_fresh 1 data.current_wave data.thread_id,
      ⟨sh.global_rows, sh.global_cols, sh.trace ++
        [Event.worker data.current_wave data.thread_id, Event.malloc true,
          Event.malloc true]⟩⟩
    (by omega) ⟨by simp, rfl, rfl, rfl⟩
    (by
      intro r s h1 h2 ⟨ha, hb, hc, hd⟩
      unfold Parallelized.tile_step
      simp only
      have hlt : s.tile_number % data.num_threads ≠ data.thread_id := by
        have := Nat.mod_le s.tile_number data.num_threads
        omega
      rw [if_neg hlt]
      exact ⟨by simp only; omega, hb, hc, hd⟩)
  unfold rowMin rowMax at key
  refine ⟨key.2.1, key.2.2.1, ?_⟩
  intro r c hmem
  rw [key.2.2.2] at hmem
  simpa using hmem


/-- A worker of ``avx2_edit_distance.c`` whose identifier is at least the number of tiles of
its wave processes no tile: it leaves the boundary buffers as they are and adds no tile to the
trace. -/
theorem Avx2.avx2_idle_worker (env : Env) (data : ThreadArguments) (sh : Shared)
    (hidle : rowMax data.num_blocks data.current_wave + 1 -
      rowMin data.num_blocks data.current_wave ≤ data.thread_id) :
    (Avx2.thread_worker env data sh).global_rows = sh.global_rows ∧
    (Avx2.thread_worker env data sh).global_cols = sh.global_cols ∧
    ∀ r c, Event.tile r c ∈ (Avx2.thread_worker env data sh).trace →
      Event.tile r c ∈ sh.trace := by
  unfold Avx2.thread_worker
  simp only
  by_cases hok : env.scratch_ok 0 data.current_wave data.thread_id = true
  swap
  · simp [hok]
  simp only [hok, Bool.not_true, Bool.false_eq_true, if_false]
  have hle : rowMin data.num_blocks data.current_wave ≤
      rowMax data.num_blocks data.current_wave + 1 ∨
      rowMax data.num_blocks data.current_wave + 1 <
        rowMin data.num_blocks data.current_wave := by omega
  rcases hle with hle | hle
  swap
  · unfold rowMin rowMax at hle
    unfold forLoop
    rw [forLt_ge _ _ _ _ (by omega)]
    simp
  have key := forLoop_inv
    (fun r (s : Avx2.WorkerState) =>
      s.tile_number = r - rowMin data.num_blocks data.current_wave ∧
      s.shared.global_rows = sh.global_rows ∧ s.shared.global_cols = sh.global_cols ∧
      s.shared.trace = sh.trace ++ [Event.worker data.current_wave data.thread_id, Event.malloc true])
    (rowMin data.num_blocks data.current_wave)
    (rowMax data.num_blocks data.current_wave)
    (Avx2.tile_step data)
    ⟨0, env.scratch_fresh 0 data.current_wave data.thread_id,
      ⟨sh.global_rows, sh.global_cols, sh.trace ++
        [Event.worker data.current_wave data.thread_id, Event.malloc true]⟩⟩
    (by omega) ⟨by simp, rfl, rfl, rfl⟩
    (by
      intro r s h1 h2 ⟨ha, hb, hc, hd⟩
      unfold Avx2.tile_step
      simp only
      have hlt : s.tile_number % data.num_threads ≠ data.thread_id := by
        have := Nat.mod_le s.tile_number data.num_threads
        omega
      rw [if_neg hlt]
      exact ⟨by simp only; omega, hb, hc, hd⟩)
  unfold rowMin rowMax at key
  refine ⟨key.2.1, key.2.2.1, ?_⟩
  intro r c hmem
  rw [key.2.2.2] at hmem
  simpa using hmem

/-! ## The four entry points compute the table's corner entry -/

theorem naive_edit_distance_eq_D (env : Env) (str1 str2 : Nat → Byte) (n : Nat)
    (hok : env.AllocOk) :
    (naive_edit_distance env str1 str2 n).value = (D str1 str2 n n : Int) := by
  by_cases hn : 1 ≤ n
  · exact naive_value env str1 str2 n hn (hok.1 0) (hok.1 1)
  · have : n = 0 := by omega
    subst this
    rfl

theorem tiled_edit_distance_eq_D (env : Env) (str1 str2 : Nat → Byte) (n : Nat)
    (hok : env.AllocOk) :
    (tiled_edit_distance env str1 str2 n).value = (D str1 str2 n n : Int) := by
  by_cases hn : 1 ≤ n
  · exact tiled_edit_distance_value env str1 str2 n hn hok
  · have : n = 0 := by omega
    subst this
    rfl

theorem parallelized_edit_distance_eq_D (env : Env) (str1 str2 : Nat → Byte) (n t : Nat)
    (ht : 1 ≤ t) (hok : env.AllocOk) (hfair : env.Fair t) :
    (parallelized_edit_distance env str1 str2 n t).value = (D str1 str2 n n : Int) := by
  by_cases hn : 1 ≤ n
  · exact parallelized_edit_distance_value env str1 str2 n t hn ht hok hfair
  · have : n = 0 := by omega
    subst this
    rfl

theorem avx2_edit_distance_eq_D (env : Env) (str1 str2 : Nat → Byte) (n t : Nat)
    (ht : 1 ≤ t) (hok : env.AllocOk) (hfair : env.Fair t) :
    (avx2_edit_distance env str1 str2 n t).value = (D str1 str2 n n : Int) := by
  by_cases hn : 1 ≤ n
  · exact avx2_edit_distance_value env str1 str2 n t hn ht hok hfair
  · have : n = 0 := by omega
    subst this
    rfl

theorem Env.ideal_allocOk (t : Nat) : (Env.ideal t).AllocOk :=
  ⟨fun _ => rfl, fun _ _ _ => rfl⟩

theorem Env.ideal_fair (t : Nat) : (Env.ideal t).Fair t :=
  fun _ => List.Perm.refl _

/-- The pointer to the bytes of a list (followed by zero bytes). -/
theorem symbols_ofList (a : List Byte) :
    symbols (fun i => a.getD i 0) a.length = a := by
  apply List.ext_getElem
  · simp [symbols]
  · intro i h1 h2
    simp [symbols, List.getElem?_eq_getElem h2]

/-! ## The claims -/

/-- Claim C1. For every length `n ≥ 1`, all byte sequences of length `n` and every thread count
`t ≥ 1`, when every allocation succeeds and in each wave all workers run before the next wave
starts, `avx2_edit_distance` returns the Levenshtein distance between the two sequences: the
minimum number of single-character insertions, deletions and substitutions that transform
the first into the second (which is also the distance Mathlib defines). -/
theorem avx2_edit_distance_levenshtein (env : Env) (str1 str2 : Nat → Byte) (n t : Nat)
    (hn : 1 ≤ n) (ht : 1 ≤ t) (hok : env.AllocOk) (hfair : env.Fair t) :
    ∃ d : Nat, (avx2_edit_distance env str1 str2 n t).value = (d : Int) ∧
      IsLevenshtein (symbols str1 n) (symbols str2 n) d ∧
      d = levenshtein Levenshtein.defaultCost (symbols str1 n) (symbols str2 n) :=
  ⟨D str1 str2 n n, avx2_edit_distance_value env str1 str2 n t hn ht hok hfair,
    D_isLevenshtein str1 str2 n n, by rw [D_eq_lev, lev_eq_levenshtein]⟩

theorem avx2_edit_distance_levenshtein_witness :
    (1 ≤ 5 ∧ 1 ≤ 4 ∧ (Env.ideal 4).AllocOk ∧ (Env.ideal 4).Fair 4) ∧
    ∃ d : Nat, (avx2_edit_distance (Env.ideal 4) (fun i => [72, 69, 76, 76, 79].getD i 0)
        (fun i => [72, 69, 76, 76, 65].getD i 0) 5 4).value = (d : Int) ∧
      IsLevenshtein (symbols (fun i => [72, 69, 76, 76, 79].getD i 0) 5)
        (symbols (fun i => [72, 69, 76, 76, 65].getD i 0) 5) d ∧
      d = levenshtein Levenshtein.defaultCost
        (symbols (fun i => [72, 69, 76, 76, 79].getD i 0) 5)
        (symbols (fun i => [72, 69, 76, 76, 65].getD i 0) 5) :=
  ⟨⟨by decide, by decide, Env.ideal_allocOk 4, Env.ideal_fair 4⟩,
    avx2_edit_distance_levenshtein (Env.ideal 4) _ _ 5 4 (by decide) (by decide)
      (Env.ideal_allocOk 4) (Env.ideal_fair 4)⟩

/-- Claim C2. For every length `n ≥ 0`, all byte sequences of length `n` and every thread count
`t ≥ 1`, when every allocation succeeds the four implementations return the same value. -/
theorem implementations_agree (env1 env2 env3 env4 : Env) (str1 str2 : Nat → Byte)
    (n t : Nat) (ht : 1 ≤ t) (hok1 : env1.AllocOk) (hok2 : env2.AllocOk)
    (hok3 : env3.AllocOk) (hok4 : env4.AllocOk) (hfair3 : env3.Fair t)
    (hfair4 : env4.Fair t) :
    (naive_edit_distance env1 str1 str2 n).value =
      (tiled_edit_distance env2 str1 str2 n).value ∧
    (tiled_edit_distance env2 str1 str2 n).value =
      (parallelized_edit_distance env3 str1 str2 n t).value ∧
    (parallelized_edit_distance env3 str1 str2 n t).value =
      (avx2_edit_distance env4 str1 str2 n t).value := by
  rw [naive_edit_distance_eq_D env1 str1 str2 n hok1,
    tiled_edit_distance_eq_D env2 str1 str2 n hok2,
    parallelized_edit_distance_eq_D env3 str1 str2 n t ht hok3 hfair3,
    avx2_edit_distance_eq_D env4 str1 str2 n t ht hok4 hfair4]
  exact ⟨rfl, rfl, rfl⟩

theorem implementations_agree_witness :
    (1 ≤ 3 ∧ (Env.ideal 3).AllocOk ∧ (Env.ideal 3).Fair 3) ∧
    ((naive_edit_distance (Env.ideal 3) (fun i => [65, 66, 67].getD i 0)
        (fun i => [88, 66, 90].getD i 0) 3).value =
      (tiled_edit_distance (Env.ideal 3) (fun i => [65, 66, 67].getD i 0)
        (fun i => [88, 66, 90].getD i 0) 3).value ∧
    (tiled_edit_distance (Env.ideal 3) (fun i => [65, 66, 67].getD i 0)
        (fun i => [88, 66, 90].getD i 0) 3).value =
      (parallelized_edit_distance (Env.ideal 3) (fun i => [65, 66, 67].getD i 0)
        (fun i => [88, 66, 90].getD i 0) 3 3).value ∧
    (parallelized_edit_distance (Env.ideal 3) (fun i => [65, 66, 67].getD i 0)
        (fun i => [88, 66, 90].getD i 0) 3 3).value =
      (avx2_edit_distance (Env.ideal 3) (fun i => [65, 66, 67].getD i 0)
        (fun i => [88, 66, 90].getD i 0) 3 3).value) :=
  ⟨⟨by decide, Env.ideal_allocOk 3, Env.ideal_fair 3⟩,
    implementations_agree (Env.ideal 3) (Env.ideal 3) (Env.ideal 3) (Env.ideal 3) _ _ 3 3
      (by decide) (Env.ideal_allocOk 3) (Env.ideal_allocOk 3) (Env.ideal_allocOk 3)
      (Env.ideal_allocOk 3) (Env.ideal_fair 3) (Env.ideal_fair 3)⟩

/-- Claim C3. For every length `n ≥ 0`, every byte sequence `s` of length `n` (also when it
spans several blocks of 512) and every thread count `t ≥ 1`, each of `avx2_edit_distance`,
`parallelized_edit_distance`, `tiled_edit_distance` and `naive_edit_distance` returns `0` on
`(s, s)`. -/
theorem identical_sequences_distance_zero (env1 env2 env3 env4 : Env) (s : Nat → Byte)
    (n t : Nat) (ht : 1 ≤ t) (hok1 : env1.AllocOk) (hok2 : env2.AllocOk)
    (hok3 : env3.AllocOk) (hok4 : env4.AllocOk) (hfair1 : env1.Fair t)
    (hfair2 : env2.Fair t) :
    (avx2_edit_distance env1 s s n t).value = 0 ∧
    (parallelized_edit_distance env2 s s n t).value = 0 ∧
    (tiled_edit_distance env3 s s n).value = 0 ∧
    (naive_edit_distance env4 s s n).value = 0 := by
  rw [avx2_edit_distance_eq_D env1 s s n t ht hok1 hfair1,
    parallelized_edit_distance_eq_D env2 s s n t ht hok2 hfair2,
    tiled_edit_distance_eq_D env3 s s n hok3, naive_edit_distance_eq_D env4 s s n hok4,
    D_diag_of_eq s s n (fun _ _ => rfl)]
  exact ⟨rfl, rfl, rfl, rfl⟩

theorem identical_sequences_distance_zero_witness :
    (1 ≤ 4 ∧ (Env.ideal 4).AllocOk ∧ (Env.ideal 4).Fair 4) ∧
    ((avx2_edit_distance (Env.ideal 4) (fun _ => 88) (fun _ => 88) 2048 4).value = 0 ∧
    (parallelized_edit_distance (Env.ideal 4) (fun _ => 88) (fun _ => 88) 2048 4).value = 0 ∧
    (tiled_edit_distance (Env.ideal 4) (fun _ => 88) (fun _ => 88) 2048).value = 0 ∧
    (naive_edit_distance (Env.ideal 4) (fun _ => 88) (fun _ => 88) 2048).value = 0) :=
  ⟨⟨by decide, Env.ideal_allocOk 4, Env.ideal_fair 4⟩,
    identical_sequences_distance_zero (Env.ideal 4) (Env.ideal 4) (Env.ideal 4) (Env.ideal 4)
      (fun _ => 88) 2048 4 (by decide) (Env.ideal_allocOk 4) (Env.ideal_allocOk 4)
      (Env.ideal_allocOk 4) (Env.ideal_allocOk 4) (Env.ideal_fair 4) (Env.ideal_fair 4)⟩

/-- Claim C4. Symmetry: for every length `n ≥ 0`, all byte sequences of length `n` and every
thread count `t ≥ 1`, `avx2_edit_distance` returns the same value on `(a, b)` and on
`(b, a)`. -/
theorem avx2_edit_distance_symmetric (env1 env2 : Env) (str1 str2 : Nat → Byte) (n t : Nat)
    (ht : 1 ≤ t) (hok1 : env1.AllocOk) (hok2 : env2.AllocOk) (hfair1 : env1.Fair t)
    (hfair2 : env2.Fair t) :
    (avx2_edit_distance env1 str1 str2 n t).value =
      (avx2_edit_distance env2 str2 str1 n t).value := by
  rw [avx2_edit_distance_eq_D env1 str1 str2 n t ht hok1 hfair1,
    avx2_edit_distance_eq_D env2 str2 str1 n t ht hok2 hfair2, D_symm]

theorem avx2_edit_distance_symmetric_witness :
    (1 ≤ 2 ∧ (Env.ideal 2).AllocOk ∧ (Env.ideal 2).Fair 2) ∧
    (avx2_edit_distance (Env.ideal 2) (fun i => [65, 66, 67, 68].getD i 0)
        (fun i => [66, 67, 68, 69].getD i 0) 4 2).value =
      (avx2_edit_distance (Env.ideal 2) (fun i => [66, 67, 68, 69].getD i 0)
        (fun i => [65, 66, 67, 68].getD i 0) 4 2).value :=
  ⟨⟨by decide, Env.ideal_allocOk 2, Env.ideal_fair 2⟩,
    avx2_edit_distance_symmetric (Env.ideal 2) (Env.ideal 2) _ _ 4 2 (by decide)
      (Env.ideal_allocOk 2) (Env.ideal_allocOk 2) (Env.ideal_fair 2) (Env.ideal_fair 2)⟩

/-- Claim C5. Thread-count invariance: for every length `n ≥ 0`, all byte sequences of length
`n` and all thread counts `t1, t2 ≥ 1`, `avx2_edit_distance` returns the same value with `t1`
and with `t2` workers, and so does `parallelized_edit_distance`; a worker whose identifier is
at least the number of tiles of its wave processes no tile and leaves the boundary buffers
unchanged. -/
theorem thread_count_invariance (env1 env2 : Env) (str1 str2 : Nat → Byte) (n t1 t2 : Nat)
    (ht1 : 1 ≤ t1) (ht2 : 1 ≤ t2) (hok1 : env1.AllocOk) (hok2 : env2.AllocOk)
    (hfair1 : env1.Fair t1) (hfair2 : env2.Fair t2) :
    (avx2_edit_distance env1 str1 str2 n t1).value =
      (avx2_edit_distance env2 str1 str2 n t2).value ∧
    (parallelized_edit_distance env1 str1 str2 n t1).value =
      (parallelized_edit_distance env2 str1 str2 n t2).value ∧
    (∀ (env : Env) (data : ThreadArguments) (sh : Shared),
      rowMax data.num_blocks data.current_wave + 1 -
        rowMin data.num_blocks data.current_wave ≤ data.thread_id →
      ((Avx2.thread_worker env data sh).global_rows = sh.global_rows ∧
        (Avx2.thread_worker env data sh).global_cols = sh.global_cols ∧
        ∀ r c, Event.tile r c ∈ (Avx2.thread_worker env data sh).trace →
          Event.tile r c ∈ sh.trace) ∧
      ((Parallelized.thread_worker env data sh).global_rows = sh.global_rows ∧
        (Parallelized.thread_worker env data sh).global_cols = sh.global_cols ∧
        ∀ r c, Event.tile r c ∈ (Parallelized.thread_worker env data sh).trace →
          Event.tile r c ∈ sh.trace)) := by
  refine ⟨?_, ?_, ?_⟩
  · rw [avx2_edit_distance_eq_D env1 str1 str2 n t1 ht1 hok1 hfair1,
      avx2_edit_distance_eq_D env2 str1 str2 n t2 ht2 hok2 hfair2]
  · rw [parallelized_edit_distance_eq_D env1 str1 str2 n t1 ht1 hok1 hfair1,
      parallelized_edit_distance_eq_D env2 str1 str2 n t2 ht2 hok2 hfair2]
  · intro env data sh hidle
    exact ⟨Avx2.avx2_idle_worker env data sh hidle, Parallelized.par_idle_worker env data sh hidle⟩

theorem thread_count_invariance_witness :
    (1 ≤ 1 ∧ 1 ≤ 16 ∧ (Env.ideal 1).AllocOk ∧ (Env.ideal 16).AllocOk ∧
      (Env.ideal 1).Fair 1 ∧ (Env.ideal 16).Fair 16) ∧
    ((avx2_edit_distance (Env.ideal 1) (fun i => [65, 66, 67].getD i 0)
        (fun i => [88, 66, 90].getD i 0) 3 1).value =
      (avx2_edit_distance (Env.ideal 16) (fun i => [65, 66, 67].getD i 0)
        (fun i => [88, 66, 90].getD i 0) 3 16).value ∧
    (parallelized_edit_distance (Env.ideal 1) (fun i => [65, 66, 67].getD i 0)
        (fun i => [88, 66, 90].getD i 0) 3 1).value =
      (parallelized_edit_distance (Env.ideal 16) (fun i => [65, 66, 67].getD i 0)
        (fun i => [88, 66, 90].getD i 0) 3 16).value ∧
    (∀ (env : Env) (data : ThreadArguments) (sh : Shared),
      rowMax data.num_blocks data.current_wave + 1 -
        rowMin data.num_blocks data.current_wave ≤ data.thread_id →
      ((Avx2.thread_worker env data sh).global_rows = sh.global_rows ∧
        (Avx2.thread_worker env data sh).global_cols = sh.global_cols ∧
        ∀ r c, Event.tile r c ∈ (Avx2.thread_worker env data sh).trace →
          Event.tile r c ∈ sh.trace) ∧
      ((Parallelized.thread_worker env data sh).global_rows = sh.global_rows ∧
        (Parallelized.thread_worker env data sh).global_cols = sh.global_cols ∧
        ∀ r c, Event.tile r c ∈ (Parallelized.thread_worker env data sh).trace →
          Event.tile r c ∈ sh.trace))) :=
  ⟨⟨by decide, by decide, Env.ideal_allocOk 1, Env.ideal_allocOk 16, Env.ideal_fair 1,
      Env.ideal_fair 16⟩,
    thread_count_invariance (Env.ideal 1) (Env.ideal 16) _ _ 3 1 16 (by decide) (by decide)
      (Env.ideal_allocOk 1) (Env.ideal_allocOk 16) (Env.ideal_fair 1) (Env.ideal_fair 16)⟩

/-- Claim C6. For every length `n ≥ 1` and all byte sequences of length `n` such that no
symbol of the first occurs in the second (all-`A` against all-`B` of length 511, 512 or 513,
`ABC` against `XYZ`), each of the four implementations returns `n`, for every thread count
`t ≥ 1`. -/
theorem disjoint_alphabets_distance (env1 env2 env3 env4 : Env) (str1 str2 : Nat → Byte)
    (n t : Nat) (hn : 1 ≤ n) (ht : 1 ≤ t)
    (hdis : ∀ i j, i < n → j < n → str1 i ≠ str2 j)
    (hok1 : env1.AllocOk) (hok2 : env2.AllocOk) (hok3 : env3.AllocOk) (hok4 : env4.AllocOk)
    (hfair3 : env3.Fair t) (hfair4 : env4.Fair t) :
    (naive_edit_distance env1 str1 str2 n).value = (n : Int) ∧
    (tiled_edit_distance env2 str1 str2 n).value = (n : Int) ∧
    (parallelized_edit_distance env3 str1 str2 n t).value = (n : Int) ∧
    (avx2_edit_distance env4 str1 str2 n t).value = (n : Int) := by
  have hD : D str1 str2 n n = n := by
    rw [D_of_disjoint str1 str2 n hdis n n (le_refl _) (le_refl _)]
    exact max_self n
  rw [naive_value env1 str1 str2 n hn (hok1.1 0) (hok1.1 1),
    tiled_edit_distance_value env2 str1 str2 n hn hok2,
    parallelized_edit_distance_value env3 str1 str2 n t hn ht hok3 hfair3,
    avx2_edit_distance_value env4 str1 str2 n t hn ht hok4 hfair4, hD]
  exact ⟨rfl, rfl, rfl, rfl⟩

theorem disjoint_alphabets_distance_witness :
    (1 ≤ 513 ∧ 1 ≤ 4 ∧ (∀ i j : Nat, i < 513 → j < 513 → (65 : Byte) ≠ 66) ∧
      (Env.ideal 4).AllocOk ∧ (Env.ideal 4).Fair 4) ∧
    ((naive_edit_distance (Env.ideal 4) (fun _ => 65) (fun _ => 66) 513).value =
        ((513 : Nat) : Int) ∧
    (tiled_edit_distance (Env.ideal 4) (fun _ => 65) (fun _ => 66) 513).value =
        ((513 : Nat) : Int) ∧
    (parallelized_edit_distance (Env.ideal 4) (fun _ => 65) (fun _ => 66) 513 4).value =
        ((513 : Nat) : Int) ∧
    (avx2_edit_distance (Env.ideal 4) (fun _ => 65) (fun _ => 66) 513 4).value =
        ((513 : Nat) : Int)) :=
  ⟨⟨by decide, by decide, fun _ _ _ _ => by decide, Env.ideal_allocOk 4, Env.ideal_fair 4⟩,
    disjoint_alphabets_distance (Env.ideal 4) (Env.ideal 4) (Env.ideal 4) (Env.ideal 4)
      (fun _ => 65) (fun _ => 66) 513 4 (by decide) (by decide)
      (fun _ _ _ _ => (by decide : (65 : Byte) ≠ 66))
      (Env.ideal_allocOk 4) (Env.ideal_allocOk 4) (Env.ideal_allocOk 4) (Env.ideal_allocOk 4)
      (Env.ideal_fair 4) (Env.ideal_fair 4)⟩

/-- Claim C7. For every length `n ≥ 1` and all byte sequences of length `n` that differ in
exactly one position (`HELLO` against `HELLA`, or against the five bytes `HELL\0`), each of
the four implementations returns `1`, for every thread count `t ≥ 1`. -/
theorem single_difference_distance (env1 env2 env3 env4 : Env) (str1 str2 : Nat → Byte)
    (n t p : Nat) (hn : 1 ≤ n) (ht : 1 ≤ t) (hp : p < n) (hne : str1 p ≠ str2 p)
    (heq : ∀ i, i < n → i ≠ p → str1 i = str2 i)
    (hok1 : env1.AllocOk) (hok2 : env2.AllocOk) (hok3 : env3.AllocOk) (hok4 : env4.AllocOk)
    (hfair3 : env3.Fair t) (hfair4 : env4.Fair t) :
    (naive_edit_distance env1 str1 str2 n).value = 1 ∧
    (tiled_edit_distance env2 str1 str2 n).value = 1 ∧
    (parallelized_edit_distance env3 str1 str2 n t).value = 1 ∧
    (avx2_edit_distance env4 str1 str2 n t).value = 1 := by
  rw [naive_value env1 str1 str2 n hn (hok1.1 0) (hok1.1 1),
    tiled_edit_distance_value env2 str1 str2 n hn hok2,
    parallelized_edit_distance_value env3 str1 str2 n t hn ht hok3 hfair3,
    avx2_edit_distance_value env4 str1 str2 n t hn ht hok4 hfair4,
    D_diag_of_single str1 str2 n p hp hne heq]
  exact ⟨rfl, rfl, rfl, rfl⟩

theorem single_difference_distance_witness :
    (1 ≤ 5 ∧ 1 ≤ 4 ∧ 4 < 5 ∧
      ([72, 69, 76, 76, 79].getD 4 (0 : Byte)) ≠ ([72, 69, 76, 76, 0].getD 4 (0 : Byte)) ∧
      (∀ i, i < 5 → i ≠ 4 →
        [72, 69, 76, 76, 79].getD i (0 : Byte) = [72, 69, 76, 76, 0].getD i (0 : Byte)) ∧
      (Env.ideal 4).AllocOk ∧ (Env.ideal 4).Fair 4) ∧
    ((naive_edit_distance (Env.ideal 4) (fun i => [72, 69, 76, 76, 79].getD i 0)
        (fun i => [72, 69, 76, 76, 0].getD i 0) 5).value = 1 ∧
    (tiled_edit_distance (Env.ideal 4) (fun i => [72, 69, 76, 76, 79].getD i 0)
        (fun i => [72, 69, 76, 76, 0].getD i 0) 5).value = 1 ∧
    (parallelized_edit_distance (Env.ideal 4) (fun i => [72, 69, 76, 76, 79].getD i 0)
        (fun i => [72, 69, 76, 76, 0].getD i 0) 5 4).value = 1 ∧
    (avx2_edit_distance (Env.ideal 4) (fun i => [72, 69, 76, 76, 79].getD i 0)
        (fun i => [72, 69, 76, 76, 0].getD i 0) 5 4).value = 1) :=
  ⟨⟨by decide, by decide, by decide, by decide, by decide, Env.ideal_allocOk 4,
      Env.ideal_fair 4⟩,
    single_difference_distance (Env.ideal 4) (Env.ideal 4) (Env.ideal 4) (Env.ideal 4)
      (fun i => [72, 69, 76, 76, 79].getD i 0) (fun i => [72, 69, 76, 76, 0].getD i 0) 5 4 4
      (by decide) (by decide) (by decide) (by decide) (by decide)
      (Env.ideal_allocOk 4) (Env.ideal_allocOk 4) (Env.ideal_allocOk 4) (Env.ideal_allocOk 4)
      (Env.ideal_fair 4) (Env.ideal_fair 4)⟩

/-- Claim C8. For length `0`, each of `naive_edit_distance`, `tiled_edit_distance`,
`parallelized_edit_distance` and `avx2_edit_distance` returns `0` at once, whatever the
sequence arguments, the thread count and the outcome allocations would have: the run
contains no allocation request, no worker and no tile. -/
theorem zero_length_returns_immediately (env : Env) (str1 str2 : Nat → Byte) (t : Nat) :
    naive_edit_distance env str1 str2 0 = ⟨0, []⟩ ∧
    tiled_edit_distance env str1 str2 0 = ⟨0, []⟩ ∧
    parallelized_edit_distance env str1 str2 0 t = ⟨0, []⟩ ∧
    avx2_edit_distance env str1 str2 0 t = ⟨0, []⟩ :=
  ⟨rfl, rfl, rfl, rfl⟩

/-- Claim C9. For every length `n ≥ 0`, all byte sequences of length `n` and every thread
count `t ≥ 1`, when every allocation succeeds the value `avx2_edit_distance` returns is
between `0` and `n`; in particular it is not the failure value `-1`. -/
theorem avx2_edit_distance_bounds (env : Env) (str1 str2 : Nat → Byte) (n t : Nat)
    (ht : 1 ≤ t) (hok : env.AllocOk) (hfair : env.Fair t) :
    0 ≤ (avx2_edit_distance env str1 str2 n t).value ∧
    (avx2_edit_distance env str1 str2 n t).value ≤ (n : Int) ∧
    (avx2_edit_distance env str1 str2 n t).value ≠ -1 := by
  rw [avx2_edit_distance_eq_D env str1 str2 n t ht hok hfair]
  have := D_diag_le str1 str2 n
  omega

theorem avx2_edit_distance_bounds_witness :
    (1 ≤ 2 ∧ (Env.ideal 2).AllocOk ∧ (Env.ideal 2).Fair 2) ∧
    (0 ≤ (avx2_edit_distance (Env.ideal 2) (fun _ => 65) (fun _ => 66) 600 2).value ∧
    (avx2_edit_distance (Env.ideal 2) (fun _ => 65) (fun _ => 66) 600 2).value ≤
      ((600 : Nat) : Int) ∧
    (avx2_edit_distance (Env.ideal 2) (fun _ => 65) (fun _ => 66) 600 2).value ≠ -1) :=
  ⟨⟨by decide, Env.ideal_allocOk 2, Env.ideal_fair 2⟩,
    avx2_edit_distance_bounds (Env.ideal 2) (fun _ => 65) (fun _ => 66) 600 2 (by decide)
      (Env.ideal_allocOk 2) (Env.ideal_fair 2)⟩

/-- Claim C10. With allocation as an explicit input: for every length `n ≥ 1`, if one of the
three row-boundary buffers or the column-boundary buffer cannot be allocated,
`avx2_edit_distance` and `parallelized_edit_distance` return `-1` and run no wave: the run
consists of the four allocation requests, without any worker or tile. -/
theorem boundary_allocation_failure (env : Env) (str1 str2 : Nat → Byte) (n t : Nat)
    (hn : 1 ≤ n)
    (hfail : env.malloc_ok 0 = false ∨ env.malloc_ok 1 = false ∨ env.malloc_ok 2 = false ∨
      env.malloc_ok 3 = false) :
    (avx2_edit_distance env str1 str2 n t).value = -1 ∧
    (parallelized_edit_distance env str1 str2 n t).value = -1 ∧
    (avx2_edit_distance env str1 str2 n t).trace =
      [Event.malloc (env.malloc_ok 0), Event.malloc (env.malloc_ok 1),
        Event.malloc (env.malloc_ok 2), Event.malloc (env.malloc_ok 3)] ∧
    (parallelized_edit_distance env str1 str2 n t).trace =
      [Event.malloc (env.malloc_ok 0), Event.malloc (env.malloc_ok 1),
        Event.malloc (env.malloc_ok 2), Event.malloc (env.malloc_ok 3)] ∧
    (∀ w k, Event.worker w k ∉ (avx2_edit_distance env str1 str2 n t).trace ∧
      Event.worker w k ∉ (parallelized_edit_distance env str1 str2 n t).trace) ∧
    (∀ r c, Event.tile r c ∉ (avx2_edit_distance env str1 str2 n t).trace ∧
      Event.tile r c ∉ (parallelized_edit_distance env str1 str2 n t).trace) := by
  have hc : (!env.malloc_ok 3 || !env.malloc_ok 0 || !env.malloc_ok 1 || !env.malloc_ok 2)
      = true := by
    rcases hfail with h | h | h | h <;> simp [h]
  have h1 : avx2_edit_distance env str1 str2 n t =
      ⟨-1, [Event.malloc (env.malloc_ok 0), Event.malloc (env.malloc_ok 1),
        Event.malloc (env.malloc_ok 2), Event.malloc (env.malloc_ok 3)]⟩ := by
    unfold avx2_edit_distance
    rw [if_neg (by omega)]
    simp only [hc, if_true]
  have h2 : parallelized_edit_distance env str1 str2 n t =
      ⟨-1, [Event.malloc (env.malloc_ok 0), Event.malloc (env.malloc_ok 1),
        Event.malloc (env.malloc_ok 2), Event.malloc (env.malloc_ok 3)]⟩ := by
    unfold parallelized_edit_distance
    rw [if_neg (by omega)]
    simp only [hc, if_true]
  rw [h1, h2]
  refine ⟨rfl, rfl, rfl, rfl, ?_, ?_⟩
  · intro w k
    simp
  · intro r c
    simp

theorem boundary_allocation_failure_witness :
    (1 ≤ 1000 ∧ ((Env.denying 2 4).malloc_ok 0 = false ∨ (Env.denying 2 4).malloc_ok 1 = false ∨
      (Env.denying 2 4).malloc_ok 2 = false ∨ (Env.denying 2 4).malloc_ok 3 = false)) ∧
    ((avx2_edit_distance (Env.denying 2 4) (fun _ => 65) (fun _ => 66) 1000 4).value = -1 ∧
    (parallelized_edit_distance (Env.denying 2 4) (fun _ => 65) (fun _ => 66) 1000 4).value
      = -1 ∧
    (avx2_edit_distance (Env.denying 2 4) (fun _ => 65) (fun _ => 66) 1000 4).trace =
      [Event.malloc ((Env.denying 2 4).malloc_ok 0), Event.malloc ((Env.denying 2 4).malloc_ok 1),
        Event.malloc ((Env.denying 2 4).malloc_ok 2),
        Event.malloc ((Env.denying 2 4).malloc_ok 3)] ∧
    (parallelized_edit_distance (Env.denying 2 4) (fun _ => 65) (fun _ => 66) 1000 4).trace =
      [Event.malloc ((Env.denying 2 4).malloc_ok 0), Event.malloc ((Env.denying 2 4).malloc_ok 1),
        Event.malloc ((Env.denying 2 4).malloc_ok 2),
        Event.malloc ((Env.denying 2 4).malloc_ok 3)] ∧
    (∀ w k, Event.worker w k ∉
        (avx2_edit_distance (Env.denying 2 4) (fun _ => 65) (fun _ => 66) 1000 4).trace ∧
      Event.worker w k ∉
        (parallelized_edit_distance (Env.denying 2 4) (fun _ => 65) (fun _ => 66) 1000
          4).trace) ∧
    (∀ r c, Event.tile r c ∉
        (avx2_edit_distance (Env.denying 2 4) (fun _ => 65) (fun _ => 66) 1000 4).trace ∧
      Event.tile r c ∉
        (parallelized_edit_distance (Env.denying 2 4) (fun _ => 65) (fun _ => 66) 1000
          4).trace)) :=
  ⟨⟨by decide, Or.inr (Or.inr (Or.inl rfl))⟩,
    boundary_allocation_failure (Env.denying 2 4) (fun _ => 65) (fun _ => 66) 1000 4
      (by decide) (Or.inr (Or.inr (Or.inl rfl)))⟩

/-! ## Failure of a worker's scratch allocation -/

/-- A worker of `avx2_edit_distance.c` whose scratch allocation fails returns at once: the
boundary buffers stay as they are and the trace only records the activation and the failed
request. -/
theorem Avx2.worker_scratch_failure (env : Env) (data : ThreadArguments) (sh : Shared)
    (hfail : env.scratch_ok 0 data.current_wave data.thread_id = false) :
    Avx2.thread_worker env data sh =
      ⟨sh.global_rows, sh.global_cols,
        sh.trace ++ [Event.worker data.current_wave data.thread_id, Event.malloc false]⟩ := by
  unfold Avx2.thread_worker
  simp [hfail]

/-- When the scratch allocation of every worker fails, `avx2_edit_distance` runs all its
waves on untouched boundary buffers and returns the initial value `n` of the last row
buffer. -/
theorem avx2_scratch_failure_value (env : Env) (str1 str2 : Nat → Byte) (n T : Nat)
    (hn : 1 ≤ n) (hm : ∀ i, env.malloc_ok i = true)
    (hs : ∀ w t, env.scratch_ok 0 w t = false) :
    (avx2_edit_distance env str1 str2 n T).value = (n : Int) := by
  unfold avx2_edit_distance
  rw [if_neg (by omega)]
  simp only [hm, Bool.not_true, Bool.or_self, Bool.false_eq_true, if_false]
  have hinit := shared_init str1 str2 n env.malloc_fresh (env.malloc_fresh 3)
    [Event.malloc true, Event.malloc true, Event.malloc true, Event.malloc true]
  have hseed := hinit.rows_seed ((n + BLOCK_SIZE - 1) / BLOCK_SIZE - 1)
    ((n + BLOCK_SIZE - 1) / BLOCK_SIZE - 1) n (by simp only [BLOCK_SIZE]; omega)
    (fun _ _ _ h => h) (by simp only [BLOCK_SIZE]; omega)
    (by unfold blockEnd; simp only [BLOCK_SIZE]; omega)
  generalize (forLoop 0 n
    (fun i (s : Shared) => (⟨Function.update (Function.update (Function.update s.global_rows
        0 (store (s.global_rows 0) i (i : Int)))
        1 (store (s.global_rows 1) i (i : Int)))
        2 (store (s.global_rows 2) i (i : Int)),
      store s.global_cols i (i : Int), s.trace⟩ : Shared))
    ⟨env.malloc_fresh, env.malloc_fresh 3,
      [Event.malloc true, Event.malloc true, Event.malloc true, Event.malloc true]⟩) = init
    at hseed ⊢
  have hwave : ∀ (w : Nat) (l : List Nat) (sh : Shared),
      (l.foldl (fun sh t => Avx2.thread_worker env
        ⟨t, T, w, (n + BLOCK_SIZE - 1) / BLOCK_SIZE, n, str1, str2⟩ sh) sh).global_rows =
        sh.global_rows := by
    intro w l
    induction l with
    | nil => intro sh; rfl
    | cons t l ih =>
      intro sh
      rw [List.foldl_cons, ih, Avx2.worker_scratch_failure env _ sh (hs w t)]
  have key := forLt_inv (fun _ (s : Shared) => s.global_rows = init.global_rows)
    0 (2 * ((n + BLOCK_SIZE - 1) / BLOCK_SIZE) - 1)
    (fun wave sh => (env.order wave).foldl
      (fun sh t => Avx2.thread_worker env
        ⟨t, T, wave, (n + BLOCK_SIZE - 1) / BLOCK_SIZE, n, str1, str2⟩ sh) sh)
    init (Nat.zero_le _) rfl
    (fun w s _ _ hsr => by
      dsimp only
      rw [hwave w (env.order w) s, hsr])
  dsimp only at key
  rw [key]
  exact hseed

/-- Claim C11, evaluated on the code. On the sequences `A` and `A` of length 1 with one
thread, when the scratch allocation of the only worker fails, `avx2_edit_distance` does not
return the failure value: it returns `1`, the initial content of the row buffer that no tile
has overwritten (the distance is `0`), and the run contains no tile. -/
theorem avx2_scratch_failure_unreported :
    (avx2_edit_distance (Env.scratchDenying 1) (fun _ => 65) (fun _ => 65) 1 1).value = 1 ∧
    (avx2_edit_distance (Env.scratchDenying 1) (fun _ => 65) (fun _ => 65) 1 1).value ≠ -1 ∧
    (avx2_edit_distance (Env.scratchDenying 1) (fun _ => 65) (fun _ => 65) 1 1).trace =
      [Event.malloc true, Event.malloc true, Event.malloc true, Event.malloc true,
        Event.worker 0 0, Event.malloc false] ∧
    (D (fun _ => 65) (fun _ => 65) 1 1 = 0) := by
  have h := avx2_scratch_failure_value (Env.scratchDenying 1) (fun _ => 65) (fun _ => 65) 1 1
    (le_refl _) (fun _ => rfl) (fun _ _ => rfl)
  refine ⟨by simpa using h, by rw [h]; decide, ?_, by decide⟩
  rfl

/-! ## The tiles of a run -/

/-- The tiles a worker of ``parallelized_edit_distance.c`` processes are those the round-robin
rule assigns to it, in increasing block row. -/
theorem Parallelized.par_worker_tiles (env : Env) (data : ThreadArguments) (sh : Shared) :
    tilesOf (Parallelized.thread_worker env data sh).trace =
      tilesOf sh.trace ++
        assignedTiles data.num_blocks data.num_threads data.current_wave data.thread_id := by
  unfold Parallelized.thread_worker
  simp only 
  by_cases hle : rowMin data.num_blocks data.current_wave ≤
      rowMax data.num_blocks data.current_wave + 1
  swap
  · have h0 : rowMax data.num_blocks data.current_wave + 1 -
        rowMin data.num_blocks data.current_wave = 0 := by omega
    unfold rowMin rowMax at hle
    unfold forLoop
    rw [forLt_ge _ _ _ _ (by omega)]
    simp [assignedTiles, waveRows, h0, tilesOf, List.filterMap_append]
  have key := forLoop_inv
    (fun r (s : Parallelized.WorkerState) =>
      s.tile_number = r - rowMin data.num_blocks data.current_wave ∧
      tilesOf s.shared.trace = tilesOf sh.trace ++
        ((List.range' (rowMin data.num_blocks data.current_wave)
          (r - rowMin data.num_blocks data.current_wave)).filter
          (fun r => (r - rowMin data.num_blocks data.current_wave) % data.num_threads =
            data.thread_id)).map (fun r => (r, data.current_wave - r)))
    (rowMin data.num_blocks data.current_wave)
    (rowMax data.num_blocks data.current_wave)
    (Parallelized.tile_step data)
    ⟨0, env.scratch_fresh 0 data.current_wave data.thread_id,
      env.scratch_fresh 1 data.current_wave data.thread_id,
      ⟨sh.global_rows, sh.global_cols, sh.trace ++
        [Event.worker data.current_wave data.thread_id, Event.malloc true,
          Event.malloc true]⟩⟩
    hle ⟨by simp, by simp [tilesOf, List.filterMap_append]⟩
    (by
      intro r s h1 h2 ⟨ha, hb⟩
      have e : r + 1 - rowMin data.num_blocks data.current_wave =
          (r - rowMin data.num_blocks data.current_wave) + 1 := by omega
      have e2 : rowMin data.num_blocks data.current_wave +
          (r - rowMin data.num_blocks data.current_wave) = r := by omega
      unfold Parallelized.tile_step
      simp only
      by_cases hass : s.tile_number % data.num_threads = data.thread_id
      · rw [if_pos hass]
        refine ⟨by simp only; omega, ?_⟩
        simp only
        rw [ha] at hass
        rw [e, List.range'_concat, List.filter_append, List.map_append]
        simp only [Nat.one_mul, e2]
        rw [List.filter_cons_of_pos (by simpa using hass)]
        simp only [List.filter_nil, List.map_cons, List.map_nil]
        rw [← List.append_assoc, ← hb]
        simp [tilesOf, List.filterMap_append]
      · rw [if_neg hass]
        refine ⟨by simp only; omega, ?_⟩
        simp only
        rw [ha] at hass
        rw [e, List.range'_concat, List.filter_append, List.map_append]
        simp only [Nat.one_mul, e2]
        rw [List.filter_cons_of_neg (by simpa using hass)]
        simpa using hb)
  unfold rowMin rowMax at key
  rw [key.2]
  rfl


/-- The tiles a worker of ``avx2_edit_distance.c`` processes are those the round-robin
rule assigns to it, in increasing block row. -/
theorem Avx2.avx2_worker_tiles (env : Env) (data : ThreadArguments) (sh : Shared)
    (hok : env.scratch_ok 0 data.current_wave data.thread_id = true) :
    tilesOf (Avx2.thread_worker env data sh).trace =
      tilesOf sh.trace ++
        assignedTiles data.num_blocks data.num_threads data.current_wave data.thread_id := by
  unfold Avx2.thread_worker
  simp only [hok, Bool.not_true, Bool.false_eq_true, if_false]
  by_cases hle : rowMin data.num_blocks data.current_wave ≤
      rowMax data.num_blocks data.current_wave + 1
  swap
  · have h0 : rowMax data.num_blocks data.current_wave + 1 -
        rowMin data.num_blocks data.current_wave = 0 := by omega
    unfold rowMin rowMax at hle
    unfold forLoop
    rw [forLt_ge _ _ _ _ (by omega)]
    simp [assignedTiles, waveRows, h0, tilesOf, List.filterMap_append]
  have key := forLoop_inv
    (fun r (s : Avx2.WorkerState) =>
      s.tile_number = r - rowMin data.num_blocks data.current_wave ∧
      tilesOf s.shared.trace = tilesOf sh.trace ++
        ((List.range' (rowMin data.num_blocks data.current_wave)
          (r - rowMin data.num_blocks data.current_wave)).filter
          (fun r => (r - rowMin data.num_blocks data.current_wave) % data.num_threads =
            data.thread_id)).map (fun r => (r, data.current_wave - r)))
    (rowMin data.num_blocks data.current_wave)
    (rowMax data.num_blocks data.current_wave)
    (Avx2.tile_step data)
    ⟨0, env.scratch_fresh 0 data.current_wave data.thread_id,
      ⟨sh.global_rows, sh.global_cols, sh.trace ++
        [Event.worker data.current_wave data.thread_id, Event.malloc true]⟩⟩
    hle ⟨by simp, by simp [tilesOf, List.filterMap_append]⟩
    (by
      intro r s h1 h2 ⟨ha, hb⟩
      have e : r + 1 - rowMin data.num_blocks data.current_wave =
          (r - rowMin data.num_blocks data.current_wave) + 1 := by omega
      have e2 : rowMin data.num_blocks data.current_wave +
          (r - rowMin data.num_blocks data.current_wave) = r := by omega
      unfold Avx2.tile_step
      simp only
      by_cases hass : s.tile_number % data.num_threads = data.thread_id
      · rw [if_pos hass]
        refine ⟨by simp only; omega, ?_⟩
        simp only
        rw [ha] at hass
        rw [e, List.range'_concat, List.filter_append, List.map_append]
        simp only [Nat.one_mul, e2]
        rw [List.filter_cons_of_pos (by simpa using hass)]
        simp only [List.filter_nil, List.map_cons, List.map_nil]
        rw [← List.append_assoc, ← hb]
        simp [tilesOf, List.filterMap_append]
      · rw [if_neg hass]
        refine ⟨by simp only; omega, ?_⟩
        simp only
        rw [ha] at hass
        rw [e, List.range'_concat, List.filter_append, List.map_append]
        simp only [Nat.one_mul, e2]
        rw [List.filter_cons_of_neg (by simpa using hass)]
        simpa using hb)
  unfold rowMin rowMax at key
  rw [key.2]
  rfl

/-- The initialisation loop of the threaded entry points leaves the trace as it is. -/
theorem shared_init_trace (n : Nat) (rows : Nat → Buf) (cols : Buf) (trace : List Event) :
    (forLoop 0 n
      (fun i (s : Shared) => (⟨Function.update (Function.update (Function.update s.global_rows
          0 (store (s.global_rows 0) i (i : Int)))
          1 (store (s.global_rows 1) i (i : Int)))
          2 (store (s.global_rows 2) i (i : Int)),
        store s.global_cols i (i : Int), s.trace⟩ : Shared))
      ⟨rows, cols, trace⟩).trace = trace :=
  forLoop_inv (fun _ (s : Shared) => s.trace = trace) 0 n
    (fun i (s : Shared) => (⟨Function.update (Function.update (Function.update s.global_rows
        0 (store (s.global_rows 0) i (i : Int)))
        1 (store (s.global_rows 1) i (i : Int)))
        2 (store (s.global_rows 2) i (i : Int)),
      store s.global_cols i (i : Int), s.trace⟩ : Shared))
    ⟨rows, cols, trace⟩ (Nat.zero_le _) rfl (fun _ _ _ _ h => h)


/-- The tiles a wave of ``parallelized_edit_distance.c`` processes, its workers running in the
order `l`. -/
theorem Parallelized.par_wave_tiles (env : Env) (str1 str2 : Nat → Byte) (n T w nb : Nat)
    (l : List Nat) :
    ∀ sh : Shared,
      tilesOf (l.foldl (fun sh t => Parallelized.thread_worker env
        ⟨t, T, w, nb, n, str1, str2⟩ sh) sh).trace =
      tilesOf sh.trace ++ l.flatMap (fun t => assignedTiles nb T w t) := by
  induction l with
  | nil => intro sh; simp
  | cons t l ih =>
    intro sh
    rw [List.foldl_cons, ih, Parallelized.par_worker_tiles env _ sh]
    simp [List.flatMap_cons, List.append_assoc]

/-- The tiles a run of `parallelized_edit_distance` processes are those of the schedule, in its
order. -/
theorem parallelized_edit_distance_tiles (env : Env) (str1 str2 : Nat → Byte) (n T : Nat) (hn : 1 ≤ n)
    (hok : env.AllocOk) :
    tilesOf (parallelized_edit_distance env str1 str2 n T).trace =
      schedule env.order ((n + BLOCK_SIZE - 1) / BLOCK_SIZE) T := by
  unfold parallelized_edit_distance
  rw [if_neg (by omega)]
  simp only [hok.1, Bool.not_true, Bool.or_self, Bool.false_eq_true, if_false]
  have hinit := shared_init_trace n env.malloc_fresh (env.malloc_fresh 3)
    [Event.malloc true, Event.malloc true, Event.malloc true, Event.malloc true]
  generalize (forLoop 0 n
    (fun i (s : Shared) => (⟨Function.update (Function.update (Function.update s.global_rows
        0 (store (s.global_rows 0) i (i : Int)))
        1 (store (s.global_rows 1) i (i : Int)))
        2 (store (s.global_rows 2) i (i : Int)),
      store s.global_cols i (i : Int), s.trace⟩ : Shared))
    ⟨env.malloc_fresh, env.malloc_fresh 3,
      [Event.malloc true, Event.malloc true, Event.malloc true, Event.malloc true]⟩) = init
    at hinit ⊢
  have key := forLt_inv
    (fun W (s : Shared) => tilesOf s.trace = (List.range W).flatMap
      (fun w => (env.order w).flatMap
        (fun t => assignedTiles ((n + BLOCK_SIZE - 1) / BLOCK_SIZE) T w t)))
    0 (2 * ((n + BLOCK_SIZE - 1) / BLOCK_SIZE) - 1)
    (fun wave sh => (env.order wave).foldl
      (fun sh t => Parallelized.thread_worker env
        ⟨t, T, wave, (n + BLOCK_SIZE - 1) / BLOCK_SIZE, n, str1, str2⟩ sh) sh)
    init (Nat.zero_le _) (by show tilesOf init.trace = _; rw [hinit]; rfl)
    (fun w s _ _ hs => by
      dsimp only
      rw [Parallelized.par_wave_tiles env str1 str2 n T w _ (env.order w) s, hs, List.range_succ,
        List.flatMap_append, List.flatMap_singleton])
  exact key


/-- The tiles a wave of ``avx2_edit_distance.c`` processes, its workers running in the
order `l`. -/
theorem Avx2.avx2_wave_tiles (env : Env) (str1 str2 : Nat → Byte) (n T w nb : Nat)
    (hok : ∀ t, env.scratch_ok 0 w t = true)
    (l : List Nat) :
    ∀ sh : Shared,
      tilesOf (l.foldl (fun sh t => Avx2.thread_worker env
        ⟨t, T, w, nb, n, str1, str2⟩ sh) sh).trace =
      tilesOf sh.trace ++ l.flatMap (fun t => assignedTiles nb T w t) := by
  induction l with
  | nil => intro sh; simp
  | cons t l ih =>
    intro sh
    rw [List.foldl_cons, ih, Avx2.avx2_worker_tiles env _ sh (hok t)]
    simp [List.flatMap_cons, List.append_assoc]

/-- The tiles a run of `avx2_edit_distance` processes are those of the schedule, in its
order. -/
theorem avx2_edit_distance_tiles (env : Env) (str1 str2 : Nat → Byte) (n T : Nat) (hn : 1 ≤ n)
    (hok : env.AllocOk) :
    tilesOf (avx2_edit_distance env str1 str2 n T).trace =
      schedule env.order ((n + BLOCK_SIZE - 1) / BLOCK_SIZE) T := by
  unfold avx2_edit_distance
  rw [if_neg (by omega)]
  simp only [hok.1, Bool.not_true, Bool.or_self, Bool.false_eq_true, if_false]
  have hinit := shared_init_trace n env.malloc_fresh (env.malloc_fresh 3)
    [Event.malloc true, Event.malloc true, Event.malloc true, Event.malloc true]
  generalize (forLoop 0 n
    (fun i (s : Shared) => (⟨Function.update (Function.update (Function.update s.global_rows
        0 (store (s.global_rows 0) i (i : Int)))
        1 (store (s.global_rows 1) i (i : Int)))
        2 (store (s.global_rows 2) i (i : Int)),
      store s.global_cols i (i : Int), s.trace⟩ : Shared))
    ⟨env.malloc_fresh, env.malloc_fresh 3,
      [Event.malloc true, Event.malloc true, Event.malloc true, Event.malloc true]⟩) = init
    at hinit ⊢
  have key := forLt_inv
    (fun W (s : Shared) => tilesOf s.trace = (List.range W).flatMap
      (fun w => (env.order w).flatMap
        (fun t => assignedTiles ((n + BLOCK_SIZE - 1) / BLOCK_SIZE) T w t)))
    0 (2 * ((n + BLOCK_SIZE - 1) / BLOCK_SIZE) - 1)
    (fun wave sh => (env.order wave).foldl
      (fun sh t => Avx2.thread_worker env
        ⟨t, T, wave, (n + BLOCK_SIZE - 1) / BLOCK_SIZE, n, str1, str2⟩ sh) sh)
    init (Nat.zero_le _) (by show tilesOf init.trace = _; rw [hinit]; rfl)
    (fun w s _ _ hs => by
      dsimp only
      rw [Avx2.avx2_wave_tiles env str1 str2 n T w _ (fun t => hok.2 0 w t) (env.order w) s, hs, List.range_succ,
        List.flatMap_append, List.flatMap_singleton])
  exact key

/-! ## The schedule -/

/-- The tiles assigned to worker `t` on wave `w`. -/
theorem mem_assignedTiles (nb T w t r c : Nat) :
    (r, c) ∈ assignedTiles nb T w t ↔
      rowMin nb w ≤ r ∧ r ≤ rowMax nb w ∧ c = w - r ∧ (r - rowMin nb w) % T = t := by
  unfold assignedTiles waveRows
  simp only [List.mem_map, List.mem_filter, List.mem_range'_1, decide_eq_true_eq,
    Prod.mk.injEq]
  constructor
  · rintro ⟨r0, ⟨⟨h1, h2⟩, h3⟩, rfl, rfl⟩
    exact ⟨h1, by omega, rfl, h3⟩
  · rintro ⟨h1, h2, h3, h4⟩
    exact ⟨r, ⟨⟨h1, by omega⟩, h4⟩, rfl, h3.symm⟩

/-- No tile is assigned twice to a worker. -/
theorem assignedTiles_nodup (nb T w t : Nat) : (assignedTiles nb T w t).Nodup := by
  unfold assignedTiles waveRows
  refine List.Nodup.map ?_ ((List.nodup_range' _ _).filter _)
  intro a b h
  exact (Prod.mk.inj h).1

/-- A tile of a wave lies in the grid, on the anti-diagonal of the wave. -/
theorem wave_tile_in_grid (nb w r c : Nat)
    (h1 : rowMin nb w ≤ r) (h2 : r ≤ rowMax nb w) (h3 : c = w - r) :
    r < nb ∧ c < nb ∧ r + c = w := by
  unfold rowMin at h1
  unfold rowMax at h2
  split_ifs at h1 h2 <;> omega

/-- A tile of the grid lies on the wave of its anti-diagonal. -/
theorem grid_tile_on_wave (nb r c : Nat) (hr : r < nb) (hc : c < nb) :
    r + c < 2 * nb - 1 ∧ rowMin nb (r + c) ≤ r ∧ r ≤ rowMax nb (r + c) ∧ c = r + c - r := by
  unfold rowMin rowMax
  split_ifs <;> omega

/-- The schedule holds the tiles of the grid and no others. -/
theorem mem_schedule (order : Nat → List Nat) (nb T : Nat) (hT : 1 ≤ T)
    (hfair : ∀ w, (order w).Perm (List.range T)) (r c : Nat) :
    (r, c) ∈ schedule order nb T ↔ r < nb ∧ c < nb := by
  unfold schedule
  simp only [List.mem_flatMap, List.mem_range, mem_assignedTiles]
  constructor
  · rintro ⟨w, _, t, _, h1, h2, h3, _⟩
    have := wave_tile_in_grid nb w r c h1 h2 h3
    exact ⟨this.1, this.2.1⟩
  · rintro ⟨hr, hc⟩
    have h := grid_tile_on_wave nb r c hr hc
    refine ⟨r + c, h.1, (r - rowMin nb (r + c)) % T, ?_, h.2.1, h.2.2.1, h.2.2.2, rfl⟩
    rw [(hfair (r + c)).mem_iff, List.mem_range]
    exact Nat.mod_lt _ (by omega)

/-- The schedule holds no tile twice. -/
theorem schedule_nodup (order : Nat → List Nat) (nb T : Nat)
    (hfair : ∀ w, (order w).Perm (List.range T)) :
    (schedule order nb T).Nodup := by
  unfold schedule
  rw [List.nodup_flatMap]
  constructor
  · intro w _
    rw [List.nodup_flatMap]
    constructor
    · intro t _
      exact assignedTiles_nodup nb T w t
    · refine List.Nodup.pairwise_of_forall_ne
        ((hfair w).nodup_iff.2 (List.nodup_range T)) ?_
      intro a _ b _ hab
      rintro ⟨r, c⟩ ha hb
      rw [mem_assignedTiles] at ha hb
      exact hab (ha.2.2.2.symm.trans hb.2.2.2)
  · refine List.Nodup.pairwise_of_forall_ne (List.nodup_range _) ?_
    intro w _ v _ hwv
    rintro ⟨r, c⟩ ha hb
    simp only [List.mem_flatMap, mem_assignedTiles] at ha hb
    obtain ⟨_, _, h1, h2, h3, _⟩ := ha
    obtain ⟨_, _, g1, g2, g3, _⟩ := hb
    have a := wave_tile_in_grid nb w r c h1 h2 h3
    have b := wave_tile_in_grid nb v r c g1 g2 g3
    omega

/-- The first block row of a wave, in the words of the specification. -/
theorem rowMin_cast (nb w : Nat) : ((rowMin nb w : Nat) : Int) = max 0 ((w : Int) - nb + 1) := by
  unfold rowMin
  split_ifs <;> omega

/-- The last block row of a wave, in the words of the specification. -/
theorem rowMax_cast (nb w : Nat) (hnb : 1 ≤ nb) :
    ((rowMax nb w : Nat) : Int) = min (w : Int) ((nb : Int) - 1) := by
  unfold rowMax
  split_ifs <;> omega

/-- The tiles assigned to worker `t` on wave `w`, in the words of the specification: the
rows of the wave are enumerated upwards from the first one, and the row with index `q` goes
to worker `q % T`. -/
theorem mem_assignedTiles_spec (nb T w t r c : Nat) (hnb : 1 ≤ nb) :
    (r, c) ∈ assignedTiles nb T w t ↔
      ∃ q : Nat, (r : Int) = max 0 ((w : Int) - nb + 1) + q ∧
        (r : Int) ≤ min (w : Int) ((nb : Int) - 1) ∧ (c : Int) = (w : Int) - r ∧ q % T = t := by
  rw [mem_assignedTiles, ← rowMin_cast, ← rowMax_cast nb w hnb]
  constructor
  · rintro ⟨h1, h2, h3, h4⟩
    have := wave_tile_in_grid nb w r c h1 h2 h3
    exact ⟨r - rowMin nb w, by omega, by omega, by omega, h4⟩
  · rintro ⟨q, h1, h2, h3, h4⟩
    have e : r - rowMin nb w = q := by omega
    exact ⟨by omega, by omega, by omega, by rw [e]; exact h4⟩

/-- Claim C12. For every grid dimension `nb ≥ 1` and worker count `T ≥ 1`: the worker `t` of
wave `w` of `avx2_edit_distance.c` processes exactly the tiles `(r, w - r)` whose row is the
one with enumeration index `q` above `max 0 (w - nb + 1)`, not beyond `min w (nb - 1)`, with
`q % T = t`, each once, so a tile of the wave goes to the worker `q % T` and to no other; and
the tiles of a run, over its waves `0 .. 2 * nb - 2` and its workers, are those of the
schedule: a list without repetition that holds every tile `(r, c)` with `r, c < nb` and no
other tile, each tile on one wave only. -/
theorem wave_schedule_covers_grid (env : Env) (str1 str2 : Nat → Byte) (n T : Nat)
    (hn : 1 ≤ n) (hT : 1 ≤ T) (hok : env.AllocOk) (hfair : env.Fair T) :
    (∀ nb w t sh, 1 ≤ nb →
      ∃ l, tilesOf (Avx2.thread_worker env ⟨t, T, w, nb, n, str1, str2⟩ sh).trace =
          tilesOf sh.trace ++ l ∧ l.Nodup ∧
        ∀ r c, (r, c) ∈ l ↔
          ∃ q : Nat, (r : Int) = max 0 ((w : Int) - nb + 1) + q ∧
            (r : Int) ≤ min (w : Int) ((nb : Int) - 1) ∧ (c : Int) = (w : Int) - r ∧
            q % T = t) ∧
    tilesOf (avx2_edit_distance env str1 str2 n T).trace =
      (List.range (2 * ((n + BLOCK_SIZE - 1) / BLOCK_SIZE) - 1)).flatMap
        (fun w => (env.order w).flatMap
          (fun t => assignedTiles ((n + BLOCK_SIZE - 1) / BLOCK_SIZE) T w t)) ∧
    (∀ r c, (r, c) ∈ tilesOf (avx2_edit_distance env str1 str2 n T).trace ↔
      r < (n + BLOCK_SIZE - 1) / BLOCK_SIZE ∧ c < (n + BLOCK_SIZE - 1) / BLOCK_SIZE) ∧
    (tilesOf (avx2_edit_distance env str1 str2 n T).trace).Nodup ∧
    (∀ w v r c, (∃ t, (r, c) ∈ assignedTiles ((n + BLOCK_SIZE - 1) / BLOCK_SIZE) T w t) →
      (∃ t, (r, c) ∈ assignedTiles ((n + BLOCK_SIZE - 1) / BLOCK_SIZE) T v t) → w = v) := by
  have hrun := avx2_edit_distance_tiles env str1 str2 n T hn hok
  refine ⟨?_, hrun, ?_, ?_, ?_⟩
  · intro nb w t sh hnb
    exact ⟨assignedTiles nb T w t,
      Avx2.avx2_worker_tiles env ⟨t, T, w, nb, n, str1, str2⟩ sh (hok.2 0 w t),
      assignedTiles_nodup nb T w t, fun r c => mem_assignedTiles_spec nb T w t r c hnb⟩
  · intro r c
    rw [hrun]
    exact mem_schedule env.order _ T hT hfair r c
  · rw [hrun]
    exact schedule_nodup env.order _ T hfair
  · rintro w v r c ⟨t, ht⟩ ⟨u, hu⟩
    rw [mem_assignedTiles] at ht hu
    have a := wave_tile_in_grid _ w r c ht.1 ht.2.1 ht.2.2.1
    have b := wave_tile_in_grid _ v r c hu.1 hu.2.1 hu.2.2.1
    omega

theorem wave_schedule_covers_grid_witness :
    (1 ≤ 600 ∧ 1 ≤ 2 ∧ (Env.ideal 2).AllocOk ∧ (Env.ideal 2).Fair 2) ∧
    (tilesOf (avx2_edit_distance (Env.ideal 2) (fun _ => 65) (fun _ => 66) 600 2).trace).Nodup :=
  ⟨⟨by decide, by decide, Env.ideal_allocOk 2, Env.ideal_fair 2⟩,
    (wave_schedule_covers_grid (Env.ideal 2) (fun _ => 65) (fun _ => 66) 600 2 (by decide)
      (by decide) (Env.ideal_allocOk 2) (Env.ideal_fair 2)).2.2.2.1⟩

/-! ## The order of the tiles -/

/-- The schedule goes through the anti-diagonals of the grid in increasing order. -/
theorem schedule_sorted (order : Nat → List Nat) (nb T : Nat) :
    (schedule order nb T).Pairwise (fun a b => a.1 + a.2 ≤ b.1 + b.2) := by
  have hsum : ∀ w (x : Nat × Nat), x ∈ (order w).flatMap (fun t => assignedTiles nb T w t) →
      x.1 + x.2 = w := by
    rintro w ⟨r, c⟩ hx
    simp only [List.mem_flatMap, mem_assignedTiles] at hx
    obtain ⟨_, _, h1, h2, h3, _⟩ := hx
    exact (wave_tile_in_grid nb w r c h1 h2 h3).2.2
  unfold schedule
  rw [List.pairwise_flatMap]
  constructor
  · intro w _
    refine List.pairwise_of_forall_mem_list ?_
    intro a ha b hb
    rw [hsum w a ha, hsum w b hb]
  · refine List.Pairwise.imp ?_ (List.pairwise_lt_range _)
    intro w v hwv a ha b hb
    rw [hsum w a ha, hsum v b hb]
    omega

/-- In a list sorted by anti-diagonal, the members on an earlier anti-diagonal come before
an occurrence of a tile, and not after it. -/
theorem sorted_split (l A B : List (Nat × Nat)) (x y : Nat × Nat)
    (hs : l.Pairwise (fun a b => a.1 + a.2 ≤ b.1 + b.2)) (hl : l = A ++ x :: B)
    (hy : y ∈ l) (hlt : y.1 + y.2 < x.1 + x.2) : y ∈ A ∧ y ∉ x :: B := by
  subst hl
  rw [List.pairwise_append] at hs
  have hB : y ∉ x :: B := by
    intro h
    rcases List.mem_cons.1 h with h | h
    · subst h; omega
    · have := List.rel_of_pairwise_cons hs.2.1 h
      omega
  rcases List.mem_append.1 hy with h | h
  · exact ⟨h, hB⟩
  · exact absurd h hB

/-- In a list sorted by anti-diagonal that holds the tiles of the grid, the tiles a tile
depends on come before it. -/
theorem schedule_order (l A B : List (Nat × Nat)) (nb r c : Nat)
    (hs : l.Pairwise (fun a b => a.1 + a.2 ≤ b.1 + b.2))
    (hm : ∀ r c, (r, c) ∈ l ↔ r < nb ∧ c < nb) (hl : l = A ++ (r, c) :: B) :
    (∀ y ∈ B, r + c ≤ y.1 + y.2) ∧
    (∀ r0 c0, r0 < nb → c0 < nb → r0 + c0 < r + c → (r0, c0) ∈ A ∧ (r0, c0) ∉ (r, c) :: B) ∧
    (1 ≤ r → (r - 1, c) ∈ A) ∧ (1 ≤ c → (r, c - 1) ∈ A) ∧
    (1 ≤ r → 1 ≤ c → (r - 1, c - 1) ∈ A) := by
  have hrc : r < nb ∧ c < nb := (hm r c).1 (by rw [hl]; simp)
  have key : ∀ r0 c0, r0 < nb → c0 < nb → r0 + c0 < r + c →
      (r0, c0) ∈ A ∧ (r0, c0) ∉ (r, c) :: B := fun r0 c0 h1 h2 h3 =>
    sorted_split l A B (r, c) (r0, c0) hs hl ((hm r0 c0).2 ⟨h1, h2⟩) h3
  refine ⟨?_, key, ?_, ?_, ?_⟩
  · intro y hy
    subst hl
    rw [List.pairwise_append] at hs
    exact List.rel_of_pairwise_cons hs.2.1 hy
  · intro h
    exact (key (r - 1) c (by omega) hrc.2 (by omega)).1
  · intro h
    exact (key r (c - 1) hrc.1 (by omega) (by omega)).1
  · intro h g
    exact (key (r - 1) (c - 1) (by omega) (by omega) (by omega)).1

/-- Claim C13. In every run of `avx2_edit_distance` and of `parallelized_edit_distance` in
which the allocations succeed and each worker of a wave runs, in whatever order: at the moment
a tile `(r, c)` is processed, every tile `(r0, c0)` of the grid with `r0 + c0 < r + c` has
been processed before and is not processed again, in particular the neighbours `(r - 1, c)`,
`(r, c - 1)` and `(r - 1, c - 1)` when they exist; and every tile processed later lies on the
same or a later anti-diagonal. -/
theorem wavefront_dependency_order (env : Env) (str1 str2 : Nat → Byte) (n T : Nat)
    (hn : 1 ≤ n) (hT : 1 ≤ T) (hok : env.AllocOk) (hfair : env.Fair T)
    (A B : List (Nat × Nat)) (r c : Nat)
    (hrun : tilesOf (avx2_edit_distance env str1 str2 n T).trace = A ++ (r, c) :: B ∨
      tilesOf (parallelized_edit_distance env str1 str2 n T).trace = A ++ (r, c) :: B) :
    (∀ y ∈ B, r + c ≤ y.1 + y.2) ∧
    (∀ r0 c0, r0 < (n + BLOCK_SIZE - 1) / BLOCK_SIZE → c0 < (n + BLOCK_SIZE - 1) / BLOCK_SIZE →
      r0 + c0 < r + c → (r0, c0) ∈ A ∧ (r0, c0) ∉ (r, c) :: B) ∧
    (1 ≤ r → (r - 1, c) ∈ A) ∧ (1 ≤ c → (r, c - 1) ∈ A) ∧
    (1 ≤ r → 1 ≤ c → (r - 1, c - 1) ∈ A) := by
  have hl : schedule env.order ((n + BLOCK_SIZE - 1) / BLOCK_SIZE) T = A ++ (r, c) :: B := by
    rcases hrun with h | h
    · rw [← h, avx2_edit_distance_tiles env str1 str2 n T hn hok]
    · rw [← h, parallelized_edit_distance_tiles env str1 str2 n T hn hok]
  exact schedule_order _ A B _ r c (schedule_sorted env.order _ T)
    (mem_schedule env.order _ T hT hfair) hl

theorem wavefront_dependency_order_witness :
    (1 ≤ 600 ∧ 1 ≤ 2 ∧ (Env.ideal 2).AllocOk ∧ (Env.ideal 2).Fair 2 ∧
      (tilesOf (avx2_edit_distance (Env.ideal 2) (fun _ => 65) (fun _ => 66) 600 2).trace =
          [(0, 0), (0, 1), (1, 0)] ++ (1, 1) :: [] ∨
        tilesOf (parallelized_edit_distance (Env.ideal 2) (fun _ => 65) (fun _ => 66) 600 2).trace =
          [(0, 0), (0, 1), (1, 0)] ++ (1, 1) :: [])) ∧
    (1 ≤ 1 → (1 - 1, 1) ∈ [((0 : Nat), (0 : Nat)), (0, 1), (1, 0)]) :=
  have hrun : tilesOf (avx2_edit_distance (Env.ideal 2) (fun _ => 65) (fun _ => 66) 600 2).trace =
      [(0, 0), (0, 1), (1, 0)] ++ (1, 1) :: [] := by
    rw [avx2_edit_distance_tiles _ _ _ 600 2 (by decide) (Env.ideal_allocOk 2)]
    decide
  ⟨⟨by decide, by decide, Env.ideal_allocOk 2, Env.ideal_fair 2, Or.inl hrun⟩,
    (wavefront_dependency_order (Env.ideal 2) (fun _ => 65) (fun _ => 66) 600 2 (by decide)
      (by decide) (Env.ideal_allocOk 2) (Env.ideal_fair 2) [(0, 0), (0, 1), (1, 0)] [] 1 1
      (Or.inl hrun)).2.2.1⟩

/-! ## The cells of a tile, for arbitrary boundary contents -/

/-- The rule of the scalar kernels, in terms of the tile's cells. -/
theorem scalarTile_rec (str1 str2 : Nat → Byte) (ro co : Nat) (rr cols : Buf) (i j : Nat)
    (hi : 1 ≤ i) (hj : 1 ≤ j) :
    scalarTile str1 str2 ro co rr cols i j =
      if str1 (ro + i - 1) = str2 (co + j - 1) then
        scalarTile str1 str2 ro co rr cols (i - 1) (j - 1)
      else min (min (scalarTile str1 str2 ro co rr cols (i - 1) j + 1)
          (scalarTile str1 str2 ro co rr cols i (j - 1) + 1))
        (scalarTile str1 str2 ro co rr cols (i - 1) (j - 1) + 1) := by
  obtain ⟨i, rfl⟩ : ∃ i', i = i' + 1 := ⟨i - 1, by omega⟩
  obtain ⟨j, rfl⟩ : ∃ j', j = j' + 1 := ⟨j - 1, by omega⟩
  rfl

/-- The left boundary of the scalar kernels' cells. -/
theorem scalarTile_left (str1 str2 : Nat → Byte) (ro co : Nat) (rr cols : Buf) (i : Nat)
    (hi : 1 ≤ i) : scalarTile str1 str2 ro co rr cols i 0 = cols.get (ro + i) := by
  obtain ⟨i, rfl⟩ : ∃ i', i = i' + 1 := ⟨i - 1, by omega⟩
  rfl

/-- The upper boundary of the scalar kernels' cells. -/
theorem scalarTile_top (str1 str2 : Nat → Byte) (ro co : Nat) (rr cols : Buf) (j : Nat) :
    scalarTile str1 str2 ro co rr cols 0 j =
      if j = 0 then tileCorner ro co rr else rr.get (co + j) := rfl

/-- The rule of the SIMD kernel, in terms of the tile's cells. -/
theorem simdTile_rec (str1 str2 : Nat → Byte) (ro co : Nat) (rr cols : Buf) (n i j : Nat)
    (hi : 1 ≤ i) (hj : 1 ≤ j) :
    simdTile str1 str2 ro co rr cols n i j =
      min (min (simdTile str1 str2 ro co rr cols n i (j - 1) + 1)
          (simdTile str1 str2 ro co rr cols n (i - 1) j + 1))
        (simdTile str1 str2 ro co rr cols n (i - 1) (j - 1) +
          if str1 (ro + i - 1) = str2 (co + j - 1) then 0 else 1) := by
  obtain ⟨i, rfl⟩ : ∃ i', i = i' + 1 := ⟨i - 1, by omega⟩
  obtain ⟨j, rfl⟩ : ∃ j', j = j' + 1 := ⟨j - 1, by omega⟩
  rfl

/-- The left boundary of the SIMD kernel's cells. -/
theorem simdTile_left (str1 str2 : Nat → Byte) (ro co : Nat) (rr cols : Buf) (n i : Nat)
    (hi : 1 ≤ i) :
    simdTile str1 str2 ro co rr cols n i 0 =
      if ro + i ≤ n then cols.get (ro + i) else (n : Int) := by
  obtain ⟨i, rfl⟩ : ∃ i', i = i' + 1 := ⟨i - 1, by omega⟩
  rfl

/-- The upper boundary of the SIMD kernel's cells. -/
theorem simdTile_top (str1 str2 : Nat → Byte) (ro co : Nat) (rr cols : Buf) (n j : Nat) :
    simdTile str1 str2 ro co rr cols n 0 j =
      if j = 0 then tileCorner ro co rr
      else if co + j ≤ n then rr.get (co + j) else (n : Int) := rfl


/-- The loop over `j` of the scalar kernel of `parallelized_edit_distance.c` fills row `i` of the tile's
cells, whatever the boundary buffers hold. -/
theorem Parallelized.par_cells_cell_loop (str1 str2 : Nat → Byte) (ro co w i : Nat) (hi : 1 ≤ i)
    (rr cols prev cur : Buf)
    (hprev : ∀ j, j ≤ w → prev.get j = scalarTile str1 str2 ro co rr cols (i - 1) j)
    (hcur : cur.get 0 = scalarTile str1 str2 ro co rr cols i 0) :
    ∀ j, j ≤ w →
      (forLoop 1 w (Parallelized.cell ro co str1 str2 i prev) cur).get j =
        scalarTile str1 str2 ro co rr cols i j := by
  have key := forLoop_inv
    (fun j s => ∀ j', j' < j → s.get j' = scalarTile str1 str2 ro co rr cols i j')
    1 w (Parallelized.cell ro co str1 str2 i prev) cur (by omega)
    (by
      intro j' hj'
      have : j' = 0 := by omega
      subst this
      simpa using hcur)
    (by
      intro j s h1 h2 hs j' hj'
      unfold Parallelized.cell
      simp only [store_get]
      by_cases hjj : j' = j
      · subst hjj
        rw [if_pos rfl, scalarTile_rec str1 str2 ro co rr cols i j' (by omega) (by omega)]
        have e1 : co + j' - 1 = co + (j' - 1) := by omega
        rw [e1, Parallelized.par_min_eq, hprev (j' - 1) (by omega), hprev j' h2, hs (j' - 1) (by omega)]
      · rw [if_neg hjj]
        exact hs j' (by omega))
  intro j hj
  exact key j (by omega)

/-- The loop over `i` of the scalar kernel of `parallelized_edit_distance.c`, whatever the boundary buffers
hold: after the rows `1 .. h`, `prev_row` is row `h` of the tile's cells and the column
boundary holds the right column of the rows done. -/
theorem Parallelized.par_cells_row_loop (str1 str2 : Nat → Byte) (ro co h w : Nat)
    (rr prev cur cols : Buf)
    (hprev : ∀ j, j ≤ w → prev.get j = scalarTile str1 str2 ro co rr cols 0 j) :
    (∀ j, j ≤ w →
      (forLoop 1 h (Parallelized.row ro co w str1 str2) ⟨prev, cur, cols⟩).prev_row.get j =
        scalarTile str1 str2 ro co rr cols h j) ∧
    (∀ x, (forLoop 1 h (Parallelized.row ro co w str1 str2) ⟨prev, cur, cols⟩).global_cols.get x =
      if ro < x ∧ x ≤ ro + h then scalarTile str1 str2 ro co rr cols (x - ro) w
      else cols.get x) := by
  have key := forLoop_inv
    (fun i (s : Parallelized.Rows) =>
      (∀ j, j ≤ w → s.prev_row.get j = scalarTile str1 str2 ro co rr cols (i - 1) j) ∧
      (∀ x, s.global_cols.get x =
        if ro < x ∧ x < ro + i then scalarTile str1 str2 ro co rr cols (x - ro) w
        else cols.get x))
    1 h (Parallelized.row ro co w str1 str2) ⟨prev, cur, cols⟩ (by omega)
    ⟨by simpa using hprev, by
      intro x
      rw [if_neg (by omega)]⟩
    (by
      intro i s h1 h2 ⟨hp, hc⟩
      have hcells := Parallelized.par_cells_cell_loop str1 str2 ro co w i h1 rr cols s.prev_row
        (store s.cur_row 0 (s.global_cols.get (ro + i))) hp
        (by
          rw [store_get, if_pos rfl, hc, if_neg (by omega)]
          exact (scalarTile_left str1 str2 ro co rr cols i h1).symm)
      unfold Parallelized.row
      refine ⟨?_, ?_⟩
      · intro j hj
        simpa using hcells j hj
      · intro x
        simp only [store_get]
        by_cases hx : x = ro + i
        · subst hx
          rw [if_pos rfl, if_pos (by omega), Nat.add_sub_cancel_left]
          exact hcells w (le_refl _)
        · rw [if_neg hx, hc]
          by_cases hx2 : ro < x ∧ x < ro + i
          · rw [if_pos hx2, if_pos (by omega)]
          · rw [if_neg hx2, if_neg (by omega)])
  refine ⟨?_, ?_⟩
  · intro j hj
    simpa using key.1 j hj
  · intro x
    rw [key.2 x]
    by_cases hx : ro < x ∧ x ≤ ro + h
    · rw [if_pos hx, if_pos (by omega)]
    · rw [if_neg hx, if_neg (by omega)]


/-- The loop over `j` of the scalar kernel of `tiled_edit_distance.c` fills row `i` of the tile's
cells, whatever the boundary buffers hold. -/
theorem Tiled.tiled_cells_cell_loop (str1 str2 : Nat → Byte) (ro co w i : Nat) (hi : 1 ≤ i)
    (rr cols prev cur : Buf)
    (hprev : ∀ j, j ≤ w → prev.get j = scalarTile str1 str2 ro co rr cols (i - 1) j)
    (hcur : cur.get 0 = scalarTile str1 str2 ro co rr cols i 0) :
    ∀ j, j ≤ w →
      (forLoop 1 w (Tiled.cell ro co str1 str2 i prev) cur).get j =
        scalarTile str1 str2 ro co rr cols i j := by
  have key := forLoop_inv
    (fun j s => ∀ j', j' < j → s.get j' = scalarTile str1 str2 ro co rr cols i j')
    1 w (Tiled.cell ro co str1 str2 i prev) cur (by omega)
    (by
      intro j' hj'
      have : j' = 0 := by omega
      subst this
      simpa using hcur)
    (by
      intro j s h1 h2 hs j' hj'
      unfold Tiled.cell
      simp only [store_get]
      by_cases hjj : j' = j
      · subst hjj
        rw [if_pos rfl, scalarTile_rec str1 str2 ro co rr cols i j' (by omega) (by omega)]
        have e1 : co + j' - 1 = co + (j' - 1) := by omega
        rw [e1, Tiled.tiled_min_eq, hprev (j' - 1) (by omega), hprev j' h2, hs (j' - 1) (by omega)]
      · rw [if_neg hjj]
        exact hs j' (by omega))
  intro j hj
  exact key j (by omega)

/-- The loop over `i` of the scalar kernel of `tiled_edit_distance.c`, whatever the boundary buffers
hold: after the rows `1 .. h`, `prev_row` is row `h` of the tile's cells and the column
boundary holds the right column of the rows done. -/
theorem Tiled.tiled_cells_row_loop (str1 str2 : Nat → Byte) (ro co h w : Nat)
    (rr prev cur cols : Buf)
    (hprev : ∀ j, j ≤ w → prev.get j = scalarTile str1 str2 ro co rr cols 0 j) :
    (∀ j, j ≤ w →
      (forLoop 1 h (Tiled.row ro co w str1 str2) ⟨prev, cur, cols⟩).prev_row.get j =
        scalarTile str1 str2 ro co rr cols h j) ∧
    (∀ x, (forLoop 1 h (Tiled.row ro co w str1 str2) ⟨prev, cur, cols⟩).global_cols.get x =
      if ro < x ∧ x ≤ ro + h then scalarTile str1 str2 ro co rr cols (x - ro) w
      else cols.get x) := by
  have key := forLoop_inv
    (fun i (s : Tiled.Rows) =>
      (∀ j, j ≤ w → s.prev_row.get j = scalarTile str1 str2 ro co rr cols (i - 1) j) ∧
      (∀ x, s.global_cols.get x =
        if ro < x ∧ x < ro + i then scalarTile str1 str2 ro co rr cols (x - ro) w
        else cols.get x))
    1 h (Tiled.row ro co w str1 str2) ⟨prev, cur, cols⟩ (by omega)
    ⟨by simpa using hprev, by
      intro x
      rw [if_neg (by omega)]⟩
    (by
      intro i s h1 h2 ⟨hp, hc⟩
      have hcells := Tiled.tiled_cells_cell_loop str1 str2 ro co w i h1 rr cols s.prev_row
        (store s.cur_row 0 (s.global_cols.get (ro + i))) hp
        (by
          rw [store_get, if_pos rfl, hc, if_neg (by omega)]
          exact (scalarTile_left str1 str2 ro co rr cols i h1).symm)
      unfold Tiled.row
      refine ⟨?_, ?_⟩
      · intro j hj
        simpa using hcells j hj
      · intro x
        simp only [store_get]
        by_cases hx : x = ro + i
        · subst hx
          rw [if_pos rfl, if_pos (by omega), Nat.add_sub_cancel_left]
          exact hcells w (le_refl _)
        · rw [if_neg hx, hc]
          by_cases hx2 : ro < x ∧ x < ro + i
          · rw [if_pos hx2, if_pos (by omega)]
          · rw [if_neg hx2, if_neg (by omega)])
  refine ⟨?_, ?_⟩
  · intro j hj
    simpa using key.1 j hj
  · intro x
    rw [key.2 x]
    by_cases hx : ro < x ∧ x ≤ ro + h
    · rw [if_pos hx, if_pos (by omega)]
    · rw [if_neg hx, if_neg (by omega)]

/-- The first scratch row of a scalar kernel after its initialisation: the upper boundary
of the tile's cells. -/
theorem scalar_init_prev (str1 str2 : Nat → Byte) (ro co w : Nat) (rr cols prev : Buf) :
    ∀ j, j ≤ w →
      (store (forLoop 1 w (fun j p => store p j (rr.get (co + j))) prev) 0
        (if co = 0 then (ro : Int) else if ro = 0 then (co : Int) else rr.get co)).get j =
      scalarTile str1 str2 ro co rr cols 0 j := by
  intro j hj
  have hst := forLoop_store 1 w (fun j p => store p j (rr.get (co + j))) (fun j => j)
    (fun j => rr.get (co + j)) prev (by omega) (fun _ _ h => h) (fun _ _ _ _ => rfl)
  dsimp only at hst
  rw [store_get, scalarTile_top]
  by_cases hj0 : j = 0
  · rw [if_pos hj0, if_pos hj0]
    rfl
  · rw [if_neg hj0, if_neg hj0, hst.1 j (by omega) hj]


/-- The scalar kernel of `parallelized_edit_distance.c`, whatever the boundary buffers hold: it leaves the
bottom row and the right column of the tile's cells, and nothing else. -/
theorem Parallelized.par_process_tile_cells (str1 str2 : Nat → Byte) (ro co h w : Nat)
    (rr rw cols prev cur : Buf) :
    TileCellsPost (scalarTile str1 str2 ro co rr cols) ro co h w rw cols
      (Parallelized.process_tile ro co rr rw cols h w str1 str2 prev cur).1 := by
  have hrow := Parallelized.par_cells_row_loop str1 str2 ro co h w rr _ cur cols
    (scalar_init_prev str1 str2 ro co w rr cols prev)
  unfold Parallelized.process_tile
  refine ⟨?_, ?_, ?_⟩
  · intro x
    simp only
    rw [writeback_get]
    by_cases hx : co < x ∧ x ≤ co + w
    · rw [if_pos hx, if_pos hx, hrow.1 (x - co) (by omega)]
    · rw [if_neg hx, if_neg hx]
  · intro x
    exact hrow.2 x
  · exact hrow.1 w (le_refl _)


/-- The scalar kernel of `tiled_edit_distance.c`, whatever the boundary buffers hold: it leaves the
bottom row and the right column of the tile's cells, and nothing else. -/
theorem Tiled.tiled_process_tile_cells (str1 str2 : Nat → Byte) (ro co h w : Nat)
    (rr rw cols prev cur : Buf) :
    TileCellsPost (scalarTile str1 str2 ro co rr cols) ro co h w rw cols
      (Tiled.process_tile true true prev cur ro co rr rw cols h w str1 str2) := by
  have hrow := Tiled.tiled_cells_row_loop str1 str2 ro co h w rr _ cur cols
    (scalar_init_prev str1 str2 ro co w rr cols prev)
  unfold Tiled.process_tile
  rw [if_neg (by simp)]
  refine ⟨?_, ?_, ?_⟩
  · intro x
    simp only
    rw [writeback_get]
    by_cases hx : co < x ∧ x ≤ co + w
    · rw [if_pos hx, if_pos hx, hrow.1 (x - co) (by omega)]
    · rw [if_neg hx, if_neg hx]
  · intro x
    exact hrow.2 x
  · exact hrow.1 w (le_refl _)

/-! ## The SIMD tile kernel, for arbitrary boundary contents -/

namespace Avx2

/-- From the cells of the two previous diagonals the cleanup recurrence yields the cell. -/
theorem holds_cell_value (str1 str2 : Nat → Byte) (ro co : Nat) (cells : Nat → Nat → Int)
    (hrec : SimdRule str1 str2 ro co cells) (h w k i0 i : Nat) (buf : Buf)
    (hK : Holds cells h w k i0 buf) (h1 : 1 ≤ i) (h2 : i ≤ h) (h3 : i < k)
    (h4 : k ≤ i + w) :
    cell_value ro co h str1 str2 k i buf = cells i (k - i) := by
  unfold cell_value
  have a1 := hK i (k - i - 1) h2 (by omega) (Or.inr (Or.inr (Or.inl (by omega))))
  have a2 := hK (i - 1) (k - i) (by omega) (by omega) (Or.inr (Or.inr (Or.inl (by omega))))
  have a3 := hK (i - 1) (k - i - 1) (by omega) (by omega)
    (Or.inr (Or.inr (Or.inl (by omega))))
  have e1 : i + (k - i - 1) = k - 1 := by omega
  have e2 : i - 1 + (k - i) = k - 1 := by omega
  have e3 : i - 1 + (k - i - 1) = k - 1 - 1 := by omega
  rw [e1] at a1
  rw [e2] at a2
  rw [e3] at a3
  rw [a1, a2, a3, min_scalar_eq, hrec i (k - i) (by omega) (by omega)]

/-- Writing the recurrence values into the rows `i0 .. i1 - 1` of diagonal `k` extends what
the buffer holds of the tile's cells. -/
theorem holds_step (str1 str2 : Nat → Byte) (ro co : Nat) (cells : Nat → Nat → Int)
    (hrec : SimdRule str1 str2 ro co cells) (h w k i0 i1 : Nat) (buf buf' : Buf)
    (hK : Holds cells h w k i0 buf) (h1 : 1 ≤ i0) (hle : i0 ≤ i1)
    (hi1 : i1 ≤ h + 1) (hk : i1 ≤ k)
    (hbuf : ∀ x, buf'.get x =
      if idx h k i0 ≤ x ∧ x < idx h k i0 + (i1 - i0) then
        cell_value ro co h str1 str2 k (i0 + (x - idx h k i0)) buf
      else buf.get x) :
    Holds cells h w k i1 buf' := by
  intro i j hi hj hc
  rw [hbuf]
  by_cases hin : i + j = k ∧ i0 ≤ i ∧ i < i1
  · obtain ⟨hs, ha, hb⟩ := hin
    have e : idx h (i + j) i = idx h k i0 + (i - i0) := by
      rw [idx_succ, hs]
      congr 1
      omega
    rw [if_pos (by omega), e, Nat.add_sub_cancel_left]
    have e2 : i0 + (i - i0) = i := by omega
    rw [e2, holds_cell_value str1 str2 ro co cells hrec h w k i0 i buf hK (by omega) hi (by omega)
      (by omega)]
    have e3 : k - i = j := by omega
    rw [e3]
  · rw [if_neg]
    · apply hK i j hi hj
      rcases hc with hc | hc | hc | hc
      · exact Or.inl hc
      · exact Or.inr (Or.inl hc)
      · exact Or.inr (Or.inr (Or.inl hc))
      · exact Or.inr (Or.inr (Or.inr ⟨hc.1, by omega⟩))
    · intro hx
      apply hin
      have e : idx h (i + j) i = idx h k (i0 + (idx h (i + j) i - idx h k i0)) := by
        rw [← idx_succ]
        omega
      have := idx_inj h _ _ _ _ hi (by omega) e
      omega


theorem holds_scalar_cell (str1 str2 : Nat → Byte) (ro co : Nat) (cells : Nat → Nat → Int)
    (hrec : SimdRule str1 str2 ro co cells) (h w k i : Nat) (buf : Buf)
    (hK : Holds cells h w k i buf) (h1 : 1 ≤ i) (h2 : i ≤ h) (h3 : i < k) :
    Holds cells h w k (i + 1) (scalar_cell ro co h str1 str2 k i buf) := by
  apply holds_step str1 str2 ro co cells hrec h w k i (i + 1) buf _ hK h1 (by omega) (by omega)
    (by omega)
  intro x
  rw [scalar_cell_eq, store_get]
  by_cases hx : x = idx h k i
  · subst hx
    rw [if_pos rfl, if_pos (by omega), Nat.sub_self, Nat.add_zero]
  · rw [if_neg hx, if_neg (by omega)]

theorem holds_vector_body (str1 str2 : Nat → Byte) (ro co : Nat) (cells : Nat → Nat → Int)
    (hrec : SimdRule str1 str2 ro co cells) (h w k i : Nat) (buf : Buf)
    (hK : Holds cells h w k i buf) (h1 : 1 ≤ i) (h2 : i + 15 ≤ h)
    (h3 : i + 15 < k) :
    Holds cells h w k (i + 16) (vector_body ro co h str1 str2 k i buf) := by
  apply holds_step str1 str2 ro co cells hrec h w k i (i + 16) buf _ hK h1 (by omega) (by omega)
    (by omega)
  intro x
  rw [vector_body_get ro co h str1 str2 k i buf h1 (by omega)]
  have e : i + 16 - i = 16 := by omega
  rw [e]

/-- The vector loop extends what the buffer holds of the cells up to the row it stops at. -/
theorem holds_vector_loop (str1 str2 : Nat → Byte) (ro co : Nat) (cells : Nat → Nat → Int)
    (hrec : SimdRule str1 str2 ro co cells) (h w k max_i : Nat)
    (hmax : max_i ≤ h) (hmaxk : max_i < k) (fuel : Nat) :
    ∀ (i : Nat) (buf : Buf), Holds cells h w k i buf → 1 ≤ i → i ≤ max_i + 1 →
      Holds cells h w k
        (vector_loop ro co h str1 str2 k max_i fuel i buf).1
        (vector_loop ro co h str1 str2 k max_i fuel i buf).2 ∧
      1 ≤ (vector_loop ro co h str1 str2 k max_i fuel i buf).1 ∧
      (vector_loop ro co h str1 str2 k max_i fuel i buf).1 ≤ max_i + 1 := by
  induction fuel with
  | zero =>
    intro i buf hK h1 h2
    exact ⟨hK, h1, h2⟩
  | succ fuel ih =>
    intro i buf hK h1 h2
    unfold vector_loop
    by_cases hc : (i : Int) ≤ (max_i : Int) - 15
    · rw [if_pos hc]
      simp only
      by_cases hg : (co : Int) + ((k - i : Nat) : Int) - 16 < 0
      · rw [if_pos hg]
        exact ⟨hK, h1, h2⟩
      · rw [if_neg hg]
        exact ih (i + 16) _
          (holds_vector_body str1 str2 ro co cells hrec h w k i buf hK h1 (by omega) (by omega))
          (by omega) (by omega)
    · rw [if_neg hc]
      exact ⟨hK, h1, h2⟩

/-- The scalar cleanup loop completes the diagonal. -/
theorem holds_cleanup (str1 str2 : Nat → Byte) (ro co : Nat) (cells : Nat → Nat → Int)
    (hrec : SimdRule str1 str2 ro co cells) (h w k max_i : Nat)
    (hmax : max_i ≤ h) (hmaxk : max_i < k) (i : Nat) (buf : Buf)
    (hK : Holds cells h w k i buf) (h1 : 1 ≤ i) (h2 : i ≤ max_i + 1) :
    Holds cells h w k (max_i + 1)
      (forLoop i max_i (scalar_cell ro co h str1 str2 k) buf) :=
  forLoop_inv (fun i' s => Holds cells h w k i' s ∧ i ≤ i') i max_i
    (scalar_cell ro co h str1 str2 k) buf h2 ⟨hK, le_refl _⟩
    (fun i' s ha hb hs =>
      ⟨holds_scalar_cell str1 str2 ro co cells hrec h w k i' s hs.1 (by omega) (by omega) (by omega),
        by omega⟩) |>.1

/-- One iteration of the loop over the diagonals. -/
theorem holds_diagonal (str1 str2 : Nat → Byte) (ro co : Nat) (cells : Nat → Nat → Int)
    (hrec : SimdRule str1 str2 ro co cells) (h w k : Nat) (buf : Buf)
    (hk : 2 ≤ k) (hkle : k ≤ h + w) (hK : Holds cells h w k 0 buf) :
    Holds cells h w (k + 1) 0 (diagonal ro co h w str1 str2 k buf) := by
  unfold diagonal
  simp only
  have hem : (if (k : Int) - (w : Int) > 1 then k - w else 1) ≤
      (if (k : Int) - 1 < (h : Int) then k - 1 else h) + 1 := by
    split_ifs <;> omega
  generalize hmin : (if (k : Int) - (w : Int) > 1 then k - w else 1) = min_i at hem ⊢
  generalize hmax : (if (k : Int) - 1 < (h : Int) then k - 1 else h) = max_i at hem ⊢
  have hmin1 : 1 ≤ min_i := by
    rw [← hmin]; split_ifs <;> omega
  have hmin2 : k ≤ min_i + w := by
    rw [← hmin]; split_ifs <;> omega
  have hmax1 : max_i ≤ h := by
    rw [← hmax]; split_ifs <;> omega
  have hmax2 : max_i < k := by
    rw [← hmax]; split_ifs <;> omega
  have hmax3 : k ≤ max_i + 1 ∨ max_i = h := by
    rw [← hmax]; split_ifs <;> omega
  have hK0 : Holds cells h w k min_i buf := by
    intro i j hi hj hc
    apply hK i j hi hj
    rcases hc with hc | hc | hc | hc
    · exact Or.inl hc
    · exact Or.inr (Or.inl hc)
    · exact Or.inr (Or.inr (Or.inl hc))
    · by_cases hi0 : i = 0
      · exact Or.inl hi0
      · exfalso
        rw [← hmin] at hc
        split_ifs at hc <;> omega
  · have hv := holds_vector_loop str1 str2 ro co cells hrec h w k max_i hmax1 hmax2 max_i min_i buf hK0
      hmin1 hem
    have hc := holds_cleanup str1 str2 ro co cells hrec h w k max_i hmax1 hmax2 _ _ hv.1 hv.2.1 hv.2.2
    intro i j hi hj hcond
    apply hc i j hi hj
    rcases hcond with hcond | hcond | hcond | hcond
    · exact Or.inl hcond
    · exact Or.inr (Or.inl hcond)
    · by_cases hj0 : j = 0
      · exact Or.inr (Or.inl hj0)
      · by_cases hlt : i + j < k
        · exact Or.inr (Or.inr (Or.inl hlt))
        · exact Or.inr (Or.inr (Or.inr ⟨by omega, by omega⟩))
    · omega

/-- The loop over the diagonals fills the whole tile. -/
theorem holds_diagonals (str1 str2 : Nat → Byte) (ro co : Nat) (cells : Nat → Nat → Int)
    (hrec : SimdRule str1 str2 ro co cells) (h w : Nat) (buf : Buf)
    (hh : 1 ≤ h) (hK : Holds cells h w 2 0 buf) :
    Holds cells h w (h + w + 1) 0
      (forLoop 2 (h + w) (diagonal ro co h w str1 str2) buf) := by
  by_cases hw : 1 ≤ w
  · exact forLoop_inv (fun k s => Holds cells h w k 0 s) 2 (h + w)
      (diagonal ro co h w str1 str2) buf (by omega) hK
      (fun k s ha hb hs => holds_diagonal str1 str2 ro co cells hrec h w k s ha hb hs)
  · have hw0 : w = 0 := by omega
    subst hw0
    intro i j hi hj hc
    have hj0 : j = 0 := by omega
    subst hj0
    by_cases h1 : h = 1
    · subst h1
      unfold forLoop
      rw [forLt_ge _ _ _ _ (by omega)]
      exact hK i 0 hi hj (Or.inr (Or.inl rfl))
    · exact forLoop_inv (fun k s => Holds cells h 0 k 0 s) 2 (h + 0)
        (diagonal ro co h 0 str1 str2) buf (by omega) hK
        (fun k s ha hb hs => holds_diagonal str1 str2 ro co cells hrec h 0 k s ha hb hs) i 0 hi hj hc

end Avx2

namespace Avx2

/-- The cells of the SIMD kernel follow its rule. -/
theorem simdTile_rule (str1 str2 : Nat → Byte) (ro co : Nat) (rr cols : Buf) (n : Nat) :
    SimdRule str1 str2 ro co (simdTile str1 str2 ro co rr cols n) :=
  fun i j hi hj => simdTile_rec str1 str2 ro co rr cols n i j hi hj

/-- The prefill of the scratch buffer puts the boundary values of the tile in place, whatever
the boundary buffers hold. -/
theorem holds_prefill (str1 str2 : Nat → Byte) (ro co h w total_len : Nat)
    (rr cols buffer : Buf) :
    Holds (simdTile str1 str2 ro co rr cols total_len) h w 2 0
      (store
        (forLoop 1 w (fun j buffer =>
          if co + j ≤ total_len then store buffer (idx h j 0) (rr.get (co + j))
          else store buffer (idx h j 0) (total_len : Int))
          (forLoop 1 h (fun i buffer =>
            if ro + i ≤ total_len then store buffer (idx h i i) (cols.get (ro + i))
            else store buffer (idx h i i) (total_len : Int)) buffer))
        (idx h 0 0)
        (if co = 0 then (ro : Int) else if ro = 0 then (co : Int) else rr.get co)) := by
  have h1 := forLoop_store 1 h (fun i buffer =>
      if ro + i ≤ total_len then store buffer (idx h i i) (cols.get (ro + i))
      else store buffer (idx h i i) (total_len : Int))
    (fun i => idx h i i)
    (fun i => if ro + i ≤ total_len then cols.get (ro + i) else (total_len : Int)) buffer
    (by omega) (fun j j' he => idx_diag_inj h j j' he)
    (fun j s ha hb => by
      dsimp only
      split_ifs <;> rfl)
  generalize (forLoop 1 h (fun i buffer =>
      if ro + i ≤ total_len then store buffer (idx h i i) (cols.get (ro + i))
      else store buffer (idx h i i) (total_len : Int)) buffer) = b1 at h1 ⊢
  have h2 := forLoop_store 1 w (fun j buffer =>
      if co + j ≤ total_len then store buffer (idx h j 0) (rr.get (co + j))
      else store buffer (idx h j 0) (total_len : Int))
    (fun j => idx h j 0)
    (fun j => if co + j ≤ total_len then rr.get (co + j) else (total_len : Int)) b1
    (by omega) (fun j j' he => (idx_inj h j 0 j' 0 (by omega) (by omega) he).1)
    (fun j s ha hb => by
      dsimp only
      split_ifs <;> rfl)
  generalize (forLoop 1 w (fun j buffer =>
      if co + j ≤ total_len then store buffer (idx h j 0) (rr.get (co + j))
      else store buffer (idx h j 0) (total_len : Int)) b1) = b2 at h2 ⊢
  dsimp only at h1 h2
  intro i j hi hj hc
  rw [store_get]
  by_cases hi0 : i = 0
  · subst hi0
    rw [simdTile_top]
    by_cases hj0 : j = 0
    · subst hj0
      rw [if_pos rfl, if_pos rfl]
      rfl
    · rw [if_neg (fun he => hj0 (by
        have := idx_inj h _ _ _ _ (Nat.zero_le h) (Nat.zero_le h) he
        omega)), if_neg hj0]
      rw [Nat.zero_add, h2.1 j (by omega) hj]
  · have hj0 : j = 0 := by omega
    subst hj0
    rw [if_neg (fun he => hi0 (by
      have := idx_inj h _ _ _ _ hi (Nat.zero_le h) he
      omega))]
    rw [Nat.add_zero, h2.2 _ (fun j' _ _ he => hi0 (by
      have := idx_inj h _ _ _ _ (Nat.zero_le h) hi he
      omega)), h1.1 i (by omega) hi, simdTile_left _ _ _ _ _ _ _ _ (by omega)]

/-- The scratch buffer of the SIMD kernel at its end, whatever the boundary buffers hold: the
cell `(i, j)` of the tile is at `idx(i + j, i)`. -/
theorem avx2_process_tile_buffer (str1 str2 : Nat → Byte) (ro co h w total_len : Nat)
    (rr rw cols buffer : Buf) (hh1 : 1 ≤ h) (i j : Nat) (hi : i ≤ h) (hj : j ≤ w) :
    (process_tile ro co rr rw cols h w str1 str2 buffer total_len).2.get (idx h (i + j) i) =
      simdTile str1 str2 ro co rr cols total_len i j := by
  have hK := holds_diagonals str1 str2 ro co _ (simdTile_rule str1 str2 ro co rr cols total_len)
    h w _ hh1 (holds_prefill str1 str2 ro co h w total_len rr cols buffer)
  exact hK i j hi hj (Or.inr (Or.inr (Or.inl (by omega))))

/-- The SIMD kernel, whatever the boundary buffers hold: it leaves the bottom row and the
right column of the tile's cells, and nothing else. -/
theorem avx2_process_tile_cells (str1 str2 : Nat → Byte) (ro co h w total_len : Nat)
    (rr rw cols buffer : Buf) (hh1 : 1 ≤ h) :
    TileCellsPost (simdTile str1 str2 ro co rr cols total_len) ro co h w rw cols
      (process_tile ro co rr rw cols h w str1 str2 buffer total_len).1 := by
  have hK := holds_diagonals str1 str2 ro co _ (simdTile_rule str1 str2 ro co rr cols total_len)
    h w _ hh1 (holds_prefill str1 str2 ro co h w total_len rr cols buffer)
  unfold process_tile
  refine ⟨?_, ?_, ?_⟩
  · intro x
    simp only
    rw [writeback_get]
    by_cases hx : co < x ∧ x ≤ co + w
    · rw [if_pos hx, if_pos hx, hK h (x - co) (le_refl _) (by omega)
        (Or.inr (Or.inr (Or.inl (by omega))))]
    · rw [if_neg hx, if_neg hx]
  · intro x
    simp only
    rw [writeback_get]
    by_cases hx : ro < x ∧ x ≤ ro + h
    · rw [if_pos hx, if_pos hx, hK (x - ro) w (by omega) (le_refl _)
        (Or.inr (Or.inr (Or.inl (by omega))))]
    · rw [if_neg hx, if_neg hx]
  · exact hK h w (le_refl _) (le_refl _) (Or.inr (Or.inr (Or.inl (by omega))))

end Avx2

/-- The rows the scalar kernel of `parallelized_edit_distance.c` computes are the rows of the tile's cells,
whatever the boundary buffers hold. -/
theorem Parallelized.par_tile_rows_cells (str1 str2 : Nat → Byte) (ro co w : Nat)
    (rr cols prev cur : Buf) (i j : Nat) (hj : j ≤ w) :
    (Parallelized.tile_rows ro co rr cols w str1 str2 prev cur i).prev_row.get j =
      scalarTile str1 str2 ro co rr cols i j :=
  (Parallelized.par_cells_row_loop str1 str2 ro co i w rr _ cur cols
    (scalar_init_prev str1 str2 ro co w rr cols prev)).1 j hj

/-- The rows the scalar kernel of `parallelized_edit_distance.c` computes on the table's boundary values are
the rows of the table. -/
theorem Parallelized.par_tile_rows_table (str1 str2 : Nat → Byte) (ro co h w : Nat)
    (rr cols prev cur : Buf) (hpre : TilePre str1 str2 ro co h w rr cols) (i j : Nat)
    (hi : i ≤ h) (hj : j ≤ w) :
    (Parallelized.tile_rows ro co rr cols w str1 str2 prev cur i).prev_row.get j =
      (D str1 str2 (ro + i) (co + j) : Int) :=
  (Parallelized.par_row_loop str1 str2 ro co i w _ cur cols
    (Parallelized.par_init_prev str1 str2 ro co h w rr cols prev hpre)
    (fun i1 h1 h2 => hpre.left i1 h1 (by omega))).1 j hj


/-- The rows the scalar kernel of `tiled_edit_distance.c` computes are the rows of the tile's cells,
whatever the boundary buffers hold. -/
theorem Tiled.tiled_tile_rows_cells (str1 str2 : Nat → Byte) (ro co w : Nat)
    (rr cols prev cur : Buf) (i j : Nat) (hj : j ≤ w) :
    (Tiled.tile_rows ro co rr cols w str1 str2 prev cur i).prev_row.get j =
      scalarTile str1 str2 ro co rr cols i j :=
  (Tiled.tiled_cells_row_loop str1 str2 ro co i w rr _ cur cols
    (scalar_init_prev str1 str2 ro co w rr cols prev)).1 j hj

/-- The rows the scalar kernel of `tiled_edit_distance.c` computes on the table's boundary values are
the rows of the table. -/
theorem Tiled.tiled_tile_rows_table (str1 str2 : Nat → Byte) (ro co h w : Nat)
    (rr cols prev cur : Buf) (hpre : TilePre str1 str2 ro co h w rr cols) (i j : Nat)
    (hi : i ≤ h) (hj : j ≤ w) :
    (Tiled.tile_rows ro co rr cols w str1 str2 prev cur i).prev_row.get j =
      (D str1 str2 (ro + i) (co + j) : Int) :=
  (Tiled.tiled_row_loop str1 str2 ro co i w _ cur cols
    (Tiled.tiled_init_prev str1 str2 ro co h w rr cols prev hpre)
    (fun i1 h1 h2 => hpre.left i1 h1 (by omega))).1 j hj

/-- Claim C15, evaluated on the code.  A tile of one cell at offsets `512`, `512` whose two
symbols are equal, with `10` at the corner of the row boundary and `0` above and to the left
of the cell: both scalar kernels set the cell to the corner value `10`, while the three-way
minimum of the claim is `1`. -/
theorem scalar_kernel_match_shortcut :
    (Parallelized.tile_rows 512 512 ⟨fun x => if x = 512 then 10 else 0⟩ ⟨fun _ => 0⟩ 1
      (fun _ => 65) (fun _ => 65) ⟨fun _ => 0⟩ ⟨fun _ => 0⟩ 1).prev_row.get 1 = 10 ∧
    (Tiled.tile_rows 512 512 ⟨fun x => if x = 512 then 10 else 0⟩ ⟨fun _ => 0⟩ 1
      (fun _ => 65) (fun _ => 65) ⟨fun _ => 0⟩ ⟨fun _ => 0⟩ 1).prev_row.get 1 = 10 ∧
    (Parallelized.process_tile 512 512 ⟨fun x => if x = 512 then 10 else 0⟩ ⟨fun _ => 0⟩
      ⟨fun _ => 0⟩ 1 1 (fun _ => 65) (fun _ => 65) ⟨fun _ => 0⟩ ⟨fun _ => 0⟩).1.result = 10 ∧
    min (min
        ((Parallelized.tile_rows 512 512 ⟨fun x => if x = 512 then 10 else 0⟩ ⟨fun _ => 0⟩ 1
          (fun _ => 65) (fun _ => 65) ⟨fun _ => 0⟩ ⟨fun _ => 0⟩ 0).prev_row.get 1 + 1)
        ((Parallelized.tile_rows 512 512 ⟨fun x => if x = 512 then 10 else 0⟩ ⟨fun _ => 0⟩ 1
          (fun _ => 65) (fun _ => 65) ⟨fun _ => 0⟩ ⟨fun _ => 0⟩ 1).prev_row.get 0 + 1))
      ((Parallelized.tile_rows 512 512 ⟨fun x => if x = 512 then 10 else 0⟩ ⟨fun _ => 0⟩ 1
          (fun _ => 65) (fun _ => 65) ⟨fun _ => 0⟩ ⟨fun _ => 0⟩ 0).prev_row.get 0 +
        if ((fun _ => 65 : Nat → Byte) (512 + 1 - 1)) = ((fun _ => 65 : Nat → Byte) (512 + 1 - 1))
          then 0 else 1) = 1 := by
  refine ⟨?_, ?_, ?_, ?_⟩ <;> decide

/-- Claim C15, amended.  For every tile, all sequences and every content of the boundary
buffers, the scalar `process_tile` of `parallelized_edit_distance.c` and of
`tiled_edit_distance.c` sets each interior cell `(i, j)`, `1 ≤ i`, `1 ≤ j ≤ width`, to
`previous[j-1]` when the symbols `a[row_offset+i-1]` and `b[col_offset+j-1]` are equal and to
`min(previous[j]+1, current[j-1]+1, previous[j-1]+1)` otherwise, and returns the cell
`(height, width)`; when the boundary buffers hold the values of the Levenshtein table and
`i ≤ height`, the cell is `min(previous[j]+1, current[j-1]+1, previous[j-1]+cost)` with
`cost = 0` for equal symbols and `1` otherwise. -/
theorem scalar_kernel_recurrence (str1 str2 : Nat → Byte) (ro co h w : Nat)
    (rr rw cols prev cur : Buf) (i j : Nat) (hi : 1 ≤ i) (hj : 1 ≤ j) (hjw : j ≤ w) :
    ((Parallelized.tile_rows ro co rr cols w str1 str2 prev cur i).prev_row.get j =
      if str1 (ro + i - 1) = str2 (co + j - 1) then
        (Parallelized.tile_rows ro co rr cols w str1 str2 prev cur (i - 1)).prev_row.get (j - 1)
      else min (min
          ((Parallelized.tile_rows ro co rr cols w str1 str2 prev cur (i - 1)).prev_row.get j + 1)
          ((Parallelized.tile_rows ro co rr cols w str1 str2 prev cur i).prev_row.get (j - 1) + 1))
        ((Parallelized.tile_rows ro co rr cols w str1 str2 prev cur (i - 1)).prev_row.get (j - 1)
          + 1)) ∧
    ((Tiled.tile_rows ro co rr cols w str1 str2 prev cur i).prev_row.get j =
      if str1 (ro + i - 1) = str2 (co + j - 1) then
        (Tiled.tile_rows ro co rr cols w str1 str2 prev cur (i - 1)).prev_row.get (j - 1)
      else min (min
          ((Tiled.tile_rows ro co rr cols w str1 str2 prev cur (i - 1)).prev_row.get j + 1)
          ((Tiled.tile_rows ro co rr cols w str1 str2 prev cur i).prev_row.get (j - 1) + 1))
        ((Tiled.tile_rows ro co rr cols w str1 str2 prev cur (i - 1)).prev_row.get (j - 1)
          + 1)) ∧
    (Parallelized.process_tile ro co rr rw cols h w str1 str2 prev cur).1.result =
      (Parallelized.tile_rows ro co rr cols w str1 str2 prev cur h).prev_row.get w ∧
    (Tiled.process_tile true true prev cur ro co rr rw cols h w str1 str2).result =
      (Tiled.tile_rows ro co rr cols w str1 str2 prev cur h).prev_row.get w ∧
    (TilePre str1 str2 ro co h w rr cols → i ≤ h →
      (Parallelized.tile_rows ro co rr cols w str1 str2 prev cur i).prev_row.get j =
        min (min
          ((Parallelized.tile_rows ro co rr cols w str1 str2 prev cur (i - 1)).prev_row.get j + 1)
          ((Parallelized.tile_rows ro co rr cols w str1 str2 prev cur i).prev_row.get (j - 1) + 1))
        ((Parallelized.tile_rows ro co rr cols w str1 str2 prev cur (i - 1)).prev_row.get (j - 1)
          + if str1 (ro + i - 1) = str2 (co + j - 1) then 0 else 1) ∧
      (Tiled.tile_rows ro co rr cols w str1 str2 prev cur i).prev_row.get j =
        min (min
          ((Tiled.tile_rows ro co rr cols w str1 str2 prev cur (i - 1)).prev_row.get j + 1)
          ((Tiled.tile_rows ro co rr cols w str1 str2 prev cur i).prev_row.get (j - 1) + 1))
        ((Tiled.tile_rows ro co rr cols w str1 str2 prev cur (i - 1)).prev_row.get (j - 1)
          + if str1 (ro + i - 1) = str2 (co + j - 1) then 0 else 1)) := by
  refine ⟨?_, ?_, ?_, ?_, ?_⟩
  · rw [Parallelized.par_tile_rows_cells _ _ _ _ _ _ _ _ _ i j hjw,
      Parallelized.par_tile_rows_cells _ _ _ _ _ _ _ _ _ (i - 1) (j - 1) (by omega),
      Parallelized.par_tile_rows_cells _ _ _ _ _ _ _ _ _ (i - 1) j hjw,
      Parallelized.par_tile_rows_cells _ _ _ _ _ _ _ _ _ i (j - 1) (by omega)]
    exact scalarTile_rec str1 str2 ro co rr cols i j hi hj
  · rw [Tiled.tiled_tile_rows_cells _ _ _ _ _ _ _ _ _ i j hjw,
      Tiled.tiled_tile_rows_cells _ _ _ _ _ _ _ _ _ (i - 1) (j - 1) (by omega),
      Tiled.tiled_tile_rows_cells _ _ _ _ _ _ _ _ _ (i - 1) j hjw,
      Tiled.tiled_tile_rows_cells _ _ _ _ _ _ _ _ _ i (j - 1) (by omega)]
    exact scalarTile_rec str1 str2 ro co rr cols i j hi hj
  · rfl
  · rfl
  · intro hpre hih
    have hD := D_rec_min str1 str2 (ro + i) (co + j) (by omega) (by omega)
    have e1 : ro + i - 1 = ro + (i - 1) := by omega
    have e2 : co + j - 1 = co + (j - 1) := by omega
    rw [Parallelized.par_tile_rows_table _ _ _ _ _ _ _ _ _ _ hpre i j hih hjw,
      Parallelized.par_tile_rows_table _ _ _ _ _ _ _ _ _ _ hpre (i - 1) (j - 1) (by omega)
        (by omega),
      Parallelized.par_tile_rows_table _ _ _ _ _ _ _ _ _ _ hpre (i - 1) j (by omega) hjw,
      Parallelized.par_tile_rows_table _ _ _ _ _ _ _ _ _ _ hpre i (j - 1) hih (by omega),
      Tiled.tiled_tile_rows_table _ _ _ _ _ _ _ _ _ _ hpre i j hih hjw,
      Tiled.tiled_tile_rows_table _ _ _ _ _ _ _ _ _ _ hpre (i - 1) (j - 1) (by omega)
        (by omega),
      Tiled.tiled_tile_rows_table _ _ _ _ _ _ _ _ _ _ hpre (i - 1) j (by omega) hjw,
      Tiled.tiled_tile_rows_table _ _ _ _ _ _ _ _ _ _ hpre i (j - 1) hih (by omega),
      ← e1, ← e2, hD, min_comm ((D str1 str2 (ro + i) (co + j - 1) : Int) + 1)]
    exact ⟨rfl, rfl⟩

theorem scalar_kernel_recurrence_witness :
    (1 ≤ 1 ∧ 1 ≤ 1 ∧ 1 ≤ 1) ∧
    TilePre (fun _ => 65) (fun _ => 65) 0 0 1 1 ⟨fun x => (x : Int)⟩ ⟨fun x => (x : Int)⟩ ∧
    ((Parallelized.tile_rows 0 0 ⟨fun x => (x : Int)⟩ ⟨fun x => (x : Int)⟩ 1
      (fun _ => 65) (fun _ => 65) ⟨fun _ => 0⟩ ⟨fun _ => 0⟩ 1).prev_row.get 1 =
      if (fun _ => 65 : Nat → Byte) (0 + 1 - 1) = (fun _ => 65 : Nat → Byte) (0 + 1 - 1) then
        (Parallelized.tile_rows 0 0 ⟨fun x => (x : Int)⟩ ⟨fun x => (x : Int)⟩ 1
          (fun _ => 65) (fun _ => 65) ⟨fun _ => 0⟩ ⟨fun _ => 0⟩ (1 - 1)).prev_row.get (1 - 1)
      else min (min
          ((Parallelized.tile_rows 0 0 ⟨fun x => (x : Int)⟩ ⟨fun x => (x : Int)⟩ 1
            (fun _ => 65) (fun _ => 65) ⟨fun _ => 0⟩ ⟨fun _ => 0⟩ (1 - 1)).prev_row.get 1 + 1)
          ((Parallelized.tile_rows 0 0 ⟨fun x => (x : Int)⟩ ⟨fun x => (x : Int)⟩ 1
            (fun _ => 65) (fun _ => 65) ⟨fun _ => 0⟩ ⟨fun _ => 0⟩ 1).prev_row.get (1 - 1) + 1))
        ((Parallelized.tile_rows 0 0 ⟨fun x => (x : Int)⟩ ⟨fun x => (x : Int)⟩ 1
            (fun _ => 65) (fun _ => 65) ⟨fun _ => 0⟩ ⟨fun _ => 0⟩ (1 - 1)).prev_row.get (1 - 1)
          + 1)) ∧
    (Parallelized.tile_rows 0 0 ⟨fun x => (x : Int)⟩ ⟨fun x => (x : Int)⟩ 1
      (fun _ => 65) (fun _ => 65) ⟨fun _ => 0⟩ ⟨fun _ => 0⟩ 1).prev_row.get 1 =
      min (min
        ((Parallelized.tile_rows 0 0 ⟨fun x => (x : Int)⟩ ⟨fun x => (x : Int)⟩ 1
          (fun _ => 65) (fun _ => 65) ⟨fun _ => 0⟩ ⟨fun _ => 0⟩ (1 - 1)).prev_row.get 1 + 1)
        ((Parallelized.tile_rows 0 0 ⟨fun x => (x : Int)⟩ ⟨fun x => (x : Int)⟩ 1
          (fun _ => 65) (fun _ => 65) ⟨fun _ => 0⟩ ⟨fun _ => 0⟩ 1).prev_row.get (1 - 1) + 1))
      ((Parallelized.tile_rows 0 0 ⟨fun x => (x : Int)⟩ ⟨fun x => (x : Int)⟩ 1
          (fun _ => 65) (fun _ => 65) ⟨fun _ => 0⟩ ⟨fun _ => 0⟩ (1 - 1)).prev_row.get (1 - 1)
        + if (fun _ => 65 : Nat → Byte) (0 + 1 - 1) = (fun _ => 65 : Nat → Byte) (0 + 1 - 1)
          then 0 else 1) :=
  have hpre : TilePre (fun _ => 65) (fun _ => 65) 0 0 1 1 ⟨fun x => (x : Int)⟩
      ⟨fun x => (x : Int)⟩ :=
    ⟨fun _ _ _ => rfl,
      fun i h1 h2 => by
        obtain rfl : i = 1 := by omega
        rfl,
      fun h _ => absurd rfl h⟩
  ⟨⟨by decide, by decide, by decide⟩, hpre,
    (scalar_kernel_recurrence (fun _ => 65) (fun _ => 65) 0 0 1 1
      ⟨fun x => (x : Int)⟩ ⟨fun _ => 0⟩ ⟨fun x => (x : Int)⟩ ⟨fun _ => 0⟩ ⟨fun _ => 0⟩
      1 1 (by decide) (by decide) (by decide)).1,
    ((scalar_kernel_recurrence (fun _ => 65) (fun _ => 65) 0 0 1 1
      ⟨fun x => (x : Int)⟩ ⟨fun _ => 0⟩ ⟨fun x => (x : Int)⟩ ⟨fun _ => 0⟩ ⟨fun _ => 0⟩
      1 1 (by decide) (by decide) (by decide)).2.2.2.2 hpre (by decide)).1⟩

/-- Two buffers with the same entries are equal. -/
theorem Buf.ext_get (a b : Buf) (h : ∀ x, a.get x = b.get x) : a = b := by
  cases a
  cases b
  congr
  exact funext h

/-- Claim C16, evaluated on the code.  A tile of one cell at offsets `512`, `512` whose two
symbols are equal, with `10` at the corner of the row boundary and `0` above and to the left
of the cell: the scalar kernel returns `10` and writes `10` into both boundaries, the SIMD
kernel returns `1` and writes `1`. -/
theorem simd_kernel_differs_from_scalar :
    (Parallelized.process_tile 512 512 ⟨fun x => if x = 512 then 10 else 0⟩ ⟨fun _ => 0⟩
      ⟨fun _ => 0⟩ 1 1 (fun _ => 65) (fun _ => 65) ⟨fun _ => 0⟩ ⟨fun _ => 0⟩).1.result = 10 ∧
    (Avx2.process_tile 512 512 ⟨fun x => if x = 512 then 10 else 0⟩ ⟨fun _ => 0⟩
      ⟨fun _ => 0⟩ 1 1 (fun _ => 65) (fun _ => 65) ⟨fun _ => 0⟩ 1024).1.result = 1 ∧
    (Parallelized.process_tile 512 512 ⟨fun x => if x = 512 then 10 else 0⟩ ⟨fun _ => 0⟩
      ⟨fun _ => 0⟩ 1 1 (fun _ => 65) (fun _ => 65) ⟨fun _ => 0⟩
      ⟨fun _ => 0⟩).1.global_rows_write.get 513 = 10 ∧
    (Avx2.process_tile 512 512 ⟨fun x => if x = 512 then 10 else 0⟩ ⟨fun _ => 0⟩
      ⟨fun _ => 0⟩ 1 1 (fun _ => 65) (fun _ => 65) ⟨fun _ => 0⟩
      1024).1.global_rows_write.get 513 = 1 ∧
    (Parallelized.process_tile 512 512 ⟨fun x => if x = 512 then 10 else 0⟩ ⟨fun _ => 0⟩
      ⟨fun _ => 0⟩ 1 1 (fun _ => 65) (fun _ => 65) ⟨fun _ => 0⟩
      ⟨fun _ => 0⟩).1.global_cols.get 513 = 10 ∧
    (Avx2.process_tile 512 512 ⟨fun x => if x = 512 then 10 else 0⟩ ⟨fun _ => 0⟩
      ⟨fun _ => 0⟩ 1 1 (fun _ => 65) (fun _ => 65) ⟨fun _ => 0⟩
      1024).1.global_cols.get 513 = 1 := by
  refine ⟨?_, ?_, ?_, ?_, ?_, ?_⟩ <;> decide

/-- Claim C16, amended.  For every tile with `1 ≤ height`, offsets within the sequences
(`row_offset + height` and `col_offset + width` at most `total_len`), all sequences and every
content of the row-read and column boundary buffers that holds the values of the Levenshtein
table on the upper and left edge of the tile, `process_tile` of `avx2_edit_distance.c` and
`process_tile` of `parallelized_edit_distance.c` return the same value and leave the row
write buffer and the column buffer with identical contents. -/
theorem simd_kernel_agrees_on_table (str1 str2 : Nat → Byte) (ro co h w total_len : Nat)
    (rr rw cols prev cur buffer : Buf) (hpre : TilePre str1 str2 ro co h w rr cols)
    (hh1 : 1 ≤ h) (hh : ro + h ≤ total_len) (hw : co + w ≤ total_len) :
    (Avx2.process_tile ro co rr rw cols h w str1 str2 buffer total_len).1.result =
      (Parallelized.process_tile ro co rr rw cols h w str1 str2 prev cur).1.result ∧
    (Avx2.process_tile ro co rr rw cols h w str1 str2 buffer total_len).1.global_rows_write =
      (Parallelized.process_tile ro co rr rw cols h w str1 str2 prev cur).1.global_rows_write ∧
    (Avx2.process_tile ro co rr rw cols h w str1 str2 buffer total_len).1.global_cols =
      (Parallelized.process_tile ro co rr rw cols h w str1 str2 prev cur).1.global_cols := by
  have ha := Avx2.avx2_process_tile_post str1 str2 ro co h w total_len rr rw cols buffer hpre
    hh1 hh hw
  have hp := Parallelized.par_process_tile_post str1 str2 ro co h w rr rw cols prev cur hpre
  refine ⟨?_, ?_, ?_⟩
  · rw [ha.result, hp.result]
  · exact Buf.ext_get _ _ (fun x => by rw [ha.rows x, hp.rows x])
  · exact Buf.ext_get _ _ (fun x => by rw [ha.cols x, hp.cols x])

theorem simd_kernel_agrees_on_table_witness :
    (TilePre (fun _ => 65) (fun _ => 65) 0 0 1 1 ⟨fun x => (x : Int)⟩ ⟨fun x => (x : Int)⟩ ∧
      1 ≤ 1 ∧ 0 + 1 ≤ 1 ∧ 0 + 1 ≤ 1) ∧
    (Avx2.process_tile 0 0 ⟨fun x => (x : Int)⟩ ⟨fun _ => 0⟩ ⟨fun x => (x : Int)⟩ 1 1
      (fun _ => 65) (fun _ => 65) ⟨fun _ => 0⟩ 1).1.result =
    (Parallelized.process_tile 0 0 ⟨fun x => (x : Int)⟩ ⟨fun _ => 0⟩ ⟨fun x => (x : Int)⟩ 1 1
      (fun _ => 65) (fun _ => 65) ⟨fun _ => 0⟩ ⟨fun _ => 0⟩).1.result :=
  have hpre : TilePre (fun _ => 65) (fun _ => 65) 0 0 1 1 ⟨fun x => (x : Int)⟩
      ⟨fun x => (x : Int)⟩ :=
    ⟨fun _ _ _ => rfl,
      fun i h1 h2 => by
        obtain rfl : i = 1 := by omega
        rfl,
      fun h _ => absurd rfl h⟩
  ⟨⟨hpre, by decide, by decide, by decide⟩,
    (simd_kernel_agrees_on_table (fun _ => 65) (fun _ => 65) 0 0 1 1 1
      ⟨fun x => (x : Int)⟩ ⟨fun _ => 0⟩ ⟨fun x => (x : Int)⟩ ⟨fun _ => 0⟩ ⟨fun _ => 0⟩
      ⟨fun _ => 0⟩ hpre (by decide) (by decide) (by decide)).1⟩

/-- The boundary entries a tile with cells `cells` leaves behind. -/
theorem TileCellsPost.edges {cells : Nat → Nat → Int} {ro co h w : Nat} {rw cols : Buf}
    {out : TileOut} (hpost : TileCellsPost cells ro co h w rw cols out) :
    (∀ i, 1 ≤ i → i ≤ h → out.global_cols.get (ro + i) = cells i w) ∧
    (∀ j, 1 ≤ j → j ≤ w → out.global_rows_write.get (co + j) = cells h j) ∧
    out.result = cells h w := by
  refine ⟨?_, ?_, hpost.result⟩
  · intro i h1 h2
    rw [hpost.cols, if_pos (by omega), Nat.add_sub_cancel_left]
  · intro j h1 h2
    rw [hpost.rows, if_pos (by omega), Nat.add_sub_cancel_left]

/-- The entries of the boundary buffers a tile with cells `cells` does not change. -/
theorem TileCellsPost.frame {cells : Nat → Nat → Int} {ro co h w : Nat} {rw cols : Buf}
    {out : TileOut} (hpost : TileCellsPost cells ro co h w rw cols out) :
    (∀ x, ¬ (co < x ∧ x ≤ co + w) → out.global_rows_write.get x = rw.get x) ∧
    (∀ x, ¬ (ro < x ∧ x ≤ ro + h) → out.global_cols.get x = cols.get x) ∧
    out.global_rows_write.get co = rw.get co := by
  refine ⟨?_, ?_, ?_⟩
  · intro x hx
    rw [hpost.rows, if_neg hx]
  · intro x hx
    rw [hpost.cols, if_neg hx]
  · rw [hpost.rows, if_neg (by omega)]

/-- The entries of the boundary buffers the SIMD kernel does not change, for every tile. -/
theorem Avx2.avx2_process_tile_unchanged (str1 str2 : Nat → Byte) (ro co h w total_len : Nat)
    (rr rw cols buffer : Buf) :
    (∀ x, ¬ (co < x ∧ x ≤ co + w) →
      (Avx2.process_tile ro co rr rw cols h w str1 str2 buffer total_len).1.global_rows_write.get
        x = rw.get x) ∧
    (∀ x, ¬ (ro < x ∧ x ≤ ro + h) →
      (Avx2.process_tile ro co rr rw cols h w str1 str2 buffer total_len).1.global_cols.get x =
        cols.get x) := by
  unfold Avx2.process_tile
  refine ⟨?_, ?_⟩
  · intro x hx
    simp only
    rw [writeback_get, if_neg hx]
  · intro x hx
    simp only
    rw [writeback_get, if_neg hx]

/-- Claim C17.  Boundary propagation of a tile, whatever the boundary buffers hold: after
the scalar `process_tile` (of `parallelized_edit_distance.c` and of `tiled_edit_distance.c`)
and after the SIMD `process_tile`, for a tile of height at least one, the column buffer at
`row_offset + i` holds the tile's cell `(i, width)` for `1 ≤ i ≤ height`, the row write
buffer at `col_offset + j` holds the cell `(height, j)` for `1 ≤ j ≤ width`, and the value
returned is the cell `(height, width)`.  The cells are those the kernel computes: row `i` of
the scalar kernel's loop, and in the SIMD kernel the scratch cell `idx(i + j, i)`, so that
the value returned is the scratch cell at diagonal `height + width`, row `height`. -/
theorem tile_boundary_propagation (str1 str2 : Nat → Byte) (ro co h w total_len : Nat)
    (rr rw cols prev cur buffer : Buf) (hh1 : 1 ≤ h) :
    ((∀ i, 1 ≤ i → i ≤ h →
        (Parallelized.process_tile ro co rr rw cols h w str1 str2 prev cur).1.global_cols.get
          (ro + i) = scalarTile str1 str2 ro co rr cols i w) ∧
      (∀ j, 1 ≤ j → j ≤ w →
        (Parallelized.process_tile ro co rr rw cols h w str1 str2 prev
          cur).1.global_rows_write.get (co + j) = scalarTile str1 str2 ro co rr cols h j) ∧
      (Parallelized.process_tile ro co rr rw cols h w str1 str2 prev cur).1.result =
        scalarTile str1 str2 ro co rr cols h w) ∧
    ((∀ i, 1 ≤ i → i ≤ h →
        (Tiled.process_tile true true prev cur ro co rr rw cols h w str1 str2).global_cols.get
          (ro + i) = scalarTile str1 str2 ro co rr cols i w) ∧
      (∀ j, 1 ≤ j → j ≤ w →
        (Tiled.process_tile true true prev cur ro co rr rw cols h w str1
          str2).global_rows_write.get (co + j) = scalarTile str1 str2 ro co rr cols h j) ∧
      (Tiled.process_tile true true prev cur ro co rr rw cols h w str1 str2).result =
        scalarTile str1 str2 ro co rr cols h w) ∧
    ((∀ i, 1 ≤ i → i ≤ h →
        (Avx2.process_tile ro co rr rw cols h w str1 str2 buffer total_len).1.global_cols.get
          (ro + i) = simdTile str1 str2 ro co rr cols total_len i w) ∧
      (∀ j, 1 ≤ j → j ≤ w →
        (Avx2.process_tile ro co rr rw cols h w str1 str2 buffer
          total_len).1.global_rows_write.get (co + j) =
            simdTile str1 str2 ro co rr cols total_len h j) ∧
      (Avx2.process_tile ro co rr rw cols h w str1 str2 buffer total_len).1.result =
        simdTile str1 str2 ro co rr cols total_len h w) ∧
    (∀ i j, j ≤ w →
      (Parallelized.tile_rows ro co rr cols w str1 str2 prev cur i).prev_row.get j =
        scalarTile str1 str2 ro co rr cols i j ∧
      (Tiled.tile_rows ro co rr cols w str1 str2 prev cur i).prev_row.get j =
        scalarTile str1 str2 ro co rr cols i j) ∧
    (∀ i j, i ≤ h → j ≤ w →
      (Avx2.process_tile ro co rr rw cols h w str1 str2 buffer total_len).2.get
        (Avx2.idx h (i + j) i) = simdTile str1 str2 ro co rr cols total_len i j) ∧
    (Avx2.process_tile ro co rr rw cols h w str1 str2 buffer total_len).1.result =
      (Avx2.process_tile ro co rr rw cols h w str1 str2 buffer total_len).2.get
        (Avx2.idx h (h + w) h) :=
  ⟨(Parallelized.par_process_tile_cells str1 str2 ro co h w rr rw cols prev cur).edges,
    (Tiled.tiled_process_tile_cells str1 str2 ro co h w rr rw cols prev cur).edges,
    (Avx2.avx2_process_tile_cells str1 str2 ro co h w total_len rr rw cols buffer hh1).edges,
    fun i j hj => ⟨Parallelized.par_tile_rows_cells str1 str2 ro co w rr cols prev cur i j hj,
      Tiled.tiled_tile_rows_cells str1 str2 ro co w rr cols prev cur i j hj⟩,
    fun i j hi hj =>
      Avx2.avx2_process_tile_buffer str1 str2 ro co h w total_len rr rw cols buffer hh1 i j hi hj,
    rfl⟩

theorem tile_boundary_propagation_witness :
    1 ≤ 1 ∧
    (Avx2.process_tile 512 512 ⟨fun x => if x = 512 then 10 else 0⟩ ⟨fun _ => 0⟩
      ⟨fun _ => 0⟩ 1 1 (fun _ => 65) (fun _ => 65) ⟨fun _ => 0⟩ 1024).1.result =
    simdTile (fun _ => 65) (fun _ => 65) 512 512 ⟨fun x => if x = 512 then 10 else 0⟩
      ⟨fun _ => 0⟩ 1024 1 1 :=
  ⟨by decide,
    (tile_boundary_propagation (fun _ => 65) (fun _ => 65) 512 512 1 1 1024
      ⟨fun x => if x = 512 then 10 else 0⟩ ⟨fun _ => 0⟩ ⟨fun _ => 0⟩ ⟨fun _ => 0⟩ ⟨fun _ => 0⟩
      ⟨fun _ => 0⟩ (by decide)).2.2.1.2.2⟩

/-- Claim C18.  Frame of a tile, whatever the boundary buffers hold: the scalar
`process_tile` (of `parallelized_edit_distance.c` and of `tiled_edit_distance.c`) and the
SIMD `process_tile` change the row write buffer only at the indices
`col_offset + 1 .. col_offset + width` and the column buffer only at
`row_offset + 1 .. row_offset + height`; the row write buffer at `col_offset` is unchanged;
and a step of the tile loop of a worker leaves every row buffer other than the one it
writes, `r % 3`, as it was, among them the one it reads, `(r - 1 + 3) % 3`. -/
theorem tile_frame (str1 str2 : Nat → Byte) (ro co h w total_len : Nat)
    (rr rw cols prev cur buffer : Buf) (data : ThreadArguments) (r : Nat)
    (sa : Avx2.WorkerState) (sp : Parallelized.WorkerState) :
    ((∀ x, ¬ (co < x ∧ x ≤ co + w) →
        (Parallelized.process_tile ro co rr rw cols h w str1 str2 prev
          cur).1.global_rows_write.get x = rw.get x) ∧
      (∀ x, ¬ (ro < x ∧ x ≤ ro + h) →
        (Parallelized.process_tile ro co rr rw cols h w str1 str2 prev cur).1.global_cols.get x =
          cols.get x) ∧
      (Parallelized.process_tile ro co rr rw cols h w str1 str2 prev
        cur).1.global_rows_write.get co = rw.get co) ∧
    ((∀ x, ¬ (co < x ∧ x ≤ co + w) →
        (Tiled.process_tile true true prev cur ro co rr rw cols h w str1
          str2).global_rows_write.get x = rw.get x) ∧
      (∀ x, ¬ (ro < x ∧ x ≤ ro + h) →
        (Tiled.process_tile true true prev cur ro co rr rw cols h w str1 str2).global_cols.get x =
          cols.get x) ∧
      (Tiled.process_tile true true prev cur ro co rr rw cols h w str1
        str2).global_rows_write.get co = rw.get co) ∧
    ((∀ x, ¬ (co < x ∧ x ≤ co + w) →
        (Avx2.process_tile ro co rr rw cols h w str1 str2 buffer
          total_len).1.global_rows_write.get x = rw.get x) ∧
      (∀ x, ¬ (ro < x ∧ x ≤ ro + h) →
        (Avx2.process_tile ro co rr rw cols h w str1 str2 buffer total_len).1.global_cols.get x =
          cols.get x) ∧
      (Avx2.process_tile ro co rr rw cols h w str1 str2 buffer
        total_len).1.global_rows_write.get co = rw.get co) ∧
    (∀ k, k ≠ r % 3 →
      (Avx2.tile_step data r sa).shared.global_rows k = sa.shared.global_rows k ∧
      (Parallelized.tile_step data r sp).shared.global_rows k = sp.shared.global_rows k) ∧
    (Avx2.tile_step data r sa).shared.global_rows (((r : Int) - 1 + 3) % 3).toNat =
      sa.shared.global_rows (((r : Int) - 1 + 3) % 3).toNat ∧
    (Parallelized.tile_step data r sp).shared.global_rows (((r : Int) - 1 + 3) % 3).toNat =
      sp.shared.global_rows (((r : Int) - 1 + 3) % 3).toNat := by
  have hstep : ∀ k, k ≠ r % 3 →
      (Avx2.tile_step data r sa).shared.global_rows k = sa.shared.global_rows k ∧
      (Parallelized.tile_step data r sp).shared.global_rows k = sp.shared.global_rows k := by
    intro k hk
    unfold Avx2.tile_step Parallelized.tile_step
    constructor
    · split_ifs
      · exact Function.update_noteq hk _ _
      · rfl
    · split_ifs
      · exact Function.update_noteq hk _ _
      · rfl
  have hfa := Avx2.avx2_process_tile_unchanged str1 str2 ro co h w total_len rr rw cols buffer
  exact ⟨(Parallelized.par_process_tile_cells str1 str2 ro co h w rr rw cols prev cur).frame,
    (Tiled.tiled_process_tile_cells str1 str2 ro co h w rr rw cols prev cur).frame,
    ⟨hfa.1, hfa.2, hfa.1 co (by omega)⟩, hstep,
    (hstep _ (read_idx_ne_write_idx r)).1, (hstep _ (read_idx_ne_write_idx r)).2⟩

/-! ## The geometry of the tiles -/

/-- The extent of a block of the grid: the block size, cut at the end of the sequences. -/
theorem tileExtent_spec (n r : Nat) (hr : r < (n + BLOCK_SIZE - 1) / BLOCK_SIZE) :
    (tileExtent n (r * BLOCK_SIZE) : Int) = min 512 ((n : Int) - 512 * r) ∧
    1 ≤ tileExtent n (r * BLOCK_SIZE) ∧ tileExtent n (r * BLOCK_SIZE) ≤ 512 ∧
    r * BLOCK_SIZE + tileExtent n (r * BLOCK_SIZE) ≤ n := by
  unfold tileExtent
  simp only [BLOCK_SIZE] at *
  split_ifs <;> omega

/-- Every position `1 .. n` lies in exactly one block. -/
theorem block_of_position (n i : Nat) (h1 : 1 ≤ i) (h2 : i ≤ n) :
    (i - 1) / BLOCK_SIZE < (n + BLOCK_SIZE - 1) / BLOCK_SIZE ∧
    (i - 1) / BLOCK_SIZE * BLOCK_SIZE < i ∧
    i ≤ (i - 1) / BLOCK_SIZE * BLOCK_SIZE + tileExtent n ((i - 1) / BLOCK_SIZE * BLOCK_SIZE) ∧
    ∀ r, r * BLOCK_SIZE < i → i ≤ r * BLOCK_SIZE + tileExtent n (r * BLOCK_SIZE) →
      r = (i - 1) / BLOCK_SIZE := by
  unfold tileExtent
  simp only [BLOCK_SIZE] at *
  refine ⟨by omega, by omega, by split_ifs <;> omega, ?_⟩
  intro r
  split_ifs <;> omega

/-- Claim C19.  For every `n ≥ 1`, with `(n + 511) / 512` blocks per side: every block `r` of
the grid has the extent `min 512 (n - 512 * r)`, which lies in `1 .. 512` and ends within the
sequences, and this extent is the height (for the block row) and the width (for the block
column) with which the tile loops of `avx2_edit_distance.c`, `parallelized_edit_distance.c`
and `tiled_edit_distance.c` call `process_tile`; the cell ranges
`r * 512 + 1 .. r * 512 + height` by `c * 512 + 1 .. c * 512 + width` of the tiles partition
the grid: every cell `(i, j)` with `1 ≤ i, j ≤ n` lies in exactly one tile. -/
theorem tile_geometry (n : Nat) (hn : 1 ≤ n) :
    (∀ r, r < (n + BLOCK_SIZE - 1) / BLOCK_SIZE →
      (tileExtent n (r * BLOCK_SIZE) : Int) = min 512 ((n : Int) - 512 * r) ∧
      1 ≤ tileExtent n (r * BLOCK_SIZE) ∧ tileExtent n (r * BLOCK_SIZE) ≤ 512 ∧
      r * BLOCK_SIZE + tileExtent n (r * BLOCK_SIZE) ≤ n) ∧
    (∀ i j, 1 ≤ i → i ≤ n → 1 ≤ j → j ≤ n →
      ∃! p : Nat × Nat, p.1 < (n + BLOCK_SIZE - 1) / BLOCK_SIZE ∧
        p.2 < (n + BLOCK_SIZE - 1) / BLOCK_SIZE ∧
        (p.1 * BLOCK_SIZE < i ∧ i ≤ p.1 * BLOCK_SIZE + tileExtent n (p.1 * BLOCK_SIZE)) ∧
        (p.2 * BLOCK_SIZE < j ∧ j ≤ p.2 * BLOCK_SIZE + tileExtent n (p.2 * BLOCK_SIZE))) ∧
    (∀ (data : ThreadArguments) (r : Nat) (s : Avx2.WorkerState), data.len = n →
      s.tile_number % data.num_threads = data.thread_id →
      (Avx2.tile_step data r s).shared.global_cols =
        (Avx2.process_tile (r * BLOCK_SIZE) ((data.current_wave - r) * BLOCK_SIZE)
          (s.shared.global_rows (((r : Int) - 1 + 3) % 3).toNat) (s.shared.global_rows (r % 3))
          s.shared.global_cols (tileExtent n (r * BLOCK_SIZE))
          (tileExtent n ((data.current_wave - r) * BLOCK_SIZE)) data.str1 data.str2
          s.thread_buffer n).1.global_cols) ∧
    (∀ (data : ThreadArguments) (r : Nat) (s : Parallelized.WorkerState), data.len = n →
      s.tile_number % data.num_threads = data.thread_id →
      (Parallelized.tile_step data r s).shared.global_cols =
        (Parallelized.process_tile (r * BLOCK_SIZE) ((data.current_wave - r) * BLOCK_SIZE)
          (s.shared.global_rows (((r : Int) - 1 + 3) % 3).toNat) (s.shared.global_rows (r % 3))
          s.shared.global_cols (tileExtent n (r * BLOCK_SIZE))
          (tileExtent n ((data.current_wave - r) * BLOCK_SIZE)) data.str1 data.str2
          s.thread_prev_row s.thread_cur_row).1.global_cols) ∧
    (∀ (env : Env) (str1 str2 : Nat → Byte) (i j : Nat) (s : Tiled.State)
        (s1 : Tiled.State),
      Tiled.tile_step env str1 str2 n i j s = .ok s1 →
      s1.col_bounds =
        (Tiled.process_tile (env.scratch_ok 0 (i / BLOCK_SIZE) (j / BLOCK_SIZE))
          (env.scratch_ok 1 (i / BLOCK_SIZE) (j / BLOCK_SIZE))
          (env.scratch_fresh 0 (i / BLOCK_SIZE) (j / BLOCK_SIZE))
          (env.scratch_fresh 1 (i / BLOCK_SIZE) (j / BLOCK_SIZE)) i j
          (if (i / BLOCK_SIZE) % 2 = 0 then s.row_bounds1 else s.row_bounds2)
          (if (i / BLOCK_SIZE) % 2 = 0 then s.row_bounds2 else s.row_bounds1)
          s.col_bounds (tileExtent n i) (tileExtent n j) str1 str2).global_cols) := by
  refine ⟨fun r hr => tileExtent_spec n r hr, ?_, ?_, ?_, ?_⟩
  · intro i j hi1 hi2 hj1 hj2
    have bi := block_of_position n i hi1 hi2
    have bj := block_of_position n j hj1 hj2
    refine ⟨((i - 1) / BLOCK_SIZE, (j - 1) / BLOCK_SIZE),
      ⟨bi.1, bj.1, ⟨bi.2.1, bi.2.2.1⟩, ⟨bj.2.1, bj.2.2.1⟩⟩, ?_⟩
    rintro ⟨r, c⟩ ⟨_, _, ⟨a1, a2⟩, ⟨b1, b2⟩⟩
    rw [Prod.mk.injEq]
    exact ⟨bi.2.2.2 r a1 a2, bj.2.2.2 c b1 b2⟩
  · intro data r s hlen hmine
    subst hlen
    unfold Avx2.tile_step
    rw [if_pos hmine]
    rfl
  · intro data r s hlen hmine
    subst hlen
    unfold Parallelized.tile_step
    rw [if_pos hmine]
    rfl
  · intro env str1 str2 i j s s1 hstep
    have e : ∀ x, (if x + BLOCK_SIZE > n then n - x else BLOCK_SIZE) = tileExtent n x :=
      fun _ => rfl
    unfold Tiled.tile_step at hstep
    simp only [e] at hstep
    split_ifs at hstep with hpar hres hres
    · injection hstep with hstep
      subst hstep
      rw [if_pos hpar, if_pos hpar]
    · injection hstep with hstep
      subst hstep
      rw [if_neg hpar, if_neg hpar]

theorem tile_geometry_witness :
    1 ≤ 600 ∧
    ((tileExtent 600 (1 * BLOCK_SIZE) : Int) = min 512 (((600 : Nat) : Int) - 512 * (1 : Nat)) ∧
      1 ≤ tileExtent 600 (1 * BLOCK_SIZE) ∧ tileExtent 600 (1 * BLOCK_SIZE) ≤ 512 ∧
      1 * BLOCK_SIZE + tileExtent 600 (1 * BLOCK_SIZE) ≤ 600) :=
  ⟨by decide, (tile_geometry 600 (by decide)).1 1 (by decide)⟩

/-! ## The footprints of the tiles -/

/-- The write set of a tile of a wave meets neither the read set nor the write set of
another tile of the wave. -/
theorem footprints_disjoint (n w r c r1 c1 : Nat) (h : r + c = w) (h1 : r1 + c1 = w)
    (hne : r ≠ r1) (l : Loc) (hl : tileWrites n r c l) :
    ¬ tileReads n r1 c1 l ∧ ¬ tileWrites n r1 c1 l := by
  cases l with
  | row k x =>
    simp only [tileWrites, tileReads, tileExtent, BLOCK_SIZE] at *
    constructor
    · rintro ⟨a1, a2, a3⟩
      split_ifs at hl a3 <;> omega
    · rintro ⟨a1, a2, a3⟩
      split_ifs at hl a3 <;> omega
  | col x =>
    simp only [tileWrites, tileReads, tileExtent, BLOCK_SIZE] at *
    constructor
    · rintro ⟨a2, a3⟩
      split_ifs at hl a3 <;> omega
    · rintro ⟨a2, a3⟩
      split_ifs at hl a3 <;> omega

/-- The cells of a tile depend only on the boundary values along its two edges. -/
theorem tileCells_congr (f : Nat → Nat → Int → Int → Int → Int)
    (top top1 left left1 : Nat → Int) (h w : Nat)
    (htop : ∀ j, j ≤ w → top j = top1 j) (hleft : ∀ i, 1 ≤ i → i ≤ h → left i = left1 i) :
    ∀ i, i ≤ h → ∀ j, j ≤ w → tileCells f top left i j = tileCells f top1 left1 i j := by
  intro i
  induction i with
  | zero =>
    intro _ j hj
    exact htop j hj
  | succ i ih =>
    intro hi j
    induction j with
    | zero =>
      intro _
      exact hleft (i + 1) (by omega) hi
    | succ j ihj =>
      intro hj
      show f i j (tileCells f top left i (j + 1)) (tileCells f top left (i + 1) j)
          (tileCells f top left i j) =
        f i j (tileCells f top1 left1 i (j + 1)) (tileCells f top1 left1 (i + 1) j)
          (tileCells f top1 left1 i j)
      rw [ih (by omega) (j + 1) hj, ih (by omega) j (by omega), ihj (by omega)]

/-- The cells of the SIMD kernel depend only on the entries of the boundary buffers it
reads: the row boundary at `col_offset .. col_offset + width` and the column boundary at
`row_offset + 1 .. row_offset + height`. -/
theorem simdTile_congr (str1 str2 : Nat → Byte) (ro co h w n : Nat) (rr rr1 cols cols1 : Buf)
    (hrr : ∀ x, co ≤ x → x ≤ co + w → rr.get x = rr1.get x)
    (hcols : ∀ x, ro < x → x ≤ ro + h → cols.get x = cols1.get x) (i j : Nat) (hi : i ≤ h)
    (hj : j ≤ w) :
    simdTile str1 str2 ro co rr cols n i j = simdTile str1 str2 ro co rr1 cols1 n i j := by
  unfold simdTile
  apply tileCells_congr _ _ _ _ _ h w _ _ i hi j hj
  · intro j hj
    unfold tileCorner
    rw [hrr co (le_refl _) (by omega), hrr (co + j) (by omega) (by omega)]
  · intro i h1 h2
    rw [hcols (ro + i) (by omega) (by omega)]

/-- A step of the tile loop of a worker of `avx2_edit_distance.c` that processes the tile
`(r, c)` changes the boundary state only at the locations of the tile's write set. -/
theorem Avx2.avx2_tile_step_writes (data : ThreadArguments) (r : Nat) (s : Avx2.WorkerState)
    (l : Loc) (hl : ¬ tileWrites data.len r (data.current_wave - r) l) :
    (Avx2.tile_step data r s).shared.read l = s.shared.read l := by
  unfold Avx2.tile_step
  simp only
  by_cases hmine : s.tile_number % data.num_threads = data.thread_id
  · rw [if_pos hmine]
    have hf := Avx2.avx2_process_tile_unchanged data.str1 data.str2 (r * BLOCK_SIZE)
      ((data.current_wave - r) * BLOCK_SIZE) (tileExtent data.len (r * BLOCK_SIZE))
      (tileExtent data.len ((data.current_wave - r) * BLOCK_SIZE)) data.len
      (s.shared.global_rows (((r : Int) - 1 + 3) % 3).toNat) (s.shared.global_rows (r % 3))
      s.shared.global_cols s.thread_buffer
    cases l with
    | row k x =>
      simp only [Shared.read]
      by_cases hk : k = r % 3
      · subst hk
        rw [Function.update_same]
        exact hf.1 x (fun hx => hl ⟨rfl, hx.1, hx.2⟩)
      · rw [Function.update_noteq hk]
    | col x =>
      simp only [Shared.read]
      exact hf.2 x (fun hx => hl ⟨hx.1, hx.2⟩)
  · rw [if_neg hmine]

/-- What a step of the tile loop of a worker of `avx2_edit_distance.c` writes for the tile
`(r, c)` depends on the boundary state only through the locations of the tile's read set. -/
theorem Avx2.avx2_tile_step_reads (data : ThreadArguments) (r : Nat)
    (s s1 : Avx2.WorkerState) (hr : r * BLOCK_SIZE < data.len)
    (hmine : s.tile_number % data.num_threads = data.thread_id)
    (hmine1 : s1.tile_number % data.num_threads = data.thread_id)
    (hread : ∀ l, tileReads data.len r (data.current_wave - r) l →
      s.shared.read l = s1.shared.read l)
    (l : Loc) (hl : tileWrites data.len r (data.current_wave - r) l) :
    (Avx2.tile_step data r s).shared.read l = (Avx2.tile_step data r s1).shared.read l := by
  have hh1 : 1 ≤ tileExtent data.len (r * BLOCK_SIZE) := by
    unfold tileExtent
    simp only [BLOCK_SIZE] at *
    split_ifs <;> omega
  have hp := fun (t : Avx2.WorkerState) =>
    Avx2.avx2_process_tile_cells data.str1 data.str2 (r * BLOCK_SIZE)
      ((data.current_wave - r) * BLOCK_SIZE) (tileExtent data.len (r * BLOCK_SIZE))
      (tileExtent data.len ((data.current_wave - r) * BLOCK_SIZE)) data.len
      (t.shared.global_rows (((r : Int) - 1 + 3) % 3).toNat) (t.shared.global_rows (r % 3))
      t.shared.global_cols t.thread_buffer hh1
  have hc := simdTile_congr data.str1 data.str2 (r * BLOCK_SIZE)
    ((data.current_wave - r) * BLOCK_SIZE) (tileExtent data.len (r * BLOCK_SIZE))
    (tileExtent data.len ((data.current_wave - r) * BLOCK_SIZE)) data.len
    (s.shared.global_rows (((r : Int) - 1 + 3) % 3).toNat)
    (s1.shared.global_rows (((r : Int) - 1 + 3) % 3).toNat)
    s.shared.global_cols s1.shared.global_cols
    (fun x h1 h2 => hread (.row _ x) ⟨rfl, h1, h2⟩)
    (fun x h1 h2 => hread (.col x) ⟨h1, h2⟩)
  unfold Avx2.tile_step
  simp only
  rw [if_pos hmine, if_pos hmine1]
  cases l with
  | row k x =>
    obtain ⟨hk, h1, h2⟩ := hl
    subst hk
    simp only [Shared.read]
    rw [Function.update_same, Function.update_same]
    have e := (hp s).rows x
    have e1 := (hp s1).rows x
    rw [if_pos ⟨h1, h2⟩] at e e1
    exact e.trans ((hc _ _ (le_refl _) (by omega)).trans e1.symm)
  | col x =>
    obtain ⟨h1, h2⟩ := hl
    simp only [Shared.read]
    have e := (hp s).cols x
    have e1 := (hp s1).cols x
    rw [if_pos ⟨h1, h2⟩] at e e1
    exact e.trans ((hc _ _ (by omega) (le_refl _)).trans e1.symm)

/-- Claim C14.  For every `n`, every wave `w` and any two distinct tiles `(r, c)` and
`(r1, c1)` on wave `w`: the locations written by one - the row buffer `r % 3` at
`col_offset + 1 .. col_offset + width` and the column buffer at
`row_offset + 1 .. row_offset + height` - are disjoint from the locations read or written by
the other - the row buffer `(r1 - 1 + 3) % 3` at `col_offset1 .. col_offset1 + width1`, the
row buffer `r1 % 3` at `col_offset1 + 1 .. col_offset1 + width1` and the column buffer at
`row_offset1 + 1 .. row_offset1 + height1`.  These sets are the footprints of the tile step
of a worker of `avx2_edit_distance.c`: it changes no location outside the write set, and
what it writes depends on the boundary state through the read set only. -/
theorem footprint_disjointness (n w r c r1 c1 : Nat) (h : r + c = w) (h1 : r1 + c1 = w)
    (hne : (r, c) ≠ (r1, c1)) :
    (∀ l, tileWrites n r c l → ¬ tileReads n r1 c1 l ∧ ¬ tileWrites n r1 c1 l) ∧
    (∀ (data : ThreadArguments) (s : Avx2.WorkerState) (l : Loc), data.len = n →
      data.current_wave = w → ¬ tileWrites n r c l →
      (Avx2.tile_step data r s).shared.read l = s.shared.read l) ∧
    (∀ (data : ThreadArguments) (s s1 : Avx2.WorkerState), data.len = n →
      data.current_wave = w → r * BLOCK_SIZE < n →
      s.tile_number % data.num_threads = data.thread_id →
      s1.tile_number % data.num_threads = data.thread_id →
      (∀ l, tileReads n r c l → s.shared.read l = s1.shared.read l) →
      ∀ l, tileWrites n r c l →
        (Avx2.tile_step data r s).shared.read l = (Avx2.tile_step data r s1).shared.read l) := by
  have hc : w - r = c := by omega
  have hr : r ≠ r1 := by
    intro e
    apply hne
    rw [Prod.mk.injEq]
    omega
  refine ⟨fun l hl => footprints_disjoint n w r c r1 c1 h h1 hr l hl, ?_, ?_⟩
  · intro data s l hlen hwave hl
    subst hlen hwave
    rw [← hc] at hl
    exact Avx2.avx2_tile_step_writes data r s l hl
  · intro data s s1 hlen hwave hrn hm hm1 hread l hl
    subst hlen hwave
    rw [← hc] at hl hread
    exact Avx2.avx2_tile_step_reads data r s s1 hrn hm hm1 hread l hl

theorem footprint_disjointness_witness :
    (0 + 1 = 1 ∧ 1 + 0 = 1 ∧ ((0 : Nat), (1 : Nat)) ≠ (1, 0)) ∧
    (¬ tileReads 1024 1 0 (Loc.row 0 1024) ∧ ¬ tileWrites 1024 1 0 (Loc.row 0 1024)) :=
  ⟨⟨by decide, by decide, by decide⟩,
    (footprint_disjointness 1024 1 0 1 1 0 (by decide) (by decide) (by decide)).1
      (Loc.row 0 1024) ⟨by decide, by decide, by decide⟩⟩

/-! ## The boundary state at the moment a tile is processed -/

/-- A loop can be cut in two at any point of its range. -/
theorem forLt_split {σ : Type} (lo mid hi : Nat) (body : Nat → σ → σ) (s : σ) (h1 : lo ≤ mid)
    (h2 : mid ≤ hi) : forLt lo hi body s = forLt mid hi body (forLt lo mid body s) := by
  unfold forLt
  have e : hi - lo = (hi - mid) + (mid - lo) := by omega
  have e2 : lo + (mid - lo) = mid := by omega
  rw [e, ← List.range'_append_1, List.foldl_append, e2]

/-- A loop over one index is one step. -/
theorem forLt_one {σ : Type} (lo : Nat) (body : Nat → σ → σ) (s : σ) :
    forLt lo (lo + 1) body s = body lo s := by
  rw [forLt_succ _ _ _ _ (le_refl _), forLt_ge _ _ _ _ (le_refl _)]

/-- When the tiles of the earlier waves, of the workers `ran` and of the rows before `r` of
worker `t` are done, the tile of row `r` of wave `w`, which is worker `t`'s, finds the
values of the table on its edges. -/
theorem wave_tile_pre (str1 str2 : Nat → Byte) (n T w t : Nat) (ran : List Nat)
    (ht : t ∉ ran) (r : Nat) (rows : Nat → Buf) (cols : Buf)
    (hr1 : rowMin ((n + BLOCK_SIZE - 1) / BLOCK_SIZE) w ≤ r)
    (hr2 : r ≤ rowMax ((n + BLOCK_SIZE - 1) / BLOCK_SIZE) w)
    (hw : w < 2 * ((n + BLOCK_SIZE - 1) / BLOCK_SIZE) - 1)
    (hass : (r - rowMin ((n + BLOCK_SIZE - 1) / BLOCK_SIZE) w) % T = t)
    (hinv : BoundsInv str1 str2 n (fun r => r % 3)
      (waveDone ((n + BLOCK_SIZE - 1) / BLOCK_SIZE) T w ran t r) rows cols) :
    TilePre str1 str2 (r * BLOCK_SIZE) ((w - r) * BLOCK_SIZE)
      (tileExtent n (r * BLOCK_SIZE)) (tileExtent n ((w - r) * BLOCK_SIZE))
      (rows (((r : Int) - 1 + 3) % 3).toNat) cols := by
  have hrw : r ≤ w := by
    unfold rowMax at hr2; split_ifs at hr2 <;> omega
  have hrn : r * BLOCK_SIZE < n := by
    unfold rowMax at hr2; simp only [BLOCK_SIZE] at *; split_ifs at hr2 <;> omega
  have hcn : (w - r) * BLOCK_SIZE < n := by
    unfold rowMin at hr1; simp only [BLOCK_SIZE] at *; split_ifs at hr1 <;> omega
  have hh : r * BLOCK_SIZE + tileExtent n (r * BLOCK_SIZE) = blockEnd n r := by
    unfold blockEnd tileExtent; simp only [BLOCK_SIZE] at *; split_ifs <;> omega
  have hww : (w - r) * BLOCK_SIZE + tileExtent n ((w - r) * BLOCK_SIZE) =
      blockEnd n (w - r) := by
    unfold blockEnd tileExtent; simp only [BLOCK_SIZE] at *; split_ifs <;> omega
  have E2 : ∀ r', r' * BLOCK_SIZE < n →
      waveDone ((n + BLOCK_SIZE - 1) / BLOCK_SIZE) T w ran t r r' (w - r) → r' < r := by
    intro r' _ hd
    rcases hd with hd | ⟨hd1, hd2⟩
    · omega
    · have e : r' = r := by omega
      subst e
      rcases hd2 with hd2 | hd2
      · rw [hass] at hd2; exact absurd hd2 ht
      · omega
  have E4 : ∀ c', c' * BLOCK_SIZE < n →
      waveDone ((n + BLOCK_SIZE - 1) / BLOCK_SIZE) T w ran t r r c' → c' < w - r := by
    intro c' _ hd
    rcases hd with hd | ⟨hd1, hd2⟩
    · omega
    · rcases hd2 with hd2 | hd2
      · rw [hass] at hd2; exact absurd hd2 ht
      · omega
  exact hinv.pre r (w - r) _ _ (((r : Int) - 1 + 3) % 3).toNat (r + 2) hrn hcn hh
    hww (by omega) (fun h1 => by omega) E2 (fun h1 => Or.inl (by omega)) E4
    (fun h1 => Or.inl (by omega))
    (fun h1 h2 => ⟨Or.inl (by omega), fun r' _ hwr hd => by
      rcases hd with hd | ⟨hd1, _⟩ <;> omega⟩)

/-- A run of `parallelized_edit_distance` passes through the state `tile_entry` and goes on from
there: the run is the rest of the run from that state. -/
theorem Parallelized.par_run_resume (env : Env) (str1 str2 : Nat → Byte) (n T w : Nat)
    (l1 l2 : List Nat) (t r : Nat) (hn : 1 ≤ n) (hok : env.AllocOk)
    (hw : w < 2 * ((n + BLOCK_SIZE - 1) / BLOCK_SIZE) - 1)
    (horder : env.order w = l1 ++ t :: l2)
    (hr1 : rowMin ((n + BLOCK_SIZE - 1) / BLOCK_SIZE) w ≤ r)
    (hr2 : r ≤ rowMax ((n + BLOCK_SIZE - 1) / BLOCK_SIZE) w) :
    parallelized_edit_distance env str1 str2 n T =
      Parallelized.resume env str1 str2 n T w l2 t r (Parallelized.tile_entry env str1 str2 n T w l1 t r) := by
  unfold rowMin at hr1
  unfold rowMax at hr2
  unfold parallelized_edit_distance Parallelized.resume Parallelized.tile_entry Parallelized.wave_entry sharedInit
  rw [if_neg (by omega)]
  simp only [hok.1, Bool.not_true, Bool.or_self, Bool.false_eq_true, if_false]
  rw [forLt_split 0 w (2 * ((n + BLOCK_SIZE - 1) / BLOCK_SIZE) - 1) _ _ (Nat.zero_le _)
    (by omega),
    forLt_split w (w + 1) (2 * ((n + BLOCK_SIZE - 1) / BLOCK_SIZE) - 1) _ _ (by omega)
    (by omega), forLt_one]
  simp only [horder, List.foldl_append, List.foldl_cons]
  rw [← forLt_split _ r _ _ _ hr1 (by omega)]
  rfl

/-- The boundary state at the moment the tile loop of worker `t` of wave `w` of
`parallelized_edit_distance` reaches the block row `r`. -/
theorem Parallelized.par_tile_entry_inv (env : Env) (str1 str2 : Nat → Byte) (n T w : Nat)
    (l1 l2 : List Nat) (t r : Nat) (hT : 1 ≤ T) (_hok : env.AllocOk) (hfair : env.Fair T)
    (hw : w < 2 * ((n + BLOCK_SIZE - 1) / BLOCK_SIZE) - 1)
    (horder : env.order w = l1 ++ t :: l2)
    (hr1 : rowMin ((n + BLOCK_SIZE - 1) / BLOCK_SIZE) w ≤ r)
    (hr2 : r ≤ rowMax ((n + BLOCK_SIZE - 1) / BLOCK_SIZE) w) :
    (Parallelized.tile_entry env str1 str2 n T w l1 t r).tile_number =
      r - rowMin ((n + BLOCK_SIZE - 1) / BLOCK_SIZE) w ∧
    t ∉ l1 ++ [] ∧
    BoundsInv str1 str2 n (fun r => r % 3)
      (waveDone ((n + BLOCK_SIZE - 1) / BLOCK_SIZE) T w (l1 ++ []) t r)
      (Parallelized.tile_entry env str1 str2 n T w l1 t r).shared.global_rows
      (Parallelized.tile_entry env str1 str2 n T w l1 t r).shared.global_cols := by
  have hnd : (l1 ++ t :: l2).Nodup := by
    rw [← horder]
    exact (hfair w).nodup_iff.mpr (List.nodup_range T)
  have hnd1 : l1.Nodup := (List.nodup_append.mp hnd).1
  have ht : t ∉ l1 ++ [] := by
    rw [List.append_nil]
    intro hmem
    exact (List.nodup_append.mp hnd).2.2 hmem (List.mem_cons_self _ _)
  have hinit := shared_init str1 str2 n env.malloc_fresh (env.malloc_fresh 3)
    [Event.malloc (env.malloc_ok 0), Event.malloc (env.malloc_ok 1),
      Event.malloc (env.malloc_ok 2), Event.malloc (env.malloc_ok 3)]
  have hwaves := Parallelized.par_waves_inv env str1 str2 n T hT hfair _ hinit w (by omega)
  have h0 : BoundsInv str1 str2 n (fun r => r % 3)
      (waveDone ((n + BLOCK_SIZE - 1) / BLOCK_SIZE) T w [] 0 0)
      (Parallelized.wave_entry env str1 str2 n T w).global_rows
      (Parallelized.wave_entry env str1 str2 n T w).global_cols := by
    refine hwaves.congr ?_
    intro r c _ _
    unfold waveDone
    simp
  have h1 := Parallelized.par_wave_inv env str1 str2 n T w hw l1 hnd1 []
    (Parallelized.wave_entry env str1 str2 n T w) (fun _ _ h => by simp at h) h0
  have key : (Parallelized.tile_entry env str1 str2 n T w l1 t r).tile_number =
        r - rowMin ((n + BLOCK_SIZE - 1) / BLOCK_SIZE) w ∧
      BoundsInv str1 str2 n (fun r => r % 3)
        (waveDone ((n + BLOCK_SIZE - 1) / BLOCK_SIZE) T w (l1 ++ []) t r)
        (Parallelized.tile_entry env str1 str2 n T w l1 t r).shared.global_rows
        (Parallelized.tile_entry env str1 str2 n T w l1 t r).shared.global_cols := by
    unfold Parallelized.tile_entry
    exact forLt_inv
      (fun r (s : Parallelized.WorkerState) =>
        s.tile_number = r - rowMin ((n + BLOCK_SIZE - 1) / BLOCK_SIZE) w ∧
        BoundsInv str1 str2 n (fun r => r % 3)
          (waveDone ((n + BLOCK_SIZE - 1) / BLOCK_SIZE) T w (l1 ++ []) t r)
          s.shared.global_rows s.shared.global_cols)
      (rowMin ((n + BLOCK_SIZE - 1) / BLOCK_SIZE) w) r
      (Parallelized.tile_step ⟨t, T, w, (n + BLOCK_SIZE - 1) / BLOCK_SIZE, n, str1, str2⟩)
      _ hr1
      ⟨by simp, by
        refine BoundsInv.congr h1 ?_
        intro r c hr hc
        unfold waveDone
        constructor
        · rintro (hd | ⟨hd1, hd2⟩)
          · exact Or.inl hd
          · rcases hd2 with hd2 | hd2
            · exact Or.inr ⟨hd1, Or.inl hd2⟩
            · omega
        · rintro (hd | ⟨hd1, hd2⟩)
          · exact Or.inl hd
          · rcases hd2 with hd2 | hd2
            · exact Or.inr ⟨hd1, Or.inl hd2⟩
            · exfalso
              have := hd2.2
              unfold rowMin at this
              simp only [BLOCK_SIZE] at *
              split_ifs at this <;> omega⟩
      (fun r0 s h1 h2 hs =>
        Parallelized.par_tile_step_inv str1 str2 n T w t (l1 ++ []) ht r0 s h1 (by omega) hw hs.1 hs.2)
  exact ⟨key.1, ht, key.2⟩


/-- A run of `avx2_edit_distance` passes through the state `tile_entry` and goes on from
there: the run is the rest of the run from that state. -/
theorem Avx2.avx2_run_resume (env : Env) (str1 str2 : Nat → Byte) (n T w : Nat)
    (l1 l2 : List Nat) (t r : Nat) (hn : 1 ≤ n) (hok : env.AllocOk)
    (hw : w < 2 * ((n + BLOCK_SIZE - 1) / BLOCK_SIZE) - 1)
    (horder : env.order w = l1 ++ t :: l2)
    (hr1 : rowMin ((n + BLOCK_SIZE - 1) / BLOCK_SIZE) w ≤ r)
    (hr2 : r ≤ rowMax ((n + BLOCK_SIZE - 1) / BLOCK_SIZE) w) :
    avx2_edit_distance env str1 str2 n T =
      Avx2.resume env str1 str2 n T w l2 t r (Avx2.tile_entry env str1 str2 n T w l1 t r) := by
  unfold rowMin at hr1
  unfold rowMax at hr2
  unfold avx2_edit_distance Avx2.resume Avx2.tile_entry Avx2.wave_entry sharedInit
  rw [if_neg (by omega)]
  simp only [hok.1, Bool.not_true, Bool.or_self, Bool.false_eq_true, if_false]
  rw [forLt_split 0 w (2 * ((n + BLOCK_SIZE - 1) / BLOCK_SIZE) - 1) _ _ (Nat.zero_le _)
    (by omega),
    forLt_split w (w + 1) (2 * ((n + BLOCK_SIZE - 1) / BLOCK_SIZE) - 1) _ _ (by omega)
    (by omega), forLt_one]
  simp only [horder, List.foldl_append, List.foldl_cons]
  rw [← forLt_split _ r _ _ _ hr1 (by omega)]
  unfold Avx2.thread_worker
  simp only [hok.2 0 w t, Bool.not_true, Bool.false_eq_true, if_false]
  rfl

/-- The boundary state at the moment the tile loop of worker `t` of wave `w` of
`avx2_edit_distance` reaches the block row `r`. -/
theorem Avx2.avx2_tile_entry_inv (env : Env) (str1 str2 : Nat → Byte) (n T w : Nat)
    (l1 l2 : List Nat) (t r : Nat) (hT : 1 ≤ T) (hok : env.AllocOk) (hfair : env.Fair T)
    (hw : w < 2 * ((n + BLOCK_SIZE - 1) / BLOCK_SIZE) - 1)
    (horder : env.order w = l1 ++ t :: l2)
    (hr1 : rowMin ((n + BLOCK_SIZE - 1) / BLOCK_SIZE) w ≤ r)
    (hr2 : r ≤ rowMax ((n + BLOCK_SIZE - 1) / BLOCK_SIZE) w) :
    (Avx2.tile_entry env str1 str2 n T w l1 t r).tile_number =
      r - rowMin ((n + BLOCK_SIZE - 1) / BLOCK_SIZE) w ∧
    t ∉ l1 ++ [] ∧
    BoundsInv str1 str2 n (fun r => r % 3)
      (waveDone ((n + BLOCK_SIZE - 1) / BLOCK_SIZE) T w (l1 ++ []) t r)
      (Avx2.tile_entry env str1 str2 n T w l1 t r).shared.global_rows
      (Avx2.tile_entry env str1 str2 n T w l1 t r).shared.global_cols := by
  have hnd : (l1 ++ t :: l2).Nodup := by
    rw [← horder]
    exact (hfair w).nodup_iff.mpr (List.nodup_range T)
  have hnd1 : l1.Nodup := (List.nodup_append.mp hnd).1
  have ht : t ∉ l1 ++ [] := by
    rw [List.append_nil]
    intro hmem
    exact (List.nodup_append.mp hnd).2.2 hmem (List.mem_cons_self _ _)
  have hinit := shared_init str1 str2 n env.malloc_fresh (env.malloc_fresh 3)
    [Event.malloc (env.malloc_ok 0), Event.malloc (env.malloc_ok 1),
      Event.malloc (env.malloc_ok 2), Event.malloc (env.malloc_ok 3)]
  have hwaves := Avx2.avx2_waves_inv env str1 str2 n T hT (fun w t => hok.2 0 w t) hfair _ hinit w (by omega)
  have h0 : BoundsInv str1 str2 n (fun r => r % 3)
      (waveDone ((n + BLOCK_SIZE - 1) / BLOCK_SIZE) T w [] 0 0)
      (Avx2.wave_entry env str1 str2 n T w).global_rows
      (Avx2.wave_entry env str1 str2 n T w).global_cols := by
    refine hwaves.congr ?_
    intro r c _ _
    unfold waveDone
    simp
  have h1 := Avx2.avx2_wave_inv env str1 str2 n T w (fun t => hok.2 0 w t) hw l1 hnd1 []
    (Avx2.wave_entry env str1 str2 n T w) (fun _ _ h => by simp at h) h0
  have key : (Avx2.tile_entry env str1 str2 n T w l1 t r).tile_number =
        r - rowMin ((n + BLOCK_SIZE - 1) / BLOCK_SIZE) w ∧
      BoundsInv str1 str2 n (fun r => r % 3)
        (waveDone ((n + BLOCK_SIZE - 1) / BLOCK_SIZE) T w (l1 ++ []) t r)
        (Avx2.tile_entry env str1 str2 n T w l1 t r).shared.global_rows
        (Avx2.tile_entry env str1 str2 n T w l1 t r).shared.global_cols := by
    unfold Avx2.tile_entry
    exact forLt_inv
      (fun r (s : Avx2.WorkerState) =>
        s.tile_number = r - rowMin ((n + BLOCK_SIZE - 1) / BLOCK_SIZE) w ∧
        BoundsInv str1 str2 n (fun r => r % 3)
          (waveDone ((n + BLOCK_SIZE - 1) / BLOCK_SIZE) T w (l1 ++ []) t r)
          s.shared.global_rows s.shared.global_cols)
      (rowMin ((n + BLOCK_SIZE - 1) / BLOCK_SIZE) w) r
      (Avx2.tile_step ⟨t, T, w, (n + BLOCK_SIZE - 1) / BLOCK_SIZE, n, str1, str2⟩)
      _ hr1
      ⟨by simp, by
        refine BoundsInv.congr h1 ?_
        intro r c hr hc
        unfold waveDone
        constructor
        · rintro (hd | ⟨hd1, hd2⟩)
          · exact Or.inl hd
          · rcases hd2 with hd2 | hd2
            · exact Or.inr ⟨hd1, Or.inl hd2⟩
            · omega
        · rintro (hd | ⟨hd1, hd2⟩)
          · exact Or.inl hd
          · rcases hd2 with hd2 | hd2
            · exact Or.inr ⟨hd1, Or.inl hd2⟩
            · exfalso
              have := hd2.2
              unfold rowMin at this
              simp only [BLOCK_SIZE] at *
              split_ifs at this <;> omega⟩
      (fun r0 s h1 h2 hs =>
        Avx2.avx2_tile_step_inv str1 str2 n T w t (l1 ++ []) ht r0 s h1 (by omega) hw hs.1 hs.2)
  exact ⟨key.1, ht, key.2⟩

/-- Claim C20.  In every run of `avx2_edit_distance` and of `parallelized_edit_distance` on
sequences of length `n ≥ 1` with `T ≥ 1` threads in which the allocations succeed, whatever
the order of the workers within a wave: the run passes through the state in which the worker
of the tile `(r, c)` reaches the block row `r` (the run is the rest of the run from that
state), the step taken there processes the tile, and in that state the row buffer
`(r - 1 + 3) % 3` holds `D[row_offset][col_offset + j]` at index `col_offset + j` for
`1 ≤ j ≤ width` (and at `col_offset` for a tile off the first block row and column) and the
column buffer holds `D[row_offset + i][col_offset]` at index `row_offset + i` for
`1 ≤ i ≤ height`, where `D` is the Levenshtein table of the two sequences. -/
theorem boundary_state_at_tile (env : Env) (str1 str2 : Nat → Byte) (n T r c : Nat)
    (l1 l2 : List Nat) (t : Nat) (hn : 1 ≤ n) (hT : 1 ≤ T) (hok : env.AllocOk)
    (hfair : env.Fair T) (hr : r < (n + BLOCK_SIZE - 1) / BLOCK_SIZE)
    (hc : c < (n + BLOCK_SIZE - 1) / BLOCK_SIZE)
    (horder : env.order (r + c) = l1 ++ t :: l2)
    (hass : (r - rowMin ((n + BLOCK_SIZE - 1) / BLOCK_SIZE) (r + c)) % T = t) :
    (avx2_edit_distance env str1 str2 n T =
        Avx2.resume env str1 str2 n T (r + c) l2 t r
          (Avx2.tile_entry env str1 str2 n T (r + c) l1 t r) ∧
      (Avx2.tile_entry env str1 str2 n T (r + c) l1 t r).tile_number % T = t ∧
      (∀ j, 1 ≤ j → j ≤ tileExtent n (c * BLOCK_SIZE) →
        ((Avx2.tile_entry env str1 str2 n T (r + c) l1 t r).shared.global_rows
          (((r : Int) - 1 + 3) % 3).toNat).get (c * BLOCK_SIZE + j) =
          (D str1 str2 (r * BLOCK_SIZE) (c * BLOCK_SIZE + j) : Int)) ∧
      (∀ i, 1 ≤ i → i ≤ tileExtent n (r * BLOCK_SIZE) →
        (Avx2.tile_entry env str1 str2 n T (r + c) l1 t r).shared.global_cols.get
          (r * BLOCK_SIZE + i) = (D str1 str2 (r * BLOCK_SIZE + i) (c * BLOCK_SIZE) : Int)) ∧
      (1 ≤ r → 1 ≤ c →
        ((Avx2.tile_entry env str1 str2 n T (r + c) l1 t r).shared.global_rows
          (((r : Int) - 1 + 3) % 3).toNat).get (c * BLOCK_SIZE) =
          (D str1 str2 (r * BLOCK_SIZE) (c * BLOCK_SIZE) : Int))) ∧
    (parallelized_edit_distance env str1 str2 n T =
        Parallelized.resume env str1 str2 n T (r + c) l2 t r
          (Parallelized.tile_entry env str1 str2 n T (r + c) l1 t r) ∧
      (Parallelized.tile_entry env str1 str2 n T (r + c) l1 t r).tile_number % T = t ∧
      (∀ j, 1 ≤ j → j ≤ tileExtent n (c * BLOCK_SIZE) →
        ((Parallelized.tile_entry env str1 str2 n T (r + c) l1 t r).shared.global_rows
          (((r : Int) - 1 + 3) % 3).toNat).get (c * BLOCK_SIZE + j) =
          (D str1 str2 (r * BLOCK_SIZE) (c * BLOCK_SIZE + j) : Int)) ∧
      (∀ i, 1 ≤ i → i ≤ tileExtent n (r * BLOCK_SIZE) →
        (Parallelized.tile_entry env str1 str2 n T (r + c) l1 t r).shared.global_cols.get
          (r * BLOCK_SIZE + i) = (D str1 str2 (r * BLOCK_SIZE + i) (c * BLOCK_SIZE) : Int)) ∧
      (1 ≤ r → 1 ≤ c →
        ((Parallelized.tile_entry env str1 str2 n T (r + c) l1 t r).shared.global_rows
          (((r : Int) - 1 + 3) % 3).toNat).get (c * BLOCK_SIZE) =
          (D str1 str2 (r * BLOCK_SIZE) (c * BLOCK_SIZE) : Int))) := by
  have hg := grid_tile_on_wave _ r c hr hc
  have hcw : r + c - r = c := by omega
  have ha := Avx2.avx2_tile_entry_inv env str1 str2 n T (r + c) l1 l2 t r hT hok hfair hg.1
    horder hg.2.1 hg.2.2.1
  have hp := Parallelized.par_tile_entry_inv env str1 str2 n T (r + c) l1 l2 t r hT hok hfair
    hg.1 horder hg.2.1 hg.2.2.1
  have hapre := wave_tile_pre str1 str2 n T (r + c) t (l1 ++ []) ha.2.1 r _ _ hg.2.1 hg.2.2.1
    hg.1 hass ha.2.2
  have hppre := wave_tile_pre str1 str2 n T (r + c) t (l1 ++ []) hp.2.1 r _ _ hg.2.1 hg.2.2.1
    hg.1 hass hp.2.2
  rw [hcw] at hapre hppre
  refine ⟨⟨?_, ?_, hapre.top, hapre.left, ?_⟩, ⟨?_, ?_, hppre.top, hppre.left, ?_⟩⟩
  · exact Avx2.avx2_run_resume env str1 str2 n T (r + c) l1 l2 t r hn hok hg.1 horder hg.2.1
      hg.2.2.1
  · rw [ha.1]
    exact hass
  · intro h1 h2
    exact hapre.corner (by simp only [BLOCK_SIZE]; omega) (by simp only [BLOCK_SIZE]; omega)
  · exact Parallelized.par_run_resume env str1 str2 n T (r + c) l1 l2 t r hn hok hg.1 horder
      hg.2.1 hg.2.2.1
  · rw [hp.1]
    exact hass
  · intro h1 h2
    exact hppre.corner (by simp only [BLOCK_SIZE]; omega) (by simp only [BLOCK_SIZE]; omega)

theorem boundary_state_at_tile_witness :
    (1 ≤ 600 ∧ 1 ≤ 2 ∧ (Env.ideal 2).AllocOk ∧ (Env.ideal 2).Fair 2 ∧
      1 < (600 + BLOCK_SIZE - 1) / BLOCK_SIZE ∧ 1 < (600 + BLOCK_SIZE - 1) / BLOCK_SIZE ∧
      (Env.ideal 2).order (1 + 1) = [] ++ 0 :: [1] ∧
      (1 - rowMin ((600 + BLOCK_SIZE - 1) / BLOCK_SIZE) (1 + 1)) % 2 = 0) ∧
    (∀ i, 1 ≤ i → i ≤ tileExtent 600 (1 * BLOCK_SIZE) →
      (Avx2.tile_entry (Env.ideal 2) (fun _ => 65) (fun _ => 66) 600 2 (1 + 1) [] 0
        1).shared.global_cols.get (1 * BLOCK_SIZE + i) =
        (D (fun _ => 65) (fun _ => 66) (1 * BLOCK_SIZE + i) (1 * BLOCK_SIZE) : Int)) :=
  ⟨⟨by decide, by decide, Env.ideal_allocOk 2, Env.ideal_fair 2, by decide, by decide,
      by decide, by decide⟩,
    (boundary_state_at_tile (Env.ideal 2) (fun _ => 65) (fun _ => 66) 600 2 1 1 [] [1] 0
      (by decide) (by decide) (Env.ideal_allocOk 2) (Env.ideal_fair 2) (by decide) (by decide)
      (by decide) (by decide)).1.2.2.2.1⟩

/-- At the moment a run of `parallelized_edit_distance` processes the tile `(r, c)`, the tile finds the
values of the table on its edges. -/
theorem Parallelized.par_tile_entry_pre (env : Env) (str1 str2 : Nat → Byte) (n T r c : Nat)
    (l1 l2 : List Nat) (t : Nat) (hT : 1 ≤ T) (hok : env.AllocOk)
    (hfair : env.Fair T) (hr : r < (n + BLOCK_SIZE - 1) / BLOCK_SIZE)
    (hc : c < (n + BLOCK_SIZE - 1) / BLOCK_SIZE)
    (horder : env.order (r + c) = l1 ++ t :: l2)
    (hass : (r - rowMin ((n + BLOCK_SIZE - 1) / BLOCK_SIZE) (r + c)) % T = t) :
    TilePre str1 str2 (r * BLOCK_SIZE) (c * BLOCK_SIZE)
      (tileExtent n (r * BLOCK_SIZE)) (tileExtent n (c * BLOCK_SIZE))
      ((Parallelized.tile_entry env str1 str2 n T (r + c) l1 t r).shared.global_rows
        (((r : Int) - 1 + 3) % 3).toNat)
      (Parallelized.tile_entry env str1 str2 n T (r + c) l1 t r).shared.global_cols := by
  have hg := grid_tile_on_wave _ r c hr hc
  have hcw : r + c - r = c := by omega
  have ha := Parallelized.par_tile_entry_inv env str1 str2 n T (r + c) l1 l2 t r hT hok hfair hg.1
    horder hg.2.1 hg.2.2.1
  have hpre := wave_tile_pre str1 str2 n T (r + c) t (l1 ++ []) ha.2.1 r _ _ hg.2.1 hg.2.2.1
    hg.1 hass ha.2.2
  rw [hcw] at hpre
  exact hpre


/-- At the moment a run of `avx2_edit_distance` processes the tile `(r, c)`, the tile finds the
values of the table on its edges. -/
theorem Avx2.avx2_tile_entry_pre (env : Env) (str1 str2 : Nat → Byte) (n T r c : Nat)
    (l1 l2 : List Nat) (t : Nat) (hT : 1 ≤ T) (hok : env.AllocOk)
    (hfair : env.Fair T) (hr : r < (n + BLOCK_SIZE - 1) / BLOCK_SIZE)
    (hc : c < (n + BLOCK_SIZE - 1) / BLOCK_SIZE)
    (horder : env.order (r + c) = l1 ++ t :: l2)
    (hass : (r - rowMin ((n + BLOCK_SIZE - 1) / BLOCK_SIZE) (r + c)) % T = t) :
    TilePre str1 str2 (r * BLOCK_SIZE) (c * BLOCK_SIZE)
      (tileExtent n (r * BLOCK_SIZE)) (tileExtent n (c * BLOCK_SIZE))
      ((Avx2.tile_entry env str1 str2 n T (r + c) l1 t r).shared.global_rows
        (((r : Int) - 1 + 3) % 3).toNat)
      (Avx2.tile_entry env str1 str2 n T (r + c) l1 t r).shared.global_cols := by
  have hg := grid_tile_on_wave _ r c hr hc
  have hcw : r + c - r = c := by omega
  have ha := Avx2.avx2_tile_entry_inv env str1 str2 n T (r + c) l1 l2 t r hT hok hfair hg.1
    horder hg.2.1 hg.2.2.1
  have hpre := wave_tile_pre str1 str2 n T (r + c) t (l1 ++ []) ha.2.1 r _ _ hg.2.1 hg.2.2.1
    hg.1 hass ha.2.2
  rw [hcw] at hpre
  exact hpre

/-- The corner value of a tile that finds the table's values on its edges is the table's
entry at the tile's origin. -/
theorem TilePre.corner_value {str1 str2 : Nat → Byte} {ro co h w : Nat} {rr cols : Buf}
    (hpre : TilePre str1 str2 ro co h w rr cols) :
    tileCorner ro co rr = (D str1 str2 ro co : Int) := by
  unfold tileCorner
  by_cases hco : co = 0
  · subst hco
    simp [D_zero_right]
  · rw [if_neg hco]
    by_cases hro : ro = 0
    · subst hro
      simp [D_zero_left]
    · rw [if_neg hro]
      exact hpre.corner hco hro

/-- Claim C21.  In every run of `avx2_edit_distance` and of `parallelized_edit_distance` in
which the allocations succeed, the corner value the tile `(r, c)` starts from - `row_offset`
when `col_offset = 0`, `col_offset` when `row_offset = 0`, and otherwise the entry at index
`col_offset` of the row buffer `(r - 1 + 3) % 3` at the moment the tile is processed - equals
`D[row_offset][col_offset]`; it is the value the kernel puts at the corner of its scratch
storage; and for `r, c ≥ 1` that buffer entry is the bottom-right value which the diagonal
neighbour `(r - 1, c - 1)` returned and wrote there when it was processed. -/
theorem corner_seeding (env : Env) (str1 str2 : Nat → Byte) (n T r c : Nat)
    (l1 l2 : List Nat) (t : Nat) (hT : 1 ≤ T) (hok : env.AllocOk)
    (hfair : env.Fair T) (hr : r < (n + BLOCK_SIZE - 1) / BLOCK_SIZE)
    (hc : c < (n + BLOCK_SIZE - 1) / BLOCK_SIZE)
    (horder : env.order (r + c) = l1 ++ t :: l2)
    (hass : (r - rowMin ((n + BLOCK_SIZE - 1) / BLOCK_SIZE) (r + c)) % T = t) :
    ((if c * BLOCK_SIZE = 0 then ((r * BLOCK_SIZE : Nat) : Int)
        else if r * BLOCK_SIZE = 0 then ((c * BLOCK_SIZE : Nat) : Int)
        else ((Avx2.tile_entry env str1 str2 n T (r + c) l1 t r).shared.global_rows
          (((r : Int) - 1 + 3) % 3).toNat).get (c * BLOCK_SIZE)) =
        (D str1 str2 (r * BLOCK_SIZE) (c * BLOCK_SIZE) : Int) ∧
      (Avx2.process_tile (r * BLOCK_SIZE) (c * BLOCK_SIZE)
        ((Avx2.tile_entry env str1 str2 n T (r + c) l1 t r).shared.global_rows
          (((r : Int) - 1 + 3) % 3).toNat)
        ((Avx2.tile_entry env str1 str2 n T (r + c) l1 t r).shared.global_rows (r % 3))
        (Avx2.tile_entry env str1 str2 n T (r + c) l1 t r).shared.global_cols
        (tileExtent n (r * BLOCK_SIZE)) (tileExtent n (c * BLOCK_SIZE)) str1 str2
        (Avx2.tile_entry env str1 str2 n T (r + c) l1 t r).thread_buffer n).2.get
          (Avx2.idx (tileExtent n (r * BLOCK_SIZE)) 0 0) =
        (D str1 str2 (r * BLOCK_SIZE) (c * BLOCK_SIZE) : Int)) ∧
    ((if c * BLOCK_SIZE = 0 then ((r * BLOCK_SIZE : Nat) : Int)
        else if r * BLOCK_SIZE = 0 then ((c * BLOCK_SIZE : Nat) : Int)
        else ((Parallelized.tile_entry env str1 str2 n T (r + c) l1 t r).shared.global_rows
          (((r : Int) - 1 + 3) % 3).toNat).get (c * BLOCK_SIZE)) =
        (D str1 str2 (r * BLOCK_SIZE) (c * BLOCK_SIZE) : Int) ∧
      (Parallelized.tile_rows (r * BLOCK_SIZE) (c * BLOCK_SIZE)
        ((Parallelized.tile_entry env str1 str2 n T (r + c) l1 t r).shared.global_rows
          (((r : Int) - 1 + 3) % 3).toNat)
        (Parallelized.tile_entry env str1 str2 n T (r + c) l1 t r).shared.global_cols
        (tileExtent n (c * BLOCK_SIZE)) str1 str2
        (Parallelized.tile_entry env str1 str2 n T (r + c) l1 t r).thread_prev_row
        (Parallelized.tile_entry env str1 str2 n T (r + c) l1 t r).thread_cur_row
        0).prev_row.get 0 = (D str1 str2 (r * BLOCK_SIZE) (c * BLOCK_SIZE) : Int)) ∧
    (1 ≤ r → 1 ≤ c → ∀ (k1 k2 : List Nat) (u : Nat),
      env.order (r - 1 + (c - 1)) = k1 ++ u :: k2 →
      (r - 1 - rowMin ((n + BLOCK_SIZE - 1) / BLOCK_SIZE) (r - 1 + (c - 1))) % T = u →
      ((Avx2.process_tile ((r - 1) * BLOCK_SIZE) ((c - 1) * BLOCK_SIZE)
          ((Avx2.tile_entry env str1 str2 n T (r - 1 + (c - 1)) k1 u (r - 1)).shared.global_rows
            ((((r - 1 : Nat) : Int) - 1 + 3) % 3).toNat)
          ((Avx2.tile_entry env str1 str2 n T (r - 1 + (c - 1)) k1 u (r - 1)).shared.global_rows
            ((r - 1) % 3))
          (Avx2.tile_entry env str1 str2 n T (r - 1 + (c - 1)) k1 u (r - 1)).shared.global_cols
          (tileExtent n ((r - 1) * BLOCK_SIZE)) (tileExtent n ((c - 1) * BLOCK_SIZE)) str1 str2
          (Avx2.tile_entry env str1 str2 n T (r - 1 + (c - 1)) k1 u (r - 1)).thread_buffer
          n).1.result =
          ((Avx2.tile_entry env str1 str2 n T (r + c) l1 t r).shared.global_rows
            (((r : Int) - 1 + 3) % 3).toNat).get (c * BLOCK_SIZE) ∧
        (Avx2.process_tile ((r - 1) * BLOCK_SIZE) ((c - 1) * BLOCK_SIZE)
          ((Avx2.tile_entry env str1 str2 n T (r - 1 + (c - 1)) k1 u (r - 1)).shared.global_rows
            ((((r - 1 : Nat) : Int) - 1 + 3) % 3).toNat)
          ((Avx2.tile_entry env str1 str2 n T (r - 1 + (c - 1)) k1 u (r - 1)).shared.global_rows
            ((r - 1) % 3))
          (Avx2.tile_entry env str1 str2 n T (r - 1 + (c - 1)) k1 u (r - 1)).shared.global_cols
          (tileExtent n ((r - 1) * BLOCK_SIZE)) (tileExtent n ((c - 1) * BLOCK_SIZE)) str1 str2
          (Avx2.tile_entry env str1 str2 n T (r - 1 + (c - 1)) k1 u (r - 1)).thread_buffer
          n).1.global_rows_write.get (c * BLOCK_SIZE) =
          ((Avx2.tile_entry env str1 str2 n T (r + c) l1 t r).shared.global_rows
            (((r : Int) - 1 + 3) % 3).toNat).get (c * BLOCK_SIZE) ∧
        (r - 1) % 3 = (((r : Int) - 1 + 3) % 3).toNat)) := by
  have hpa := Avx2.avx2_tile_entry_pre env str1 str2 n T r c l1 l2 t hT hok hfair hr hc horder
    hass
  have hpp := Parallelized.par_tile_entry_pre env str1 str2 n T r c l1 l2 t hT hok hfair hr hc
    horder hass
  have hext := tileExtent_spec n r hr
  refine ⟨⟨hpa.corner_value, ?_⟩, ⟨hpp.corner_value, ?_⟩, ?_⟩
  · have hb := Avx2.avx2_process_tile_buffer str1 str2 (r * BLOCK_SIZE) (c * BLOCK_SIZE)
      (tileExtent n (r * BLOCK_SIZE)) (tileExtent n (c * BLOCK_SIZE)) n
      ((Avx2.tile_entry env str1 str2 n T (r + c) l1 t r).shared.global_rows
        (((r : Int) - 1 + 3) % 3).toNat)
      ((Avx2.tile_entry env str1 str2 n T (r + c) l1 t r).shared.global_rows (r % 3))
      (Avx2.tile_entry env str1 str2 n T (r + c) l1 t r).shared.global_cols
      (Avx2.tile_entry env str1 str2 n T (r + c) l1 t r).thread_buffer hext.2.1 0 0
      (Nat.zero_le _) (Nat.zero_le _)
    rw [hb, simdTile_top, if_pos rfl]
    exact hpa.corner_value
  · rw [Parallelized.par_tile_rows_cells _ _ _ _ _ _ _ _ _ 0 0 (Nat.zero_le _), scalarTile_top,
      if_pos rfl]
    exact hpp.corner_value
  · intro h1 h2 k1 k2 u horder2 hass2
    have hq := Avx2.avx2_tile_entry_pre env str1 str2 n T (r - 1) (c - 1) k1 k2 u hT hok hfair
      (by omega) (by omega) horder2 hass2
    have hext1 := tileExtent_spec n (r - 1) (by omega)
    have hpost := Avx2.avx2_process_tile_post str1 str2 _ _ _ _ n _
      ((Avx2.tile_entry env str1 str2 n T (r - 1 + (c - 1)) k1 u (r - 1)).shared.global_rows
        ((r - 1) % 3)) _
      (Avx2.tile_entry env str1 str2 n T (r - 1 + (c - 1)) k1 u (r - 1)).thread_buffer hq
      hext1.2.1 hext1.2.2.2 (tileExtent_spec n (c - 1) (by omega)).2.2.2
    have e1 : (r - 1) * BLOCK_SIZE + tileExtent n ((r - 1) * BLOCK_SIZE) = r * BLOCK_SIZE := by
      unfold tileExtent
      simp only [BLOCK_SIZE] at *
      split_ifs <;> omega
    have e2 : (c - 1) * BLOCK_SIZE + tileExtent n ((c - 1) * BLOCK_SIZE) = c * BLOCK_SIZE := by
      unfold tileExtent
      simp only [BLOCK_SIZE] at *
      split_ifs <;> omega
    have hcorner := hpa.corner (by simp only [BLOCK_SIZE]; omega)
      (by simp only [BLOCK_SIZE]; omega)
    refine ⟨?_, ?_, by omega⟩
    · rw [hpost.result, e1, e2, hcorner]
    · rw [hpost.rows, if_pos (by simp only [BLOCK_SIZE] at *; omega), e1, hcorner]

theorem corner_seeding_witness :
    (1 ≤ 2 ∧ (Env.ideal 2).AllocOk ∧ (Env.ideal 2).Fair 2 ∧
      1 < (600 + BLOCK_SIZE - 1) / BLOCK_SIZE ∧ 1 < (600 + BLOCK_SIZE - 1) / BLOCK_SIZE ∧
      (Env.ideal 2).order (1 + 1) = [] ++ 0 :: [1] ∧
      (1 - rowMin ((600 + BLOCK_SIZE - 1) / BLOCK_SIZE) (1 + 1)) % 2 = 0) ∧
    (if 1 * BLOCK_SIZE = 0 then ((1 * BLOCK_SIZE : Nat) : Int)
      else if 1 * BLOCK_SIZE = 0 then ((1 * BLOCK_SIZE : Nat) : Int)
      else ((Avx2.tile_entry (Env.ideal 2) (fun _ => 65) (fun _ => 66) 600 2 (1 + 1) [] 0
        1).shared.global_rows ((((1 : Nat) : Int) - 1 + 3) % 3).toNat).get (1 * BLOCK_SIZE)) =
      (D (fun _ => 65) (fun _ => 66) (1 * BLOCK_SIZE) (1 * BLOCK_SIZE) : Int) :=
  ⟨⟨by decide, Env.ideal_allocOk 2, Env.ideal_fair 2, by decide, by decide, by decide,
      by decide⟩,
    (corner_seeding (Env.ideal 2) (fun _ => 65) (fun _ => 66) 600 2 1 1 [] [1] 0
      (by decide) (Env.ideal_allocOk 2) (Env.ideal_fair 2) (by decide) (by decide)
      (by decide) (by decide)).1.1⟩

/-! ## The waves of a run -/

/-- A property every step of a loop preserves holds after the loop. -/
theorem forLt_preserve {σ : Type} (P : σ → Prop) (lo hi : Nat) (body : Nat → σ → σ) (s : σ)
    (h0 : P s) (hstep : ∀ i s, P s → P (body i s)) : P (forLt lo hi body s) := by
  unfold forLt
  generalize List.range' lo (hi - lo) = l
  induction l generalizing s with
  | nil => exact h0
  | cons a l ih => exact ih (body a s) (hstep a s h0)


/-- A worker of `parallelized_edit_distance` adds itself, and nothing else, to the workers of the
trace. -/
theorem Parallelized.par_worker_workers (env : Env) (data : ThreadArguments) (sh : Shared) :
    workersOf (Parallelized.thread_worker env data sh).trace =
      workersOf sh.trace ++ [(data.current_wave, data.thread_id)] := by
  unfold Parallelized.thread_worker
  simp only
  unfold forLoop
  refine forLt_preserve
    (fun (s : Parallelized.WorkerState) => workersOf s.shared.trace =
      workersOf sh.trace ++ [(data.current_wave, data.thread_id)]) _ _ _ _ ?_ ?_
  · simp [workersOf, List.filterMap_append]
  · intro r s hs
    unfold Parallelized.tile_step
    simp only
    by_cases hass : s.tile_number % data.num_threads = data.thread_id
    · rw [if_pos hass]
      simp only
      rw [← hs]
      simp [workersOf, List.filterMap_append]
    · rw [if_neg hass]
      exact hs

/-- The workers of a wave of `parallelized_edit_distance`, run in the order `l`. -/
theorem Parallelized.par_wave_workers (env : Env) (str1 str2 : Nat → Byte) (n T w nb : Nat)
    (l : List Nat) :
    ∀ sh : Shared,
      workersOf (l.foldl (fun sh t => Parallelized.thread_worker env
        ⟨t, T, w, nb, n, str1, str2⟩ sh) sh).trace =
      workersOf sh.trace ++ l.map (fun t => (w, t)) := by
  induction l with
  | nil => intro sh; simp
  | cons t l ih =>
    intro sh
    rw [List.foldl_cons, ih, Parallelized.par_worker_workers env _ sh]
    simp [List.append_assoc]

/-- The workers of a run of `parallelized_edit_distance`: those of the waves `0 .. 2 * nb - 2`, wave
after wave. -/
theorem parallelized_edit_distance_workers (env : Env) (str1 str2 : Nat → Byte) (n T : Nat) (hn : 1 ≤ n)
    (hok : env.AllocOk) :
    workersOf (parallelized_edit_distance env str1 str2 n T).trace =
      (List.range (2 * ((n + BLOCK_SIZE - 1) / BLOCK_SIZE) - 1)).flatMap
        (fun w => (env.order w).map (fun t => (w, t))) := by
  unfold parallelized_edit_distance
  rw [if_neg (by omega)]
  simp only [hok.1, Bool.not_true, Bool.or_self, Bool.false_eq_true, if_false]
  have hinit := shared_init_trace n env.malloc_fresh (env.malloc_fresh 3)
    [Event.malloc true, Event.malloc true, Event.malloc true, Event.malloc true]
  generalize (forLoop 0 n
    (fun i (s : Shared) => (⟨Function.update (Function.update (Function.update s.global_rows
        0 (store (s.global_rows 0) i (i : Int)))
        1 (store (s.global_rows 1) i (i : Int)))
        2 (store (s.global_rows 2) i (i : Int)),
      store s.global_cols i (i : Int), s.trace⟩ : Shared))
    ⟨env.malloc_fresh, env.malloc_fresh 3,
      [Event.malloc true, Event.malloc true, Event.malloc true, Event.malloc true]⟩) = init
    at hinit ⊢
  have key := forLt_inv
    (fun W (s : Shared) => workersOf s.trace = (List.range W).flatMap
      (fun w => (env.order w).map (fun t => (w, t))))
    0 (2 * ((n + BLOCK_SIZE - 1) / BLOCK_SIZE) - 1)
    (fun wave sh => (env.order wave).foldl
      (fun sh t => Parallelized.thread_worker env
        ⟨t, T, wave, (n + BLOCK_SIZE - 1) / BLOCK_SIZE, n, str1, str2⟩ sh) sh)
    init (Nat.zero_le _) (by show workersOf init.trace = _; rw [hinit]; rfl)
    (fun w s _ _ hs => by
      dsimp only
      rw [Parallelized.par_wave_workers env str1 str2 n T w _ (env.order w) s, hs, List.range_succ,
        List.flatMap_append, List.flatMap_singleton])
  exact key


/-- A worker of `avx2_edit_distance` adds itself, and nothing else, to the workers of the
trace. -/
theorem Avx2.avx2_worker_workers (env : Env) (data : ThreadArguments) (sh : Shared)
    (hok : env.scratch_ok 0 data.current_wave data.thread_id = true) :
    workersOf (Avx2.thread_worker env data sh).trace =
      workersOf sh.trace ++ [(data.current_wave, data.thread_id)] := by
  unfold Avx2.thread_worker
  simp only [hok, Bool.not_true, Bool.false_eq_true, if_false]
  unfold forLoop
  refine forLt_preserve
    (fun (s : Avx2.WorkerState) => workersOf s.shared.trace =
      workersOf sh.trace ++ [(data.current_wave, data.thread_id)]) _ _ _ _ ?_ ?_
  · simp [workersOf, List.filterMap_append]
  · intro r s hs
    unfold Avx2.tile_step
    simp only
    by_cases hass : s.tile_number % data.num_threads = data.thread_id
    · rw [if_pos hass]
      simp only
      rw [← hs]
      simp [workersOf, List.filterMap_append]
    · rw [if_neg hass]
      exact hs

/-- The workers of a wave of `avx2_edit_distance`, run in the order `l`. -/
theorem Avx2.avx2_wave_workers (env : Env) (str1 str2 : Nat → Byte) (n T w nb : Nat)
    (hok : ∀ t, env.scratch_ok 0 w t = true)
    (l : List Nat) :
    ∀ sh : Shared,
      workersOf (l.foldl (fun sh t => Avx2.thread_worker env
        ⟨t, T, w, nb, n, str1, str2⟩ sh) sh).trace =
      workersOf sh.trace ++ l.map (fun t => (w, t)) := by
  induction l with
  | nil => intro sh; simp
  | cons t l ih =>
    intro sh
    rw [List.foldl_cons, ih, Avx2.avx2_worker_workers env _ sh (hok t)]
    simp [List.append_assoc]

/-- The workers of a run of `avx2_edit_distance`: those of the waves `0 .. 2 * nb - 2`, wave
after wave. -/
theorem avx2_edit_distance_workers (env : Env) (str1 str2 : Nat → Byte) (n T : Nat) (hn : 1 ≤ n)
    (hok : env.AllocOk) :
    workersOf (avx2_edit_distance env str1 str2 n T).trace =
      (List.range (2 * ((n + BLOCK_SIZE - 1) / BLOCK_SIZE) - 1)).flatMap
        (fun w => (env.order w).map (fun t => (w, t))) := by
  unfold avx2_edit_distance
  rw [if_neg (by omega)]
  simp only [hok.1, Bool.not_true, Bool.or_self, Bool.false_eq_true, if_false]
  have hinit := shared_init_trace n env.malloc_fresh (env.malloc_fresh 3)
    [Event.malloc true, Event.malloc true, Event.malloc true, Event.malloc true]
  generalize (forLoop 0 n
    (fun i (s : Shared) => (⟨Function.update (Function.update (Function.update s.global_rows
        0 (store (s.global_rows 0) i (i : Int)))
        1 (store (s.global_rows 1) i (i : Int)))
        2 (store (s.global_rows 2) i (i : Int)),
      store s.global_cols i (i : Int), s.trace⟩ : Shared))
    ⟨env.malloc_fresh, env.malloc_fresh 3,
      [Event.malloc true, Event.malloc true, Event.malloc true, Event.malloc true]⟩) = init
    at hinit ⊢
  have key := forLt_inv
    (fun W (s : Shared) => workersOf s.trace = (List.range W).flatMap
      (fun w => (env.order w).map (fun t => (w, t))))
    0 (2 * ((n + BLOCK_SIZE - 1) / BLOCK_SIZE) - 1)
    (fun wave sh => (env.order wave).foldl
      (fun sh t => Avx2.thread_worker env
        ⟨t, T, wave, (n + BLOCK_SIZE - 1) / BLOCK_SIZE, n, str1, str2⟩ sh) sh)
    init (Nat.zero_le _) (by show workersOf init.trace = _; rw [hinit]; rfl)
    (fun w s _ _ hs => by
      dsimp only
      rw [Avx2.avx2_wave_workers env str1 str2 n T w _ (fun t => hok.2 0 w t) (env.order w) s, hs, List.range_succ,
        List.flatMap_append, List.flatMap_singleton])
  exact key

/-- The last wave of a grid holds its last tile only, and gives it to worker `0`. -/
theorem last_wave_tiles (nb T t r c : Nat) (hnb : 1 ≤ nb) :
    (r, c) ∈ assignedTiles nb T (2 * nb - 2) t ↔ r = nb - 1 ∧ c = nb - 1 ∧ t = 0 := by
  rw [mem_assignedTiles]
  have e1 : rowMin nb (2 * nb - 2) = nb - 1 := by
    unfold rowMin
    split_ifs <;> omega
  have e2 : rowMax nb (2 * nb - 2) = nb - 1 := by
    unfold rowMax
    split_ifs <;> omega
  rw [e1, e2]
  constructor
  · rintro ⟨h1, h2, h3, h4⟩
    have hr : r = nb - 1 := by omega
    subst hr
    rw [Nat.sub_self, Nat.zero_mod] at h4
    exact ⟨rfl, by omega, h4.symm⟩
  · rintro ⟨rfl, rfl, rfl⟩
    refine ⟨le_refl _, le_refl _, by omega, ?_⟩
    rw [Nat.sub_self, Nat.zero_mod]

/-- The last block of the grid ends at the end of the sequences. -/
theorem last_block_end (n : Nat) (hn : 1 ≤ n) :
    ((n + BLOCK_SIZE - 1) / BLOCK_SIZE - 1) * BLOCK_SIZE +
      tileExtent n (((n + BLOCK_SIZE - 1) / BLOCK_SIZE - 1) * BLOCK_SIZE) = n := by
  unfold tileExtent
  simp only [BLOCK_SIZE] at *
  split_ifs <;> omega

/-- Claim C25.  For every `n ≥ 1`, with `nb = (n + 511) / 512` blocks per side, in a run of
`avx2_edit_distance` or of `parallelized_edit_distance` with `T ≥ 1` threads in which the
allocations succeed: workers are started for the waves `0 .. 2 * nb - 2` and for no other
wave, wave after wave; the last wave, `2 * nb - 2`, holds the tile `(nb - 1, nb - 1)` and no
other tile; and the value returned, read from the row buffer `(nb - 1) % 3` at index `n`
after the last wave, equals the value `process_tile` returned for that tile when it was
processed. -/
theorem finalize_reads_last_tile (env : Env) (str1 str2 : Nat → Byte) (n T : Nat)
    (l1 l2 : List Nat) (hn : 1 ≤ n) (hT : 1 ≤ T) (hok : env.AllocOk) (hfair : env.Fair T)
    (horder : env.order ((n + BLOCK_SIZE - 1) / BLOCK_SIZE - 1 +
      ((n + BLOCK_SIZE - 1) / BLOCK_SIZE - 1)) = l1 ++ 0 :: l2) :
    ((∀ w t, (w, t) ∈ workersOf (avx2_edit_distance env str1 str2 n T).trace ↔
        w < 2 * ((n + BLOCK_SIZE - 1) / BLOCK_SIZE) - 1 ∧ t < T) ∧
      workersOf (avx2_edit_distance env str1 str2 n T).trace =
        (List.range (2 * ((n + BLOCK_SIZE - 1) / BLOCK_SIZE) - 1)).flatMap
          (fun w => (env.order w).map (fun t => (w, t))) ∧
      tilesOf (avx2_edit_distance env str1 str2 n T).trace =
        (List.range (2 * ((n + BLOCK_SIZE - 1) / BLOCK_SIZE) - 1)).flatMap
          (fun w => (env.order w).flatMap
            (fun t => assignedTiles ((n + BLOCK_SIZE - 1) / BLOCK_SIZE) T w t))) ∧
    (∀ t r c, (r, c) ∈ assignedTiles ((n + BLOCK_SIZE - 1) / BLOCK_SIZE) T
        (2 * ((n + BLOCK_SIZE - 1) / BLOCK_SIZE) - 2) t ↔
      r = (n + BLOCK_SIZE - 1) / BLOCK_SIZE - 1 ∧ c = (n + BLOCK_SIZE - 1) / BLOCK_SIZE - 1 ∧
        t = 0) ∧
    (avx2_edit_distance env str1 str2 n T =
        Avx2.resume env str1 str2 n T
          ((n + BLOCK_SIZE - 1) / BLOCK_SIZE - 1 + ((n + BLOCK_SIZE - 1) / BLOCK_SIZE - 1))
          l2 0 ((n + BLOCK_SIZE - 1) / BLOCK_SIZE - 1)
          (Avx2.tile_entry env str1 str2 n T
            ((n + BLOCK_SIZE - 1) / BLOCK_SIZE - 1 + ((n + BLOCK_SIZE - 1) / BLOCK_SIZE - 1))
            l1 0 ((n + BLOCK_SIZE - 1) / BLOCK_SIZE - 1)) ∧
      (avx2_edit_distance env str1 str2 n T).value =
        (Avx2.process_tile (((n + BLOCK_SIZE - 1) / BLOCK_SIZE - 1) * BLOCK_SIZE)
          (((n + BLOCK_SIZE - 1) / BLOCK_SIZE - 1) * BLOCK_SIZE)
          ((Avx2.tile_entry env str1 str2 n T
            ((n + BLOCK_SIZE - 1) / BLOCK_SIZE - 1 + ((n + BLOCK_SIZE - 1) / BLOCK_SIZE - 1))
            l1 0 ((n + BLOCK_SIZE - 1) / BLOCK_SIZE - 1)).shared.global_rows
            (((((n + BLOCK_SIZE - 1) / BLOCK_SIZE - 1 : Nat) : Int) - 1 + 3) % 3).toNat)
          ((Avx2.tile_entry env str1 str2 n T
            ((n + BLOCK_SIZE - 1) / BLOCK_SIZE - 1 + ((n + BLOCK_SIZE - 1) / BLOCK_SIZE - 1))
            l1 0 ((n + BLOCK_SIZE - 1) / BLOCK_SIZE - 1)).shared.global_rows
            (((n + BLOCK_SIZE - 1) / BLOCK_SIZE - 1) % 3))
          (Avx2.tile_entry env str1 str2 n T
            ((n + BLOCK_SIZE - 1) / BLOCK_SIZE - 1 + ((n + BLOCK_SIZE - 1) / BLOCK_SIZE - 1))
            l1 0 ((n + BLOCK_SIZE - 1) / BLOCK_SIZE - 1)).shared.global_cols
          (tileExtent n (((n + BLOCK_SIZE - 1) / BLOCK_SIZE - 1) * BLOCK_SIZE))
          (tileExtent n (((n + BLOCK_SIZE - 1) / BLOCK_SIZE - 1) * BLOCK_SIZE)) str1 str2
          (Avx2.tile_entry env str1 str2 n T
            ((n + BLOCK_SIZE - 1) / BLOCK_SIZE - 1 + ((n + BLOCK_SIZE - 1) / BLOCK_SIZE - 1))
            l1 0 ((n + BLOCK_SIZE - 1) / BLOCK_SIZE - 1)).thread_buffer n).1.result) ∧
    (parallelized_edit_distance env str1 str2 n T).value =
      (Parallelized.process_tile (((n + BLOCK_SIZE - 1) / BLOCK_SIZE - 1) * BLOCK_SIZE)
        (((n + BLOCK_SIZE - 1) / BLOCK_SIZE - 1) * BLOCK_SIZE)
        ((Parallelized.tile_entry env str1 str2 n T
          ((n + BLOCK_SIZE - 1) / BLOCK_SIZE - 1 + ((n + BLOCK_SIZE - 1) / BLOCK_SIZE - 1))
          l1 0 ((n + BLOCK_SIZE - 1) / BLOCK_SIZE - 1)).shared.global_rows
          (((((n + BLOCK_SIZE - 1) / BLOCK_SIZE - 1 : Nat) : Int) - 1 + 3) % 3).toNat)
        ((Parallelized.tile_entry env str1 str2 n T
          ((n + BLOCK_SIZE - 1) / BLOCK_SIZE - 1 + ((n + BLOCK_SIZE - 1) / BLOCK_SIZE - 1))
          l1 0 ((n + BLOCK_SIZE - 1) / BLOCK_SIZE - 1)).shared.global_rows
          (((n + BLOCK_SIZE - 1) / BLOCK_SIZE - 1) % 3))
        (Parallelized.tile_entry env str1 str2 n T
          ((n + BLOCK_SIZE - 1) / BLOCK_SIZE - 1 + ((n + BLOCK_SIZE - 1) / BLOCK_SIZE - 1))
          l1 0 ((n + BLOCK_SIZE - 1) / BLOCK_SIZE - 1)).shared.global_cols
        (tileExtent n (((n + BLOCK_SIZE - 1) / BLOCK_SIZE - 1) * BLOCK_SIZE))
        (tileExtent n (((n + BLOCK_SIZE - 1) / BLOCK_SIZE - 1) * BLOCK_SIZE)) str1 str2
        (Parallelized.tile_entry env str1 str2 n T
          ((n + BLOCK_SIZE - 1) / BLOCK_SIZE - 1 + ((n + BLOCK_SIZE - 1) / BLOCK_SIZE - 1))
          l1 0 ((n + BLOCK_SIZE - 1) / BLOCK_SIZE - 1)).thread_prev_row
        (Parallelized.tile_entry env str1 str2 n T
          ((n + BLOCK_SIZE - 1) / BLOCK_SIZE - 1 + ((n + BLOCK_SIZE - 1) / BLOCK_SIZE - 1))
          l1 0 ((n + BLOCK_SIZE - 1) / BLOCK_SIZE - 1)).thread_cur_row).1.result := by
  have hnb : 1 ≤ (n + BLOCK_SIZE - 1) / BLOCK_SIZE := by
    simp only [BLOCK_SIZE]
    omega
  generalize hNB : (n + BLOCK_SIZE - 1) / BLOCK_SIZE = nb at *
  have hlt : nb - 1 < nb := by omega
  have hass : (nb - 1 - rowMin nb (nb - 1 + (nb - 1))) % T = 0 := by
    have e1 : rowMin nb (nb - 1 + (nb - 1)) = nb - 1 := by
      unfold rowMin
      split_ifs <;> omega
    rw [e1, Nat.sub_self, Nat.zero_mod]
  have hend := last_block_end n hn
  rw [hNB] at hend
  have hext := tileExtent_spec n (nb - 1) (by rw [hNB]; exact hlt)
  have hw := avx2_edit_distance_workers env str1 str2 n T hn hok
  rw [hNB] at hw
  have ht := avx2_edit_distance_tiles env str1 str2 n T hn hok
  rw [hNB] at ht
  refine ⟨⟨?_, hw, ht⟩, ?_, ⟨?_, ?_⟩, ?_⟩
  · intro w t
    rw [hw]
    simp only [List.mem_flatMap, List.mem_range, List.mem_map, Prod.mk.injEq]
    constructor
    · rintro ⟨w0, hw0, t0, ht0, rfl, rfl⟩
      exact ⟨hw0, List.mem_range.1 ((hfair w0).mem_iff.1 ht0)⟩
    · rintro ⟨h1, h2⟩
      exact ⟨w, h1, t, (hfair w).mem_iff.2 (List.mem_range.2 h2), rfl, rfl⟩
  · intro t r c
    exact last_wave_tiles nb T t r c hnb
  · have hg := grid_tile_on_wave nb (nb - 1) (nb - 1) hlt hlt
    have := Avx2.avx2_run_resume env str1 str2 n T (nb - 1 + (nb - 1)) l1 l2 0 (nb - 1) hn hok
      (by rw [hNB]; exact hg.1) horder (by rw [hNB]; exact hg.2.1) (by rw [hNB]; exact hg.2.2.1)
    exact this
  · have hpre := Avx2.avx2_tile_entry_pre env str1 str2 n T (nb - 1) (nb - 1) l1 l2 0 hT hok
      hfair (by rw [hNB]; exact hlt) (by rw [hNB]; exact hlt) horder (by rw [hNB]; exact hass)
    have hpost := Avx2.avx2_process_tile_post str1 str2 _ _ _ _ n _
      ((Avx2.tile_entry env str1 str2 n T (nb - 1 + (nb - 1)) l1 0 (nb - 1)).shared.global_rows
        ((nb - 1) % 3)) _
      (Avx2.tile_entry env str1 str2 n T (nb - 1 + (nb - 1)) l1 0 (nb - 1)).thread_buffer hpre
      hext.2.1 hext.2.2.2 hext.2.2.2
    rw [hpost.result, hend, avx2_edit_distance_value env str1 str2 n T hn hT hok hfair]
  · have hpre := Parallelized.par_tile_entry_pre env str1 str2 n T (nb - 1) (nb - 1) l1 l2 0 hT
      hok hfair (by rw [hNB]; exact hlt) (by rw [hNB]; exact hlt) horder
      (by rw [hNB]; exact hass)
    have hpost := Parallelized.par_process_tile_post str1 str2 _ _ _ _ _
      ((Parallelized.tile_entry env str1 str2 n T (nb - 1 + (nb - 1)) l1 0
        (nb - 1)).shared.global_rows ((nb - 1) % 3)) _
      (Parallelized.tile_entry env str1 str2 n T (nb - 1 + (nb - 1)) l1 0
        (nb - 1)).thread_prev_row
      (Parallelized.tile_entry env str1 str2 n T (nb - 1 + (nb - 1)) l1 0
        (nb - 1)).thread_cur_row hpre
    rw [hpost.result, hend, parallelized_edit_distance_value env str1 str2 n T hn hT hok hfair]

theorem finalize_reads_last_tile_witness :
    (1 ≤ 600 ∧ 1 ≤ 2 ∧ (Env.ideal 2).AllocOk ∧ (Env.ideal 2).Fair 2 ∧
      (Env.ideal 2).order ((600 + BLOCK_SIZE - 1) / BLOCK_SIZE - 1 +
        ((600 + BLOCK_SIZE - 1) / BLOCK_SIZE - 1)) = [] ++ 0 :: [1]) ∧
    ∀ w t, (w, t) ∈ workersOf
        (avx2_edit_distance (Env.ideal 2) (fun _ => 65) (fun _ => 66) 600 2).trace ↔
      w < 2 * ((600 + BLOCK_SIZE - 1) / BLOCK_SIZE) - 1 ∧ t < 2 :=
  ⟨⟨by decide, by decide, Env.ideal_allocOk 2, Env.ideal_fair 2, by decide⟩,
    (finalize_reads_last_tile (Env.ideal 2) (fun _ => 65) (fun _ => 66) 600 2 [] [1]
      (by decide) (by decide) (Env.ideal_allocOk 2) (Env.ideal_fair 2) (by decide)).1.1⟩

/-! ## The moments of a run of `tiled_edit_distance` and of `naive_edit_distance` -/

/-- A loop over block offsets that has reached the block `R` without leaving the function
goes on from there: the loop to a later bound is the loop from `R` on in the state reached. -/
theorem forStep_split {ε σ : Type} (n R : Nat) (body : Nat → σ → Except ε σ) (sm : σ)
    (hR : R * BLOCK_SIZE ≤ n) :
    ∀ (fuel r : Nat) (s : σ), r ≤ R → R ≤ r + fuel →
      forStep BLOCK_SIZE (R * BLOCK_SIZE) body fuel (r * BLOCK_SIZE) s = .ok sm →
      forStep BLOCK_SIZE n body fuel (r * BLOCK_SIZE) s =
        forStep BLOCK_SIZE n body (fuel - (R - r)) (R * BLOCK_SIZE) sm := by
  intro fuel
  induction fuel with
  | zero =>
    intro r s h1 h2 hpre
    have e : r = R := by omega
    subst e
    unfold forStep at hpre
    injection hpre with hpre
    subst hpre
    rw [Nat.sub_self, Nat.sub_zero]
  | succ fuel ih =>
    intro r s h1 h2 hpre
    by_cases hlt : r < R
    · have h3 : r * BLOCK_SIZE < R * BLOCK_SIZE := by simp only [BLOCK_SIZE]; omega
      have e : r * BLOCK_SIZE + BLOCK_SIZE = (r + 1) * BLOCK_SIZE := by
        simp only [BLOCK_SIZE]; omega
      have e2 : fuel + 1 - (R - r) = fuel - (R - (r + 1)) := by omega
      rw [forStep, if_pos h3] at hpre
      rw [forStep, if_pos (by omega), e2]
      cases hb : body (r * BLOCK_SIZE) s with
      | error v =>
        rw [hb] at hpre
        cases hpre
      | ok s1 =>
        rw [hb] at hpre
        simp only at hpre ⊢
        rw [e] at hpre ⊢
        exact ih (r + 1) s1 (by omega) (by omega) hpre
    · have e : r = R := by omega
      subst e
      rw [forStep, if_neg (by omega)] at hpre
      injection hpre with hpre
      subst hpre
      rw [Nat.sub_self, Nat.sub_zero]

/-- A block row of `tiled_edit_distance`: the loop over the block columns processes the
tiles of the row and does not leave the function. -/
theorem Tiled.tiled_block_row_inv (env : Env) (hok : env.AllocOk) (str1 str2 : Nat → Byte)
    (n r : Nat) (hr : r * BLOCK_SIZE < n) (s : Tiled.State)
    (hs : BoundsInv str1 str2 n (fun r => (r + 1) % 2) (tiledDone r 0) s.rows s.col_bounds) :
    ∃ s', forStep BLOCK_SIZE n (Tiled.tile_step env str1 str2 n (r * BLOCK_SIZE)) n 0 s =
        .ok s' ∧
      BoundsInv str1 str2 n (fun r => (r + 1) % 2) (tiledDone (r + 1) 0) s'.rows
        s'.col_bounds := by
  have hfuel : (n + BLOCK_SIZE - 1) / BLOCK_SIZE ≤ 0 + n := by
    simp only [BLOCK_SIZE]; omega
  have h0 : (0 : Nat) = 0 * BLOCK_SIZE := by simp
  have hinner := forStep_blocks
    (fun c (s : Tiled.State) =>
      BoundsInv str1 str2 n (fun r => (r + 1) % 2) (tiledDone r c) s.rows s.col_bounds) n
    (Tiled.tile_step env str1 str2 n (r * BLOCK_SIZE))
    (fun c s hc hs => Tiled.tiled_tile_step_inv env hok str1 str2 n r c hr hc s hs)
    n 0 s hfuel (Nat.zero_le _) hs
  obtain ⟨s', hs', hP⟩ := hinner
  rw [← h0] at hs'
  refine ⟨s', hs', hP.congr ?_⟩
  intro r' c' _ hc'
  unfold tiledDone
  simp only [BLOCK_SIZE] at *
  omega

/-- The loops of `tiled_edit_distance` reach every tile of the grid, with the tiles before
it processed. -/
theorem Tiled.tiled_tile_entry_inv (env : Env) (hok : env.AllocOk) (str1 str2 : Nat → Byte)
    (n ri cj : Nat) (hri : ri * BLOCK_SIZE < n) (hcj : cj * BLOCK_SIZE < n) :
    ∃ s, Tiled.tile_entry env str1 str2 n ri cj = .ok s ∧
      BoundsInv str1 str2 n (fun r => (r + 1) % 2) (tiledDone ri cj) s.rows s.col_bounds := by
  have h0 : (0 : Nat) = 0 * BLOCK_SIZE := by simp
  have eR : ∀ R, (R * BLOCK_SIZE + BLOCK_SIZE - 1) / BLOCK_SIZE = R := by
    intro R
    simp only [BLOCK_SIZE]
    omega
  have hinit : BoundsInv str1 str2 n (fun r => (r + 1) % 2) (tiledDone 0 0)
      (Tiled.init env n).rows (Tiled.init env n).col_bounds :=
    Tiled.init_inv str1 str2 n _ _ _ _
  have houter := forStep_blocks
    (fun r (s : Tiled.State) =>
      BoundsInv str1 str2 n (fun r => (r + 1) % 2) (tiledDone r 0) s.rows s.col_bounds)
    (ri * BLOCK_SIZE)
    (fun i s => forStep BLOCK_SIZE n (Tiled.tile_step env str1 str2 n i) n 0 s)
    (fun r s hr hs => Tiled.tiled_block_row_inv env hok str1 str2 n r
      (by simp only [BLOCK_SIZE] at *; omega) s hs)
    n 0 (Tiled.init env n) (by rw [eR]; simp only [BLOCK_SIZE] at *; omega) (Nat.zero_le _)
    hinit
  rw [← h0, eR] at houter
  obtain ⟨s0, hs0, hP0⟩ := houter
  have hinner := forStep_blocks
    (fun c (s : Tiled.State) =>
      BoundsInv str1 str2 n (fun r => (r + 1) % 2) (tiledDone ri c) s.rows s.col_bounds)
    (cj * BLOCK_SIZE)
    (Tiled.tile_step env str1 str2 n (ri * BLOCK_SIZE))
    (fun c s hc hs => Tiled.tiled_tile_step_inv env hok str1 str2 n ri c hri
      (by simp only [BLOCK_SIZE] at *; omega) s hs)
    n 0 s0 (by rw [eR]; simp only [BLOCK_SIZE] at *; omega) (Nat.zero_le _) hP0
  rw [← h0, eR] at hinner
  obtain ⟨s, hs, hP⟩ := hinner
  refine ⟨s, ?_, hP⟩
  unfold Tiled.tile_entry
  rw [hs0]
  exact hs

/-- A run of `tiled_edit_distance` passes through the state `tile_entry` and goes on from
there: the run is the rest of the run from that state. -/
theorem Tiled.tiled_run_resume (env : Env) (hok : env.AllocOk) (str1 str2 : Nat → Byte)
    (n ri cj : Nat) (hri : ri * BLOCK_SIZE < n) (hcj : cj * BLOCK_SIZE < n) (s : Tiled.State)
    (hs : Tiled.tile_entry env str1 str2 n ri cj = .ok s) :
    tiled_edit_distance env str1 str2 n = Tiled.resume env str1 str2 n ri cj s := by
  have h0 : (0 : Nat) = 0 * BLOCK_SIZE := by simp
  unfold Tiled.tile_entry at hs
  cases hpre : forStep BLOCK_SIZE (ri * BLOCK_SIZE)
      (fun i s => forStep BLOCK_SIZE n (Tiled.tile_step env str1 str2 n i) n 0 s)
      n 0 (Tiled.init env n) with
  | error v =>
    rw [hpre] at hs
    cases hs
  | ok s0 =>
    rw [hpre] at hs
    simp only at hs
    have hn1 : ri < n := by simp only [BLOCK_SIZE] at *; omega
    have hn2 : cj < n := by simp only [BLOCK_SIZE] at *; omega
    rw [h0] at hpre hs
    have e1 := forStep_split n ri
      (fun i s => forStep BLOCK_SIZE n (Tiled.tile_step env str1 str2 n i) n 0 s) s0
      (by omega) n 0 (Tiled.init env n) (Nat.zero_le _) (by omega) hpre
    have e2 := forStep_split n cj (Tiled.tile_step env str1 str2 n (ri * BLOCK_SIZE)) s
      (by omega) n 0 s0 (Nat.zero_le _) (by omega) hs
    rw [← h0] at e1 e2
    have e3 : n - (ri - 0) = (n - (ri + 1)) + 1 := by omega
    have e4 : ri * BLOCK_SIZE + BLOCK_SIZE = (ri + 1) * BLOCK_SIZE := by
      simp only [BLOCK_SIZE]; omega
    rw [e3, forStep, if_pos hri] at e1
    rw [e2, Nat.sub_zero, e4] at e1
    unfold tiled_edit_distance Tiled.resume
    rw [if_neg (by omega)]
    simp only [hok.1, Bool.not_true, Bool.or_self, Bool.false_eq_true, if_false]
    have e5 : forStep BLOCK_SIZE n
        (fun i s => forStep BLOCK_SIZE n (Tiled.tile_step env str1 str2 n i) n 0 s) n 0
        (forLoop 0 n
          (fun i (s : Tiled.State) => ⟨store s.row_bounds1 i (i : Int),
            store s.row_bounds2 i (i : Int), store s.col_bounds i (i : Int), s.trace⟩)
          ⟨env.malloc_fresh 0, env.malloc_fresh 1, env.malloc_fresh 2,
            [Event.malloc true, Event.malloc true, Event.malloc true]⟩) =
        forStep BLOCK_SIZE n
          (fun i s => forStep BLOCK_SIZE n (Tiled.tile_step env str1 str2 n i) n 0 s) n 0
          (Tiled.init env n) := by
      unfold Tiled.init
      simp only [hok.1]
    rw [e5, e1]
    cases forStep BLOCK_SIZE n (Tiled.tile_step env str1 str2 n (ri * BLOCK_SIZE)) (n - cj)
        (cj * BLOCK_SIZE) s with
    | error v => rfl
    | ok s1 => rfl

/-- At the moment a run of `tiled_edit_distance` processes the tile `(ri, cj)`, the tile
finds the values of the table on its edges. -/
theorem Tiled.tiled_tile_entry_pre (env : Env) (hok : env.AllocOk) (str1 str2 : Nat → Byte)
    (n ri cj : Nat) (hri : ri * BLOCK_SIZE < n) (hcj : cj * BLOCK_SIZE < n) (s : Tiled.State)
    (hs : Tiled.tile_entry env str1 str2 n ri cj = .ok s) :
    TilePre str1 str2 (ri * BLOCK_SIZE) (cj * BLOCK_SIZE) (tileExtent n (ri * BLOCK_SIZE))
      (tileExtent n (cj * BLOCK_SIZE))
      (if ri % 2 = 0 then s.row_bounds1 else s.row_bounds2) s.col_bounds := by
  obtain ⟨s1, hs1, hinv⟩ := Tiled.tiled_tile_entry_inv env hok str1 str2 n ri cj hri hcj
  rw [hs] at hs1
  injection hs1 with hs1
  subst hs1
  have hh : ri * BLOCK_SIZE + tileExtent n (ri * BLOCK_SIZE) = blockEnd n ri := by
    unfold blockEnd tileExtent; simp only [BLOCK_SIZE] at *; split_ifs <;> omega
  have hww : cj * BLOCK_SIZE + tileExtent n (cj * BLOCK_SIZE) = blockEnd n cj := by
    unfold blockEnd tileExtent; simp only [BLOCK_SIZE] at *; split_ifs <;> omega
  have E2 : ∀ r', r' * BLOCK_SIZE < n → tiledDone ri cj r' cj → r' < ri := by
    intro r' _ hd
    unfold tiledDone at hd
    omega
  have E4 : ∀ c', c' * BLOCK_SIZE < n → tiledDone ri cj ri c' → c' < cj := by
    intro c' _ hd
    unfold tiledDone at hd
    omega
  have hpre := hinv.pre ri cj _ _ (ri % 2) (ri + 1) hri hcj hh hww (by omega)
    (fun h1 => by omega) E2 (fun h1 => by unfold tiledDone; omega) E4
    (fun h1 => by unfold tiledDone; omega)
    (fun h1 h2 => ⟨by unfold tiledDone; omega, fun r' _ hwr hd => by
      unfold tiledDone at hd; omega⟩)
  have e : s.rows (ri % 2) = (if ri % 2 = 0 then s.row_bounds1 else s.row_bounds2) := by
    unfold Tiled.State.rows
    by_cases hpar : ri % 2 = 0
    · rw [if_pos hpar, if_pos hpar]
    · rw [if_neg hpar, if_neg hpar, if_pos (by omega)]
  rw [e] at hpre
  exact hpre

/-- The rows of `naive_edit_distance` are the rows of the table. -/
theorem Naive.naive_rows_after_table (env : Env) (str1 str2 : Nat → Byte) (n i : Nat) :
    ∀ j, j ≤ n → (Naive.rows_after env str1 str2 n i).1.get j = (D str1 str2 i j : Int) := by
  have hst := forLoop_store 0 n (fun i p => store p i (i : Int)) (fun j => j)
    (fun j => (j : Int)) (env.malloc_fresh 0) (by omega) (fun _ _ h => h)
    (fun _ _ _ _ => rfl)
  have key := forLoop_inv
    (fun i (s : Buf × Buf) => ∀ j, j ≤ n → s.1.get j = (D str1 str2 (i - 1) j : Int))
    1 i (Naive.row str1 str2 n)
    (forLoop 0 n (fun i p => store p i (i : Int)) (env.malloc_fresh 0), env.malloc_fresh 1)
    (by omega)
    (by
      intro j hj
      simpa [D_zero_left] using hst.1 j (by omega) hj)
    (by
      intro i s h1 h2 hs j hj
      unfold Naive.row
      simp only [Nat.add_sub_cancel]
      exact Naive.naive_cell_loop str1 str2 n i h1 s.1 _ hs (by simp [D_zero_right]) j hj)
  intro j hj
  simpa using key j hj

/-! ## The match shortcut -/

/-- On the Levenshtein table the rule of the scalar kernels and the three-way minimum give
the same value, the table's entry. -/
theorem rules_on_table (str1 str2 : Nat → Byte) (a b : Nat) (ha : 1 ≤ a) (hb : 1 ≤ b) :
    (D str1 str2 a b : Int) =
      shortcutRule (str1 (a - 1) = str2 (b - 1)) (D str1 str2 (a - 1) b)
        (D str1 str2 a (b - 1)) (D str1 str2 (a - 1) (b - 1)) ∧
    shortcutRule (str1 (a - 1) = str2 (b - 1)) (D str1 str2 (a - 1) b)
        (D str1 str2 a (b - 1)) (D str1 str2 (a - 1) (b - 1)) =
      minRule (str1 (a - 1) = str2 (b - 1)) (D str1 str2 (a - 1) b)
        (D str1 str2 a (b - 1)) (D str1 str2 (a - 1) (b - 1)) := by
  have h1 := D_rec_shortcut str1 str2 a b ha hb
  have h2 := D_rec_min str1 str2 a b ha hb
  rw [min_comm ((D str1 str2 a (b - 1) : Int) + 1)] at h2
  unfold shortcutRule minRule
  exact ⟨h1, h1.symm.trans h2⟩

/-- The cells the kernels store, in terms of the two rules: the scalar kernels and
`naive_edit_distance` store the value of the shortcut rule, the cleanup loop of the SIMD
kernel stores the three-way minimum. -/
theorem kernels_store_rules (str1 str2 : Nat → Byte) (ro co h i j k : Nat)
    (prev cur buffer : Buf) :
    (Parallelized.cell ro co str1 str2 i prev j cur).get j =
      shortcutRule (str1 (ro + i - 1) = str2 (co + j - 1)) (prev.get j) (cur.get (j - 1))
        (prev.get (j - 1)) ∧
    (Tiled.cell ro co str1 str2 i prev j cur).get j =
      shortcutRule (str1 (ro + i - 1) = str2 (co + j - 1)) (prev.get j) (cur.get (j - 1))
        (prev.get (j - 1)) ∧
    (Naive.cell str1 str2 i prev j cur).get j =
      shortcutRule (str1 (i - 1) = str2 (j - 1)) (prev.get j) (cur.get (j - 1))
        (prev.get (j - 1)) ∧
    (Avx2.scalar_cell ro co h str1 str2 k i buffer).get (Avx2.idx h k i) =
      minRule (str1 (ro + i - 1) = str2 (co + (k - i) - 1))
        (buffer.get (Avx2.idx h (k - 1) (i - 1))) (buffer.get (Avx2.idx h (k - 1) i))
        (buffer.get (Avx2.idx h (k - 1 - 1) (i - 1))) := by
  refine ⟨?_, ?_, ?_, ?_⟩
  · unfold Parallelized.cell shortcutRule
    simp only [store_get, if_pos, Parallelized.par_min_eq]
  · unfold Tiled.cell shortcutRule
    simp only [store_get, if_pos, Tiled.tiled_min_eq]
  · unfold Naive.cell shortcutRule
    simp only [store_get, if_pos, Naive.naive_min_eq]
  · unfold Avx2.scalar_cell minRule
    simp only [store_get, if_pos, Avx2.min_scalar_eq]
    rw [min_comm (buffer.get (Avx2.idx h (k - 1) i) + 1)]

/-- Claim C27.  For every tile `(r, c)` processed during a run of `tiled_edit_distance` or of
`parallelized_edit_distance` in which the allocations succeed, and every interior cell
`(i, j)` of the tile: the value the scalar kernel gives the cell is the value of its match
shortcut on the cell's three neighbours - the diagonal neighbour when the two symbols are
equal, one more than the least of the three otherwise - and this is the same value as the
three-way minimum `min(top + 1, left + 1, diag + cost)` of the SIMD kernel on these
neighbours; the same holds for every cell of `naive_edit_distance`. -/
theorem match_shortcut_agrees (env : Env) (str1 str2 : Nat → Byte) (n T r c : Nat)
    (l1 l2 : List Nat) (t i j : Nat) (hT : 1 ≤ T) (hok : env.AllocOk)
    (hfair : env.Fair T) (hr : r < (n + BLOCK_SIZE - 1) / BLOCK_SIZE)
    (hc : c < (n + BLOCK_SIZE - 1) / BLOCK_SIZE)
    (horder : env.order (r + c) = l1 ++ t :: l2)
    (hass : (r - rowMin ((n + BLOCK_SIZE - 1) / BLOCK_SIZE) (r + c)) % T = t)
    (hi1 : 1 ≤ i) (hi2 : i ≤ tileExtent n (r * BLOCK_SIZE))
    (hj1 : 1 ≤ j) (hj2 : j ≤ tileExtent n (c * BLOCK_SIZE)) :
    (∀ P : Nat → Buf,
      (P = fun k => (Parallelized.tile_rows (r * BLOCK_SIZE) (c * BLOCK_SIZE)
        ((Parallelized.tile_entry env str1 str2 n T (r + c) l1 t r).shared.global_rows
          (((r : Int) - 1 + 3) % 3).toNat)
        (Parallelized.tile_entry env str1 str2 n T (r + c) l1 t r).shared.global_cols
        (tileExtent n (c * BLOCK_SIZE)) str1 str2
        (Parallelized.tile_entry env str1 str2 n T (r + c) l1 t r).thread_prev_row
        (Parallelized.tile_entry env str1 str2 n T (r + c) l1 t r).thread_cur_row
        k).prev_row) →
      (P i).get j = shortcutRule (str1 (r * BLOCK_SIZE + i - 1) = str2 (c * BLOCK_SIZE + j - 1))
          ((P (i - 1)).get j) ((P i).get (j - 1)) ((P (i - 1)).get (j - 1)) ∧
        shortcutRule (str1 (r * BLOCK_SIZE + i - 1) = str2 (c * BLOCK_SIZE + j - 1))
          ((P (i - 1)).get j) ((P i).get (j - 1)) ((P (i - 1)).get (j - 1)) =
        minRule (str1 (r * BLOCK_SIZE + i - 1) = str2 (c * BLOCK_SIZE + j - 1))
          ((P (i - 1)).get j) ((P i).get (j - 1)) ((P (i - 1)).get (j - 1))) ∧
    (∃ s : Tiled.State, Tiled.tile_entry env str1 str2 n r c = .ok s ∧
      tiled_edit_distance env str1 str2 n = Tiled.resume env str1 str2 n r c s ∧
      ∀ P : Nat → Buf,
        (P = fun k => (Tiled.tile_rows (r * BLOCK_SIZE) (c * BLOCK_SIZE)
          (if r % 2 = 0 then s.row_bounds1 else s.row_bounds2) s.col_bounds
          (tileExtent n (c * BLOCK_SIZE)) str1 str2
          (env.scratch_fresh 0 r c) (env.scratch_fresh 1 r c) k).prev_row) →
        (P i).get j =
            shortcutRule (str1 (r * BLOCK_SIZE + i - 1) = str2 (c * BLOCK_SIZE + j - 1))
            ((P (i - 1)).get j) ((P i).get (j - 1)) ((P (i - 1)).get (j - 1)) ∧
          shortcutRule (str1 (r * BLOCK_SIZE + i - 1) = str2 (c * BLOCK_SIZE + j - 1))
            ((P (i - 1)).get j) ((P i).get (j - 1)) ((P (i - 1)).get (j - 1)) =
          minRule (str1 (r * BLOCK_SIZE + i - 1) = str2 (c * BLOCK_SIZE + j - 1))
            ((P (i - 1)).get j) ((P i).get (j - 1)) ((P (i - 1)).get (j - 1))) ∧
    (∀ a b, 1 ≤ a → 1 ≤ b → b ≤ n → ∀ N : Nat → Buf,
      (N = fun k => (Naive.rows_after env str1 str2 n k).1) →
      (N a).get b = shortcutRule (str1 (a - 1) = str2 (b - 1))
          ((N (a - 1)).get b) ((N a).get (b - 1)) ((N (a - 1)).get (b - 1)) ∧
        shortcutRule (str1 (a - 1) = str2 (b - 1))
          ((N (a - 1)).get b) ((N a).get (b - 1)) ((N (a - 1)).get (b - 1)) =
        minRule (str1 (a - 1) = str2 (b - 1))
          ((N (a - 1)).get b) ((N a).get (b - 1)) ((N (a - 1)).get (b - 1))) ∧
    (naive_edit_distance env str1 str2 n).value =
      if n < 1 then 0 else (Naive.rows_after env str1 str2 n n).1.get n := by
  have hrn : r * BLOCK_SIZE < n := by simp only [BLOCK_SIZE] at *; omega
  have hcn : c * BLOCK_SIZE < n := by simp only [BLOCK_SIZE] at *; omega
  have e1 : r * BLOCK_SIZE + i - 1 = r * BLOCK_SIZE + (i - 1) := by omega
  have e2 : c * BLOCK_SIZE + j - 1 = c * BLOCK_SIZE + (j - 1) := by omega
  have hD := rules_on_table str1 str2 (r * BLOCK_SIZE + i) (c * BLOCK_SIZE + j) (by omega)
    (by omega)
  rw [e1, e2] at hD
  refine ⟨?_, ?_, ?_, ?_⟩
  · intro P hP
    have hpre := Parallelized.par_tile_entry_pre env str1 str2 n T r c l1 l2 t hT hok hfair hr
      hc horder hass
    have hcell : ∀ a b, a ≤ tileExtent n (r * BLOCK_SIZE) → b ≤ tileExtent n (c * BLOCK_SIZE) →
        (P a).get b = (D str1 str2 (r * BLOCK_SIZE + a) (c * BLOCK_SIZE + b) : Int) := by
      intro a b ha hb
      rw [hP]
      exact Parallelized.par_tile_rows_table _ _ _ _ _ _ _ _ _ _ hpre a b ha hb
    rw [hcell i j hi2 hj2, hcell (i - 1) j (by omega) hj2, hcell i (j - 1) hi2 (by omega),
      hcell (i - 1) (j - 1) (by omega) (by omega), e1, e2]
    exact hD
  · obtain ⟨s, hs, _⟩ := Tiled.tiled_tile_entry_inv env hok str1 str2 n r c hrn hcn
    refine ⟨s, hs, Tiled.tiled_run_resume env hok str1 str2 n r c hrn hcn s hs, ?_⟩
    intro P hP
    have hpre := Tiled.tiled_tile_entry_pre env hok str1 str2 n r c hrn hcn s hs
    have hcell : ∀ a b, a ≤ tileExtent n (r * BLOCK_SIZE) → b ≤ tileExtent n (c * BLOCK_SIZE) →
        (P a).get b = (D str1 str2 (r * BLOCK_SIZE + a) (c * BLOCK_SIZE + b) : Int) := by
      intro a b ha hb
      rw [hP]
      exact Tiled.tiled_tile_rows_table _ _ _ _ _ _ _ _ _ _ hpre a b ha hb
    rw [hcell i j hi2 hj2, hcell (i - 1) j (by omega) hj2, hcell i (j - 1) hi2 (by omega),
      hcell (i - 1) (j - 1) (by omega) (by omega), e1, e2]
    exact hD
  · intro a b ha hb hbn N hN
    have hcell : ∀ a b, b ≤ n → (N a).get b = (D str1 str2 a b : Int) := by
      intro a b hb
      rw [hN]
      exact Naive.naive_rows_after_table env str1 str2 n a b hb
    rw [hcell a b hbn, hcell (a - 1) b hbn, hcell a (b - 1) (by omega),
      hcell (a - 1) (b - 1) (by omega)]
    exact rules_on_table str1 str2 a b ha hb
  · unfold naive_edit_distance Naive.rows_after
    by_cases hn : n < 1
    · rw [if_pos hn, if_pos hn]
    · rw [if_neg hn, if_neg hn]
      simp only [hok.1, Bool.not_true, Bool.or_self, Bool.false_eq_true, if_false]

theorem match_shortcut_agrees_witness :
    (1 ≤ 2 ∧ (Env.ideal 2).AllocOk ∧ (Env.ideal 2).Fair 2 ∧
      1 < (600 + BLOCK_SIZE - 1) / BLOCK_SIZE ∧ 1 < (600 + BLOCK_SIZE - 1) / BLOCK_SIZE ∧
      (Env.ideal 2).order (1 + 1) = [] ++ 0 :: [1] ∧
      (1 - rowMin ((600 + BLOCK_SIZE - 1) / BLOCK_SIZE) (1 + 1)) % 2 = 0 ∧
      1 ≤ 1 ∧ 1 ≤ tileExtent 600 (1 * BLOCK_SIZE) ∧ 1 ≤ 1 ∧
      1 ≤ tileExtent 600 (1 * BLOCK_SIZE)) ∧
    (naive_edit_distance (Env.ideal 2) (fun _ => 65) (fun _ => 66) 600).value =
      if 600 < 1 then 0
      else (Naive.rows_after (Env.ideal 2) (fun _ => 65) (fun _ => 66) 600 600).1.get 600 :=
  ⟨⟨by decide, Env.ideal_allocOk 2, Env.ideal_fair 2, by decide, by decide, by decide,
      by decide, by decide, by decide, by decide, by decide⟩,
    (match_shortcut_agrees (Env.ideal 2) (fun _ => 65) (fun _ => 66) 600 2 1 1 [] [1] 0 1 1
      (by decide) (Env.ideal_allocOk 2) (Env.ideal_fair 2) (by decide) (by decide)
      (by decide) (by decide) (by decide) (by decide) (by decide) (by decide)).2.2.2⟩

/-! ## The size of the values -/

/-- An entry of the table is at most the sum of its two indices. -/
theorem D_le_add (str1 str2 : Nat → Byte) (i j : Nat) : D str1 str2 i j ≤ i + j := by
  induction i with
  | zero => simp [D_zero_left]
  | succ i ih =>
    have := D_succ_left_le str1 str2 i j
    omega

/-- The initialisation loop of the threaded entry points stores `y` at every index
`y ≤ len` of the four buffers. -/
theorem sharedInit_get (env : Env) (n : Nat) :
    (∀ k y, k < 3 → y ≤ n → ((sharedInit env n).global_rows k).get y = (y : Int)) ∧
    (∀ y, y ≤ n → (sharedInit env n).global_cols.get y = (y : Int)) := by
  unfold sharedInit
  have key := forLoop_inv
    (fun i (s : Shared) =>
      (∀ k y, k < 3 → y < i → (s.global_rows k).get y = (y : Int)) ∧
      (∀ y, y < i → s.global_cols.get y = (y : Int)))
    0 n
    (fun i (s : Shared) => ⟨Function.update (Function.update (Function.update s.global_rows
        0 (store (s.global_rows 0) i (i : Int)))
        1 (store (s.global_rows 1) i (i : Int)))
        2 (store (s.global_rows 2) i (i : Int)),
      store s.global_cols i (i : Int), s.trace⟩)
    ⟨env.malloc_fresh, env.malloc_fresh 3,
      [Event.malloc (env.malloc_ok 0), Event.malloc (env.malloc_ok 1),
        Event.malloc (env.malloc_ok 2), Event.malloc (env.malloc_ok 3)]⟩ (Nat.zero_le _)
    ⟨fun _ _ _ h => by omega, fun _ h => by omega⟩
    (by
      intro i s _ _ ⟨hr, hc⟩
      refine ⟨?_, ?_⟩
      · intro k y hk hy
        have hk' : k = 0 ∨ k = 1 ∨ k = 2 := by omega
        rcases hk' with rfl | rfl | rfl
        · simp only [Function.update_noteq (show (0 : Nat) ≠ 2 by decide),
            Function.update_noteq (show (0 : Nat) ≠ 1 by decide), Function.update_same,
            store_get]
          split_ifs with h
          · rw [h]
          · exact hr 0 y (by omega) (by omega)
        · simp only [Function.update_noteq (show (1 : Nat) ≠ 2 by decide),
            Function.update_same, store_get]
          split_ifs with h
          · rw [h]
          · exact hr 1 y (by omega) (by omega)
        · simp only [Function.update_same, store_get]
          split_ifs with h
          · rw [h]
          · exact hr 2 y (by omega) (by omega)
      · intro y hy
        simp only [store_get]
        split_ifs with h
        · rw [h]
        · exact hc y (by omega))
  exact ⟨fun k y hk hy => key.1 k y hk (by omega), fun y hy => key.2 y (by omega)⟩

/-- The scratch buffer of the SIMD kernel at its end, on the table's boundary values: the
cell `(i, j)` of the tile holds the table's entry. -/
theorem Avx2.avx2_process_tile_buffer_table (str1 str2 : Nat → Byte)
    (ro co h w total_len : Nat) (rr rw cols buffer : Buf)
    (hpre : TilePre str1 str2 ro co h w rr cols) (hh1 : 1 ≤ h) (hh : ro + h ≤ total_len)
    (hw : co + w ≤ total_len) (i j : Nat) (hi : i ≤ h) (hj : j ≤ w) :
    (Avx2.process_tile ro co rr rw cols h w str1 str2 buffer total_len).2.get
      (Avx2.idx h (i + j) i) = (D str1 str2 (ro + i) (co + j) : Int) := by
  have hK := Avx2.known_diagonals str1 str2 ro co h w _ hh1
    (Avx2.known_prefill str1 str2 ro co h w total_len rr cols buffer hpre hh hw)
  exact hK i j hi hj (Or.inr (Or.inr (Or.inl (by omega))))

/-- Claim C26.  For every `n ≥ 1`, all sequences of length `n` and every `T ≥ 1`, in a run
of `avx2_edit_distance` in which the allocations succeed: the values the initialisation
stores in the row and column buffers, and for every tile `(r, c)` at the moment it is
processed the values that `process_tile` leaves in the scratch cells of the tile (boundary
cells included), in the row buffer it writes and in the column buffer, lie between `0` and
`2 * n`; so for `n < 2 ^ 30` a cell value plus one stays below `2 ^ 31`: no addition of the
recurrence leaves the range of a 32-bit signed integer. -/
theorem stored_values_bounded (env : Env) (str1 str2 : Nat → Byte) (n T r c : Nat)
    (l1 l2 : List Nat) (t : Nat) (hT : 1 ≤ T) (hok : env.AllocOk)
    (hfair : env.Fair T) (hr : r < (n + BLOCK_SIZE - 1) / BLOCK_SIZE)
    (hc : c < (n + BLOCK_SIZE - 1) / BLOCK_SIZE)
    (horder : env.order (r + c) = l1 ++ t :: l2)
    (hass : (r - rowMin ((n + BLOCK_SIZE - 1) / BLOCK_SIZE) (r + c)) % T = t) :
    (∀ k y, k < 3 → y ≤ n → 0 ≤ ((sharedInit env n).global_rows k).get y ∧
      ((sharedInit env n).global_rows k).get y ≤ 2 * (n : Int)) ∧
    (∀ y, y ≤ n → 0 ≤ (sharedInit env n).global_cols.get y ∧
      (sharedInit env n).global_cols.get y ≤ 2 * (n : Int)) ∧
    (∀ out : TileOut × Buf,
      out = Avx2.process_tile (r * BLOCK_SIZE) (c * BLOCK_SIZE)
        ((Avx2.tile_entry env str1 str2 n T (r + c) l1 t r).shared.global_rows
          (((r : Int) - 1 + 3) % 3).toNat)
        ((Avx2.tile_entry env str1 str2 n T (r + c) l1 t r).shared.global_rows (r % 3))
        (Avx2.tile_entry env str1 str2 n T (r + c) l1 t r).shared.global_cols
        (tileExtent n (r * BLOCK_SIZE)) (tileExtent n (c * BLOCK_SIZE)) str1 str2
        (Avx2.tile_entry env str1 str2 n T (r + c) l1 t r).thread_buffer n →
      (∀ i j, i ≤ tileExtent n (r * BLOCK_SIZE) → j ≤ tileExtent n (c * BLOCK_SIZE) →
        0 ≤ out.2.get (Avx2.idx (tileExtent n (r * BLOCK_SIZE)) (i + j) i) ∧
        out.2.get (Avx2.idx (tileExtent n (r * BLOCK_SIZE)) (i + j) i) ≤ 2 * (n : Int) ∧
        (n < 2 ^ 30 →
          out.2.get (Avx2.idx (tileExtent n (r * BLOCK_SIZE)) (i + j) i) + 1 < 2 ^ 31)) ∧
      (∀ x, c * BLOCK_SIZE < x → x ≤ c * BLOCK_SIZE + tileExtent n (c * BLOCK_SIZE) →
        0 ≤ out.1.global_rows_write.get x ∧ out.1.global_rows_write.get x ≤ 2 * (n : Int)) ∧
      (∀ x, r * BLOCK_SIZE < x → x ≤ r * BLOCK_SIZE + tileExtent n (r * BLOCK_SIZE) →
        0 ≤ out.1.global_cols.get x ∧ out.1.global_cols.get x ≤ 2 * (n : Int)) ∧
      0 ≤ out.1.result ∧ out.1.result ≤ 2 * (n : Int)) := by
  have hinit := sharedInit_get env n
  have hpre := Avx2.avx2_tile_entry_pre env str1 str2 n T r c l1 l2 t hT hok hfair hr hc horder
    hass
  have hextr := tileExtent_spec n r hr
  have hextc := tileExtent_spec n c hc
  have hD : ∀ a b, a ≤ n → b ≤ n → (0 : Int) ≤ (D str1 str2 a b : Int) ∧
      (D str1 str2 a b : Int) ≤ 2 * (n : Int) := by
    intro a b ha hb
    have := D_le_add str1 str2 a b
    omega
  refine ⟨?_, ?_, ?_⟩
  · intro k y hk hy
    rw [hinit.1 k y hk hy]
    omega
  · intro y hy
    rw [hinit.2 y hy]
    omega
  · intro out hout
    have hpost := Avx2.avx2_process_tile_post str1 str2 _ _ _ _ n _
      ((Avx2.tile_entry env str1 str2 n T (r + c) l1 t r).shared.global_rows (r % 3)) _
      (Avx2.tile_entry env str1 str2 n T (r + c) l1 t r).thread_buffer hpre
      hextr.2.1 hextr.2.2.2 hextc.2.2.2
    have hbuf := Avx2.avx2_process_tile_buffer_table str1 str2 _ _ _ _ n _
      ((Avx2.tile_entry env str1 str2 n T (r + c) l1 t r).shared.global_rows (r % 3)) _
      (Avx2.tile_entry env str1 str2 n T (r + c) l1 t r).thread_buffer hpre
      hextr.2.1 hextr.2.2.2 hextc.2.2.2
    rw [← hout] at hpost hbuf
    refine ⟨?_, ?_, ?_, ?_⟩
    · intro i j hi hj
      rw [hbuf i j hi hj]
      have := hD (r * BLOCK_SIZE + i) (c * BLOCK_SIZE + j) (by omega) (by omega)
      refine ⟨this.1, this.2, ?_⟩
      intro hn
      omega
    · intro x h1 h2
      rw [hpost.rows, if_pos ⟨h1, h2⟩]
      exact hD _ _ (by omega) (by omega)
    · intro x h1 h2
      rw [hpost.cols, if_pos ⟨h1, h2⟩]
      exact hD _ _ (by omega) (by omega)
    · rw [hpost.result]
      exact hD _ _ (by omega) (by omega)

theorem stored_values_bounded_witness :
    (1 ≤ 2 ∧ (Env.ideal 2).AllocOk ∧ (Env.ideal 2).Fair 2 ∧
      1 < (600 + BLOCK_SIZE - 1) / BLOCK_SIZE ∧ 1 < (600 + BLOCK_SIZE - 1) / BLOCK_SIZE ∧
      (Env.ideal 2).order (1 + 1) = [] ++ 0 :: [1] ∧
      (1 - rowMin ((600 + BLOCK_SIZE - 1) / BLOCK_SIZE) (1 + 1)) % 2 = 0) ∧
    ∀ y, y ≤ 600 → 0 ≤ (sharedInit (Env.ideal 2) 600).global_cols.get y ∧
      (sharedInit (Env.ideal 2) 600).global_cols.get y ≤ 2 * ((600 : Nat) : Int) :=
  ⟨⟨by decide, Env.ideal_allocOk 2, Env.ideal_fair 2, by decide, by decide, by decide,
      by decide⟩,
    (stored_values_bounded (Env.ideal 2) (fun _ => 65) (fun _ => 66) 600 2 1 1 [] [1] 0
      (by decide) (Env.ideal_allocOk 2) (Env.ideal_fair 2) (by decide) (by decide)
      (by decide) (by decide)).2.1⟩

/-! ## The vector path and the scalar path of the SIMD kernel -/

namespace Avx2

/-- The scalar cleanup loop over the rows `i .. m - 1` of diagonal `k` stores in each of
these cells the value of the recurrence on the buffer as it was before the loop: the cells
of a diagonal do not depend on each other. -/
theorem scalar_cells_get (ro co h : Nat) (str1 str2 : Nat → Byte) (k i m : Nat) (buf : Buf)
    (hk : 1 ≤ k) (him : i ≤ m) (hm : m ≤ h + 1) (x : Nat) :
    (forLt i m (scalar_cell ro co h str1 str2 k) buf).get x =
      if idx h k i ≤ x ∧ x < idx h k i + (m - i) then
        cell_value ro co h str1 str2 k (i + (x - idx h k i)) buf
      else buf.get x := by
  have key := forLt_inv
    (fun m (s : Buf) => ∀ x, s.get x =
      if idx h k i ≤ x ∧ x < idx h k i + (m - i) then
        cell_value ro co h str1 str2 k (i + (x - idx h k i)) buf
      else buf.get x)
    i m (scalar_cell ro co h str1 str2 k) buf him
    (by
      intro x
      rw [if_neg (by omega)])
    (by
      intro m0 s h1 h2 hs x
      have hout : ∀ k0 i0, k0 < k → i0 ≤ h → s.get (idx h k0 i0) = buf.get (idx h k0 i0) := by
        intro k0 i0 hk0 hi0
        rw [hs, if_neg]
        intro hx
        have e : idx h k0 i0 = idx h k (i + (idx h k0 i0 - idx h k i)) := by
          rw [← idx_succ]
          omega
        have := idx_inj h _ _ _ _ hi0 (by omega) e
        omega
      have hcv : cell_value ro co h str1 str2 k m0 s = cell_value ro co h str1 str2 k m0 buf := by
        unfold cell_value
        rw [hout (k - 1) m0 (by omega) (by omega), hout (k - 1) (m0 - 1) (by omega) (by omega),
          hout (k - 1 - 1) (m0 - 1) (by omega) (by omega)]
      rw [scalar_cell_eq, store_get, hcv]
      by_cases hx : x = idx h k m0
      · subst hx
        have e : idx h k m0 = idx h k i + (m0 - i) := by
          rw [idx_succ]
          congr 1
          omega
        rw [if_pos rfl, if_pos (by omega), e, Nat.add_sub_cancel_left]
        congr 1
        omega
      · rw [if_neg hx, hs]
        have e : idx h k m0 = idx h k i + (m0 - i) := by
          rw [idx_succ]
          congr 1
          omega
        by_cases hin : idx h k i ≤ x ∧ x < idx h k i + (m0 - i)
        · rw [if_pos hin, if_pos (by omega)]
        · rw [if_neg hin, if_neg (by omega)])
  exact key x

/-- The vector body stores what sixteen steps of the scalar cleanup loop store. -/
theorem vector_body_eq_scalar (ro co h : Nat) (str1 str2 : Nat → Byte) (k i : Nat) (buf : Buf)
    (hi : 1 ≤ i) (hk : i + 16 ≤ k) (hh : i + 15 ≤ h) :
    vector_body ro co h str1 str2 k i buf =
      forLt i (i + 16) (scalar_cell ro co h str1 str2 k) buf := by
  apply Buf.ext_get
  intro x
  rw [vector_body_get ro co h str1 str2 k i buf hi hk,
    scalar_cells_get ro co h str1 str2 k i (i + 16) buf (by omega) (by omega) (by omega),
    Nat.add_sub_cancel_left]

/-- The vector loop followed by the scalar cleanup loop stores what the scalar cleanup loop
alone stores from the first row of the diagonal. -/
theorem vector_loop_scalar (ro co h : Nat) (str1 str2 : Nat → Byte) (k max_i : Nat)
    (hmax : max_i ≤ h) (hmaxk : max_i < k) (fuel : Nat) :
    ∀ (i : Nat) (buf : Buf), 1 ≤ i → i ≤ max_i + 1 →
      forLt (vector_loop ro co h str1 str2 k max_i fuel i buf).1 (max_i + 1)
          (scalar_cell ro co h str1 str2 k)
          (vector_loop ro co h str1 str2 k max_i fuel i buf).2 =
        forLt i (max_i + 1) (scalar_cell ro co h str1 str2 k) buf := by
  induction fuel with
  | zero =>
    intro i buf _ _
    rfl
  | succ fuel ih =>
    intro i buf h1 h2
    unfold vector_loop
    by_cases hc : (i : Int) ≤ (max_i : Int) - 15
    · rw [if_pos hc]
      simp only
      by_cases hg : (co : Int) + ((k - i : Nat) : Int) - 16 < 0
      · rw [if_pos hg]
      · rw [if_neg hg, ih (i + 16) _ (by omega) (by omega),
          vector_body_eq_scalar ro co h str1 str2 k i buf h1 (by omega) (by omega),
          ← forLt_split i (i + 16) (max_i + 1) _ _ (by omega) (by omega)]
    · rw [if_neg hc]

/-- A diagonal of the SIMD kernel is the diagonal computed by the scalar cleanup loop
alone. -/
theorem diagonal_eq_scalar (ro co h w : Nat) (str1 str2 : Nat → Byte) (k : Nat) (buf : Buf) :
    diagonal ro co h w str1 str2 k buf = diagonal_scalar ro co h w str1 str2 k buf := by
  unfold diagonal diagonal_scalar forLoop
  simp only
  by_cases hk : k = 0
  · subst hk
    have e : (if ((0 : Nat) : Int) - 1 < (h : Int) then 0 - 1 else h) = 0 := by
      split_ifs <;> omega
    rw [e]
    rfl
  · generalize hmin : (if (k : Int) - (w : Int) > 1 then k - w else 1) = min_i
    generalize hmax : (if (k : Int) - 1 < (h : Int) then k - 1 else h) = max_i
    have hmin1 : 1 ≤ min_i := by
      rw [← hmin]; split_ifs <;> omega
    have hmax1 : max_i ≤ h := by
      rw [← hmax]; split_ifs <;> omega
    have hmax2 : max_i < k := by
      rw [← hmax]; split_ifs <;> omega
    by_cases hem : min_i ≤ max_i + 1
    · exact vector_loop_scalar ro co h str1 str2 k max_i hmax1 hmax2 max_i min_i buf hmin1 hem
    · have e : vector_loop ro co h str1 str2 k max_i max_i min_i buf = (min_i, buf) := by
        cases max_i with
        | zero => rfl
        | succ m =>
          unfold vector_loop
          rw [if_neg (by omega)]
      rw [e]

/-- The SIMD kernel is the kernel with the vector loop left out. -/
theorem process_tile_eq_scalar (ro co h w total_len : Nat) (str1 str2 : Nat → Byte)
    (rr rw cols buffer : Buf) :
    process_tile ro co rr rw cols h w str1 str2 buffer total_len =
      process_tile_scalar ro co rr rw cols h w str1 str2 buffer total_len := by
  have e : diagonal ro co h w str1 str2 = diagonal_scalar ro co h w str1 str2 :=
    funext (fun k => funext (fun buf => diagonal_eq_scalar ro co h w str1 str2 k buf))
  unfold process_tile process_tile_scalar
  rw [e]

end Avx2

/-- Claim C22.  In the SIMD `process_tile`, for every 16-lane batch starting at row `i ≥ 1`
on diagonal `k ≥ i + 16` with `i + 15 ≤ height`, lane `l < 16` stores at the scratch cell
`(k, i + l)` the value `min(left + 1, top + 1, diag + cost)` with `cost = 0` if
`str1[row_offset + i + l - 1] = str2[col_offset + k - i - l - 1]` and `1` otherwise, which is
what the scalar cleanup loop stores for that cell; the batch as a whole stores what sixteen
steps of the cleanup loop store; and the kernel returns and leaves behind what the kernel
without the vector loop does, so its output does not depend on which cells take the vector
path. -/
theorem vector_path_equals_scalar_path (ro co h w total_len : Nat) (str1 str2 : Nat → Byte)
    (k i l : Nat) (rr rw cols buf : Buf) (hi : 1 ≤ i) (hk : i + 16 ≤ k) (hh : i + 15 ≤ h)
    (hl : l < 16) :
    (Avx2.vector_body ro co h str1 str2 k i buf).get (Avx2.idx h k (i + l)) =
      Avx2.min_scalar (buf.get (Avx2.idx h (k - 1) (i + l)) + 1)
        (buf.get (Avx2.idx h (k - 1) (i + l - 1)) + 1)
        (buf.get (Avx2.idx h (k - 2) (i + l - 1)) +
          if str1 (ro + i + l - 1) = str2 (co + (k - i - l) - 1) then 0 else 1) ∧
    (Avx2.vector_body ro co h str1 str2 k i buf).get (Avx2.idx h k (i + l)) =
      (Avx2.scalar_cell ro co h str1 str2 k (i + l) buf).get (Avx2.idx h k (i + l)) ∧
    Avx2.vector_body ro co h str1 str2 k i buf =
      forLt i (i + 16) (Avx2.scalar_cell ro co h str1 str2 k) buf ∧
    Avx2.process_tile ro co rr rw cols h w str1 str2 buf total_len =
      Avx2.process_tile_scalar ro co rr rw cols h w str1 str2 buf total_len := by
  have hv : (Avx2.vector_body ro co h str1 str2 k i buf).get (Avx2.idx h k (i + l)) =
      Avx2.cell_value ro co h str1 str2 k (i + l) buf := by
    rw [Avx2.vector_body_get ro co h str1 str2 k i buf hi hk, ← Avx2.idx_succ,
      if_pos (by omega), Nat.add_sub_cancel_left]
  refine ⟨?_, ?_, Avx2.vector_body_eq_scalar ro co h str1 str2 k i buf hi hk hh,
    Avx2.process_tile_eq_scalar ro co h w total_len str1 str2 rr rw cols buf⟩
  · rw [hv]
    unfold Avx2.cell_value
    have e1 : k - 1 - 1 = k - 2 := by omega
    have e2 : ro + (i + l) - 1 = ro + i + l - 1 := by omega
    have e3 : k - (i + l) = k - i - l := by omega
    rw [e1, e2, e3]
  · rw [hv, Avx2.scalar_cell_eq, store_get, if_pos rfl]

theorem vector_path_equals_scalar_path_witness :
    (1 ≤ 1 ∧ 1 + 16 ≤ 17 ∧ 1 + 15 ≤ 16 ∧ 3 < 16) ∧
    Avx2.vector_body 0 0 16 (fun _ => 65) (fun _ => 65) 17 1 ⟨fun _ => 0⟩ =
      forLt 1 (1 + 16) (Avx2.scalar_cell 0 0 16 (fun _ => 65) (fun _ => 65) 17) ⟨fun _ => 0⟩ :=
  ⟨⟨by decide, by decide, by decide, by decide⟩,
    (vector_path_equals_scalar_path 0 0 16 16 16 (fun _ => 65) (fun _ => 65) 17 1 3
      ⟨fun _ => 0⟩ ⟨fun _ => 0⟩ ⟨fun _ => 0⟩ ⟨fun _ => 0⟩ (by decide) (by decide) (by decide)
      (by decide)).2.2.1⟩

/-! ## The guard of the vector loop and the padding of the prefill -/

namespace Avx2

end Avx2

namespace Avx2

/-- The access log follows the control flow of the vector loop: both stop at the same
row. -/
theorem vector_loop_log_exit (ro co h : Nat) (str1 str2 : Nat → Byte) (k max_i fuel : Nat) :
    ∀ (i : Nat) (buf : Buf),
      (vector_loop_log ro co h k max_i fuel i).1 =
        (vector_loop ro co h str1 str2 k max_i fuel i buf).1 := by
  induction fuel with
  | zero =>
    intro i buf
    rfl
  | succ fuel ih =>
    intro i buf
    unfold vector_loop_log vector_loop
    by_cases hc : (i : Int) ≤ (max_i : Int) - 15
    · rw [if_pos hc, if_pos hc]
      simp only
      by_cases hg : (co : Int) + ((k - i : Nat) : Int) - 16 < 0
      · rw [if_pos hg, if_pos hg]
      · rw [if_neg hg, if_neg hg]
        exact ih (i + 16) _
    · rw [if_neg hc, if_neg hc]

/-- The macro on the integers agrees with the macro of the model. -/
theorem idxZ_cast (h k i : Nat) : idxZ h (k : Int) (i : Int) = ((idx h k i : Nat) : Int) := by
  unfold idxZ idx
  push_cast
  ring

/-- The range of the index macro for a tile of at most 512 rows with at most 1024
diagonals. -/
theorem idxZ_bound (h : Nat) (k i : Int) (hh : h ≤ 512) (hk0 : 0 ≤ k) (hk : k ≤ 1024)
    (hi0 : 0 ≤ i) (hi : i ≤ 512) :
    0 ≤ idxZ h k i ∧ idxZ h k i < 2 * (512 + 1) * (512 + 1) := by
  unfold idxZ
  have h1 : (0 : Int) ≤ k * ((h : Int) + 1) := mul_nonneg hk0 (by omega)
  have h2 : k * ((h : Int) + 1) ≤ 1024 * 513 :=
    mul_le_mul hk (by omega) (by omega) (by omega)
  constructor <;> omega

end Avx2

namespace Avx2

/-- A vector load within a diagonal of the scratch buffer is within bounds. -/
theorem load_log_safe (n h : Nat) (k x : Int) (hh : h ≤ 512) (hk0 : 0 ≤ k) (hk : k ≤ 1024)
    (hx0 : 0 ≤ x) (hx : x + 7 ≤ 512) :
    ∀ a ∈ load_log (idxZ h k 0 + x), a.Safe n := by
  intro a ha
  simp only [load_log, List.mem_map, List.mem_range] at ha
  obtain ⟨l, hl, rfl⟩ := ha
  have e : idxZ h k 0 + x + (l : Int) = idxZ h k (x + l) := by
    unfold idxZ
    ring
  rw [e]
  exact idxZ_bound h k (x + l) hh hk0 hk (by omega) (by omega)

/-- A vector store within a diagonal of the scratch buffer is within bounds. -/
theorem store_log_safe (n h : Nat) (k x : Int) (hh : h ≤ 512) (hk0 : 0 ≤ k) (hk : k ≤ 1024)
    (hx0 : 0 ≤ x) (hx : x + 7 ≤ 512) :
    ∀ a ∈ store_log (idxZ h k x), a.Safe n := by
  intro a ha
  simp only [store_log, List.mem_map, List.mem_range] at ha
  obtain ⟨l, hl, rfl⟩ := ha
  have e : idxZ h k x + (l : Int) = idxZ h k (x + l) := by
    unfold idxZ
    ring
  rw [e]
  exact idxZ_bound h k (x + l) hh hk0 hk (by omega) (by omega)

/-- An 8-byte read of `str1` within the sequence is within bounds. -/
theorem memcpy_str1_log_safe (n : Nat) (p : Int) (hp0 : 0 ≤ p) (hp : p + 7 < n) :
    ∀ a ∈ memcpy_str1_log p, a.Safe n := by
  intro a ha
  simp only [memcpy_str1_log, List.mem_map, List.mem_range] at ha
  obtain ⟨l, hl, rfl⟩ := ha
  exact ⟨by omega, by omega⟩

/-- An 8-byte read of `str2` within the sequence is within bounds. -/
theorem memcpy_str2_log_safe (n : Nat) (p : Int) (hp0 : 0 ≤ p) (hp : p + 7 < n) :
    ∀ a ∈ memcpy_str2_log p, a.Safe n := by
  intro a ha
  simp only [memcpy_str2_log, List.mem_map, List.mem_range] at ha
  obtain ⟨l, hl, rfl⟩ := ha
  exact ⟨by omega, by omega⟩

/-- The accesses of an iteration of the vector loop are within bounds. -/
theorem vector_body_log_safe (n ro co h w k i : Nat) (hh : h ≤ 512) (hw : w ≤ 512)
    (hro : ro + h ≤ n) (hco : co + w ≤ n) (hi : 1 ≤ i) (hih : i + 15 ≤ h) (hik : i + 16 ≤ k)
    (hkw : k ≤ i + w) :
    ∀ a ∈ vector_body_log ro co h k i, a.Safe n := by
  intro a ha
  simp only [vector_body_log, List.mem_append] at ha
  rcases ha with ((((((((((ha | ha) | ha) | ha) | ha) | ha) | ha) | ha) | ha) | ha) | ha) | ha
  · exact load_log_safe n h _ _ hh (by omega) (by omega) (by omega) (by omega) a ha
  · exact load_log_safe n h _ _ hh (by omega) (by omega) (by omega) (by omega) a ha
  · exact load_log_safe n h _ _ hh (by omega) (by omega) (by omega) (by omega) a ha
  · exact load_log_safe n h _ _ hh (by omega) (by omega) (by omega) (by omega) a ha
  · exact load_log_safe n h _ _ hh (by omega) (by omega) (by omega) (by omega) a ha
  · exact load_log_safe n h _ _ hh (by omega) (by omega) (by omega) (by omega) a ha
  · exact memcpy_str1_log_safe n _ (by omega) (by omega) a ha
  · exact memcpy_str2_log_safe n _ (by omega) (by omega) a ha
  · exact memcpy_str1_log_safe n _ (by omega) (by omega) a ha
  · exact memcpy_str2_log_safe n _ (by omega) (by omega) a ha
  · exact store_log_safe n h _ _ hh (by omega) (by omega) (by omega) (by omega) a ha
  · exact store_log_safe n h _ _ hh (by omega) (by omega) (by omega) (by omega) a ha

/-- The accesses of an iteration of the scalar cleanup loop are within bounds. -/
theorem scalar_cell_log_safe (n ro co h w k i : Nat) (hh : h ≤ 512) (hw : w ≤ 512)
    (hro : ro + h ≤ n) (hco : co + w ≤ n) (hi : 1 ≤ i) (hih : i ≤ h) (hik : i + 1 ≤ k)
    (hk2 : 2 ≤ k) (hkw : k ≤ i + w) :
    ∀ a ∈ scalar_cell_log ro co h k i, a.Safe n := by
  intro a ha
  simp only [scalar_cell_log, List.mem_cons, List.mem_singleton, List.not_mem_nil,
    or_false] at ha
  rcases ha with rfl | rfl | rfl | rfl | rfl | rfl
  · exact idxZ_bound h _ _ hh (by omega) (by omega) (by omega) (by omega)
  · exact idxZ_bound h _ _ hh (by omega) (by omega) (by omega) (by omega)
  · exact ⟨by omega, by omega⟩
  · exact ⟨by omega, by omega⟩
  · exact idxZ_bound h _ _ hh (by omega) (by omega) (by omega) (by omega)
  · exact idxZ_bound h _ _ hh (by omega) (by omega) (by omega) (by omega)

/-- The vector loop does not go back. -/
theorem vector_loop_log_ge (ro co h k max_i fuel : Nat) :
    ∀ i, i ≤ (vector_loop_log ro co h k max_i fuel i).1 := by
  induction fuel with
  | zero =>
    intro i
    exact Nat.le_refl _
  | succ fuel ih =>
    intro i
    unfold vector_loop_log
    by_cases hc : (i : Int) ≤ (max_i : Int) - 15
    · rw [if_pos hc]
      simp only
      by_cases hg : (co : Int) + ((k - i : Nat) : Int) - 16 < 0
      · rw [if_pos hg]
      · rw [if_neg hg]
        exact Nat.le_trans (by omega) (ih (i + 16))
    · rw [if_neg hc]

/-- The accesses of the vector loop on a diagonal are within bounds. -/
theorem vector_loop_log_safe (n ro co h w k max_i : Nat) (hh : h ≤ 512) (hw : w ≤ 512)
    (hro : ro + h ≤ n) (hco : co + w ≤ n) (hmax : max_i ≤ h) (hmaxk : max_i < k)
    (fuel : Nat) :
    ∀ i, 1 ≤ i → k ≤ i + w → ∀ a ∈ (vector_loop_log ro co h k max_i fuel i).2, a.Safe n := by
  induction fuel with
  | zero =>
    intro i _ _ a ha
    simp [vector_loop_log] at ha
  | succ fuel ih =>
    intro i h1 h2 a ha
    unfold vector_loop_log at ha
    by_cases hc : (i : Int) ≤ (max_i : Int) - 15
    · rw [if_pos hc] at ha
      simp only at ha
      rw [if_neg (by omega)] at ha
      simp only [List.mem_append] at ha
      rcases ha with ha | ha
      · exact vector_body_log_safe n ro co h w k i hh hw hro hco h1 (by omega) (by omega) h2
          a ha
      · exact ih (i + 16) (by omega) (by omega) a ha
    · rw [if_neg hc] at ha
      simp at ha

/-- The accesses of a diagonal are within bounds. -/
theorem diagonal_log_safe (n ro co h w k : Nat) (hh : h ≤ 512) (hw : w ≤ 512)
    (hro : ro + h ≤ n) (hco : co + w ≤ n) (hk2 : 2 ≤ k) :
    ∀ a ∈ diagonal_log ro co h w k, a.Safe n := by
  unfold diagonal_log
  simp only
  generalize hmin : (if (k : Int) - (w : Int) > 1 then k - w else 1) = min_i
  generalize hmax : (if (k : Int) - 1 < (h : Int) then k - 1 else h) = max_i
  have hmin1 : 1 ≤ min_i := by
    rw [← hmin]; split_ifs <;> omega
  have hmin2 : k ≤ min_i + w := by
    rw [← hmin]; split_ifs <;> omega
  have hmax1 : max_i ≤ h := by
    rw [← hmax]; split_ifs <;> omega
  have hmax2 : max_i < k := by
    rw [← hmax]; split_ifs <;> omega
  intro a ha
  simp only [List.mem_append, List.mem_flatMap, List.mem_range'_1] at ha
  rcases ha with ha | ⟨i, ⟨hi1, hi2⟩, ha⟩
  · exact vector_loop_log_safe n ro co h w k max_i hh hw hro hco hmax1 hmax2 max_i min_i hmin1
      hmin2 a ha
  · have hge := vector_loop_log_ge ro co h k max_i max_i min_i
    exact scalar_cell_log_safe n ro co h w k i hh hw hro hco (by omega) (by omega) (by omega)
      hk2 (by omega) a ha

end Avx2

namespace Avx2

/-- The scratch accesses of the prefill are within bounds. -/
theorem prefill_log_safe (n h w : Nat) (hh : h ≤ 512) (hw : w ≤ 512) :
    ∀ a ∈ prefill_log h w, a.Safe n := by
  intro a ha
  simp only [prefill_log, List.mem_append, List.mem_map, List.mem_range'_1,
    List.mem_singleton] at ha
  rcases ha with (⟨i, ⟨hi1, hi2⟩, rfl⟩ | ⟨j, ⟨hj1, hj2⟩, rfl⟩) | rfl
  · exact idxZ_bound h _ _ hh (by omega) (by omega) (by omega) (by omega)
  · exact idxZ_bound h _ _ hh (by omega) (by omega) (by omega) (by omega)
  · exact idxZ_bound h _ _ hh (by omega) (by omega) (by omega) (by omega)

/-- The scratch accesses of the write-back loops and of the return statement are within
bounds. -/
theorem writeback_log_safe (n h w : Nat) (hh : h ≤ 512) (hw : w ≤ 512) :
    ∀ a ∈ writeback_log h w, a.Safe n := by
  intro a ha
  simp only [writeback_log, List.mem_append, List.mem_map, List.mem_range'_1,
    List.mem_singleton] at ha
  rcases ha with (⟨j, ⟨hj1, hj2⟩, rfl⟩ | ⟨i, ⟨hi1, hi2⟩, rfl⟩) | rfl
  · exact idxZ_bound h _ _ hh (by omega) (by omega) (by omega) (by omega)
  · exact idxZ_bound h _ _ hh (by omega) (by omega) (by omega) (by omega)
  · exact idxZ_bound h _ _ hh (by omega) (by omega) (by omega) (by omega)

/-- Every access of a call of the SIMD `process_tile` is within bounds. -/
theorem process_tile_log_safe (n ro co h w : Nat) (hh : h ≤ 512) (hw : w ≤ 512)
    (hro : ro + h ≤ n) (hco : co + w ≤ n) :
    ∀ a ∈ process_tile_log ro co h w, a.Safe n := by
  intro a ha
  simp only [process_tile_log, log_before, List.mem_append, List.mem_flatMap,
    List.mem_range'_1] at ha
  rcases ha with (ha | ⟨k, ⟨hk1, hk2⟩, ha⟩) | ha
  · exact prefill_log_safe n h w hh hw a ha
  · exact diagonal_log_safe n ro co h w k hh hw hro hco hk1 a ha
  · exact writeback_log_safe n h w hh hw a ha

end Avx2

/-- The writes of a concatenation. -/
theorem writesOf_append (l1 l2 : List Access) :
    writesOf (l1 ++ l2) = writesOf l1 ++ writesOf l2 := by
  unfold writesOf
  exact List.filterMap_append _ _ _

/-- A write is in a log exactly when its index is among the writes of the log. -/
theorem mem_writesOf (log : List Access) (x : Int) :
    x ∈ writesOf log ↔ Access.write x ∈ log := by
  unfold writesOf
  rw [List.mem_filterMap]
  constructor
  · rintro ⟨a, ha, e⟩
    cases a with
    | read y => simp at e
    | write y =>
      simp only [Option.some.injEq] at e
      subst e
      exact ha
    | str1 y => simp at e
    | str2 y => simp at e
  · intro ha
    exact ⟨_, ha, rfl⟩

/-- The writes of a loop whose iterations write as given. -/
theorem writesOf_flatMap (l : List Nat) (f : Nat → List Access) (g : Nat → List Int)
    (hf : ∀ k ∈ l, writesOf (f k) = g k) : writesOf (l.flatMap f) = l.flatMap g := by
  induction l with
  | nil => rfl
  | cons a l ih =>
    rw [List.flatMap_cons, List.flatMap_cons, writesOf_append,
      hf a (List.mem_cons_self a l), ih (fun k hk => hf k (List.mem_cons_of_mem a hk))]

/-- The writes of a loop whose iterations each write one element. -/
theorem writesOf_flatMap_single (l : List Nat) (f : Nat → List Access) (g : Nat → Int)
    (hf : ∀ i, writesOf (f i) = [g i]) : writesOf (l.flatMap f) = l.map g := by
  induction l with
  | nil => rfl
  | cons a l ih =>
    rw [List.flatMap_cons, writesOf_append, hf a, ih]
    rfl

namespace Avx2

/-- The index macro separates the diagonals and the rows. -/
theorem idxZ_inj (h : Nat) (k i k' i' : Int) (hi0 : 0 ≤ i) (hi : i ≤ h) (hi0' : 0 ≤ i')
    (hi' : i' ≤ h) (he : idxZ h k i = idxZ h k' i') : k = k' ∧ i = i' := by
  unfold idxZ at he
  rcases lt_trichotomy k k' with hlt | heq | hgt
  · have : (k + 1) * ((h : Int) + 1) ≤ k' * ((h : Int) + 1) :=
      mul_le_mul_of_nonneg_right (by omega) (by omega)
    rw [add_mul] at this
    omega
  · subst heq
    omega
  · have : (k' + 1) * ((h : Int) + 1) ≤ k * ((h : Int) + 1) :=
      mul_le_mul_of_nonneg_right (by omega) (by omega)
    rw [add_mul] at this
    omega

/-- An iteration of the vector loop writes the 16 cells `i .. i + 15` of the diagonal. -/
theorem writesOf_vector_body_log (ro co h k i : Nat) :
    writesOf (vector_body_log ro co h k i) =
      (List.range' i 16).map (fun (m : Nat) => idxZ h k m) := by
  have e : writesOf (vector_body_log ro co h k i) =
      (List.range' 0 8).map (fun (l : Nat) => idxZ h k i + (l : Int)) ++
      (List.range' 0 8).map (fun (l : Nat) => idxZ h k ((i : Int) + 8) + (l : Int)) := rfl
  rw [e]
  simp only [List.range', List.map, List.cons_append, List.nil_append, idxZ]
  push_cast
  simp only [List.cons.injEq, and_true]
  refine ⟨?_, ?_, ?_, ?_, ?_, ?_, ?_, ?_, ?_, ?_, ?_, ?_, ?_, ?_, ?_, ?_⟩ <;> ring

/-- The vector loop stays within the rows of the diagonal. -/
theorem vector_loop_log_le (ro co h k max_i fuel : Nat) :
    ∀ i, i ≤ max_i + 1 → (vector_loop_log ro co h k max_i fuel i).1 ≤ max_i + 1 := by
  induction fuel with
  | zero =>
    intro i hi
    exact hi
  | succ fuel ih =>
    intro i hi
    unfold vector_loop_log
    by_cases hc : (i : Int) ≤ (max_i : Int) - 15
    · rw [if_pos hc]
      simp only
      by_cases hg : (co : Int) + ((k - i : Nat) : Int) - 16 < 0
      · rw [if_pos hg]
        exact hi
      · rw [if_neg hg]
        exact ih (i + 16) (by omega)
    · rw [if_neg hc]
      exact hi

/-- The vector loop writes the cells from its first row to the row at which it leaves. -/
theorem writesOf_vector_loop_log (ro co h k max_i fuel : Nat) :
    ∀ i, writesOf (vector_loop_log ro co h k max_i fuel i).2 =
      (List.range' i ((vector_loop_log ro co h k max_i fuel i).1 - i)).map
        (fun (m : Nat) => idxZ h k m) := by
  induction fuel with
  | zero =>
    intro i
    show writesOf [] = (List.range' i (i - i)).map _
    rw [Nat.sub_self]
    rfl
  | succ fuel ih =>
    intro i
    unfold vector_loop_log
    by_cases hc : (i : Int) ≤ (max_i : Int) - 15
    · rw [if_pos hc]
      simp only
      by_cases hg : (co : Int) + ((k - i : Nat) : Int) - 16 < 0
      · rw [if_pos hg]
        show writesOf [] = (List.range' i (i - i)).map _
        rw [Nat.sub_self]
        rfl
      · rw [if_neg hg]
        have hge := vector_loop_log_ge ro co h k max_i fuel (i + 16)
        rw [writesOf_append, writesOf_vector_body_log, ih (i + 16), ← List.map_append]
        congr 1
        have e := List.range'_append i 16
          ((vector_loop_log ro co h k max_i fuel (i + 16)).1 - (i + 16)) 1
        rw [Nat.one_mul] at e
        rw [e]
        congr 1
        omega
    · rw [if_neg hc]
      show writesOf [] = (List.range' i (i - i)).map _
      rw [Nat.sub_self]
      rfl

/-- The loops over `i` of the diagonal `k` write the cells `min_i .. max_i` of the diagonal, in
this order, each once. -/
theorem writesOf_diagonal_log (ro co h w k : Nat) (hh : 1 ≤ h) (hw : 1 ≤ w) (hk2 : 2 ≤ k)
    (hk : k ≤ h + w) :
    writesOf (diagonal_log ro co h w k) =
      (List.range' (max 1 (k - w)) (min h (k - 1) + 1 - max 1 (k - w))).map
        (fun (i : Nat) => idxZ h k i) := by
  unfold diagonal_log
  simp only
  have hmin : (if (k : Int) - (w : Int) > 1 then k - w else 1) = max 1 (k - w) := by
    split_ifs <;> omega
  have hmax : (if (k : Int) - 1 < (h : Int) then k - 1 else h) = min h (k - 1) := by
    split_ifs <;> omega
  rw [hmin, hmax]
  generalize hmin2 : max 1 (k - w) = min_i
  generalize hmax2 : min h (k - 1) = max_i
  have h1 : min_i ≤ max_i := by omega
  have hge := vector_loop_log_ge ro co h k max_i max_i min_i
  have hle := vector_loop_log_le ro co h k max_i max_i min_i (by omega)
  rw [writesOf_append, writesOf_vector_loop_log,
    writesOf_flatMap_single _ (fun (i : Nat) => scalar_cell_log ro co h k i)
      (fun (i : Nat) => idxZ h k i) (fun i => rfl),
    ← List.map_append]
  congr 1
  have e := List.range'_append min_i ((vector_loop_log ro co h k max_i max_i min_i).1 - min_i)
    (max_i + 1 - (vector_loop_log ro co h k max_i max_i min_i).1) 1
  rw [Nat.one_mul, Nat.add_sub_cancel' hge] at e
  rw [e]
  congr 1
  omega

end Avx2

namespace Avx2

/-- The elements read by a vector load. -/
theorem read_mem_load_log (p x : Int) :
    Access.read x ∈ load_log p ↔ ∃ l : Nat, l < 8 ∧ x = p + (l : Int) := by
  simp only [load_log, List.mem_map, List.mem_range, Access.read.injEq]
  constructor
  · rintro ⟨l, hl, e⟩
    exact ⟨l, hl, e.symm⟩
  · rintro ⟨l, hl, e⟩
    exact ⟨l, hl, e.symm⟩

/-- The scratch cells read by an iteration of the vector loop are the left, upper and diagonal
neighbours of the 16 cells `i .. i + 15` of the diagonal. -/
theorem read_mem_vector_body_log (ro co h k i : Nat) (x : Int)
    (hx : Access.read x ∈ vector_body_log ro co h k i) :
    ∃ m : Nat, i ≤ m ∧ m ≤ i + 15 ∧
      (x = idxZ h ((k : Int) - 1) m ∨ x = idxZ h ((k : Int) - 1) ((m : Int) - 1) ∨
        x = idxZ h ((k : Int) - 2) ((m : Int) - 1)) := by
  simp only [vector_body_log, List.mem_append, read_mem_load_log] at hx
  rcases hx with ((((((((((hx | hx) | hx) | hx) | hx) | hx) | hx) | hx) | hx) | hx) | hx) | hx
  · obtain ⟨l, hl, rfl⟩ := hx
    refine ⟨i + l, by omega, by omega, Or.inl ?_⟩
    unfold idxZ
    push_cast
    ring
  · obtain ⟨l, hl, rfl⟩ := hx
    refine ⟨i + l, by omega, by omega, Or.inr (Or.inl ?_)⟩
    unfold idxZ
    push_cast
    ring
  · obtain ⟨l, hl, rfl⟩ := hx
    refine ⟨i + l, by omega, by omega, Or.inr (Or.inr ?_)⟩
    unfold idxZ
    push_cast
    ring
  · obtain ⟨l, hl, rfl⟩ := hx
    refine ⟨i + 8 + l, by omega, by omega, Or.inl ?_⟩
    unfold idxZ
    push_cast
    ring
  · obtain ⟨l, hl, rfl⟩ := hx
    refine ⟨i + 8 + l, by omega, by omega, Or.inr (Or.inl ?_)⟩
    unfold idxZ
    push_cast
    ring
  · obtain ⟨l, hl, rfl⟩ := hx
    refine ⟨i + 8 + l, by omega, by omega, Or.inr (Or.inr ?_)⟩
    unfold idxZ
    push_cast
    ring
  · simp [memcpy_str1_log] at hx
  · simp [memcpy_str2_log] at hx
  · simp [memcpy_str1_log] at hx
  · simp [memcpy_str2_log] at hx
  · simp [store_log] at hx
  · simp [store_log] at hx

/-- The scratch cells read by an iteration of the cleanup loop are the left, upper and diagonal
neighbours of the cell. -/
theorem read_mem_scalar_cell_log (ro co h k i : Nat) (x : Int)
    (hx : Access.read x ∈ scalar_cell_log ro co h k i) :
    x = idxZ h ((k : Int) - 1) i ∨ x = idxZ h ((k : Int) - 1) ((i : Int) - 1) ∨
      x = idxZ h ((k : Int) - 2) ((i : Int) - 1) := by
  simp only [scalar_cell_log, List.mem_cons, Access.read.injEq, List.mem_singleton,
    List.not_mem_nil, or_false, reduceCtorEq, false_or] at hx
  rcases hx with hx | hx | hx
  · exact Or.inl hx
  · exact Or.inr (Or.inl hx)
  · refine Or.inr (Or.inr ?_)
    rw [hx, sub_sub]
    rfl

/-- The scratch cells read by the vector loop are neighbours of cells of its rows. -/
theorem read_mem_vector_loop_log (ro co h k max_i : Nat) (x : Int) (fuel : Nat) :
    ∀ i, Access.read x ∈ (vector_loop_log ro co h k max_i fuel i).2 →
      ∃ m : Nat, i ≤ m ∧ m ≤ max_i ∧
        (x = idxZ h ((k : Int) - 1) m ∨ x = idxZ h ((k : Int) - 1) ((m : Int) - 1) ∨
          x = idxZ h ((k : Int) - 2) ((m : Int) - 1)) := by
  induction fuel with
  | zero =>
    intro i hx
    simp [vector_loop_log] at hx
  | succ fuel ih =>
    intro i hx
    unfold vector_loop_log at hx
    by_cases hc : (i : Int) ≤ (max_i : Int) - 15
    · rw [if_pos hc] at hx
      simp only at hx
      by_cases hg : (co : Int) + ((k - i : Nat) : Int) - 16 < 0
      · rw [if_pos hg] at hx
        simp at hx
      · rw [if_neg hg] at hx
        simp only [List.mem_append] at hx
        rcases hx with hx | hx
        · obtain ⟨m, h1, h2, h3⟩ := read_mem_vector_body_log ro co h k i x hx
          exact ⟨m, h1, by omega, h3⟩
        · obtain ⟨m, h1, h2, h3⟩ := ih (i + 16) hx
          exact ⟨m, by omega, h2, h3⟩
    · rw [if_neg hc] at hx
      simp at hx

/-- The scratch cells read on the diagonal `k` are the left, upper and diagonal neighbours of
the cells `min_i .. max_i` of the diagonal. -/
theorem read_mem_diagonal_log (ro co h w k : Nat) (x : Int)
    (hx : Access.read x ∈ diagonal_log ro co h w k) :
    ∃ m : Nat, max 1 (k - w) ≤ m ∧ m ≤ min h (k - 1) ∧
      (x = idxZ h ((k : Int) - 1) m ∨ x = idxZ h ((k : Int) - 1) ((m : Int) - 1) ∨
        x = idxZ h ((k : Int) - 2) ((m : Int) - 1)) := by
  unfold diagonal_log at hx
  simp only at hx
  have hmin : (if (k : Int) - (w : Int) > 1 then k - w else 1) = max 1 (k - w) := by
    split_ifs <;> omega
  have hmax : (if (k : Int) - 1 < (h : Int) then k - 1 else h) = min h (k - 1) := by
    split_ifs <;> omega
  rw [hmin, hmax] at hx
  simp only [List.mem_append, List.mem_flatMap, List.mem_range'_1] at hx
  rcases hx with hx | ⟨i, ⟨hi1, hi2⟩, hx⟩
  · exact read_mem_vector_loop_log ro co h k _ x _ _ hx
  · have hge := vector_loop_log_ge ro co h k (min h (k - 1)) (min h (k - 1)) (max 1 (k - w))
    exact ⟨i, by omega, by omega, read_mem_scalar_cell_log ro co h k i x hx⟩

/-- Before the diagonal `k`, the cells of the earlier diagonals within the tile and its
boundaries have been written: the boundaries by the prefill, the interior by the loops of
the earlier diagonals. -/
theorem write_mem_log_before (ro co h w k i j : Nat) (hh : 1 ≤ h) (hw : 1 ≤ w)
    (hi : i ≤ h) (hj : j ≤ w) (hk : i + j < k) :
    Access.write (idxZ h ((i : Int) + j) i) ∈ log_before ro co h w k := by
  unfold log_before
  rw [List.mem_append]
  by_cases hi0 : i = 0
  · subst hi0
    left
    unfold prefill_log
    by_cases hj0 : j = 0
    · subst hj0
      simp
    · rw [List.mem_append, List.mem_append]
      left
      right
      rw [List.mem_map]
      refine ⟨j, by rw [List.mem_range'_1]; omega, ?_⟩
      simp
  · by_cases hj0 : j = 0
    · subst hj0
      left
      unfold prefill_log
      rw [List.mem_append, List.mem_append]
      left
      left
      rw [List.mem_map]
      refine ⟨i, by rw [List.mem_range'_1]; omega, ?_⟩
      simp
    · right
      rw [List.mem_flatMap]
      refine ⟨i + j, by rw [List.mem_range'_1]; omega, ?_⟩
      rw [← mem_writesOf, writesOf_diagonal_log ro co h w (i + j) hh hw (by omega) (by omega),
        List.mem_map]
      refine ⟨i, by rw [List.mem_range'_1]; omega, ?_⟩
      push_cast
      rfl

/-- A scratch cell read on the diagonal `k` lies on the diagonal `k - 1` or `k - 2`, within the
tile or its boundaries, and was written before the diagonal `k`. -/
theorem read_diagonal_log_before (ro co h w k : Nat) (x : Int) (hh : 1 ≤ h) (hw : 1 ≤ w)
    (hk2 : 2 ≤ k) (hx : Access.read x ∈ diagonal_log ro co h w k) :
    (∃ i j : Nat, i ≤ h ∧ j ≤ w ∧ (i + j + 1 = k ∨ i + j + 2 = k) ∧
      x = idxZ h ((i : Int) + j) i) ∧
    Access.write x ∈ log_before ro co h w k := by
  obtain ⟨m, h1, h2, h3⟩ := read_mem_diagonal_log ro co h w k x hx
  have key : ∃ i j : Nat, i ≤ h ∧ j ≤ w ∧ (i + j + 1 = k ∨ i + j + 2 = k) ∧
      x = idxZ h ((i : Int) + j) i := by
    rcases h3 with h3 | h3 | h3
    · refine ⟨m, k - 1 - m, by omega, by omega, Or.inl (by omega), ?_⟩
      rw [h3]
      congr 1
      omega
    · refine ⟨m - 1, k - m, by omega, by omega, Or.inl (by omega), ?_⟩
      rw [h3]
      congr 1 <;> omega
    · refine ⟨m - 1, k - 1 - m, by omega, by omega, Or.inr (by omega), ?_⟩
      rw [h3]
      congr 1 <;> omega
  refine ⟨key, ?_⟩
  obtain ⟨i, j, hi, hj, hij, rfl⟩ := key
  exact write_mem_log_before ro co h w k i j hh hw hi hj (by omega)

end Avx2

namespace Avx2

/-- The writes of the loops over the diagonals, diagonal by diagonal. -/
theorem writesOf_diagonals (ro co h w : Nat) (hh : 1 ≤ h) (hw : 1 ≤ w) :
    writesOf ((List.range' 2 (h + w - 1)).flatMap (fun (k : Nat) => diagonal_log ro co h w k)) =
      (List.range' 2 (h + w - 1)).flatMap (fun (k : Nat) =>
        (List.range' (max 1 (k - w)) (min h (k - 1) + 1 - max 1 (k - w))).map
          (fun (i : Nat) => idxZ h k i)) := by
  apply writesOf_flatMap
  intro k hk
  rw [List.mem_range'_1] at hk
  exact writesOf_diagonal_log ro co h w k hh hw (by omega) (by omega)

/-- The loops over the diagonals write no scratch element twice. -/
theorem writesOf_diagonals_nodup (ro co h w : Nat) (hh : 1 ≤ h) (hw : 1 ≤ w) :
    (writesOf ((List.range' 2 (h + w - 1)).flatMap
      (fun (k : Nat) => diagonal_log ro co h w k))).Nodup := by
  rw [writesOf_diagonals ro co h w hh hw, List.nodup_flatMap]
  constructor
  · intro k _
    apply List.Nodup.map
    · intro a b hab
      simp only [idxZ] at hab
      omega
    · exact List.nodup_range' _ _
  · refine (List.pairwise_lt_range' 2 (h + w - 1)).imp ?_
    intro k k' hlt
    show List.Disjoint _ _
    intro x hx hx'
    rw [List.mem_map] at hx hx'
    obtain ⟨i, hi, rfl⟩ := hx
    obtain ⟨i', hi', e⟩ := hx'
    rw [List.mem_range'_1] at hi hi'
    have := idxZ_inj h k' i' k i (by omega) (by omega) (by omega) (by omega) e
    omega

/-- The scratch elements written by the loops over the diagonals are those of the interior
cells of the tile. -/
theorem mem_writesOf_diagonals (ro co h w : Nat) (hh : 1 ≤ h) (hw : 1 ≤ w) (x : Int) :
    x ∈ writesOf ((List.range' 2 (h + w - 1)).flatMap
        (fun (k : Nat) => diagonal_log ro co h w k)) ↔
      ∃ i j : Nat, 1 ≤ i ∧ i ≤ h ∧ 1 ≤ j ∧ j ≤ w ∧ x = idxZ h ((i : Int) + j) i := by
  rw [writesOf_diagonals ro co h w hh hw, List.mem_flatMap]
  constructor
  · rintro ⟨k, hk, hx⟩
    rw [List.mem_map] at hx
    obtain ⟨i, hi, rfl⟩ := hx
    rw [List.mem_range'_1] at hk hi
    refine ⟨i, k - i, by omega, by omega, by omega, by omega, ?_⟩
    congr 1
    omega
  · rintro ⟨i, j, hi1, hi2, hj1, hj2, rfl⟩
    refine ⟨i + j, by rw [List.mem_range'_1]; omega, ?_⟩
    rw [List.mem_map]
    refine ⟨i, by rw [List.mem_range'_1]; omega, ?_⟩
    push_cast
    rfl

/-- The accesses of a call, split at the diagonal `k`. -/
theorem process_tile_log_split (ro co h w k : Nat) (hk2 : 2 ≤ k) (hk : k ≤ h + w) :
    ∃ rest, process_tile_log ro co h w =
      log_before ro co h w k ++ (diagonal_log ro co h w k ++ rest) := by
  refine ⟨(List.range' (k + 1) (h + w - k)).flatMap
    (fun (k : Nat) => diagonal_log ro co h w k) ++ writeback_log h w, ?_⟩
  unfold process_tile_log log_before
  have e1 : List.range' 2 (h + w + 1 - 2) =
      List.range' 2 (k - 2) ++ (k :: List.range' (k + 1) (h + w - k)) := by
    have a := List.range'_append 2 (k - 2) (h + w + 1 - k) 1
    rw [Nat.one_mul] at a
    have b : h + w + 1 - k = (h + w - k) + 1 := by omega
    have c : 2 + (k - 2) = k := by omega
    have d : h + w + 1 - 2 = h + w + 1 - k + (k - 2) := by omega
    rw [d, ← a, c, b]
    rfl
  rw [e1, List.flatMap_append, List.flatMap_cons]
  simp only [List.append_assoc]

end Avx2

/-- A loop on the recorded memory whose iterations each do what an iteration on the buffer
does and record their accesses: the loop does what the loop on the buffer does and records the
accesses of the iterations in order. -/
theorem foldl_traced (l : List Nat) (body_t : Nat → Traced → Traced) (body : Nat → Buf → Buf)
    (logf : Nat → List Access)
    (hstep : ∀ i ∈ l, ∀ m : Traced, body_t i m = ⟨body i m.buffer, m.log ++ logf i⟩) :
    ∀ m : Traced, l.foldl (fun s i => body_t i s) m =
      ⟨l.foldl (fun s i => body i s) m.buffer, m.log ++ l.flatMap logf⟩ := by
  induction l with
  | nil =>
    intro m
    simp
  | cons a l ih =>
    intro m
    rw [List.foldl_cons, hstep a (List.mem_cons_self a l),
      ih (fun i hi => hstep i (List.mem_cons_of_mem a hi))]
    simp [List.flatMap_cons, List.append_assoc]

/-- The rule of `foldl_traced` for `forLt`. -/
theorem forLt_traced (lo hi : Nat) (body_t : Nat → Traced → Traced) (body : Nat → Buf → Buf)
    (logf : Nat → List Access)
    (hstep : ∀ i, lo ≤ i → i < hi → ∀ m : Traced,
      body_t i m = ⟨body i m.buffer, m.log ++ logf i⟩) (m : Traced) :
    forLt lo hi body_t m =
      ⟨forLt lo hi body m.buffer, m.log ++ (List.range' lo (hi - lo)).flatMap logf⟩ := by
  unfold forLt
  apply foldl_traced
  intro i hi m
  rw [List.mem_range'_1] at hi
  exact hstep i hi.1 (by omega) m

/-- A loop that copies elements of the recorded memory into another buffer: the recorded
memory keeps its contents and records the reads. -/
theorem foldl_traced_read (l : List Nat) (dst : Nat → Nat) (src : Nat → Int) :
    ∀ (g : Buf) (m : Traced),
      l.foldl (fun (s : Buf × Traced) i => (store s.1 (dst i) (s.2.get (src i)).1,
        (s.2.get (src i)).2)) (g, m) =
      (l.foldl (fun s i => store s (dst i) (m.buffer.get (src i).toNat)) g,
        ⟨m.buffer, m.log ++ l.map (fun i => Access.read (src i))⟩) := by
  induction l with
  | nil =>
    intro g m
    simp
  | cons a l ih =>
    intro g m
    rw [List.foldl_cons, ih]
    simp [Traced.get, List.append_assoc]

namespace Avx2

/-- The index macro on the integers, at natural numbers. -/
theorem idxZ_toNat (h k i : Nat) : (idxZ h (k : Int) (i : Int)).toNat = idx h k i := by
  rw [idxZ_cast]
  exact Int.toNat_natCast _

end Avx2

namespace Avx2

/-- An iteration of the vector loop on the recorded memory stores what `vector_body` stores
and records the accesses of `vector_body_log`. -/
theorem vector_body_traced_eq (ro co h : Nat) (str1 str2 : Nat → Byte) (k i : Nat) (m : Traced)
    (hk : 2 ≤ k) (hi : 1 ≤ i) (hik : i ≤ k) :
    vector_body_traced ro co h str1 str2 k i m =
      ⟨vector_body ro co h str1 str2 k i m.buffer, m.log ++ vector_body_log ro co h k i⟩ := by
  have ek1 : (k : Int) - 1 = ((k - 1 : Nat) : Int) := by omega
  have ek2 : (k : Int) - 2 = ((k - 2 : Nat) : Int) := by omega
  have e1 : (idxZ h ((k : Int) - 1) 0 + (i : Int)).toNat = idx h (k - 1) 0 + i := by
    have := idxZ_cast h (k - 1) 0
    rw [ek1]
    simp only [Nat.cast_zero] at this
    omega
  have e2 : (idxZ h ((k : Int) - 1) 0 + ((i : Int) - 1)).toNat = idx h (k - 1) 0 + (i - 1) := by
    have := idxZ_cast h (k - 1) 0
    rw [ek1]
    simp only [Nat.cast_zero] at this
    omega
  have e3 : (idxZ h ((k : Int) - 2) 0 + ((i : Int) - 1)).toNat = idx h (k - 2) 0 + (i - 1) := by
    have := idxZ_cast h (k - 2) 0
    rw [ek2]
    simp only [Nat.cast_zero] at this
    omega
  have e4 : (idxZ h ((k : Int) - 1) 0 + ((i : Int) + 8)).toNat = idx h (k - 1) 0 + (i + 8) := by
    have := idxZ_cast h (k - 1) 0
    rw [ek1]
    simp only [Nat.cast_zero] at this
    omega
  have e5 : (idxZ h ((k : Int) - 1) 0 + ((i : Int) - 1 + 8)).toNat =
      idx h (k - 1) 0 + (i - 1 + 8) := by
    have := idxZ_cast h (k - 1) 0
    rw [ek1]
    simp only [Nat.cast_zero] at this
    omega
  have e6 : (idxZ h ((k : Int) - 2) 0 + ((i : Int) - 1 + 8)).toNat =
      idx h (k - 2) 0 + (i - 1 + 8) := by
    have := idxZ_cast h (k - 2) 0
    rw [ek2]
    simp only [Nat.cast_zero] at this
    omega
  have e7 : ((ro : Int) + (i : Int) - 1).toNat = ro + i - 1 := by omega
  have e8 : ((co : Int) + ((k : Int) - (i : Int)) - 8).toNat = co + (k - i) - 8 := by omega
  have e9 : ((ro : Int) + (i : Int) - 1 + 8).toNat = ro + i - 1 + 8 := by omega
  have e10 : ((co : Int) + ((k : Int) - (i : Int)) - 8 - 8).toNat = co + (k - i) - 8 - 8 := by
    omega
  have e11 : (idxZ h (k : Int) (i : Int)).toNat = idx h k i := idxZ_toNat h k i
  have e12 : (idxZ h (k : Int) ((i : Int) + 8)).toNat = idx h k (i + 8) := by
    have := idxZ_toNat h k (i + 8)
    rw [Nat.cast_add] at this
    exact this
  unfold vector_body_traced vector_body vector_body_log
  simp only [Traced.loadu, Traced.storeu, Traced.memcpy_str1, Traced.memcpy_str2, e1, e2, e3,
    e4, e5, e6, e7, e8, e9, e10, e11, e12, List.append_assoc]

end Avx2

namespace Avx2

/-- An iteration of the cleanup loop on the recorded memory stores what `scalar_cell` stores
and records the accesses of `scalar_cell_log`. -/
theorem scalar_cell_traced_eq (ro co h : Nat) (str1 str2 : Nat → Byte) (k i : Nat) (m : Traced)
    (hk : 2 ≤ k) (hi : 1 ≤ i) (hik : i ≤ k) :
    scalar_cell_traced ro co h str1 str2 k i m =
      ⟨scalar_cell ro co h str1 str2 k i m.buffer, m.log ++ scalar_cell_log ro co h k i⟩ := by
  have ek1 : (k : Int) - 1 = ((k - 1 : Nat) : Int) := by omega
  have ek2 : (k : Int) - 1 - 1 = ((k - 1 - 1 : Nat) : Int) := by omega
  have ei1 : (i : Int) - 1 = ((i - 1 : Nat) : Int) := by omega
  have e1 : (idxZ h ((k : Int) - 1) (i : Int)).toNat = idx h (k - 1) i := by
    rw [ek1]
    exact idxZ_toNat h (k - 1) i
  have e2 : (idxZ h ((k : Int) - 1) ((i : Int) - 1)).toNat = idx h (k - 1) (i - 1) := by
    rw [ek1, ei1]
    exact idxZ_toNat h (k - 1) (i - 1)
  have e3 : (idxZ h ((k : Int) - 1 - 1) ((i : Int) - 1)).toNat = idx h (k - 1 - 1) (i - 1) := by
    rw [ek2, ei1]
    exact idxZ_toNat h (k - 1 - 1) (i - 1)
  have e4 : ((ro : Int) + (i : Int) - 1).toNat = ro + i - 1 := by omega
  have e5 : ((co : Int) + ((k : Int) - (i : Int)) - 1).toNat = co + (k - i) - 1 := by omega
  have e6 : (idxZ h (k : Int) (i : Int)).toNat = idx h k i := idxZ_toNat h k i
  unfold scalar_cell_traced scalar_cell scalar_cell_log
  simp only [Traced.get, Traced.set, Traced.str1, Traced.str2, e1, e2, e3, e4, e5, e6,
    List.append_assoc, List.singleton_append, List.cons_append, List.nil_append]

/-- The vector loop on the recorded memory does what `vector_loop` does and records the
accesses of `vector_loop_log`. -/
theorem vector_loop_traced_eq (ro co h : Nat) (str1 str2 : Nat → Byte) (k max_i : Nat)
    (hk : 2 ≤ k) (hmax : max_i < k) (fuel : Nat) :
    ∀ (i : Nat) (m : Traced), 1 ≤ i →
      vector_loop_traced ro co h str1 str2 k max_i fuel i m =
        ((vector_loop ro co h str1 str2 k max_i fuel i m.buffer).1,
          ⟨(vector_loop ro co h str1 str2 k max_i fuel i m.buffer).2,
            m.log ++ (vector_loop_log ro co h k max_i fuel i).2⟩) := by
  induction fuel with
  | zero =>
    intro i m _
    simp [vector_loop_traced, vector_loop, vector_loop_log]
  | succ fuel ih =>
    intro i m hi
    unfold vector_loop_traced vector_loop vector_loop_log
    by_cases hc : (i : Int) ≤ (max_i : Int) - 15
    · rw [if_pos hc, if_pos hc, if_pos hc]
      simp only
      by_cases hg : (co : Int) + ((k - i : Nat) : Int) - 16 < 0
      · rw [if_pos hg, if_pos hg, if_pos hg]
        simp
      · rw [if_neg hg, if_neg hg, if_neg hg,
          vector_body_traced_eq ro co h str1 str2 k i m hk hi (by omega),
          ih (i + 16) _ (by omega)]
        simp only [List.append_assoc]
    · rw [if_neg hc, if_neg hc, if_neg hc]
      simp

/-- A diagonal on the recorded memory does what `diagonal` does and records the accesses of
`diagonal_log`. -/
theorem diagonal_traced_eq (ro co h w : Nat) (str1 str2 : Nat → Byte) (k : Nat) (m : Traced)
    (hk : 2 ≤ k) :
    diagonal_traced ro co h w str1 str2 k m =
      ⟨diagonal ro co h w str1 str2 k m.buffer, m.log ++ diagonal_log ro co h w k⟩ := by
  unfold diagonal_traced diagonal diagonal_log
  simp only
  generalize hmin : (if (k : Int) - (w : Int) > 1 then k - w else 1) = min_i
  generalize hmax : (if (k : Int) - 1 < (h : Int) then k - 1 else h) = max_i
  have hmin1 : 1 ≤ min_i := by
    rw [← hmin]; split_ifs <;> omega
  have hmax2 : max_i < k := by
    rw [← hmax]; split_ifs <;> omega
  rw [vector_loop_traced_eq ro co h str1 str2 k max_i hk hmax2 max_i min_i m hmin1]
  simp only
  rw [← vector_loop_log_exit ro co h str1 str2 k max_i max_i min_i m.buffer]
  have hge := vector_loop_log_ge ro co h k max_i max_i min_i
  unfold forLoop
  rw [forLt_traced _ _ _ (scalar_cell ro co h str1 str2 k)
    (fun (i : Nat) => scalar_cell_log ro co h k i)
    (fun i h1 h2 m => scalar_cell_traced_eq ro co h str1 str2 k i m hk (by omega) (by omega))]
  simp only [List.append_assoc]

end Avx2

namespace Avx2

/-- The SIMD `process_tile` on the recorded memory returns what `process_tile` returns,
leaves the scratch buffer as `process_tile` leaves it, and records the accesses of
`process_tile_log`. -/
theorem process_tile_traced_eq (ro co : Nat) (rr rw cols : Buf) (h w : Nat)
    (str1 str2 : Nat → Byte) (m : Traced) (n : Nat) :
    process_tile_traced ro co rr rw cols h w str1 str2 m n =
      ((process_tile ro co rr rw cols h w str1 str2 m.buffer n).1,
        ⟨(process_tile ro co rr rw cols h w str1 str2 m.buffer n).2,
          m.log ++ process_tile_log ro co h w⟩) := by
  have s1 : ∀ m : Traced, forLoop 1 h (fun i (m : Traced) =>
      if ro + i ≤ n then m.set (idxZ h i i) (cols.get (ro + i))
      else m.set (idxZ h i i) (n : Int)) m =
      ⟨forLoop 1 h (fun i buffer =>
        if ro + i ≤ n then store buffer (idx h i i) (cols.get (ro + i))
        else store buffer (idx h i i) (n : Int)) m.buffer,
        m.log ++ (List.range' 1 h).map (fun (i : Nat) => Access.write (idxZ h i i))⟩ := by
    intro m
    unfold forLoop
    rw [forLt_traced 1 (h + 1) _ (fun i buffer =>
        if ro + i ≤ n then store buffer (idx h i i) (cols.get (ro + i))
        else store buffer (idx h i i) (n : Int))
      (fun (i : Nat) => [Access.write (idxZ h i i)])]
    · rw [Nat.add_sub_cancel, List.map_eq_flatMap]
    · intro i _ _ m
      split_ifs <;> simp only [Traced.set, idxZ_toNat]
  have s2 : ∀ m : Traced, forLoop 1 w (fun j (m : Traced) =>
      if co + j ≤ n then m.set (idxZ h j 0) (rr.get (co + j))
      else m.set (idxZ h j 0) (n : Int)) m =
      ⟨forLoop 1 w (fun j buffer =>
        if co + j ≤ n then store buffer (idx h j 0) (rr.get (co + j))
        else store buffer (idx h j 0) (n : Int)) m.buffer,
        m.log ++ (List.range' 1 w).map (fun (j : Nat) => Access.write (idxZ h j 0))⟩ := by
    intro m
    unfold forLoop
    rw [forLt_traced 1 (w + 1) _ (fun j buffer =>
        if co + j ≤ n then store buffer (idx h j 0) (rr.get (co + j))
        else store buffer (idx h j 0) (n : Int))
      (fun (j : Nat) => [Access.write (idxZ h j 0)])]
    · rw [Nat.add_sub_cancel, List.map_eq_flatMap]
    · intro j _ _ m
      have e := idxZ_toNat h j 0
      simp only [Nat.cast_zero] at e
      split_ifs <;> simp only [Traced.set, e]
  have s3 : ∀ m : Traced, forLoop 2 (h + w) (diagonal_traced ro co h w str1 str2) m =
      ⟨forLoop 2 (h + w) (diagonal ro co h w str1 str2) m.buffer,
        m.log ++ (List.range' 2 (h + w + 1 - 2)).flatMap
          (fun (k : Nat) => diagonal_log ro co h w k)⟩ := by
    intro m
    unfold forLoop
    rw [forLt_traced 2 (h + w + 1) _ (diagonal ro co h w str1 str2)
      (fun (k : Nat) => diagonal_log ro co h w k)]
    intro k hk _ m
    exact diagonal_traced_eq ro co h w str1 str2 k m hk
  have s4 : ∀ (g : Buf) (m : Traced), forLoop 1 w (fun j (g : Buf × Traced) =>
      ((store g.1 (co + j) (g.2.get (idxZ h ((h : Int) + (j : Int)) h)).1,
        (g.2.get (idxZ h ((h : Int) + (j : Int)) h)).2) : Buf × Traced)) (g, m) =
      (forLoop 1 w (fun j g => store g (co + j) (m.buffer.get (idx h (h + j) h))) g,
        ⟨m.buffer, m.log ++ (List.range' 1 w).map
          (fun (j : Nat) => Access.read (idxZ h ((h : Int) + j) h))⟩) := by
    intro g m
    unfold forLoop forLt
    have e : ∀ j : Nat, (idxZ h ((h : Int) + (j : Int)) h).toNat = idx h (h + j) h := by
      intro j
      rw [← Nat.cast_add]
      exact idxZ_toNat h (h + j) h
    rw [foldl_traced_read _ (fun j => co + j) (fun j => idxZ h ((h : Int) + (j : Int)) h)]
    simp only [e, Nat.add_sub_cancel]
  have s5 : ∀ (g : Buf) (m : Traced), forLoop 1 h (fun i (g : Buf × Traced) =>
      ((store g.1 (ro + i) (g.2.get (idxZ h ((i : Int) + (w : Int)) i)).1,
        (g.2.get (idxZ h ((i : Int) + (w : Int)) i)).2) : Buf × Traced)) (g, m) =
      (forLoop 1 h (fun i g => store g (ro + i) (m.buffer.get (idx h (i + w) i))) g,
        ⟨m.buffer, m.log ++ (List.range' 1 h).map
          (fun (i : Nat) => Access.read (idxZ h ((i : Int) + w) i))⟩) := by
    intro g m
    unfold forLoop forLt
    have e : ∀ i : Nat, (idxZ h ((i : Int) + (w : Int)) i).toNat = idx h (i + w) i := by
      intro i
      rw [← Nat.cast_add]
      exact idxZ_toNat h (i + w) i
    rw [foldl_traced_read _ (fun i => ro + i) (fun i => idxZ h ((i : Int) + (w : Int)) i)]
    simp only [e, Nat.add_sub_cancel]
  have e0 : (idxZ h 0 0).toNat = idx h 0 0 := by
    have := idxZ_toNat h 0 0
    simp only [Nat.cast_zero] at this
    exact this
  have e1 : (idxZ h ((h : Int) + (w : Int)) h).toNat = idx h (h + w) h := by
    rw [← Nat.cast_add]
    exact idxZ_toNat h (h + w) h
  unfold process_tile_traced process_tile process_tile_log log_before prefill_log writeback_log
  simp only [s1]
  simp only [s2]
  simp only [Traced.set, e0]
  simp only [s3]
  simp only [s4]
  simp only [s5]
  simp only [Traced.get, e1, List.append_assoc, List.singleton_append, List.cons_append,
    List.nil_append]

end Avx2

/-- Two runs of an accounted step on buffers that agree on what the step reads: the buffers
agree afterwards wherever they agreed before. -/
theorem Accounts.agree (log : List Access) (step : (Nat → Byte) → (Nat → Byte) → Buf → Buf)
    (hacc : Accounts log step) (str1 str2 str1' str2' : Nat → Byte) (b b' : Buf)
    (h1 : ∀ p : Nat, Access.str1 (p : Int) ∈ log → str1 p = str1' p)
    (h2 : ∀ p : Nat, Access.str2 (p : Int) ∈ log → str2 p = str2' p)
    (hr : ∀ x : Nat, Access.read (x : Int) ∈ log → b.get x = b'.get x)
    (x : Nat) (hx : b.get x = b'.get x) :
    (step str1 str2 b).get x = (step str1' str2' b').get x := by
  by_cases hw : Access.write (x : Int) ∈ log
  · exact hacc.2 str1 str2 str1' str2' b b' h1 h2 hr x hw
  · rw [hacc.1 str1 str2 b x hw, hacc.1 str1' str2' b' x hw, hx]

/-- A step that does nothing is accounted for by a log without writes. -/
theorem Accounts.skip (log : List Access) (hlog : ∀ x : Int, Access.write x ∉ log) :
    Accounts log (fun _ _ b => b) :=
  ⟨fun _ _ _ _ _ => rfl, fun _ _ _ _ _ _ _ _ _ x hx => absurd hx (hlog x)⟩

/-- Two accounted steps in sequence are accounted for by their logs in sequence. -/
theorem Accounts.append (l1 l2 : List Access)
    (s1 s2 : (Nat → Byte) → (Nat → Byte) → Buf → Buf) (h1 : Accounts l1 s1)
    (h2 : Accounts l2 s2) :
    Accounts (l1 ++ l2) (fun str1 str2 b => s2 str1 str2 (s1 str1 str2 b)) := by
  constructor
  · intro str1 str2 b x hx
    rw [List.mem_append, not_or] at hx
    show (s2 str1 str2 (s1 str1 str2 b)).get x = b.get x
    rw [h2.1 _ _ _ x hx.2, h1.1 _ _ _ x hx.1]
  · intro str1 str2 str1' str2' b b' ha hb hr x hx
    show (s2 str1 str2 (s1 str1 str2 b)).get x = (s2 str1' str2' (s1 str1' str2' b')).get x
    have ha1 : ∀ p : Nat, Access.str1 (p : Int) ∈ l1 → str1 p = str1' p :=
      fun p hp => ha p (List.mem_append_left _ hp)
    have ha2 : ∀ p : Nat, Access.str1 (p : Int) ∈ l2 → str1 p = str1' p :=
      fun p hp => ha p (List.mem_append_right _ hp)
    have hb1 : ∀ p : Nat, Access.str2 (p : Int) ∈ l1 → str2 p = str2' p :=
      fun p hp => hb p (List.mem_append_left _ hp)
    have hb2 : ∀ p : Nat, Access.str2 (p : Int) ∈ l2 → str2 p = str2' p :=
      fun p hp => hb p (List.mem_append_right _ hp)
    have hr1 : ∀ y : Nat, Access.read (y : Int) ∈ l1 → b.get y = b'.get y :=
      fun y hy => hr y (List.mem_append_left _ hy)
    have hmid : ∀ y : Nat, b.get y = b'.get y →
        (s1 str1 str2 b).get y = (s1 str1' str2' b').get y :=
      fun y hy => Accounts.agree l1 s1 h1 str1 str2 str1' str2' b b' ha1 hb1 hr1 y hy
    have hr2 : ∀ y : Nat, Access.read (y : Int) ∈ l2 →
        (s1 str1 str2 b).get y = (s1 str1' str2' b').get y :=
      fun y hy => hmid y (hr y (List.mem_append_right _ hy))
    by_cases hx2 : Access.write (x : Int) ∈ l2
    · exact h2.2 _ _ _ _ _ _ ha2 hb2 hr2 x hx2
    · rw [h2.1 _ _ _ x hx2, h2.1 _ _ _ x hx2]
      rw [List.mem_append] at hx
      rcases hx with hx | hx
      · exact h1.2 _ _ _ _ _ _ ha1 hb1 hr1 x hx
      · exact absurd hx hx2

/-- A loop of accounted steps is accounted for by the logs of the steps in sequence. -/
theorem Accounts.foldl (l : List Nat) (logf : Nat → List Access)
    (step : Nat → (Nat → Byte) → (Nat → Byte) → Buf → Buf)
    (hstep : ∀ i ∈ l, Accounts (logf i) (step i)) :
    Accounts (l.flatMap logf)
      (fun str1 str2 b => l.foldl (fun s i => step i str1 str2 s) b) := by
  induction l with
  | nil => exact Accounts.skip [] (fun x hx => by simp at hx)
  | cons a l ih =>
    have h1 := hstep a (List.mem_cons_self a l)
    have h2 := ih (fun i hi => hstep i (List.mem_cons_of_mem a hi))
    have := Accounts.append _ _ _ _ h1 h2
    rw [List.flatMap_cons]
    exact this

/-- An assignment is accounted for by its write. -/
theorem Accounts.store (i : Nat) (v : Int) :
    Accounts [Access.write (i : Int)] (fun _ _ b => store b i v) := by
  constructor
  · intro _ _ b x hx
    rw [List.mem_singleton, Access.write.injEq, Nat.cast_inj] at hx
    rw [store_get, if_neg hx]
  · intro _ _ _ _ b b' _ _ _ x hx
    rw [List.mem_singleton, Access.write.injEq, Nat.cast_inj] at hx
    rw [store_get, store_get, if_pos hx, if_pos hx]

namespace Avx2

/-- The value of a cell is determined by the scratch elements and the bytes which an
iteration of the cleanup loop reads. -/
theorem cell_value_congr (ro co h : Nat) (str1 str2 str1' str2' : Nat → Byte) (k i : Nat)
    (b b' : Buf) (hk : 2 ≤ k) (hi : 1 ≤ i) (hik : i < k)
    (h1 : ∀ p : Nat, Access.str1 (p : Int) ∈ scalar_cell_log ro co h k i → str1 p = str1' p)
    (h2 : ∀ p : Nat, Access.str2 (p : Int) ∈ scalar_cell_log ro co h k i → str2 p = str2' p)
    (hr : ∀ x : Nat, Access.read (x : Int) ∈ scalar_cell_log ro co h k i →
      b.get x = b'.get x) :
    cell_value ro co h str1 str2 k i b = cell_value ro co h str1' str2' k i b' := by
  have c1 : ((idx h (k - 1) i : Nat) : Int) = idxZ h ((k : Int) - 1) i := by
    rw [← idxZ_cast]
    congr 1
    omega
  have c2 : ((idx h (k - 1) (i - 1) : Nat) : Int) = idxZ h ((k : Int) - 1) ((i : Int) - 1) := by
    rw [← idxZ_cast]
    congr 1 <;> omega
  have c3 : ((idx h (k - 1 - 1) (i - 1) : Nat) : Int) =
      idxZ h ((k : Int) - 1 - 1) ((i : Int) - 1) := by
    rw [← idxZ_cast]
    congr 1 <;> omega
  have c4 : ((ro + i - 1 : Nat) : Int) = (ro : Int) + (i : Int) - 1 := by omega
  have c5 : ((co + (k - i) - 1 : Nat) : Int) = (co : Int) + ((k : Int) - (i : Int)) - 1 := by
    omega
  unfold cell_value
  rw [hr (idx h (k - 1) i) (by rw [c1]; simp [scalar_cell_log]),
    hr (idx h (k - 1) (i - 1)) (by rw [c2]; simp [scalar_cell_log]),
    hr (idx h (k - 1 - 1) (i - 1)) (by rw [c3]; simp [scalar_cell_log]),
    h1 (ro + i - 1) (by rw [c4]; simp [scalar_cell_log]),
    h2 (co + (k - i) - 1) (by rw [c5]; simp [scalar_cell_log])]

/-- An iteration of the cleanup loop is accounted for by its log. -/
theorem accounts_scalar_cell (ro co h k i : Nat) (hk : 2 ≤ k) (hi : 1 ≤ i) (hik : i < k) :
    Accounts (scalar_cell_log ro co h k i)
      (fun str1 str2 b => scalar_cell ro co h str1 str2 k i b) := by
  have hw : ∀ x : Nat, Access.write (x : Int) ∈ scalar_cell_log ro co h k i ↔ x = idx h k i := by
    intro x
    simp only [scalar_cell_log, List.mem_cons, List.mem_singleton, List.not_mem_nil, or_false,
      reduceCtorEq, false_or, Access.write.injEq, idxZ_cast, Nat.cast_inj]
  constructor
  · intro str1 str2 b x hx
    rw [hw] at hx
    show (scalar_cell ro co h str1 str2 k i b).get x = b.get x
    rw [scalar_cell_eq, store_get, if_neg hx]
  · intro str1 str2 str1' str2' b b' h1 h2 hr x hx
    rw [hw] at hx
    show (scalar_cell ro co h str1 str2 k i b).get x = (scalar_cell ro co h str1' str2' k i b').get x
    rw [scalar_cell_eq, scalar_cell_eq, store_get, store_get, if_pos hx, if_pos hx]
    exact cell_value_congr ro co h str1 str2 str1' str2' k i b b' hk hi hik h1 h2 hr

/-- The elements of a vector load. -/
theorem mem_load_log (p : Int) (l : Nat) (hl : l < 8) :
    Access.read (p + (l : Int)) ∈ load_log p :=
  List.mem_map.2 ⟨l, List.mem_range.2 hl, rfl⟩

/-- The elements of a vector store. -/
theorem mem_store_log (p : Int) (l : Nat) (hl : l < 8) :
    Access.write (p + (l : Int)) ∈ store_log p :=
  List.mem_map.2 ⟨l, List.mem_range.2 hl, rfl⟩

/-- The bytes of a copy from `str1`. -/
theorem mem_memcpy_str1_log (p : Int) (l : Nat) (hl : l < 8) :
    Access.str1 (p + (l : Int)) ∈ memcpy_str1_log p :=
  List.mem_map.2 ⟨l, List.mem_range.2 hl, rfl⟩

/-- The bytes of a copy from `str2`. -/
theorem mem_memcpy_str2_log (p : Int) (l : Nat) (hl : l < 8) :
    Access.str2 (p + (l : Int)) ∈ memcpy_str2_log p :=
  List.mem_map.2 ⟨l, List.mem_range.2 hl, rfl⟩

/-- What the cleanup loop would access for one of the 16 cells of a batch is among the
accesses of the iteration of the vector loop. -/
theorem scalar_cell_log_subset (ro co h k i l : Nat) (hl : l < 16) :
    ∀ a ∈ scalar_cell_log ro co h k (i + l : Nat), a ∈ vector_body_log ro co h k i := by
  intro a ha
  simp only [scalar_cell_log, List.mem_cons, List.mem_singleton, List.not_mem_nil,
    or_false] at ha
  simp only [vector_body_log, List.mem_append]
  by_cases hl8 : l < 8
  · rcases ha with rfl | rfl | rfl | rfl | rfl | rfl
    · have e : idxZ h ((k : Int) - 1) ((i + l : Nat) : Int) =
          idxZ h ((k : Int) - 1) 0 + (i : Int) + (l : Int) := by
        unfold idxZ; push_cast; ring
      rw [e]
      have := mem_load_log (idxZ h ((k : Int) - 1) 0 + (i : Int)) l hl8
      tauto
    · have e : idxZ h ((k : Int) - 1) (((i + l : Nat) : Int) - 1) =
          idxZ h ((k : Int) - 1) 0 + ((i : Int) - 1) + (l : Int) := by
        unfold idxZ; push_cast; ring
      rw [e]
      have := mem_load_log (idxZ h ((k : Int) - 1) 0 + ((i : Int) - 1)) l hl8
      tauto
    · have e : (ro : Int) + ((i + l : Nat) : Int) - 1 = (ro : Int) + (i : Int) - 1 + (l : Int) := by
        push_cast; ring
      rw [e]
      have := mem_memcpy_str1_log ((ro : Int) + (i : Int) - 1) l hl8
      tauto
    · have e : (co : Int) + ((k : Int) - ((i + l : Nat) : Int)) - 1 =
          (co : Int) + ((k : Int) - (i : Int)) - 8 + ((7 - l : Nat) : Int) := by
        have : ((7 - l : Nat) : Int) = 7 - (l : Int) := by omega
        rw [this]; push_cast; ring
      rw [e]
      have := mem_memcpy_str2_log ((co : Int) + ((k : Int) - (i : Int)) - 8) (7 - l) (by omega)
      tauto
    · have e : idxZ h ((k : Int) - 1 - 1) (((i + l : Nat) : Int) - 1) =
          idxZ h ((k : Int) - 2) 0 + ((i : Int) - 1) + (l : Int) := by
        unfold idxZ; push_cast; ring
      rw [e]
      have := mem_load_log (idxZ h ((k : Int) - 2) 0 + ((i : Int) - 1)) l hl8
      tauto
    · have e : idxZ h (k : Int) ((i + l : Nat) : Int) = idxZ h (k : Int) (i : Int) + (l : Int) := by
        unfold idxZ; push_cast; ring
      rw [e]
      have := mem_store_log (idxZ h (k : Int) (i : Int)) l hl8
      tauto
  · obtain ⟨q, rfl⟩ : ∃ q, l = 8 + q := ⟨l - 8, by omega⟩
    have hq : q < 8 := by omega
    rcases ha with rfl | rfl | rfl | rfl | rfl | rfl
    · have e : idxZ h ((k : Int) - 1) ((i + (8 + q) : Nat) : Int) =
          idxZ h ((k : Int) - 1) 0 + ((i : Int) + 8) + (q : Int) := by
        unfold idxZ; push_cast; ring
      rw [e]
      have := mem_load_log (idxZ h ((k : Int) - 1) 0 + ((i : Int) + 8)) q hq
      tauto
    · have e : idxZ h ((k : Int) - 1) (((i + (8 + q) : Nat) : Int) - 1) =
          idxZ h ((k : Int) - 1) 0 + ((i : Int) - 1 + 8) + (q : Int) := by
        unfold idxZ; push_cast; ring
      rw [e]
      have := mem_load_log (idxZ h ((k : Int) - 1) 0 + ((i : Int) - 1 + 8)) q hq
      tauto
    · have e : (ro : Int) + ((i + (8 + q) : Nat) : Int) - 1 =
          (ro : Int) + (i : Int) - 1 + 8 + (q : Int) := by
        push_cast; ring
      rw [e]
      have := mem_memcpy_str1_log ((ro : Int) + (i : Int) - 1 + 8) q hq
      tauto
    · have e : (co : Int) + ((k : Int) - ((i + (8 + q) : Nat) : Int)) - 1 =
          (co : Int) + ((k : Int) - (i : Int)) - 8 - 8 + ((7 - q : Nat) : Int) := by
        have : ((7 - q : Nat) : Int) = 7 - (q : Int) := by omega
        rw [this]; push_cast; ring
      rw [e]
      have := mem_memcpy_str2_log ((co : Int) + ((k : Int) - (i : Int)) - 8 - 8) (7 - q)
        (by omega)
      tauto
    · have e : idxZ h ((k : Int) - 1 - 1) (((i + (8 + q) : Nat) : Int) - 1) =
          idxZ h ((k : Int) - 2) 0 + ((i : Int) - 1 + 8) + (q : Int) := by
        unfold idxZ; push_cast; ring
      rw [e]
      have := mem_load_log (idxZ h ((k : Int) - 2) 0 + ((i : Int) - 1 + 8)) q hq
      tauto
    · have e : idxZ h (k : Int) ((i + (8 + q) : Nat) : Int) =
          idxZ h (k : Int) ((i : Int) + 8) + (q : Int) := by
        unfold idxZ; push_cast; ring
      rw [e]
      have := mem_store_log (idxZ h (k : Int) ((i : Int) + 8)) q hq
      tauto

end Avx2

namespace Avx2

/-- An iteration of the vector loop is accounted for by its log. -/
theorem accounts_vector_body (ro co h k i : Nat) (hi : 1 ≤ i) (hik : i + 16 ≤ k) :
    Accounts (vector_body_log ro co h k i)
      (fun str1 str2 b => vector_body ro co h str1 str2 k i b) := by
  have hw : ∀ x : Nat, Access.write (x : Int) ∈ vector_body_log ro co h k i ↔
      (idx h k i ≤ x ∧ x < idx h k i + 16) := by
    intro x
    rw [← mem_writesOf, writesOf_vector_body_log, List.mem_map]
    constructor
    · rintro ⟨m, hm, e⟩
      rw [List.mem_range'_1] at hm
      rw [idxZ_cast, Nat.cast_inj] at e
      subst e
      unfold idx
      omega
    · intro hx
      refine ⟨i + (x - idx h k i), by rw [List.mem_range'_1]; omega, ?_⟩
      rw [idxZ_cast, Nat.cast_inj]
      unfold idx at hx ⊢
      omega
  constructor
  · intro str1 str2 b x hx
    rw [hw] at hx
    show (vector_body ro co h str1 str2 k i b).get x = b.get x
    rw [vector_body_get ro co h str1 str2 k i b hi hik, if_neg hx]
  · intro str1 str2 str1' str2' b b' h1 h2 hr x hx
    rw [hw] at hx
    show (vector_body ro co h str1 str2 k i b).get x =
      (vector_body ro co h str1' str2' k i b').get x
    rw [vector_body_get ro co h str1 str2 k i b hi hik,
      vector_body_get ro co h str1' str2' k i b' hi hik, if_pos hx, if_pos hx]
    have hsub := scalar_cell_log_subset ro co h k i (x - idx h k i) (by omega)
    exact cell_value_congr ro co h str1 str2 str1' str2' k (i + (x - idx h k i)) b b'
      (by omega) (by omega) (by omega)
      (fun p hp => h1 p (hsub _ hp)) (fun p hp => h2 p (hsub _ hp))
      (fun y hy => hr y (hsub _ hy))

/-- The vector loop is accounted for by its log. -/
theorem accounts_vector_loop (ro co h k max_i : Nat) (hmax : max_i < k) (fuel : Nat) :
    ∀ i, 1 ≤ i → Accounts (vector_loop_log ro co h k max_i fuel i).2
      (fun str1 str2 b => (vector_loop ro co h str1 str2 k max_i fuel i b).2) := by
  induction fuel with
  | zero =>
    intro i _
    exact Accounts.skip [] (fun x hx => by simp at hx)
  | succ fuel ih =>
    intro i hi
    by_cases hc : (i : Int) ≤ (max_i : Int) - 15
    · by_cases hg : (co : Int) + ((k - i : Nat) : Int) - 16 < 0
      · have e1 : (vector_loop_log ro co h k max_i (fuel + 1) i).2 = [] := by
          unfold vector_loop_log
          rw [if_pos hc]
          simp only
          rw [if_pos hg]
        have e2 : (fun (str1 str2 : Nat → Byte) (b : Buf) =>
            (vector_loop ro co h str1 str2 k max_i (fuel + 1) i b).2) = fun _ _ b => b := by
          funext str1 str2 b
          unfold vector_loop
          rw [if_pos hc]
          simp only
          rw [if_pos hg]
        rw [e1, e2]
        exact Accounts.skip [] (fun x hx => by simp at hx)
      · have e1 : (vector_loop_log ro co h k max_i (fuel + 1) i).2 =
            vector_body_log ro co h k i ++ (vector_loop_log ro co h k max_i fuel (i + 16)).2 := by
          conv_lhs => unfold vector_loop_log
          rw [if_pos hc]
          simp only
          rw [if_neg hg]
        have e2 : (fun (str1 str2 : Nat → Byte) (b : Buf) =>
            (vector_loop ro co h str1 str2 k max_i (fuel + 1) i b).2) =
            fun str1 str2 b => (vector_loop ro co h str1 str2 k max_i fuel (i + 16)
              (vector_body ro co h str1 str2 k i b)).2 := by
          funext str1 str2 b
          conv_lhs => unfold vector_loop
          rw [if_pos hc]
          simp only
          rw [if_neg hg]
        rw [e1, e2]
        exact Accounts.append _ _ _ _ (accounts_vector_body ro co h k i hi (by omega))
          (ih (i + 16) (by omega))
    · have e1 : (vector_loop_log ro co h k max_i (fuel + 1) i).2 = [] := by
        unfold vector_loop_log
        rw [if_neg hc]
      have e2 : (fun (str1 str2 : Nat → Byte) (b : Buf) =>
          (vector_loop ro co h str1 str2 k max_i (fuel + 1) i b).2) = fun _ _ b => b := by
        funext str1 str2 b
        unfold vector_loop
        rw [if_neg hc]
      rw [e1, e2]
      exact Accounts.skip [] (fun x hx => by simp at hx)

/-- A diagonal of the kernel is accounted for by its log. -/
theorem accounts_diagonal (ro co h w k : Nat) (hk : 2 ≤ k) :
    Accounts (diagonal_log ro co h w k)
      (fun str1 str2 b => diagonal ro co h w str1 str2 k b) := by
  unfold diagonal_log
  simp only
  generalize hmin : (if (k : Int) - (w : Int) > 1 then k - w else 1) = min_i
  generalize hmax : (if (k : Int) - 1 < (h : Int) then k - 1 else h) = max_i
  have hmin1 : 1 ≤ min_i := by
    rw [← hmin]; split_ifs <;> omega
  have hmax2 : max_i < k := by
    rw [← hmax]; split_ifs <;> omega
  have hge := vector_loop_log_ge ro co h k max_i max_i min_i
  have e2 : (fun (str1 str2 : Nat → Byte) (b : Buf) => diagonal ro co h w str1 str2 k b) =
      fun str1 str2 b =>
        (List.range' (vector_loop_log ro co h k max_i max_i min_i).1
          (max_i + 1 - (vector_loop_log ro co h k max_i max_i min_i).1)).foldl
          (fun s i => scalar_cell ro co h str1 str2 k i s)
          (vector_loop ro co h str1 str2 k max_i max_i min_i b).2 := by
    funext str1 str2 b
    unfold diagonal forLoop forLt
    simp only
    rw [hmin, hmax, ← vector_loop_log_exit ro co h str1 str2 k max_i max_i min_i b]
  rw [e2]
  refine Accounts.append _ _ _ _ (accounts_vector_loop ro co h k max_i hmax2 max_i min_i hmin1)
    (Accounts.foldl _ (fun (i : Nat) => scalar_cell_log ro co h k i)
      (fun i str1 str2 b => scalar_cell ro co h str1 str2 k i b) ?_)
  intro i hi
  rw [List.mem_range'_1] at hi
  exact accounts_scalar_cell ro co h k i hk (by omega) (by omega)

end Avx2

namespace Avx2

/-- The scratch buffer a call of the SIMD `process_tile` leaves is accounted for by the
accesses of the call. -/
theorem accounts_process_tile (ro co : Nat) (rr rw cols : Buf) (h w n : Nat) :
    Accounts (process_tile_log ro co h w)
      (fun str1 str2 b => (process_tile ro co rr rw cols h w str1 str2 b n).2) := by
  have p1 : Accounts ((List.range' 1 h).map (fun (i : Nat) => Access.write (idxZ h i i)))
      (fun _ _ b => (List.range' 1 (h + 1 - 1)).foldl (fun s i =>
        (fun i buffer => if ro + i ≤ n then store buffer (idx h i i) (cols.get (ro + i))
          else store buffer (idx h i i) (n : Int)) i s) b) := by
    rw [List.map_eq_flatMap, Nat.add_sub_cancel]
    apply Accounts.foldl (List.range' 1 h) (fun (i : Nat) => [Access.write (idxZ h i i)])
      (fun i _ _ buffer => if ro + i ≤ n then store buffer (idx h i i) (cols.get (ro + i))
        else store buffer (idx h i i) (n : Int))
    intro i _
    rw [idxZ_cast]
    by_cases hc : ro + i ≤ n
    · simp only [if_pos hc]
      exact Accounts.store _ _
    · simp only [if_neg hc]
      exact Accounts.store _ _
  have p2 : Accounts ((List.range' 1 w).map (fun (j : Nat) => Access.write (idxZ h j 0)))
      (fun _ _ b => (List.range' 1 (w + 1 - 1)).foldl (fun s j =>
        (fun j buffer => if co + j ≤ n then store buffer (idx h j 0) (rr.get (co + j))
          else store buffer (idx h j 0) (n : Int)) j s) b) := by
    rw [List.map_eq_flatMap, Nat.add_sub_cancel]
    apply Accounts.foldl (List.range' 1 w) (fun (j : Nat) => [Access.write (idxZ h j 0)])
      (fun j _ _ buffer => if co + j ≤ n then store buffer (idx h j 0) (rr.get (co + j))
        else store buffer (idx h j 0) (n : Int))
    intro j _
    have e : idxZ h (j : Int) 0 = ((idx h j 0 : Nat) : Int) := by
      have := idxZ_cast h j 0
      simp only [Nat.cast_zero] at this
      exact this
    rw [e]
    by_cases hc : co + j ≤ n
    · simp only [if_pos hc]
      exact Accounts.store _ _
    · simp only [if_neg hc]
      exact Accounts.store _ _
  have p3 : Accounts [Access.write (idxZ h 0 0)]
      (fun _ _ b => store b (idx h 0 0)
        (if co = 0 then (ro : Int) else if ro = 0 then (co : Int) else rr.get co)) := by
    have e : idxZ h 0 0 = ((idx h 0 0 : Nat) : Int) := by
      have := idxZ_cast h 0 0
      simp only [Nat.cast_zero] at this
      exact this
    rw [e]
    exact Accounts.store _ _
  have p4 : Accounts ((List.range' 2 (h + w + 1 - 2)).flatMap
      (fun (k : Nat) => diagonal_log ro co h w k))
      (fun str1 str2 b => (List.range' 2 (h + w + 1 - 2)).foldl
        (fun s k => diagonal ro co h w str1 str2 k s) b) := by
    apply Accounts.foldl _ (fun (k : Nat) => diagonal_log ro co h w k)
      (fun k str1 str2 b => diagonal ro co h w str1 str2 k b)
    intro k hk
    rw [List.mem_range'_1] at hk
    exact accounts_diagonal ro co h w k hk.1
  have p5 : Accounts (writeback_log h w) (fun _ _ b => b) := by
    apply Accounts.skip
    intro x hx
    simp [writeback_log] at hx
  have key := Accounts.append _ _ _ _
    (Accounts.append _ _ _ _ (Accounts.append _ _ _ _ (Accounts.append _ _ _ _ p1 p2) p3) p4) p5
  exact key

/-- The boundaries and the result of the SIMD `process_tile` are read from the scratch buffer
it leaves. -/
theorem process_tile_out (ro co : Nat) (rr rw cols : Buf) (h w : Nat) (str1 str2 : Nat → Byte)
    (b : Buf) (n : Nat) :
    (process_tile ro co rr rw cols h w str1 str2 b n).1 =
      ⟨forLoop 1 w (fun j g => store g (co + j)
          ((process_tile ro co rr rw cols h w str1 str2 b n).2.get (idx h (h + j) h))) rw,
        forLoop 1 h (fun i g => store g (ro + i)
          ((process_tile ro co rr rw cols h w str1 str2 b n).2.get (idx h (i + w) i))) cols,
        (process_tile ro co rr rw cols h w str1 str2 b n).2.get (idx h (h + w) h)⟩ := rfl

/-- Two calls of the SIMD `process_tile` that leave the same scratch cells return the same
boundaries and result. -/
theorem process_tile_out_congr (ro co : Nat) (rr rw cols : Buf) (h w : Nat)
    (str1 str2 str1' str2' : Nat → Byte) (b b' : Buf) (n : Nat)
    (hcells : ∀ i j, i ≤ h → j ≤ w →
      (process_tile ro co rr rw cols h w str1 str2 b n).2.get (idx h (i + j) i) =
        (process_tile ro co rr rw cols h w str1' str2' b' n).2.get (idx h (i + j) i)) :
    (process_tile ro co rr rw cols h w str1 str2 b n).1 =
      (process_tile ro co rr rw cols h w str1' str2' b' n).1 := by
  rw [process_tile_out, process_tile_out ro co rr rw cols h w str1' str2' b' n]
  congr 1
  · apply Buf.ext_get
    intro x
    rw [writeback_get, writeback_get]
    by_cases hx : co < x ∧ x ≤ co + w
    · rw [if_pos hx, if_pos hx]
      exact hcells h (x - co) (le_refl _) (by omega)
    · rw [if_neg hx, if_neg hx]
  · apply Buf.ext_get
    intro x
    rw [writeback_get, writeback_get]
    by_cases hx : ro < x ∧ x ≤ ro + h
    · rw [if_pos hx, if_pos hx]
      have := hcells (x - ro) w (by omega) (le_refl _)
      exact this
    · rw [if_neg hx, if_neg hx]
  · exact hcells h w (le_refl _) (le_refl _)

end Avx2

namespace Avx2

/-- A call of the SIMD `process_tile` on a tile of at most 512 by 512 cells leaves the scratch
buffer as it was from the element `2 * (512 + 1) * (512 + 1)` on. -/
theorem process_tile_scratch_bound (n ro co : Nat) (rr rw cols : Buf) (h w : Nat)
    (str1 str2 : Nat → Byte) (b : Buf) (total_len : Nat) (hh : h ≤ 512) (hw : w ≤ 512)
    (hro : ro + h ≤ n) (hco : co + w ≤ n) (x : Nat) (hx : 2 * (512 + 1) * (512 + 1) ≤ x) :
    (process_tile ro co rr rw cols h w str1 str2 b total_len).2.get x = b.get x := by
  apply (accounts_process_tile ro co rr rw cols h w total_len).1 str1 str2 b x
  intro hmem
  have := process_tile_log_safe n ro co h w hh hw hro hco _ hmem
  have h2 : (x : Int) < 2 * (512 + 1) * (512 + 1) := this.2
  omega

/-- A call of the SIMD `process_tile` on a tile within sequences of length `n` depends on the
sequences through their bytes `0 .. n - 1` only. -/
theorem process_tile_strings (n ro co : Nat) (rr rw cols : Buf) (h w : Nat)
    (str1 str2 str1' str2' : Nat → Byte) (b : Buf) (total_len : Nat) (hh : h ≤ 512)
    (hw : w ≤ 512) (hro : ro + h ≤ n) (hco : co + w ≤ n)
    (h1 : ∀ p, p < n → str1 p = str1' p) (h2 : ∀ p, p < n → str2 p = str2' p) :
    process_tile ro co rr rw cols h w str1 str2 b total_len =
      process_tile ro co rr rw cols h w str1' str2' b total_len := by
  have hsafe := process_tile_log_safe n ro co h w hh hw hro hco
  have hb : ∀ x, (process_tile ro co rr rw cols h w str1 str2 b total_len).2.get x =
      (process_tile ro co rr rw cols h w str1' str2' b total_len).2.get x := by
    intro x
    refine Accounts.agree _ _ (accounts_process_tile ro co rr rw cols h w total_len)
      str1 str2 str1' str2' b b ?_ ?_ (fun _ _ => rfl) x rfl
    · intro p hp
      have h3 : (p : Int) < (n : Int) := (hsafe _ hp).2
      exact h1 p (by omega)
    · intro p hp
      have h3 : (p : Int) < (n : Int) := (hsafe _ hp).2
      exact h2 p (by omega)
  apply Prod.ext
  · exact process_tile_out_congr ro co rr rw cols h w str1 str2 str1' str2' b b total_len
      (fun i j _ _ => hb _)
  · exact Buf.ext_get _ _ hb

/-- What a call of the SIMD `process_tile` returns and the cells it leaves in the scratch
buffer do not depend on what the scratch buffer held before the call. -/
theorem process_tile_scratch_free (ro co : Nat) (rr rw cols : Buf) (h w : Nat)
    (str1 str2 : Nat → Byte) (b b' : Buf) (total_len : Nat) (hh : 1 ≤ h) :
    (process_tile ro co rr rw cols h w str1 str2 b total_len).1 =
      (process_tile ro co rr rw cols h w str1 str2 b' total_len).1 ∧
    ∀ i j, i ≤ h → j ≤ w →
      (process_tile ro co rr rw cols h w str1 str2 b total_len).2.get (idx h (i + j) i) =
        (process_tile ro co rr rw cols h w str1 str2 b' total_len).2.get (idx h (i + j) i) := by
  have hcells : ∀ i j, i ≤ h → j ≤ w →
      (process_tile ro co rr rw cols h w str1 str2 b total_len).2.get (idx h (i + j) i) =
        (process_tile ro co rr rw cols h w str1 str2 b' total_len).2.get (idx h (i + j) i) := by
    intro i j hi hj
    rw [avx2_process_tile_buffer str1 str2 ro co h w total_len rr rw cols b hh i j hi hj,
      avx2_process_tile_buffer str1 str2 ro co h w total_len rr rw cols b' hh i j hi hj]
  exact ⟨process_tile_out_congr ro co rr rw cols h w str1 str2 str1 str2 b b' total_len hcells,
    hcells⟩

end Avx2

/-- Claim C24.  Index safety of the SIMD `process_tile`.  `Avx2.process_tile_traced` is the
kernel run on a memory that records each access where it is made, at the index the C
expression gives; it returns what `Avx2.process_tile` returns, leaves the scratch buffer as
`Avx2.process_tile` leaves it, and the accesses it records are `Avx2.process_tile_log`.  For a
tile with `height, width ≤ 512`, `row_offset + height ≤ n` and `col_offset + width ≤ n`, every
recorded access is within bounds: every scratch index `idx(k, i)` read or written, each of the
8 elements of every vector load and store included, lies in
`0 .. 2 * (512 + 1) * (512 + 1) - 1`, and every byte of `str1` and `str2` read, each of the 8
bytes of every `memcpy` of the vector path and every byte of the scalar path, lies in
`0 .. n - 1`.  The tiles the worker dispatches meet these conditions (with
`height, width ≥ 1`).  The recorded accesses account for the kernel: `Avx2.process_tile`
changes the scratch buffer only at recorded writes, and what it stores is determined by the
recorded reads; so it leaves the scratch buffer as it was from the element
`2 * (512 + 1) * (512 + 1)` on, and its outcome is the same for sequences that differ only
beyond their first `n` bytes. -/
theorem simd_index_safety (n row_offset col_offset height width : Nat) (hh : height ≤ 512)
    (hw : width ≤ 512) (hro : row_offset + height ≤ n) (hco : col_offset + width ≤ n) :
    (∀ a ∈ Avx2.process_tile_log row_offset col_offset height width, a.Safe n) ∧
    (∀ r c, r < (n + BLOCK_SIZE - 1) / BLOCK_SIZE → c < (n + BLOCK_SIZE - 1) / BLOCK_SIZE →
      (1 ≤ tileExtent n (r * BLOCK_SIZE) ∧ tileExtent n (r * BLOCK_SIZE) ≤ 512 ∧
        r * BLOCK_SIZE + tileExtent n (r * BLOCK_SIZE) ≤ n) ∧
      (1 ≤ tileExtent n (c * BLOCK_SIZE) ∧ tileExtent n (c * BLOCK_SIZE) ≤ 512 ∧
        c * BLOCK_SIZE + tileExtent n (c * BLOCK_SIZE) ≤ n) ∧
      ∀ a ∈ Avx2.process_tile_log (r * BLOCK_SIZE) (c * BLOCK_SIZE)
        (tileExtent n (r * BLOCK_SIZE)) (tileExtent n (c * BLOCK_SIZE)), a.Safe n) ∧
    (∀ (global_rows_read global_rows_write global_cols : Buf) (str1 str2 : Nat → Byte)
        (m : Traced) (total_len : Nat),
      Avx2.process_tile_traced row_offset col_offset global_rows_read global_rows_write
          global_cols height width str1 str2 m total_len =
        ((Avx2.process_tile row_offset col_offset global_rows_read global_rows_write
            global_cols height width str1 str2 m.buffer total_len).1,
          ⟨(Avx2.process_tile row_offset col_offset global_rows_read global_rows_write
              global_cols height width str1 str2 m.buffer total_len).2,
            m.log ++ Avx2.process_tile_log row_offset col_offset height width⟩)) ∧
    (∀ (global_rows_read global_rows_write global_cols : Buf) (total_len : Nat),
      Accounts (Avx2.process_tile_log row_offset col_offset height width)
        (fun str1 str2 buffer =>
          (Avx2.process_tile row_offset col_offset global_rows_read global_rows_write
            global_cols height width str1 str2 buffer total_len).2)) ∧
    (∀ (global_rows_read global_rows_write global_cols : Buf) (str1 str2 : Nat → Byte)
        (buffer : Buf) (total_len x : Nat), 2 * (512 + 1) * (512 + 1) ≤ x →
      (Avx2.process_tile row_offset col_offset global_rows_read global_rows_write global_cols
        height width str1 str2 buffer total_len).2.get x = buffer.get x) ∧
    (∀ (global_rows_read global_rows_write global_cols : Buf)
        (str1 str2 str1' str2' : Nat → Byte) (buffer : Buf) (total_len : Nat),
      (∀ p, p < n → str1 p = str1' p) → (∀ p, p < n → str2 p = str2' p) →
      Avx2.process_tile row_offset col_offset global_rows_read global_rows_write global_cols
          height width str1 str2 buffer total_len =
        Avx2.process_tile row_offset col_offset global_rows_read global_rows_write global_cols
          height width str1' str2' buffer total_len) := by
  refine ⟨Avx2.process_tile_log_safe n row_offset col_offset height width hh hw hro hco, ?_, ?_,
    ?_, ?_, ?_⟩
  · intro r c hr hc
    have a1 := tileExtent_spec n r hr
    have a2 := tileExtent_spec n c hc
    exact ⟨a1.2, a2.2, Avx2.process_tile_log_safe n _ _ _ _ a1.2.2.1 a2.2.2.1 a1.2.2.2
      a2.2.2.2⟩
  · intro rr rw cols str1 str2 m total_len
    exact Avx2.process_tile_traced_eq row_offset col_offset rr rw cols height width str1 str2 m
      total_len
  · intro rr rw cols total_len
    exact Avx2.accounts_process_tile row_offset col_offset rr rw cols height width total_len
  · intro rr rw cols str1 str2 buffer total_len x hx
    exact Avx2.process_tile_scratch_bound n row_offset col_offset rr rw cols height width str1
      str2 buffer total_len hh hw hro hco x hx
  · intro rr rw cols str1 str2 str1' str2' buffer total_len h1 h2
    exact Avx2.process_tile_strings n row_offset col_offset rr rw cols height width str1 str2
      str1' str2' buffer total_len hh hw hro hco h1 h2

theorem simd_index_safety_witness :
    (88 ≤ 512 ∧ 512 + 88 ≤ 600) ∧ Access.Safe 600 (Access.write (Avx2.idxZ 88 0 0)) :=
  ⟨by decide,
    (simd_index_safety 600 512 512 88 88 (by decide) (by decide) (by decide) (by decide)).1 _
      (List.mem_append_left _ (List.mem_append_left _
        (List.mem_append_right _ (List.mem_singleton_self _))))⟩

/-- Claim C23.  Anti-diagonal traversal of the SIMD `process_tile`, for `height, width ≥ 1`.
`Avx2.process_tile_traced` and `Avx2.diagonal_traced` are the kernel and its loop body run on
a memory that records each access where it is made; they compute what `Avx2.process_tile`
and `Avx2.diagonal` compute, and record `Avx2.process_tile_log` and `Avx2.diagonal_log`.  The
accesses of a call are those of the prefill, of the loops over `k = 2 .. height + width` and
of the write-back.  The loops over `i` of the diagonal `k` write the scratch elements
`idx(k, i)` for `i = max(1, k - width) .. min(height, k - 1)`, in this order; over all
diagonals no element is written twice, the elements written are those of the interior cells
`(i, j = k - i)` with `1 ≤ i ≤ height`, `1 ≤ j ≤ width`, and distinct cells have distinct
elements: every interior cell is written exactly once.  A scratch element read on the
diagonal `k` is the element of a cell of the diagonal `k - 1` or `k - 2` within the tile or
on its boundaries, it has been written before the diagonal `k` starts (by the prefill from the
top row, the left column or the corner, or by an earlier diagonal), and it is not an element
of the diagonal `k`.  The recorded accesses account for the kernel: `Avx2.diagonal` changes
the scratch buffer only at the recorded writes of the diagonal and what it stores there is
determined by its recorded reads; and what `Avx2.process_tile` returns and leaves in the cells
of the tile does not depend on what the scratch buffer held before the call. -/
theorem antidiagonal_traversal (row_offset col_offset height width : Nat) (hh : 1 ≤ height)
    (hw : 1 ≤ width) :
    ∀ loops : List Access,
      loops = (List.range' 2 (height + width - 1)).flatMap
        (fun (k : Nat) => Avx2.diagonal_log row_offset col_offset height width k) →
      Avx2.process_tile_log row_offset col_offset height width =
        Avx2.prefill_log height width ++ loops ++ Avx2.writeback_log height width ∧
      (∀ k, 2 ≤ k → k ≤ height + width →
        writesOf (Avx2.diagonal_log row_offset col_offset height width k) =
          (List.range' (max 1 (k - width))
            (min height (k - 1) + 1 - max 1 (k - width))).map
            (fun (i : Nat) => Avx2.idxZ height k i)) ∧
      (writesOf loops).Nodup ∧
      (∀ x, x ∈ writesOf loops ↔
        ∃ i j : Nat, 1 ≤ i ∧ i ≤ height ∧ 1 ≤ j ∧ j ≤ width ∧
          x = Avx2.idxZ height ((i : Int) + j) i) ∧
      (∀ i j i' j' : Nat, i ≤ height → i' ≤ height →
        Avx2.idxZ height ((i : Int) + j) i = Avx2.idxZ height ((i' : Int) + j') i' →
        i = i' ∧ j = j') ∧
      (∀ k, 2 ≤ k → k ≤ height + width → ∀ x,
        Access.read x ∈ Avx2.diagonal_log row_offset col_offset height width k →
        (∃ i j : Nat, i ≤ height ∧ j ≤ width ∧ (i + j + 1 = k ∨ i + j + 2 = k) ∧
          x = Avx2.idxZ height ((i : Int) + j) i) ∧
        Access.write x ∈ Avx2.log_before row_offset col_offset height width k ∧
        ∀ i : Nat, i ≤ height → x ≠ Avx2.idxZ height k i) ∧
      (∀ k, 2 ≤ k → k ≤ height + width →
        ∃ rest, Avx2.process_tile_log row_offset col_offset height width =
          Avx2.log_before row_offset col_offset height width k ++
            (Avx2.diagonal_log row_offset col_offset height width k ++ rest)) ∧
      (∀ (global_rows_read global_rows_write global_cols : Buf) (str1 str2 : Nat → Byte)
          (m : Traced) (total_len : Nat),
        Avx2.process_tile_traced row_offset col_offset global_rows_read global_rows_write
            global_cols height width str1 str2 m total_len =
          ((Avx2.process_tile row_offset col_offset global_rows_read global_rows_write
              global_cols height width str1 str2 m.buffer total_len).1,
            ⟨(Avx2.process_tile row_offset col_offset global_rows_read global_rows_write
                global_cols height width str1 str2 m.buffer total_len).2,
              m.log ++ Avx2.process_tile_log row_offset col_offset height width⟩)) ∧
      (∀ (str1 str2 : Nat → Byte) (k : Nat) (m : Traced), 2 ≤ k →
        Avx2.diagonal_traced row_offset col_offset height width str1 str2 k m =
          ⟨Avx2.diagonal row_offset col_offset height width str1 str2 k m.buffer,
            m.log ++ Avx2.diagonal_log row_offset col_offset height width k⟩) ∧
      (∀ k, 2 ≤ k →
        Accounts (Avx2.diagonal_log row_offset col_offset height width k)
          (fun str1 str2 buffer =>
            Avx2.diagonal row_offset col_offset height width str1 str2 k buffer)) ∧
      (∀ (global_rows_read global_rows_write global_cols : Buf) (str1 str2 : Nat → Byte)
          (buffer buffer' : Buf) (total_len : Nat),
        (Avx2.process_tile row_offset col_offset global_rows_read global_rows_write
            global_cols height width str1 str2 buffer total_len).1 =
          (Avx2.process_tile row_offset col_offset global_rows_read global_rows_write
            global_cols height width str1 str2 buffer' total_len).1 ∧
        ∀ i j, i ≤ height → j ≤ width →
          (Avx2.process_tile row_offset col_offset global_rows_read global_rows_write
              global_cols height width str1 str2 buffer total_len).2.get
              (Avx2.idx height (i + j) i) =
            (Avx2.process_tile row_offset col_offset global_rows_read global_rows_write
              global_cols height width str1 str2 buffer' total_len).2.get
              (Avx2.idx height (i + j) i)) := by
  intro loops hloops
  subst hloops
  refine ⟨?_, ?_, Avx2.writesOf_diagonals_nodup row_offset col_offset height width hh hw,
    Avx2.mem_writesOf_diagonals row_offset col_offset height width hh hw, ?_, ?_, ?_, ?_, ?_,
    ?_, ?_⟩
  · unfold Avx2.process_tile_log Avx2.log_before
    have e : height + width + 1 - 2 = height + width - 1 := by omega
    rw [e]
  · intro k hk2 hk
    exact Avx2.writesOf_diagonal_log row_offset col_offset height width k hh hw hk2 hk
  · intro i j i' j' hi hi' he
    have := Avx2.idxZ_inj height _ _ _ _ (by omega) (by omega) (by omega) (by omega) he
    omega
  · intro k hk2 hk x hx
    obtain ⟨a, b⟩ :=
      Avx2.read_diagonal_log_before row_offset col_offset height width k x hh hw hk2 hx
    refine ⟨a, b, ?_⟩
    intro i hi he
    obtain ⟨i', j', hi', _, hij, e⟩ := a
    rw [e] at he
    have := Avx2.idxZ_inj height _ _ _ _ (by omega) (by omega) (by omega) (by omega) he
    omega
  · intro k hk2 hk
    exact Avx2.process_tile_log_split row_offset col_offset height width k hk2 hk
  · intro rr rw cols str1 str2 m total_len
    exact Avx2.process_tile_traced_eq row_offset col_offset rr rw cols height width str1 str2 m
      total_len
  · intro str1 str2 k m hk
    exact Avx2.diagonal_traced_eq row_offset col_offset height width str1 str2 k m hk
  · intro k hk
    exact Avx2.accounts_diagonal row_offset col_offset height width k hk
  · intro rr rw cols str1 str2 buffer buffer' total_len
    exact Avx2.process_tile_scratch_free row_offset col_offset rr rw cols height width str1 str2
      buffer buffer' total_len hh

theorem antidiagonal_traversal_witness :
    (1 ≤ 88) ∧
    (writesOf ((List.range' 2 (88 + 88 - 1)).flatMap
      (Avx2.diagonal_log 512 512 88 88))).Nodup :=
  ⟨by decide, (antidiagonal_traversal 512 512 88 88 (by decide) (by decide) _ rfl).2.2.1⟩

end EditDistance
